import Mathlib

/-!
# simplejson (package `sjson`): a shallow embedding and its properties

The Go sources `scanner.go`, `parser.go`, `json.go` and `escape.go` are embedded as
executable Lean definitions.

* Bytes are natural numbers (a Go `byte` is a value below 256); a `[]byte` or a Go
  `string` is a `List Nat`.
* A `rune` and every `int` position is an `Int`.
* Go pointers to `Json` are indices into a heap (`List Json`); `nil` is `none`.
* A Go map `map[string]*Json` is an association list without repeated keys.
* A run either returns (`Res.ok`), returns a Go `error` together with zero values
  (`Res.error`), stops with a run-time fault such as a nil dereference or a slice
  index out of range (`Res.fault`), or has not finished within the given number of
  loop iterations (`Res.outOfFuel`).
-/

namespace Sjson

/-! ## Errors -/

/-- The sentinel errors of `parser.go`, `io.EOF`, and the two `strconv` errors. -/
inductive Err where
  | BadNullTokenError
  | BadBoolTokenError
  | BadNumberTokenError
  | UnclosedJsonError
  | InvalidTokenStartError
  | ControlCharacterError
  | EscapeSequenceError
  | RuneDecodingError
  | KeyPathError
  | BoolValueError
  | NumberValueError
  | StringValueError
  | EOF
  | ErrSyntax
  | ErrRange
  deriving DecidableEq, Repr

/-- Error values as the code builds them: a bare sentinel, or a sentinel wrapped by
`fmt.Errorf` with `%w` together with the detail that is formatted into the message. -/
inductive GoError where
  | base (e : Err)
  | RuneReadingError (p : Int) (e : Err)
  | ParseError (p : Int) (e : Err)
  | invalidTokenStart (start : Int) (c : Int)
  | escapeSequence (detail : List Nat)
  | controlCharacter (c : Int)
  | keyPath (path : List Nat)
  deriving DecidableEq, Repr

/-- The sentinel an error value wraps (what `errors.Is` finds). -/
def GoError.kind : GoError → Err
  | .base e => e
  | .RuneReadingError _ e => e
  | .ParseError _ e => e
  | .invalidTokenStart _ _ => Err.InvalidTokenStartError
  | .escapeSequence _ => Err.EscapeSequenceError
  | .controlCharacter _ => Err.ControlCharacterError
  | .keyPath _ => Err.KeyPathError

/-- Outcome of running a piece of the program. -/
inductive Res (α : Type) where
  | ok (a : α)
  | error (e : GoError)
  | fault
  | outOfFuel
  deriving DecidableEq, Repr

/-! ## The parts of the Go standard library the code calls -/

/-- The constant `utf8.RuneError`, U+FFFD. -/
def RuneError : Int := 0xFFFD

/-- Model of `unicode.IsSpace`: the Latin-1 cases and the `White_Space` table above. -/
def IsSpace (r : Int) : Bool :=
  r == 0x09 || r == 0x0A || r == 0x0B || r == 0x0C || r == 0x0D || r == 0x20 ||
  r == 0x85 || r == 0xA0 || r == 0x1680 || (0x2000 ≤ r && r ≤ 0x200A) ||
  r == 0x2028 || r == 0x2029 || r == 0x202F || r == 0x205F || r == 0x3000

/-- The ranges of `unicode.Digit` (category Nd, Unicode 16.0.0) above Latin-1, as first
code points of runs of ten, with the one longer run (mathematical digits) kept apart.
The table grows with the Unicode version of the Go release; for a rune of Latin-1 the
library does not look at it. -/
def digitRunStarts : List Int :=
  [0x0660, 0x06F0, 0x07C0, 0x0966, 0x09E6, 0x0A66, 0x0AE6, 0x0B66, 0x0BE6, 0x0C66,
   0x0CE6, 0x0D66, 0x0DE6, 0x0E50, 0x0ED0, 0x0F20, 0x1040, 0x1090, 0x17E0, 0x1810,
   0x1946, 0x19D0, 0x1A80, 0x1A90, 0x1B50, 0x1BB0, 0x1C40, 0x1C50, 0xA620, 0xA8D0,
   0xA900, 0xA9D0, 0xA9F0, 0xAA50, 0xABF0, 0xFF10, 0x104A0, 0x10D30, 0x10D40, 0x11066,
   0x110F0, 0x11136, 0x111D0, 0x112F0, 0x11450, 0x114D0, 0x11650, 0x116C0, 0x116D0,
   0x116DA, 0x11730, 0x118E0, 0x11950, 0x11BF0, 0x11C50, 0x11D50, 0x11DA0, 0x11F50,
   0x16130, 0x16A60, 0x16AC0, 0x16B50, 0x16D70, 0x1CCF0, 0x1E140, 0x1E2F0, 0x1E4F0,
   0x1E5F1, 0x1E950, 0x1FBF0]

/-- Model of `unicode.IsDigit`: `0`..`9` in Latin-1, the Nd table above it. -/
def IsDigit (r : Int) : Bool :=
  if r ≤ 0xFF then (0x30 ≤ r && r ≤ 0x39)
  else digitRunStarts.any (fun s => s ≤ r && r ≤ s + 9) || (0x1D7CE ≤ r && r ≤ 0x1D7FF)

/-- Model of `unicode.IsControl`: category Cc, all of it in Latin-1. -/
def IsControl (r : Int) : Bool :=
  (0 ≤ r && r ≤ 0x1F) || (0x7F ≤ r && r ≤ 0x9F)

/-- Model of `utf8.DecodeRune`: the first character of `p` and its width in bytes;
`(RuneError, 0)` for no bytes and `(RuneError, 1)` for an invalid encoding. The
shifts and masks of the library are written as multiplications and remainders. -/
def DecodeRune (p : List Nat) : Int × Nat :=
  match p with
  | [] => (RuneError, 0)
  | p0 :: rest =>
    if p0 < 0x80 then ((p0 : Int), 1)
    else if p0 < 0xC2 then (RuneError, 1)
    else if p0 < 0xE0 then
      match rest with
      | b1 :: _ =>
        if 0x80 ≤ b1 ∧ b1 ≤ 0xBF then (((p0 % 32 * 64 + b1 % 64 : Nat) : Int), 2)
        else (RuneError, 1)
      | _ => (RuneError, 1)
    else if p0 < 0xF0 then
      match rest with
      | b1 :: b2 :: _ =>
        if (if p0 = 0xE0 then 0xA0 else 0x80) ≤ b1 ∧ b1 ≤ (if p0 = 0xED then 0x9F else 0xBF) then
          if 0x80 ≤ b2 ∧ b2 ≤ 0xBF then
            (((p0 % 16 * 4096 + b1 % 64 * 64 + b2 % 64 : Nat) : Int), 3)
          else (RuneError, 1)
        else (RuneError, 1)
      | _ => (RuneError, 1)
    else if p0 < 0xF5 then
      match rest with
      | b1 :: b2 :: b3 :: _ =>
        if (if p0 = 0xF0 then 0x90 else 0x80) ≤ b1 ∧ b1 ≤ (if p0 = 0xF4 then 0x8F else 0xBF) then
          if 0x80 ≤ b2 ∧ b2 ≤ 0xBF then
            if 0x80 ≤ b3 ∧ b3 ≤ 0xBF then
              (((p0 % 8 * 262144 + b1 % 64 * 4096 + b2 % 64 * 64 + b3 % 64 : Nat) : Int), 4)
            else (RuneError, 1)
          else (RuneError, 1)
        else (RuneError, 1)
      | _ => (RuneError, 1)
    else (RuneError, 1)

/-- Model of `utf8.RuneStart`: the byte is not a continuation byte. -/
def RuneStart (b : Nat) : Bool := b / 64 % 4 != 2

/-- The backwards search of `utf8.DecodeLastRune`: from `start` down to `lim`, the
first index whose byte starts a character, or the index below `lim`. -/
def lastRuneStart (p : List Nat) (lim : Int) : Nat → Int → Int
  | 0, start => start
  | fuel + 1, start =>
    if start ≥ lim then
      if RuneStart (p.getD start.toNat 0) then start
      else lastRuneStart p lim fuel (start - 1)
    else start

/-- Model of `utf8.DecodeLastRune`: the last character of `p` and its width. -/
def DecodeLastRune (p : List Nat) : Int × Nat :=
  let stop : Int := p.length
  if stop = 0 then (RuneError, 0)
  else
    let r := p.getD (stop - 1).toNat 0
    if r < 0x80 then ((r : Int), 1)
    else
      let lim : Int := if stop - 4 < 0 then 0 else stop - 4
      let start0 := lastRuneStart p lim 4 (stop - 2)
      let start : Int := if start0 < 0 then 0 else start0
      let d := DecodeRune (p.drop start.toNat)
      if start + d.2 ≠ stop then (RuneError, 1) else d

/-- Model of `utf8.AppendRune` on an empty slice (and of the conversion `string(r)`):
the UTF-8 encoding of a rune, U+FFFD for a surrogate or a value out of range. -/
def EncodeRune (r : Int) : List Nat :=
  let c := r.toNat
  if r < 0 then [0xEF, 0xBF, 0xBD]
  else if c < 0x80 then [c]
  else if c < 0x800 then [0xC0 + c / 64, 0x80 + c % 64]
  else if 0xD800 ≤ c ∧ c ≤ 0xDFFF then [0xEF, 0xBF, 0xBD]
  else if c < 0x10000 then [0xE0 + c / 4096, 0x80 + c / 64 % 64, 0x80 + c % 64]
  else if c ≤ 0x10FFFF then
    [0xF0 + c / 262144, 0x80 + c / 4096 % 64, 0x80 + c / 64 % 64, 0x80 + c % 64]
  else [0xEF, 0xBF, 0xBD]

/-- A Go slice expression `b[lo:hi]`: `none` when the bounds check fails. The capacity
of `b` is taken to be its length. -/
def goSlice (b : List Nat) (lo hi : Int) : Option (List Nat) :=
  if 0 ≤ lo ∧ lo ≤ hi ∧ hi ≤ b.length then some ((b.drop lo.toNat).take (hi - lo).toNat)
  else none

/-! ## scanner.go -/

/-- The interface `PositionalRuneScanner` over a scanner state `σ`: `ReadRune` gives
`(rune, width, err)` and the next state (or faults), `UnreadRune` gives its error. -/
structure PositionalRuneScanner (σ : Type) where
  ReadRune : σ → Res ((Int × Nat × Option Err) × σ)
  UnreadRune : σ → Option Err × σ
  BytePos : σ → Int
  RunePos : σ → Int

/-- The struct `UTF8RuneScanner`. -/
structure UTF8RuneScanner where
  bytes : List Nat
  bytePos : Int
  runePos : Int
  deriving DecidableEq, Repr

/-- Method `(*UTF8RuneScanner).ReadRune`. Slicing `r.bytes[r.bytePos:]` faults on a
negative position. -/
def UTF8RuneScanner.ReadRune (r : UTF8RuneScanner) :
    Res ((Int × Nat × Option Err) × UTF8RuneScanner) :=
  if r.bytePos ≥ r.bytes.length then .ok ((RuneError, 0, some Err.EOF), r)
  else if r.bytePos < 0 then .fault
  else
    let d := DecodeRune (r.bytes.drop r.bytePos.toNat)
    if d.1 = RuneError then .ok ((d.1, d.2, some Err.RuneDecodingError), r)
    else .ok ((d.1, d.2, none),
      { r with bytePos := r.bytePos + d.2, runePos := r.runePos + 1 })

/-- Method `(*UTF8RuneScanner).UnreadRune`: the width taken off is that of the last
character of the whole buffer. -/
def UTF8RuneScanner.UnreadRune (r : UTF8RuneScanner) : Option Err × UTF8RuneScanner :=
  if r.bytePos = 0 then (some Err.EOF, r)
  else
    let w := (DecodeLastRune r.bytes).2
    (none, { r with bytePos := r.bytePos - w, runePos := r.runePos - 1 })

/-- `UTF8RuneScanner` as a `PositionalRuneScanner`. -/
def utf8Scanner : PositionalRuneScanner UTF8RuneScanner where
  ReadRune := UTF8RuneScanner.ReadRune
  UnreadRune := UTF8RuneScanner.UnreadRune
  BytePos := fun r => r.bytePos
  RunePos := fun r => r.runePos

/-- The struct `StoringRuneScanner` around an inner scanner state `σ`. -/
structure StoringRuneScanner (σ : Type) where
  scanner : σ
  bytes : List Nat
  runePos : Int

/-- `StoringRuneScanner` as a `PositionalRuneScanner`, over an inner rune scanner given
by its `ReadRune` and `UnreadRune`. -/
def storingScanner {σ : Type} (read : σ → Res ((Int × Nat × Option Err) × σ))
    (unread : σ → Option Err × σ) : PositionalRuneScanner (StoringRuneScanner σ) where
  ReadRune := fun r =>
    match read r.scanner with
    | .ok ((c, w, some err), s) => .ok ((c, w, some err), { r with scanner := s })
    | .ok ((c, w, none), s) =>
      .ok ((c, w, none),
        { scanner := s, bytes := r.bytes ++ EncodeRune c, runePos := r.runePos + 1 })
    | .error e => .error e
    | .fault => .fault
    | .outOfFuel => .outOfFuel
  UnreadRune := fun r =>
    if r.bytes.length = 0 then (some Err.EOF, r)
    else
      let w := (DecodeLastRune r.bytes).2
      let u := unread r.scanner
      (u.1, { scanner := u.2, bytes := r.bytes.take (r.bytes.length - w),
              runePos := r.runePos - 1 })
  BytePos := fun r => r.bytes.length
  RunePos := fun r => r.runePos

/-! ## parser.go: tokens -/

def BEGIN_OBJ : Int := 0
def BEGIN_ARR : Int := 1
def COLON : Int := 2
def SEP : Int := 3
def END_OBJ : Int := 4
def END_ARR : Int := 5
def NULL_T : Int := 6
def BOOL_T : Int := 7
def STRING_T : Int := 8
def NUMBER_T : Int := 9
def EOF : Int := 10

def OBJECT : Int := 0
def ARRAY : Int := 1
def NULL : Int := 2
def BOOL : Int := 3
def NUMBER : Int := 4
def STRING : Int := 5

/-- The loop `for _, expected := range [...]` shared by `moveToNullTokenEnd` and both
branches of `moveToBoolTokenEnd`; `bad` is the sentinel reported on a mismatch. -/
def expectRunes {σ : Type} (S : PositionalRuneScanner σ) (bad : Err) :
    List Int → σ → Res (Option GoError × σ)
  | [], r => .ok (none, r)
  | expected :: rest, r =>
    let rp := S.RunePos r
    match S.ReadRune r with
    | .ok ((_, _, some err), r1) => .ok (some (GoError.RuneReadingError rp err), r1)
    | .ok ((c, _, none), r1) =>
      if c ≠ expected then .ok (some (GoError.ParseError rp bad), r1)
      else expectRunes S bad rest r1
    | .error e => .error e
    | .fault => .fault
    | .outOfFuel => .outOfFuel

/-- Function `moveToNullTokenEnd`: expects `u`, `l`, `l`. -/
def moveToNullTokenEnd {σ : Type} (S : PositionalRuneScanner σ) (r : σ) :
    Res (Option GoError × σ) :=
  expectRunes S Err.BadNullTokenError [0x75, 0x6C, 0x6C] r

/-- Function `moveToBoolTokenEnd`: after `t` expects `r`, `u`, `e`; otherwise expects
`a`, `l`, `s`, `e`. -/
def moveToBoolTokenEnd {σ : Type} (S : PositionalRuneScanner σ) (c : Int) (r : σ) :
    Res (Option GoError × σ) :=
  if c = 0x74 then expectRunes S Err.BadBoolTokenError [0x72, 0x75, 0x65] r
  else expectRunes S Err.BadBoolTokenError [0x61, 0x6C, 0x73, 0x65] r

/-- The loop of `moveToStringTokenEnd`, from the current `c` and `prev`: it runs until
`c` is a quote whose predecessor is not a backslash. -/
def moveToStringTokenEnd.loop {σ : Type} (S : PositionalRuneScanner σ) :
    Nat → Int → Int → σ → Res (Option GoError × σ)
  | 0, _, _, _ => .outOfFuel
  | fuel + 1, c, prev, r =>
    if !(c == 0x22 && !(prev == 0x5C)) then
      match S.ReadRune r with
      | .ok ((_, _, some err), r1) =>
        .ok (some (GoError.RuneReadingError (S.RunePos r1) err), r1)
      | .ok ((c1, _, none), r1) => moveToStringTokenEnd.loop S fuel c1 c r1
      | .error e => .error e
      | .fault => .fault
      | .outOfFuel => .outOfFuel
    else .ok (none, r)

/-- Function `moveToStringTokenEnd`: the loop starts with `c` a quote and `prev` a
backslash. -/
def moveToStringTokenEnd {σ : Type} (S : PositionalRuneScanner σ) (fuel : Nat) (r : σ) :
    Res (Option GoError × σ) :=
  moveToStringTokenEnd.loop S fuel 0x22 0x5C r

/-- The loop of `moveToNumberTokenEnd` together with the unread that follows its
`break`. -/
def moveToNumberTokenEnd.loop {σ : Type} (S : PositionalRuneScanner σ) :
    Nat → Int → Nat → σ → Res (Option GoError × σ)
  | 0, _, _, _ => .outOfFuel
  | fuel + 1, prev, dotCount, r =>
    match S.ReadRune r with
    | .ok ((_, _, some err), r1) =>
      if err = Err.EOF then .ok (none, r1) else .ok (some (GoError.base err), r1)
    | .ok ((c, _, none), r1) =>
      if !IsDigit c then
        if c == 0x2B || c == 0x2D then
          .ok (some (GoError.ParseError (S.RunePos r1) Err.BadNumberTokenError), r1)
        else if c == 0x2E then
          if dotCount > 0 || !IsDigit prev then
            .ok (some (GoError.ParseError (S.RunePos r1) Err.BadNumberTokenError), r1)
          else moveToNumberTokenEnd.loop S fuel c (dotCount + 1) r1
        else if !IsDigit prev then
          .ok (some (GoError.ParseError (S.RunePos r1) Err.BadNumberTokenError), r1)
        else if !IsSpace prev then .ok (none, (S.UnreadRune r1).2)
        else .ok (none, r1)
      else moveToNumberTokenEnd.loop S fuel c dotCount r1
    | .error e => .error e
    | .fault => .fault
    | .outOfFuel => .outOfFuel

/-- Function `moveToNumberTokenEnd`. -/
def moveToNumberTokenEnd {σ : Type} (S : PositionalRuneScanner σ) (fuel : Nat) (prev : Int)
    (r : σ) : Res (Option GoError × σ) :=
  moveToNumberTokenEnd.loop S fuel prev 0 r

/-- The five results of `nextToken`. -/
structure Token where
  start : Int
  end_ : Int
  token : Int
  jtype : Int
  err : Option GoError
  deriving DecidableEq, Repr

/-- The statement `return start, r.BytePos(), token, jtype, err` that ends `nextToken`,
after the scanning `x` of the rest of the lexeme. -/
def nextToken.finish {σ : Type} (S : PositionalRuneScanner σ) (start : Int) (token jtype : Int)
    (x : Res (Option GoError × σ)) : Res (Token × σ) :=
  match x with
  | .ok (err, r1) => .ok (Token.mk start (S.BytePos r1) token jtype err, r1)
  | .error e => .error e
  | .fault => .fault
  | .outOfFuel => .outOfFuel

/-- The `switch` of `nextToken` on the first character `c` after white space. -/
def nextToken.dispatch {σ : Type} (S : PositionalRuneScanner σ) (fuel : Nat) (start : Int)
    (c : Int) (r : σ) : Res (Token × σ) :=
  if c = 0x7B then nextToken.finish S start BEGIN_OBJ OBJECT (.ok (none, r))
  else if c = 0x7D then nextToken.finish S start END_OBJ OBJECT (.ok (none, r))
  else if c = 0x5B then nextToken.finish S start BEGIN_ARR ARRAY (.ok (none, r))
  else if c = 0x5D then nextToken.finish S start END_ARR ARRAY (.ok (none, r))
  else if c = 0x3A then nextToken.finish S start COLON (-1) (.ok (none, r))
  else if c = 0x2C then nextToken.finish S start SEP (-1) (.ok (none, r))
  else if c = 0x6E then nextToken.finish S start NULL_T NULL (moveToNullTokenEnd S r)
  else if c = 0x74 ∨ c = 0x66 then
    nextToken.finish S start BOOL_T BOOL (moveToBoolTokenEnd S c r)
  else if c = 0x22 then
    nextToken.finish S start STRING_T STRING (moveToStringTokenEnd S fuel r)
  else if c ∈ [0x2B, 0x2D, 0x30, 0x31, 0x32, 0x33, 0x34, 0x35, 0x36, 0x37, 0x38, 0x39] then
    nextToken.finish S start NUMBER_T NUMBER (moveToNumberTokenEnd S fuel c r)
  else
    nextToken.finish S start (-1) (-1) (.ok (some (GoError.invalidTokenStart start c), r))

/-- The white-space loop of `nextToken`, followed by the dispatch. -/
def nextToken.skip {σ : Type} (S : PositionalRuneScanner σ) (fuel : Nat) :
    Nat → Int → Int → σ → Res (Token × σ)
  | 0, _, _, _ => .outOfFuel
  | n + 1, start, c, r =>
    if IsSpace c then
      let start1 := S.BytePos r
      match S.ReadRune r with
      | .ok ((_, _, some err), r1) =>
        if err = Err.EOF then .ok (Token.mk start1 (S.BytePos r1) EOF 0 none, r1)
        else .ok (Token.mk start1 (S.BytePos r1) EOF 0
          (some (GoError.RuneReadingError (S.RunePos r1) err)), r1)
      | .ok ((c1, _, none), r1) => nextToken.skip S fuel n start1 c1 r1
      | .error e => .error e
      | .fault => .fault
      | .outOfFuel => .outOfFuel
    else nextToken.dispatch S fuel start c r

/-- Function `nextToken`; every loop in it may run `fuel` times. -/
def nextToken {σ : Type} (S : PositionalRuneScanner σ) (fuel : Nat) (r : σ) :
    Res (Token × σ) :=
  nextToken.skip S fuel fuel 0 0x20 r

/-! ## json.go: the node and its heap -/

/-- The struct `Json`. The field `bytes` (a pointer to the buffer shared by all nodes of
a parse) is kept once per tree; `parent` and the children are heap indices. -/
structure Json where
  start : Int
  end_ : Int
  parent : Option Nat
  objectItems : List (List Nat × Nat)
  arrayItems : List Nat
  jtype : Int
  deriving DecidableEq, Repr

/-- The map assignment `m[k] = v`. -/
def mapSet (m : List (List Nat × Nat)) (k : List Nat) (v : Nat) : List (List Nat × Nat) :=
  match m with
  | [] => [(k, v)]
  | (k1, v1) :: rest => if k1 = k then (k, v) :: rest else (k1, v1) :: mapSet rest k v

/-- The map read `m[k]` with its `ok` flag. -/
def mapGet (m : List (List Nat × Nat)) (k : List Nat) : Option Nat :=
  match m with
  | [] => none
  | (k1, v1) :: rest => if k1 = k then some v1 else mapGet rest k

/-- Apply `f` to the node stored at `p`; `none` if there is no such node. -/
def updateNode (heap : List Json) (p : Nat) (f : Json → Json) : Option (List Json) :=
  match heap[p]? with
  | some n => some (heap.set p (f n))
  | none => none

/-! ## parser.go: the parser -/

/-- The local variables of `parse`, the heap of nodes allocated so far, and the reader.
The counter `l` is a natural number: `parse` takes one off only after it has written
through `parentStack[l]`, which faults when `l` is 0. -/
structure ParseState (σ : Type) where
  heap : List Json
  parentStack : List (Option Nat)
  l : Nat
  prevToken : Int
  key : List Nat
  keyAva : Bool
  root : Option Nat
  j : Option Nat
  reader : σ

/-- What `parse` returns when its error is nil: the root pointer, the heap it points
into and the buffer `*content`. -/
structure Tree where
  root : Option Nat
  heap : List Json
  content : List Nat
  deriving DecidableEq, Repr

/-- Function `validateTokenOrder`. -/
def validateTokenOrder (token : Int) (_prevToken : Int) (parentStack : List (Option Nat)) :
    Option GoError :=
  let l : Int := (parentStack.length : Int) - 1
  if token = EOF ∧ l ≠ 0 then some (GoError.base Err.UnclosedJsonError) else none

/-- The first `case` of the `switch` in `parse`: the token is a string, a container is
open, no key is pending and `parentStack[l].jtype == OBJECT`. -/
def parseSwitch.isKey {σ : Type} (tk : Token) (st : ParseState σ) : Res Bool :=
  if tk.token = STRING_T ∧ st.l > 0 ∧ st.keyAva = false then
    match st.parentStack[st.l]? with
    | some (some p) =>
      match st.heap[p]? with
      | some n => .ok (n.jtype == OBJECT)
      | none => .fault
    | _ => .fault
  else .ok false

/-- The `case t == END_ARR || t == END_OBJ` of the `switch` in `parse`. -/
def parseSwitch.close {σ : Type} (tk : Token) (st : ParseState σ) : Res (ParseState σ) :=
  match st.parentStack[st.l]? with
  | some (some p) =>
    match updateNode st.heap p (fun n => { n with end_ := tk.end_ }) with
    | some heap1 =>
      .ok { st with j := some p, heap := heap1,
                    parentStack := st.parentStack.take st.l, l := st.l - 1 }
    | none => .fault
  | _ => .fault

/-- The attachment of the new node `p` to its parent `par` in the `default` case: under
the pending key, else as the next array element, else (at depth 0) not at all. Gives
the new heap and the new `keyAva`. -/
def parseSwitch.attach {σ : Type} (st : ParseState σ) (heap1 : List Json) (par : Option Nat)
    (p : Nat) : Option (List Json × Bool) :=
  if st.l > 0 ∧ st.keyAva = true then
    match par with
    | some q =>
      (updateNode heap1 q
        (fun n => { n with objectItems := mapSet n.objectItems st.key p })).map
        (fun h => (h, false))
    | none => none
  else if st.l > 0 then
    match par with
    | some q =>
      (updateNode heap1 q
        (fun n => { n with arrayItems := n.arrayItems ++ [p] })).map
        (fun h => (h, st.keyAva))
    | none => none
  else some (heap1, st.keyAva)

/-- The `default` case of the `switch` in `parse`: a new node is allocated, attached to
its parent, and pushed when it is a container. -/
def parseSwitch.value {σ : Type} (tk : Token) (st : ParseState σ) : Res (ParseState σ) :=
  match st.parentStack[st.l]? with
  | none => .fault
  | some par =>
    let p := st.heap.length
    let heap1 := st.heap ++ [Json.mk tk.start tk.end_ par [] [] tk.jtype]
    match parseSwitch.attach st heap1 par p with
    | none => .fault
    | some (heap2, keyAva2) =>
      if tk.token = BEGIN_ARR ∨ tk.token = BEGIN_OBJ then
        .ok { st with j := some p, heap := heap2, keyAva := keyAva2,
                      parentStack := st.parentStack ++ [some p], l := st.l + 1 }
      else .ok { st with j := some p, heap := heap2, keyAva := keyAva2 }

/-- The `switch` in the loop body of `parse`, for a token that passed both checks. -/
def parseSwitch {σ : Type} (content : σ → List Nat) (tk : Token) (st : ParseState σ) :
    Res (ParseState σ) :=
  match parseSwitch.isKey tk st with
  | .ok true =>
    match goSlice (content st.reader) (tk.start + 1) (tk.end_ - 1) with
    | some k => .ok { st with key := k, keyAva := true }
    | none => .fault
  | .ok false =>
    if tk.token = EOF then .ok st
    else if tk.token = COLON ∨ tk.token = SEP then .ok st
    else if tk.token = END_ARR ∨ tk.token = END_OBJ then parseSwitch.close tk st
    else parseSwitch.value tk st
  | .error e => .error e
  | .fault => .fault
  | .outOfFuel => .outOfFuel

/-- One run of the loop body of `parse`. -/
def parseStep {σ : Type} (S : PositionalRuneScanner σ) (content : σ → List Nat) (fuel : Nat)
    (st : ParseState σ) : Res (ParseState σ) :=
  match nextToken S fuel st.reader with
  | .ok (tk, r1) =>
    match tk.err with
    | some e => .error e
    | none =>
      match validateTokenOrder tk.token st.prevToken st.parentStack with
      | some e => .error e
      | none =>
        match parseSwitch content tk { st with reader := r1 } with
        | .ok st1 =>
          .ok { st1 with root := if st1.l = 0 then st1.j else st1.root, prevToken := tk.token }
        | .error e => .error e
        | .fault => .fault
        | .outOfFuel => .outOfFuel
  | .error e => .error e
  | .fault => .fault
  | .outOfFuel => .outOfFuel

/-- The loop `for prevToken != EOF` of `parse` and its `return root, nil`. -/
def parse.loop {σ : Type} (S : PositionalRuneScanner σ) (content : σ → List Nat)
    (fuel : Nat) : Nat → ParseState σ → Res Tree
  | 0, _ => .outOfFuel
  | n + 1, st =>
    if st.prevToken ≠ EOF then
      match parseStep S content fuel st with
      | .ok st1 => parse.loop S content fuel n st1
      | .error e => .error e
      | .fault => .fault
      | .outOfFuel => .outOfFuel
    else .ok (Tree.mk st.root st.heap (content st.reader))

/-- The state in which `parse` enters its loop. -/
def parseInit {σ : Type} (reader : σ) : ParseState σ :=
  { heap := [], parentStack := [none], l := 0, prevToken := -1, key := [], keyAva := false,
    root := none, j := none, reader := reader }

/-- Function `parse`; `content` reads the buffer behind the pointer of that name. The
token loop and every loop inside `nextToken` may run `fuel` times. -/
def parse {σ : Type} (S : PositionalRuneScanner σ) (content : σ → List Nat) (fuel : Nat)
    (reader : σ) : Res Tree :=
  parse.loop S content fuel fuel (parseInit reader)

/-- Function `ParseUTF8`. -/
def ParseUTF8 (fuel : Nat) (b : List Nat) : Res Tree :=
  parse utf8Scanner (fun _ => b) fuel (UTF8RuneScanner.mk b 0 0)

/-- Function `Parse`, over an inner rune scanner given by its two methods and its
state. -/
def Parse {σ : Type} (read : σ → Res ((Int × Nat × Option Err) × σ))
    (unread : σ → Option Err × σ) (fuel : Nat) (rs : σ) : Res Tree :=
  parse (storingScanner read unread) (fun r => r.bytes) fuel
    (StoringRuneScanner.mk rs [] 0)

/-! ## json.go: accessors -/

def Json.IsArray (j : Json) : Bool := j.jtype == ARRAY
def Json.IsObject (j : Json) : Bool := j.jtype == OBJECT
def Json.IsPrimitive (j : Json) : Bool := j.jtype != ARRAY && j.jtype != OBJECT
def Json.IsString (j : Json) : Bool := j.jtype == STRING
def Json.IsBool (j : Json) : Bool := j.jtype == BOOL
def Json.IsNumber (j : Json) : Bool := j.jtype == NUMBER
def Json.IsNull (j : Json) : Bool := j.jtype == NULL

/-- Method `IsFloat`: a number whose text has a `.`. -/
def Json.IsFloat (content : List Nat) (j : Json) : Res Bool :=
  if j.IsNumber then
    match goSlice content j.start j.end_ with
    | some s => .ok (s.contains 0x2E)
    | none => .fault
  else .ok false

/-- Method `IsInt`. -/
def Json.IsInt (content : List Nat) (j : Json) : Res Bool :=
  if j.IsNumber then
    match j.IsFloat content with
    | .ok f => .ok (!f)
    | .error e => .error e
    | .fault => .fault
    | .outOfFuel => .outOfFuel
  else .ok false

/-- Function `strings.Join`. -/
def Join : List (List Nat) → List Nat → List Nat
  | [], _ => []
  | [a], _ => a
  | a :: b :: rest, sep => a ++ sep ++ Join (b :: rest) sep

/-- The loop of `Get` from index `i`, with `rest` the keys still to visit and `j` the
current node pointer. -/
def Get.loop (heap : List Json) (keyPath : List (List Nat)) :
    List (List Nat) → Nat → Option Nat → Res (Option Nat)
  | [], _, j => .ok j
  | key :: rest, i, j =>
    match j with
    | none => .fault
    | some p =>
      match heap[p]? with
      | none => .fault
      | some n =>
        match mapGet n.objectItems key with
        | some val => Get.loop heap keyPath rest (i + 1) (some val)
        | none => .error (GoError.keyPath (Join (keyPath.take (i + 1)) [0x2E]))

/-- Method `Get`. -/
def Get (heap : List Json) (j : Option Nat) (keyPath : List (List Nat)) : Res (Option Nat) :=
  Get.loop heap keyPath keyPath 0 j

/-- Method `Put`. -/
def Json.Put (j : Option Nat) (_name : List Nat) (_value : Option Nat) : Res (Option Nat) :=
  .ok j

/-- Method `AsString`. -/
def Json.AsString (content : List Nat) (j : Json) : Res (List Nat) :=
  if !j.IsString then .error (GoError.base Err.StringValueError)
  else if j.parent ≠ none then
    match goSlice content (j.start + 1) (j.end_ - 1) with
    | some s => .ok s
    | none => .fault
  else
    match goSlice content j.start j.end_ with
    | some s => .ok s
    | none => .fault

/-- Method `AsBool`. -/
def Json.AsBool (content : List Nat) (j : Json) : Res Bool :=
  if !j.IsBool then .error (GoError.base Err.BoolValueError)
  else if 0 ≤ j.start ∧ j.start < content.length then
    .ok (content.getD j.start.toNat 0 == 0x74)
  else .fault

/-- The digit loop of `strconv.Atoi`: `n = n*10 + int(ch - 48)`, `none` on a byte that
is not a decimal digit. -/
def atoiDigits : List Nat → Nat → Option Nat
  | [], n => some n
  | ch :: rest, n => if 48 ≤ ch ∧ ch ≤ 57 then atoiDigits rest (n * 10 + (ch - 48)) else none

/-- The loop of `strconv.ParseUint` in base 10 and 64 bits, from the value `n` read so
far: a byte that is not a decimal digit ends it with `ErrSyntax`, and a value that
leaves 64 bits ends it with `ErrRange` and the largest value, before the bytes that
follow are looked at. -/
def parseUintDigits : List Nat → Nat → Nat × Option Err
  | [], n => (n, none)
  | ch :: rest, n =>
    if ¬ (48 ≤ ch ∧ ch ≤ 57) then (0, some Err.ErrSyntax)
    else if n ≥ (2 ^ 64 - 1) / 10 + 1 then (2 ^ 64 - 1, some Err.ErrRange)
    else if n * 10 + (ch - 48) > 2 ^ 64 - 1 then (2 ^ 64 - 1, some Err.ErrRange)
    else parseUintDigits rest (n * 10 + (ch - 48))

/-- Model of `strconv.Atoi` for a 64-bit `int`: the value and the error. A text of fewer
than 19 bytes takes the fast path, which cannot overflow; any other text goes through
`ParseInt(s, 10, 0)`. -/
def Atoi (s : List Nat) : Int × Option Err :=
  let neg := s.head? = some 0x2D
  let body := if s.head? = some 0x2D ∨ s.head? = some 0x2B then s.tail else s
  if body = [] then (0, some Err.ErrSyntax)
  else if s.length < 19 then
    match atoiDigits body 0 with
    | none => (0, some Err.ErrSyntax)
    | some v => if neg then (-(v : Int), none) else ((v : Int), none)
  else
    let un := parseUintDigits body 0
    if un.2 = some Err.ErrSyntax then (0, some Err.ErrSyntax)
    else if neg then
      if un.1 > 2 ^ 63 then (-(2 ^ 63 : Int), some Err.ErrRange) else (-(un.1 : Int), none)
    else
      if un.1 ≥ 2 ^ 63 then ((2 ^ 63 : Int) - 1, some Err.ErrRange) else ((un.1 : Int), none)

/-- Method `AsInt`: the value and the error it returns. -/
def Json.AsInt (content : List Nat) (j : Json) : Res (Int × Option GoError) :=
  if !j.IsNumber then .ok (0, some (GoError.base Err.NumberValueError))
  else
    match goSlice content j.start j.end_ with
    | some s => .ok ((Atoi s).1, (Atoi s).2.map GoError.base)
    | none => .fault

/-- Method `ArrayItems`. -/
def Json.ArrayItems (j : Json) : List Nat := j.arrayItems

/-- Method `ObjectItems`. -/
def Json.ObjectItems (j : Json) : List (List Nat × Nat) := j.objectItems

/-- Method `Keys`, in the order of the association list (Go leaves the order open). -/
def Json.Keys (j : Json) : List (List Nat) := j.objectItems.map Prod.fst

/-- Method `Bytes`: the slice `(*j.bytes)[j.start : j.end+1]`. `spare` holds the bytes
of the backing array between the length and the capacity of the buffer. -/
def Json.Bytes (content spare : List Nat) (j : Json) : Res (List Nat) :=
  match goSlice (content ++ spare) j.start (j.end_ + 1) with
  | some s => .ok s
  | none => .fault

/-! ## escape.go -/

/-- The map `escapeChars`. -/
def escapeChars : List (Int × Int) :=
  [(0x22, 0x22), (0x5C, 0x5C), (0x2F, 0x2F), (0x62, 0x08), (0x66, 0x0C), (0x6E, 0x0A),
   (0x72, 0x0D), (0x74, 0x09), (0x75, 0x2D)]

/-- Function `isEscapeChar`. -/
def isEscapeChar (x : Int) : Bool := (escapeChars.lookup x).isSome

/-- Function `nextRune`. -/
def nextRune (b : List Nat) (BytePos : Nat) : Int × Nat × Option Err :=
  let d := DecodeRune (b.drop BytePos)
  if d.1 = RuneError then (d.1, BytePos, some Err.RuneDecodingError)
  else (d.1, BytePos + d.2, none)

/-- Value of one hexadecimal digit. -/
def hexVal (c : Nat) : Option Nat :=
  if 0x30 ≤ c ∧ c ≤ 0x39 then some (c - 0x30)
  else if 0x61 ≤ c ∧ c ≤ 0x66 then some (c - 0x61 + 10)
  else if 0x41 ≤ c ∧ c ≤ 0x46 then some (c - 0x41 + 10)
  else none

/-- The digits of `strconv.ParseInt(s, 16, 32)`. -/
def hexDigits : List Nat → Nat → Option Nat
  | [], n => some n
  | ch :: rest, n =>
    match hexVal ch with
    | some d => hexDigits rest (n * 16 + d)
    | none => none

/-- Model of `strconv.ParseInt(s, 16, 32)`: `none` when it returns an error. -/
def ParseInt16 (s : List Nat) : Option Int :=
  let neg := s.head? = some 0x2D
  let body := if s.head? = some 0x2D ∨ s.head? = some 0x2B then s.tail else s
  if body = [] then none
  else
    match hexDigits body 0 with
    | none => none
    | some v =>
      if neg then (if v > 2 ^ 31 then none else some (-(v : Int)))
      else (if v ≥ 2 ^ 31 then none else some (v : Int))

/-- Function `hexDigitsToRune`: the rune, the next position and the error. -/
def hexDigitsToRune (bytes : List Nat) (pos : Nat) : Int × Nat × Option GoError :=
  if pos + 3 < bytes.length then
    let hexdigits := (bytes.drop pos).take 4
    match ParseInt16 hexdigits with
    | none => (0, pos + 4, some (GoError.escapeSequence (0x75 :: hexdigits)))
    | some val => (val, pos + 4, none)
  else (0, pos + 4, some (GoError.escapeSequence (bytes.drop pos)))

/-- The conversion `string(escaped)` of a rune slice. -/
def runesToString (rs : List Int) : List Nat := (rs.map EncodeRune).flatten

/-- The loop `for pos < n` of `EscapeUTF8` and its final `return`. -/
def EscapeUTF8.loop (bytes : List Nat) : Nat → Nat → Bool → List Int → Res (List Nat)
  | 0, _, _, _ => .outOfFuel
  | fuel + 1, pos, escapeOpen, escaped =>
    if pos < bytes.length then
      match nextRune bytes pos with
      | (_, _, some err) => .error (GoError.base err)
      | (c, pos1, none) =>
        if escapeOpen then
          if isEscapeChar c then
            if c = 0x75 then
              match hexDigitsToRune bytes pos1 with
              | (_, _, some err) => .error err
              | (c2, pos2, none) => EscapeUTF8.loop bytes fuel pos2 false (escaped ++ [c2])
            else
              EscapeUTF8.loop bytes fuel pos1 false
                (escaped ++ [(escapeChars.lookup c).getD 0])
          else .error (GoError.escapeSequence (EncodeRune c))
        else if c = 0x5C then EscapeUTF8.loop bytes fuel pos1 true escaped
        else if IsControl c then .error (GoError.controlCharacter c)
        else EscapeUTF8.loop bytes fuel pos1 false (escaped ++ [c])
    else .ok (runesToString escaped)

/-- Function `EscapeUTF8`. Each iteration moves `pos` forward, so `len(bytes) + 1`
iterations are enough. -/
def EscapeUTF8 (bytes : List Nat) : Res (List Nat) :=
  EscapeUTF8.loop bytes (bytes.length + 1) 0 false []

/-! ## Inputs and notions used to state the properties -/

/-- The text `[1,2,3,4]` of the tests. -/
def textArray1234 : List Nat := [91, 49, 44, 50, 44, 51, 44, 52, 93]

/-- The nested document of `TestParseUTF8_ValidMixedNested`, 119 bytes. -/
def nestedDoc : List Nat :=
  [123, 34, 107, 101, 121, 49, 34, 58, 34, 115, 116, 114, 105, 110, 103, 86, 97, 108, 34, 44,
   34, 107, 101, 121, 50, 34, 58, 49, 48, 48, 48, 44, 34, 107, 101, 121, 51, 34, 58, 50, 48,
   46, 49, 49, 44, 34, 107, 101, 121, 52, 34, 58, 91, 123, 34, 107, 101, 121, 52, 46, 49, 34,
   58, 116, 114, 117, 101, 44, 34, 107, 101, 121, 52, 46, 50, 34, 58, 102, 97, 108, 115, 101,
   44, 34, 107, 101, 121, 52, 46, 51, 34, 58, 110, 117, 108, 108, 125, 93, 44, 34, 107, 101,
   121, 53, 34, 58, 123, 34, 107, 101, 121, 53, 46, 49, 34, 58, 49, 125, 125]

/-- The nodes `ParseUTF8` allocates for `nestedDoc`, in allocation order. -/
def nestedHeap : List Json :=
  [Json.mk 0 119 none
     [([107, 101, 121, 49], 1), ([107, 101, 121, 50], 2), ([107, 101, 121, 51], 3),
      ([107, 101, 121, 52], 4), ([107, 101, 121, 53], 9)] [] OBJECT,
   Json.mk 8 19 (some 0) [] [] STRING,
   Json.mk 27 31 (some 0) [] [] NUMBER,
   Json.mk 39 44 (some 0) [] [] NUMBER,
   Json.mk 52 98 (some 0) [] [5] ARRAY,
   Json.mk 53 97 (some 4)
     [([107, 101, 121, 52, 46, 49], 6), ([107, 101, 121, 52, 46, 50], 7),
      ([107, 101, 121, 52, 46, 51], 8)] [] OBJECT,
   Json.mk 63 67 (some 5) [] [] BOOL,
   Json.mk 77 82 (some 5) [] [] BOOL,
   Json.mk 92 96 (some 5) [] [] NULL,
   Json.mk 106 118 (some 0) [([107, 101, 121, 53, 46, 49], 10)] [] OBJECT,
   Json.mk 116 117 (some 9) [] [] NUMBER]

/-- Following the words of the specification of `Get`: the node reached by looking up
the first key in `j`, the next key in that result, and so on; `none` when a lookup
finds no entry. -/
def reach (heap : List Json) : Nat → List (List Nat) → Option Nat
  | j, [] => some j
  | j, k :: ks =>
    match heap[j]? with
    | some n =>
      match mapGet n.objectItems k with
      | some v => reach heap v ks
      | none => none
    | none => none


/-- The decimal rendering of a natural number, as bytes. -/
def decimal (n : Nat) : List Nat := (Nat.toDigits 10 n).map Char.toNat

/-- The text of an array of numbers: `[`, the decimal renderings joined by `,`, `]`. -/
def arrayText (ns : List Nat) : List Nat :=
  [0x5B] ++ Join (ns.map decimal) [0x2C] ++ [0x5D]

/-- What follows an element of `arrayText`: each further element after a `,`, then `]`. -/
def restText : List Nat → List Nat
  | [] => [0x5D]
  | m :: ms => 0x2C :: (decimal m ++ restText ms)

/-- Well-formedness of the local variables of `parse`: the stack has `l + 1` entries,
its bottom entry is nil, every other entry and the pointers `j` and `root` point to
allocated nodes, and `j` is nil exactly as long as no node has been allocated. -/
structure ParseInv {σ : Type} (st : ParseState σ) : Prop where
  len : st.parentStack.length = st.l + 1
  bottom : st.parentStack[0]? = some none
  valid : ∀ (i p : Nat), st.parentStack[i]? = some (some p) → p < st.heap.length
  opened : ∀ (i : Nat), 1 ≤ i → i ≤ st.l → ∃ p, st.parentStack[i]? = some (some p)
  jnil : st.j = none ↔ st.heap = []
  jvalid : ∀ (p : Nat), st.j = some p → p < st.heap.length
  rootvalid : ∀ (p : Nat), st.root = some p → p < st.heap.length

/-- Reading the tokens of a buffer one after another, as `parse` does, and counting the
containers that are open: an opening token adds one, a closing token takes one away.
The result is the count when the end-of-input token is read. A lexical error ends the
reading with that error; a closing token while no container is open ends it as a
fault, since `parse` reads no token after it. -/
def openAtEnd (fuel : Nat) : Nat → UTF8RuneScanner → Nat → Res Nat
  | 0, _, _ => .outOfFuel
  | n + 1, r, depth =>
    match nextToken utf8Scanner fuel r with
    | .ok (tk, r1) =>
      match tk.err with
      | some e => .error e
      | none =>
        if tk.token = EOF then .ok depth
        else if tk.token = BEGIN_ARR ∨ tk.token = BEGIN_OBJ then openAtEnd fuel n r1 (depth + 1)
        else if tk.token = END_ARR ∨ tk.token = END_OBJ then
          (if depth = 0 then .fault else openAtEnd fuel n r1 (depth - 1))
        else openAtEnd fuel n r1 depth
    | .error e => .error e
    | .fault => .fault
    | .outOfFuel => .outOfFuel

/-- A Unicode scalar value: within range and not a surrogate. -/
def ValidRune (r : Int) : Prop := 0 ≤ r ∧ r ≤ 0x10FFFF ∧ ¬ (0xD800 ≤ r ∧ r ≤ 0xDFFF)

/-- The text of a boolean literal cut short: white space, `t` or `f`, a part `pre` of
what should follow, and then `rest`. -/
def boolText (ws : List Int) (first : Nat) (pre rest : List Nat) : List Nat :=
  (ws.map EncodeRune).flatten ++ first :: (pre ++ rest)

/-- A unit of a string body without `\u` escapes: a plain character, or a backslash
followed by `letter`. -/
inductive EscapeUnit where
  | plain (c : Int)
  | esc (letter : Nat)
  deriving DecidableEq, Repr

/-- The units of C10: a plain character is validly encoded, not a backslash and not a
control character; the letter of an escape is one of the eight of the specification. -/
def EscapeUnit.Allowed : EscapeUnit → Prop
  | .plain c => ValidRune c ∧ c ≠ 0x5C ∧ IsControl c = false
  | .esc l => l ∈ [0x22, 0x5C, 0x2F, 0x62, 0x66, 0x6E, 0x72, 0x74]

/-- The bytes of a unit in the raw text. -/
def EscapeUnit.source : EscapeUnit → List Nat
  | .plain c => EncodeRune c
  | .esc l => [0x5C, l]

/-- The character a unit stands for, in the words of the specification: quote,
backslash, slash, backspace, form feed, newline, carriage return, tab. -/
def EscapeUnit.denotes : EscapeUnit → Int
  | .plain c => c
  | .esc l =>
    if l = 0x22 then 0x22 else if l = 0x5C then 0x5C else if l = 0x2F then 0x2F
    else if l = 0x62 then 0x08 else if l = 0x66 then 0x0C else if l = 0x6E then 0x0A
    else if l = 0x72 then 0x0D else 0x09

/-- The characters of a string body that needs no escape: valid, not a quote and not a
backslash (and not U+FFFD, which the scanner takes for a decoding failure). -/
def PlainRune (c : Int) : Prop := ValidRune c ∧ c ≠ 0x22 ∧ c ≠ 0x5C ∧ c ≠ RuneError

/-- The UTF-8 encoding of a sequence of characters. -/
def encodeRunes (rs : List Int) : List Nat := (rs.map EncodeRune).flatten

/-- A string literal: the body between two quotes. -/
def stringText (body : List Nat) : List Nat := 0x22 :: (body ++ [0x22])

/-- One member of an object: the key literal, a colon, the value literal. -/
def pairText (kv : List Int × List Int) : List Nat :=
  stringText (encodeRunes kv.1) ++ 0x3A :: stringText (encodeRunes kv.2)

/-- The text of an object of strings: `{`, the members joined by `,`, and `}`. -/
def objectText (pairs : List (List Int × List Int)) : List Nat :=
  [0x7B] ++ Join (pairs.map pairText) [0x2C] ++ [0x7D]

/-- What follows a member of `objectText`: each further member after a `,`, then `}`. -/
def restObject : List (List Int × List Int) → List Nat
  | [] => [0x7D]
  | kv :: ps => 0x2C :: (pairText kv ++ restObject ps)

/-- The map after the assignments `m[k] = base`, `m[k2] = base + 1`, ... in this order. -/
def insertAll (m : List (List Nat × Nat)) (base : Nat) : List (List Nat) → List (List Nat × Nat)
  | [] => m
  | k :: ks => insertAll (mapSet m k base) (base + 1) ks

/-- The value of the last pair of the list whose key is `k`. -/
def lastValue (pairs : List (List Nat × List Nat)) (k : List Nat) : Option (List Nat) :=
  match pairs with
  | [] => none
  | (k1, v1) :: ps =>
    match lastValue ps k with
    | some v => some v
    | none => if k1 = k then some v1 else none

/-- The nine characters that may follow a backslash: the quote, the backslash, the slash
and the letters `b f n r t u`. -/
def escapeLetters : List Nat := [0x22, 0x5C, 0x2F, 0x62, 0x66, 0x6E, 0x72, 0x74, 0x75]

/-- The positions of the backslashes that open an escape, in the words of the
specification: reading the bytes from position `i` on, a backslash opens an escape
unless it is itself the escaped character of the escape before it. `escaped` tells
whether the byte at hand is such an escaped character. -/
def escapeOpeners : List Nat → Nat → Bool → List Nat
  | [], _, _ => []
  | _ :: rest, i, true => escapeOpeners rest (i + 1) false
  | b :: rest, i, false =>
    if b = 0x5C then i :: escapeOpeners rest (i + 1) true
    else escapeOpeners rest (i + 1) false

/-- A hexadecimal digit, in the words of the specification: `0-9`, `a-f`, `A-F`. -/
def isHexDigit (c : Nat) : Bool :=
  (0x30 ≤ c && c ≤ 0x39) || (0x61 ≤ c && c ≤ 0x66) || (0x41 ≤ c && c ≤ 0x46)

/-- The value of a hexadecimal digit. -/
def hexDigitValue (c : Nat) : Nat :=
  if c ≤ 0x39 then c - 0x30 else if c ≤ 0x46 then c - 0x41 + 10 else c - 0x61 + 10

/-- The value of a sequence of hexadecimal digits, most significant digit first. -/
def hexValue (h : List Nat) : Nat := h.foldl (fun n c => n * 16 + hexDigitValue c) 0

/-- The kinds in the heap of `parse`: every open container is an Object or an Array, and
a node of any other kind has no children. -/
structure KindInv {σ : Type} (st : ParseState σ) : Prop where
  stack : ∀ (i p : Nat), st.parentStack[i]? = some (some p) →
    ∃ n, st.heap[p]? = some n ∧ (n.jtype = OBJECT ∨ n.jtype = ARRAY)
  leaves : ∀ (q : Nat) (n : Json), st.heap[q]? = some n → n.jtype ≠ OBJECT → n.jtype ≠ ARRAY →
    n.objectItems = [] ∧ n.arrayItems = []

/-- A unit of the inside of a string literal, as the tokenizer meets it: a plain
character (validly encoded, not a quote, not a backslash, not U+FFFD), or a backslash
followed by one of the nine letters. The four digits of a `\u` escape are plain
characters that follow the unit `\u`. -/
def EscapeUnit.InString : EscapeUnit → Prop
  | .plain c => PlainRune c
  | .esc l => l ∈ escapeLetters

/-- The bytes of the inside of a string literal made of units. -/
def bodyText (units : List EscapeUnit) : List Nat := (units.map EscapeUnit.source).flatten

/-- A number literal: a first character, the digits `ints` after it and, unless `frac` is
empty, a `.` followed by the digits `frac`. -/
def numberText (first : Nat) (ints frac : List Nat) : List Nat :=
  first :: (ints ++ (if frac = [] then [] else 0x2E :: frac))

/-- The positions in the heap of `parse` over the byte buffer `b`: the scanner reads `b`
and is inside it, and every node allocated so far satisfies `0 ≤ start ≤ end` and ends at
or before the position of the scanner. -/
structure PosInv (b : List Nat) (st : ParseState UTF8RuneScanner) : Prop where
  bytes : st.reader.bytes = b
  pos : st.reader.bytePos ≤ b.length
  nodes : ∀ (q : Nat) (n : Json), st.heap[q]? = some n →
    0 ≤ n.start ∧ n.start ≤ n.end_ ∧ n.end_ ≤ st.reader.bytePos

/-- Apply a function to the value a run returns. -/
def Res.map {α β : Type} (f : α → β) : Res α → Res β
  | .ok a => .ok (f a)
  | .error e => .error e
  | .fault => .fault
  | .outOfFuel => .outOfFuel

/-- The scanner `Parse` reads from in the tests: a `StoringRuneScanner` around a
`UTF8RuneScanner`. -/
def copyingScanner : PositionalRuneScanner (StoringRuneScanner UTF8RuneScanner) :=
  storingScanner UTF8RuneScanner.ReadRune UTF8RuneScanner.UnreadRune

/-- The state of the copying scanner that has stored the bytes of `b` up to the position
of its inner scanner `r`. -/
def storingAt (b : List Nat) (r : UTF8RuneScanner) : StoringRuneScanner UTF8RuneScanner :=
  ⟨r, b.take r.bytePos.toNat, r.runePos⟩

/-- The state of `parse` over the copying scanner that goes with a state of `parse` over
the buffer `b`. -/
def ParseState.store (b : List Nat) (st : ParseState UTF8RuneScanner) :
    ParseState (StoringRuneScanner UTF8RuneScanner) :=
  ⟨st.heap, st.parentStack, st.l, st.prevToken, st.key, st.keyAva, st.root, st.j,
    storingAt b st.reader⟩

/-- A scanner over the buffer `b` at a position inside it. -/
structure InBuffer (b : List Nat) (r : UTF8RuneScanner) : Prop where
  bytes : r.bytes = b
  lo : 0 ≤ r.bytePos
  hi : r.bytePos ≤ b.length

/-- The scan behind `lastTopLevel`: `i` is the index of the first parent of the list and
`acc` the answer so far. -/
def lastTopLevel.go : List (Option Nat) → Nat → Option Nat → Option Nat
  | [], _, acc => acc
  | par :: rest, i, acc => lastTopLevel.go rest (i + 1) (if par = none then some i else acc)

/-- The node allocated last among the nodes without a parent, that is among the values
read while no container was open; `none` when the heap has no such node. -/
def lastTopLevel (heap : List Json) : Option Nat :=
  lastTopLevel.go (heap.map Json.parent) 0 none

/-- How the local variables of `parse` follow the values read at the top level: while no
container is open `j` is the last of them, and while one is open the bottom container of
the stack is. -/
structure RootInv {σ : Type} (st : ParseState σ) : Prop where
  top : st.l = 0 → st.j = lastTopLevel st.heap
  inside : 0 < st.l → ∃ p, st.parentStack[1]? = some (some p) ∧ lastTopLevel st.heap = some p

/-! # Properties -/

/-! ### Decoding -/

theorem DecodeRune_ascii (b : Nat) (rest : List Nat) (h : b < 0x80) :
    DecodeRune (b :: rest) = ((b : Int), 1) := by
  simp [DecodeRune, h]

theorem ascii_ne_RuneError (b : Nat) (h : b < 0x80) : (b : Int) ≠ RuneError := by
  unfold RuneError; omega

@[simp] theorem utf8Scanner_ReadRune (r : UTF8RuneScanner) :
    utf8Scanner.ReadRune r = UTF8RuneScanner.ReadRune r := rfl

@[simp] theorem utf8Scanner_UnreadRune (r : UTF8RuneScanner) :
    utf8Scanner.UnreadRune r = UTF8RuneScanner.UnreadRune r := rfl

@[simp] theorem utf8Scanner_BytePos (r : UTF8RuneScanner) :
    utf8Scanner.BytePos r = r.bytePos := rfl

@[simp] theorem utf8Scanner_RunePos (r : UTF8RuneScanner) :
    utf8Scanner.RunePos r = r.runePos := rfl

theorem drop_cons_length {α : Type} {l : List α} {pos : Nat} {b : α} {suf : List α}
    (h : l.drop pos = b :: suf) : pos < l.length := by
  by_contra hc
  rw [List.drop_of_length_le (by omega)] at h
  cases h

theorem drop_cons_succ {α : Type} {l : List α} {pos : Nat} {b : α} {suf : List α}
    (h : l.drop pos = b :: suf) : l.drop (pos + 1) = suf := by
  have : l.drop (pos + 1) = (l.drop pos).drop 1 := by
    rw [List.drop_drop, Nat.add_comm]
  rw [this, h]; rfl

theorem ReadRune_at (bytes : List Nat) (pos : Nat) (rp : Int) (c : Int) (w : Nat)
    (hpos : pos < bytes.length) (hd : DecodeRune (bytes.drop pos) = (c, w))
    (hc : c ≠ RuneError) :
    UTF8RuneScanner.ReadRune ⟨bytes, (pos : Int), rp⟩ =
      Res.ok ((c, w, none), ⟨bytes, ((pos + w : Nat) : Int), rp + 1⟩) := by
  unfold UTF8RuneScanner.ReadRune
  have h1 : ¬ ((pos : Int) ≥ (bytes.length : Int)) := by omega
  have h2 : ¬ ((pos : Int) < 0) := by omega
  simp only [h1, h2, if_false, Int.toNat_ofNat, hd, hc]
  simp

theorem ReadRune_ascii (bytes : List Nat) (pos : Nat) (rp : Int) (b : Nat) (suf : List Nat)
    (h : bytes.drop pos = b :: suf) (hb : b < 0x80) :
    UTF8RuneScanner.ReadRune ⟨bytes, (pos : Int), rp⟩ =
      Res.ok (((b : Int), 1, none), ⟨bytes, ((pos + 1 : Nat) : Int), rp + 1⟩) := by
  apply ReadRune_at _ _ _ _ _ (drop_cons_length h)
  · rw [h]; exact DecodeRune_ascii b suf hb
  · exact ascii_ne_RuneError b hb

theorem ReadRune_eof (bytes : List Nat) (pos : Nat) (rp : Int) (h : bytes.length ≤ pos) :
    UTF8RuneScanner.ReadRune ⟨bytes, (pos : Int), rp⟩ =
      Res.ok ((RuneError, 0, some Err.EOF), ⟨bytes, (pos : Int), rp⟩) := by
  unfold UTF8RuneScanner.ReadRune
  have h1 : ((pos : Int) ≥ (bytes.length : Int)) := by omega
  simp [h1]

theorem DecodeLastRune_ascii (xs : List Nat) (b : Nat) (hb : b < 0x80) :
    DecodeLastRune (xs ++ [b]) = ((b : Int), 1) := by
  unfold DecodeLastRune
  simp
  have : ((xs.length : Int) + 1 - 1).toNat = xs.length := by omega
  simp [this, List.getD_eq_getElem?_getD, hb]
  omega


/-! ### Tokens -/

theorem IsSpace_space : IsSpace 0x20 = true := by decide

theorem nextToken_first (fuel : Nat) (bytes : List Nat) (pos : Nat) (rp : Int) (b : Nat)
    (suf : List Nat) (h : bytes.drop pos = b :: suf) (hb : b < 0x80)
    (hs : IsSpace (b : Int) = false) :
    nextToken utf8Scanner (fuel + 2) ⟨bytes, (pos : Int), rp⟩ =
      nextToken.dispatch utf8Scanner (fuel + 2) (pos : Int) (b : Int)
        ⟨bytes, ((pos + 1 : Nat) : Int), rp + 1⟩ := by
  unfold nextToken
  rw [nextToken.skip]
  simp only [IsSpace_space, if_true, utf8Scanner_ReadRune, ReadRune_ascii bytes pos rp b suf h hb,
    utf8Scanner_BytePos]
  rw [nextToken.skip]
  simp [hs]

theorem nextToken_eof (fuel : Nat) (bytes : List Nat) (pos : Nat) (rp : Int)
    (h : bytes.length ≤ pos) :
    nextToken utf8Scanner (fuel + 1) ⟨bytes, (pos : Int), rp⟩ =
      Res.ok (Token.mk pos pos EOF 0 none, ⟨bytes, (pos : Int), rp⟩) := by
  unfold nextToken
  rw [nextToken.skip]
  simp [IsSpace_space, ReadRune_eof bytes pos rp h]

theorem IsDigit_iff_ascii (b : Nat) (hb : b < 0x80) :
    IsDigit (b : Int) = true ↔ 48 ≤ b ∧ b ≤ 57 := by
  unfold IsDigit
  have : ((b : Int) ≤ 0xFF) := by omega
  simp [this]

/-- Scanning the digits `ds` of a number that is followed by the ASCII character `c`. -/
theorem moveToNumberTokenEnd_loop_digits (bytes : List Nat) (c : Nat) (suf : List Nat)
    (hlast : (DecodeLastRune bytes).2 = 1)
    (hc : c < 0x80) (hcd : IsDigit (c : Int) = false) (hc1 : c ≠ 0x2B) (hc2 : c ≠ 0x2D)
    (hc3 : c ≠ 0x2E) :
    ∀ (ds : List Nat) (fuel pos : Nat) (rp : Int) (prev : Int) (dotCount : Nat),
      (∀ d ∈ ds, 48 ≤ d ∧ d ≤ 57) → IsDigit prev = true → IsSpace prev = false →
      bytes.drop pos = ds ++ c :: suf → ds.length < fuel →
      moveToNumberTokenEnd.loop utf8Scanner fuel prev dotCount ⟨bytes, (pos : Int), rp⟩ =
        Res.ok (none, ⟨bytes, ((pos + ds.length : Nat) : Int), rp + ds.length⟩) := by
  intro ds
  induction ds with
  | nil =>
    intro fuel pos rp prev dotCount _ hprev hsp hdrop hfuel
    obtain ⟨f, rfl⟩ : ∃ f, fuel = f + 1 := ⟨fuel - 1, by simp at hfuel; omega⟩
    simp only [List.nil_append] at hdrop
    rw [moveToNumberTokenEnd.loop]
    simp only [utf8Scanner_ReadRune, ReadRune_ascii bytes pos rp c suf hdrop hc]
    have e1 : ((c : Int) == 0x2B) = false := by simp; omega
    have e2 : ((c : Int) == 0x2D) = false := by simp; omega
    have e3 : ((c : Int) == 0x2E) = false := by simp; omega
    simp only [hcd, e1, e2, e3, hprev, hsp, utf8Scanner_UnreadRune]
    simp [UTF8RuneScanner.UnreadRune, hlast]
    have hne : ¬ ((pos : Int) + 1 = 0) := by omega
    simp [hne]
  | cons d ds ih =>
    intro fuel pos rp prev dotCount hds _ _ hdrop hfuel
    obtain ⟨f, rfl⟩ : ∃ f, fuel = f + 1 := ⟨fuel - 1, by simp at hfuel; omega⟩
    have hd := hds d (List.mem_cons_self _ _)
    have hdlt : d < 0x80 := by omega
    have hdig : IsDigit (d : Int) = true := (IsDigit_iff_ascii d hdlt).2 hd
    have hdsp : IsSpace (d : Int) = false := by
      unfold IsSpace; simp; omega
    simp only [List.cons_append] at hdrop
    rw [moveToNumberTokenEnd.loop]
    simp only [utf8Scanner_ReadRune, ReadRune_ascii bytes pos rp d _ hdrop hdlt, hdig]
    have := ih f (pos + 1) (rp + 1) (d : Int) dotCount
      (fun x hx => hds x (List.mem_cons_of_mem _ hx)) hdig hdsp (drop_cons_succ hdrop)
      (by simp at hfuel; omega)
    simp at this ⊢
    rw [this]
    simp
    constructor <;> omega

theorem nextToken_number (bytes : List Nat) (c : Nat) (suf : List Nat)
    (hlast : (DecodeLastRune bytes).2 = 1)
    (hc : c < 0x80) (hcd : IsDigit (c : Int) = false) (hc1 : c ≠ 0x2B) (hc2 : c ≠ 0x2D)
    (hc3 : c ≠ 0x2E) (d : Nat) (ds : List Nat) (fuel pos : Nat) (rp : Int)
    (hd : 48 ≤ d ∧ d ≤ 57) (hds : ∀ x ∈ ds, 48 ≤ x ∧ x ≤ 57)
    (hdrop : bytes.drop pos = (d :: ds) ++ c :: suf) (hfuel : ds.length + 2 ≤ fuel) :
    nextToken utf8Scanner fuel ⟨bytes, (pos : Int), rp⟩ =
      Res.ok (Token.mk pos ((pos + (d :: ds).length : Nat) : Int) NUMBER_T NUMBER none,
        ⟨bytes, ((pos + (d :: ds).length : Nat) : Int), rp + (d :: ds).length⟩) := by
  obtain ⟨f, rfl⟩ : ∃ f, fuel = f + 2 := ⟨fuel - 2, by omega⟩
  have hdlt : d < 0x80 := by omega
  have hdig : IsDigit (d : Int) = true := (IsDigit_iff_ascii d hdlt).2 hd
  have hdsp : IsSpace (d : Int) = false := by
    unfold IsSpace; simp; omega
  rw [nextToken_first f bytes pos rp d _ hdrop hdlt hdsp]
  have hmem : (d : Int) ∈ ([0x2B, 0x2D, 0x30, 0x31, 0x32, 0x33, 0x34, 0x35, 0x36, 0x37, 0x38, 0x39] : List Int) := by
    simp; omega
  have n1 : ¬ ((d : Int) = 0x7B) := by omega
  have n2 : ¬ ((d : Int) = 0x7D) := by omega
  have n3 : ¬ ((d : Int) = 0x5B) := by omega
  have n4 : ¬ ((d : Int) = 0x5D) := by omega
  have n5 : ¬ ((d : Int) = 0x3A) := by omega
  have n6 : ¬ ((d : Int) = 0x2C) := by omega
  have n7 : ¬ ((d : Int) = 0x6E) := by omega
  have n8 : ¬ ((d : Int) = 0x74 ∨ (d : Int) = 0x66) := by omega
  have n9 : ¬ ((d : Int) = 0x22) := by omega
  unfold nextToken.dispatch
  simp only [n1, n2, n3, n4, n5, n6, n7, n8, n9, if_false, hmem, if_true]
  unfold moveToNumberTokenEnd nextToken.finish
  rw [moveToNumberTokenEnd_loop_digits bytes c suf hlast hc hcd hc1 hc2 hc3 ds (f + 2) (pos + 1)
    (rp + 1) (d : Int) 0 hds hdig hdsp (drop_cons_succ hdrop) (by omega)]
  simp
  constructor <;> omega

theorem parse_loop_step {σ : Type} (S : PositionalRuneScanner σ) (content : σ → List Nat)
    (fuel n : Nat) (st st1 : ParseState σ) (hp : st.prevToken ≠ EOF)
    (h : parseStep S content fuel st = Res.ok st1) :
    parse.loop S content fuel (n + 1) st = parse.loop S content fuel n st1 := by
  rw [parse.loop]
  simp [hp, h]

theorem parse_loop_done {σ : Type} (S : PositionalRuneScanner σ) (content : σ → List Nat)
    (fuel n : Nat) (st : ParseState σ) (hp : st.prevToken = EOF) :
    parse.loop S content fuel (n + 1) st = Res.ok (Tree.mk st.root st.heap (content st.reader)) := by
  rw [parse.loop]
  simp [hp]

/-- The loop body of `parse` once `nextToken` has given a token without error. -/
theorem parseStep_token {σ : Type} (S : PositionalRuneScanner σ) (content : σ → List Nat)
    (fuel : Nat) (st st1 : ParseState σ) (tk : Token) (r1 : σ)
    (h : nextToken S fuel st.reader = Res.ok (tk, r1)) (he : tk.err = none)
    (hv : validateTokenOrder tk.token st.prevToken st.parentStack = none)
    (hs : parseSwitch content tk { st with reader := r1 } = Res.ok st1) :
    parseStep S content fuel st =
      Res.ok { st1 with root := if st1.l = 0 then st1.j else st1.root, prevToken := tk.token } := by
  unfold parseStep
  simp [h, he, hv, hs]

/-! ### Decimal renderings -/

theorem digitChar_toNat : ∀ d, d < 10 → (Nat.digitChar d).toNat = 48 + d := by
  decide

theorem toDigitsCore_spec : ∀ (fuel n : Nat) (ds : List Char), n < fuel →
    ∃ pre : List Char, Nat.toDigitsCore 10 fuel n ds = pre ++ ds ∧ pre ≠ [] ∧
      (∀ c ∈ pre, 48 ≤ c.toNat ∧ c.toNat ≤ 57) ∧
      ∀ rest, atoiDigits (pre.map Char.toNat ++ rest) 0 = atoiDigits rest n := by
  intro fuel
  induction fuel with
  | zero => intro n ds h; omega
  | succ f ih =>
    intro n ds h
    have hmod : n % 10 < 10 := Nat.mod_lt _ (by decide)
    have hdc := digitChar_toNat (n % 10) hmod
    rw [Nat.toDigitsCore]
    by_cases h0 : n / 10 = 0
    · simp only [h0, if_true]
      refine ⟨[Nat.digitChar (n % 10)], rfl, by simp, ?_, ?_⟩
      · intro c hc
        simp at hc
        subst hc
        omega
      · intro rest
        have hn : n % 10 = n := Nat.mod_eq_of_lt (by omega)
        have hc1 : 48 ≤ (n % 10).digitChar.toNat ∧ (n % 10).digitChar.toNat ≤ 57 := by omega
        have hc2 : (n % 10).digitChar.toNat - 48 = n := by omega
        simp [atoiDigits, hc1, hc2]
    · simp only [h0, if_false]
      obtain ⟨pre, hpre, hne, hdig, hval⟩ := ih (n / 10) (Nat.digitChar (n % 10) :: ds) (by omega)
      refine ⟨pre ++ [Nat.digitChar (n % 10)], by simp [hpre], by simp, ?_, ?_⟩
      · intro c hc
        simp at hc
        rcases hc with hc | hc
        · exact hdig c hc
        · subst hc; omega
      · intro rest
        have := hval (Char.toNat (Nat.digitChar (n % 10)) :: rest)
        simp only [List.map_append, List.map_cons, List.map_nil, List.append_assoc,
          List.singleton_append]
        rw [this]
        have h2 : n / 10 * 10 + ((n % 10).digitChar.toNat - 48) = n := by omega
        have hc1 : 48 ≤ (n % 10).digitChar.toNat ∧ (n % 10).digitChar.toNat ≤ 57 := by omega
        simp [atoiDigits, hc1, h2]

theorem decimal_spec (n : Nat) :
    decimal n ≠ [] ∧ (∀ d ∈ decimal n, 48 ≤ d ∧ d ≤ 57) ∧
      ∀ rest, atoiDigits (decimal n ++ rest) 0 = atoiDigits rest n := by
  obtain ⟨pre, hpre, hne, hdig, hval⟩ := toDigitsCore_spec (n + 1) n [] (by omega)
  have hd : decimal n = pre.map Char.toNat := by
    simp [decimal, Nat.toDigits, hpre]
  refine ⟨by simp [hd, hne], ?_, ?_⟩
  · intro d hdm
    rw [hd] at hdm
    simp at hdm
    obtain ⟨c, hc, rfl⟩ := hdm
    exact hdig c hc
  · intro rest; rw [hd]; exact hval rest

theorem atoiDigits_le : ∀ (ds : List Nat) (a v : Nat), atoiDigits ds a = some v → a ≤ v := by
  intro ds
  induction ds with
  | nil => intro a v h; simp [atoiDigits] at h; omega
  | cons ch rest ih =>
    intro a v h
    rw [atoiDigits] at h
    split at h
    · have := ih _ _ h
      omega
    · cases h

/-- On digits whose value fits 64 bits the loop of `ParseUint` gives that value. -/
theorem parseUintDigits_of_atoiDigits : ∀ (ds : List Nat) (a v : Nat),
    atoiDigits ds a = some v → v ≤ 2 ^ 64 - 1 → parseUintDigits ds a = (v, none) := by
  intro ds
  induction ds with
  | nil => intro a v h _; simp [atoiDigits] at h; simp [parseUintDigits, h]
  | cons ch rest ih =>
    intro a v h hv
    rw [atoiDigits] at h
    split at h
    · rename_i hd
      have hle := atoiDigits_le _ _ _ h
      rw [parseUintDigits]
      have h1 : ¬ ¬ (48 ≤ ch ∧ ch ≤ 57) := by simpa using hd
      have h2 : ¬ (a ≥ (2 ^ 64 - 1) / 10 + 1) := by omega
      have h3 : ¬ (a * 10 + (ch - 48) > 2 ^ 64 - 1) := by omega
      rw [if_neg h1, if_neg h2, if_neg h3]
      exact ih _ _ h hv
    · cases h

theorem Atoi_decimal (n : Nat) (h : n < 2 ^ 63) : Atoi (decimal n) = ((n : Int), none) := by
  obtain ⟨hne, hdig, hval⟩ := decimal_spec n
  have hv := hval []
  simp only [List.append_nil, atoiDigits] at hv
  obtain ⟨d, ds, hd⟩ : ∃ d ds, decimal n = d :: ds := by
    cases hx : decimal n with
    | nil => exact absurd hx hne
    | cons d ds => exact ⟨d, ds, rfl⟩
  have hd0 := hdig d (by rw [hd]; simp)
  have hu := parseUintDigits_of_atoiDigits (decimal n) 0 n hv (by omega)
  rw [hd] at hv hu
  have e1 : ¬ (d = 0x2D) := by omega
  have e2 : ¬ (d = 0x2B) := by omega
  have hc : ¬ (d :: ds = []) := by simp
  unfold Atoi
  rw [hd]
  simp only [List.head?_cons, Option.some.injEq, e1, e2, or_self, if_false, hc, hv, hu]
  split
  · rfl
  · have h1 : ¬ ((none : Option Err) = some Err.ErrSyntax) := by simp
    have h2 : ¬ (n ≥ 2 ^ 63) := by omega
    rw [if_neg h1, if_neg h2]

/-! ### Parsing an array of numbers -/

theorem restText_head (ms : List Nat) :
    ∃ c suf, restText ms = c :: suf ∧ (c = 0x2C ∨ c = 0x5D) := by
  cases ms with
  | nil => exact ⟨0x5D, [], rfl, Or.inr rfl⟩
  | cons m ms => exact ⟨0x2C, _, rfl, Or.inl rfl⟩

theorem goSlice_of_drop (bytes : List Nat) (pos : Nat) (tok suf : List Nat)
    (h : bytes.drop pos = tok ++ suf) (hne : tok ≠ []) :
    goSlice bytes (pos : Int) ((pos + tok.length : Nat) : Int) = some tok := by
  have hlen : pos + tok.length ≤ bytes.length := by
    have := congrArg List.length h
    have hl : 0 < tok.length := List.length_pos.2 hne
    simp at this
    omega
  unfold goSlice
  have h1 : (0 : Int) ≤ (pos : Int) ∧ (pos : Int) ≤ ((pos + tok.length : Nat) : Int) ∧
      ((pos + tok.length : Nat) : Int) ≤ (bytes.length : Int) := by
    refine ⟨by omega, by omega, by omega⟩
  rw [if_pos h1]
  have h2 : (((pos + tok.length : Nat) : Int) - (pos : Int)).toNat = tok.length := by omega
  simp [h2, h]

/-- One element: a number token read in an open array at depth one. -/
theorem parseStep_array_number (bytes : List Nat) (hlast : (DecodeLastRune bytes).2 = 1)
    (A : Json) (T : List Json) (prev : Int) (key : List Nat) (root j : Option Nat)
    (pos : Nat) (rp : Int) (fuel : Nat) (m : Nat) (c : Nat) (suf : List Nat)
    (hc : c = 0x2C ∨ c = 0x5D)
    (hdrop : bytes.drop pos = decimal m ++ c :: suf) (hfuel : bytes.length + 2 ≤ fuel) :
    parseStep utf8Scanner (fun _ => bytes) fuel
        (ParseState.mk (A :: T) [none, some 0] 1 prev key false root j ⟨bytes, (pos : Int), rp⟩) =
      Res.ok (ParseState.mk
        ({ A with arrayItems := A.arrayItems ++ [T.length + 1] } ::
          (T ++ [Json.mk pos ((pos + (decimal m).length : Nat) : Int) (some 0) [] [] NUMBER]))
        [none, some 0] 1 NUMBER_T key false root (some (T.length + 1))
        ⟨bytes, ((pos + (decimal m).length : Nat) : Int), rp + (decimal m).length⟩) := by
  obtain ⟨hne, hdig, -⟩ := decimal_spec m
  obtain ⟨d, ds, hd⟩ : ∃ d ds, decimal m = d :: ds := by
    cases hx : decimal m with
    | nil => exact absurd hx hne
    | cons d ds => exact ⟨d, ds, rfl⟩
  rw [hd] at hdrop hdig ⊢
  have hlen : ds.length + 2 ≤ fuel := by
    have := congrArg List.length hdrop
    simp at this
    omega
  have hclt : c < 0x80 := by rcases hc with h | h <;> omega
  have hcd : IsDigit (c : Int) = false := by rcases hc with h | h <;> subst h <;> decide
  have htok := nextToken_number bytes c suf hlast hclt hcd (by rcases hc with h | h <;> omega)
    (by rcases hc with h | h <;> omega) (by rcases hc with h | h <;> omega) d ds fuel pos rp
    (hdig d (List.mem_cons_self _ _)) (fun x hx => hdig x (List.mem_cons_of_mem _ hx)) hdrop hlen
  unfold parseStep
  simp only [htok]
  simp [validateTokenOrder, parseSwitch, parseSwitch.isKey, parseSwitch.close,
    parseSwitch.value, parseSwitch.attach, NUMBER_T, STRING_T, EOF, COLON, SEP, END_ARR, END_OBJ,
    BEGIN_ARR, BEGIN_OBJ, updateNode]

theorem parseStep_array_sep (bytes : List Nat)
    (H : List Json) (prev : Int) (key : List Nat) (root j : Option Nat)
    (pos : Nat) (rp : Int) (fuel : Nat) (suf : List Nat)
    (hdrop : bytes.drop pos = 0x2C :: suf) (hfuel : 2 ≤ fuel) :
    parseStep utf8Scanner (fun _ => bytes) fuel
        (ParseState.mk H [none, some 0] 1 prev key false root j ⟨bytes, (pos : Int), rp⟩) =
      Res.ok (ParseState.mk H [none, some 0] 1 SEP key false root j
        ⟨bytes, ((pos + 1 : Nat) : Int), rp + 1⟩) := by
  obtain ⟨f, rfl⟩ : ∃ f, fuel = f + 2 := ⟨fuel - 2, by omega⟩
  have htok := nextToken_first f bytes pos rp 0x2C suf hdrop (by decide) (by decide)
  unfold parseStep
  simp only [htok]
  simp [nextToken.dispatch, nextToken.finish, validateTokenOrder, parseSwitch, parseSwitch.isKey,
    parseSwitch.close, parseSwitch.value, parseSwitch.attach, NUMBER_T, STRING_T, EOF, COLON, SEP,
    END_ARR, END_OBJ, BEGIN_ARR, BEGIN_OBJ]

theorem parseStep_array_close (bytes : List Nat)
    (A : Json) (T : List Json) (prev : Int) (key : List Nat) (root j : Option Nat)
    (pos : Nat) (rp : Int) (fuel : Nat) (suf : List Nat)
    (hdrop : bytes.drop pos = 0x5D :: suf) (hfuel : 2 ≤ fuel) :
    parseStep utf8Scanner (fun _ => bytes) fuel
        (ParseState.mk (A :: T) [none, some 0] 1 prev key false root j ⟨bytes, (pos : Int), rp⟩) =
      Res.ok (ParseState.mk ({ A with end_ := ((pos + 1 : Nat) : Int) } :: T) [none] 0 END_ARR key
        false (some 0) (some 0) ⟨bytes, ((pos + 1 : Nat) : Int), rp + 1⟩) := by
  obtain ⟨f, rfl⟩ : ∃ f, fuel = f + 2 := ⟨fuel - 2, by omega⟩
  have htok := nextToken_first f bytes pos rp 0x5D suf hdrop (by decide) (by decide)
  unfold parseStep
  simp only [htok]
  simp [nextToken.dispatch, nextToken.finish, validateTokenOrder, parseSwitch, parseSwitch.isKey,
    parseSwitch.close, parseSwitch.value, parseSwitch.attach, NUMBER_T, STRING_T, EOF, COLON, SEP,
    END_ARR, END_OBJ, BEGIN_ARR, BEGIN_OBJ, updateNode]

theorem parseStep_top_eof (bytes : List Nat)
    (H : List Json) (prev : Int) (key : List Nat) (keyAva : Bool) (root j : Option Nat)
    (pos : Nat) (rp : Int) (fuel : Nat)
    (hend : bytes.length ≤ pos) (hfuel : 1 ≤ fuel) :
    parseStep utf8Scanner (fun _ => bytes) fuel
        (ParseState.mk H [none] 0 prev key keyAva root j ⟨bytes, (pos : Int), rp⟩) =
      Res.ok (ParseState.mk H [none] 0 EOF key keyAva j j ⟨bytes, (pos : Int), rp⟩) := by
  obtain ⟨f, rfl⟩ : ∃ f, fuel = f + 1 := ⟨fuel - 1, by omega⟩
  have htok := nextToken_eof f bytes pos rp hend
  unfold parseStep
  simp only [htok]
  simp [validateTokenOrder, parseSwitch, parseSwitch.isKey, parseSwitch.close,
    parseSwitch.value, parseSwitch.attach, NUMBER_T, STRING_T, EOF, COLON, SEP,
    END_ARR, END_OBJ, BEGIN_ARR, BEGIN_OBJ]

theorem parseStep_top_open_array (bytes : List Nat)
    (prev : Int) (key : List Nat) (root j : Option Nat)
    (pos : Nat) (rp : Int) (fuel : Nat) (suf : List Nat)
    (hdrop : bytes.drop pos = 0x5B :: suf) (hfuel : 2 ≤ fuel) :
    parseStep utf8Scanner (fun _ => bytes) fuel
        (ParseState.mk [] [none] 0 prev key false root j ⟨bytes, (pos : Int), rp⟩) =
      Res.ok (ParseState.mk [Json.mk pos ((pos + 1 : Nat) : Int) none [] [] ARRAY] [none, some 0] 1
        BEGIN_ARR key false root (some 0) ⟨bytes, ((pos + 1 : Nat) : Int), rp + 1⟩) := by
  obtain ⟨f, rfl⟩ : ∃ f, fuel = f + 2 := ⟨fuel - 2, by omega⟩
  have htok := nextToken_first f bytes pos rp 0x5B suf hdrop (by decide) (by decide)
  unfold parseStep
  simp only [htok]
  simp [nextToken.dispatch, nextToken.finish, validateTokenOrder, parseSwitch, parseSwitch.isKey,
    parseSwitch.close, parseSwitch.value, parseSwitch.attach, NUMBER_T, STRING_T, EOF, COLON, SEP,
    END_ARR, END_OBJ, BEGIN_ARR, BEGIN_OBJ, updateNode]

theorem parse_array_rest (bytes : List Nat) (hlast : (DecodeLastRune bytes).2 = 1) :
    ∀ (ms : List Nat) (A : Json) (T : List Json) (prev : Int) (key : List Nat)
      (root j : Option Nat) (pos : Nat) (rp : Int) (fuel n : Nat),
      bytes.drop pos = restText ms → prev ≠ EOF → bytes.length + 2 ≤ fuel →
      2 * ms.length + 3 ≤ n →
      ∃ (A1 : Json) (N : List Json),
        parse.loop utf8Scanner (fun _ => bytes) fuel n
          (ParseState.mk (A :: T) [none, some 0] 1 prev key false root j
            ⟨bytes, (pos : Int), rp⟩) = Res.ok (Tree.mk (some 0) (A1 :: (T ++ N)) bytes) ∧
        A1.jtype = A.jtype ∧
        A1.arrayItems = A.arrayItems ++ List.range' (T.length + 1) ms.length ∧
        N.length = ms.length ∧
        ∀ (i v : Nat), ms[i]? = some v →
          ∃ e, N[i]? = some e ∧ e.jtype = NUMBER ∧
            goSlice bytes e.start e.end_ = some (decimal v) := by
  intro ms
  induction ms with
  | nil =>
    intro A T prev key root j pos rp fuel n hdrop hprev hfuel hn
    obtain ⟨k, rfl⟩ : ∃ k, n = k + 3 := ⟨n - 3, by omega⟩
    simp only [restText] at hdrop
    have hend : bytes.length ≤ pos + 1 := by
      have := congrArg List.length hdrop
      simp at this
      omega
    refine ⟨{ A with end_ := ((pos + 1 : Nat) : Int) }, [], ?_, rfl, by simp, rfl, by simp⟩
    have hne : (END_ARR : Int) ≠ EOF := by decide
    rw [parse_loop_step _ _ _ _ _ _ hprev
      (parseStep_array_close bytes A T prev key root j pos rp fuel [] hdrop (by omega))]
    rw [parse_loop_step _ _ _ _ _ _ hne
      (parseStep_top_eof bytes _ END_ARR key false (some 0) (some 0) (pos + 1) (rp + 1) fuel hend
        (by omega))]
    rw [parse_loop_done _ _ _ _ _ rfl]
    simp
  | cons m ms ih =>
    intro A T prev key root j pos rp fuel n hdrop hprev hfuel hn
    obtain ⟨k, rfl⟩ : ∃ k, n = k + 2 := ⟨n - 2, by simp at hn; omega⟩
    simp only [restText] at hdrop
    obtain ⟨c, suf, hrest, hc⟩ := restText_head ms
    have hdrop1 : bytes.drop (pos + 1) = decimal m ++ restText ms := drop_cons_succ hdrop
    have hdrop2 : bytes.drop (pos + 1 + (decimal m).length) = restText ms := by
      rw [← List.drop_drop, hdrop1, List.drop_left]
    rw [parse_loop_step _ _ _ _ _ _ hprev
      (parseStep_array_sep bytes (A :: T) prev key root j pos rp fuel _ hdrop (by omega))]
    have hne1 : (SEP : Int) ≠ EOF := by decide
    have hne2 : (NUMBER_T : Int) ≠ EOF := by decide
    rw [parse_loop_step _ _ _ _ _ _ hne1
      (parseStep_array_number bytes hlast A T SEP key root j (pos + 1) (rp + 1) fuel m c suf hc
        (by rw [hdrop1, hrest]) hfuel)]
    obtain ⟨A1, N, hrun, hty, hitems, hlen, hnodes⟩ :=
      ih { A with arrayItems := A.arrayItems ++ [T.length + 1] }
        (T ++ [Json.mk ((pos + 1 : Nat) : Int) ((pos + 1 + (decimal m).length : Nat) : Int)
          (some 0) [] [] NUMBER])
        NUMBER_T key root (some (T.length + 1)) (pos + 1 + (decimal m).length)
        (rp + 1 + (decimal m).length) fuel k hdrop2 hne2 hfuel (by simp at hn; omega)
    refine ⟨A1, Json.mk ((pos + 1 : Nat) : Int) ((pos + 1 + (decimal m).length : Nat) : Int)
          (some 0) [] [] NUMBER :: N, ?_, hty, ?_, by simp [hlen], ?_⟩
    · rw [hrun]; simp
    · rw [hitems]
      simp [List.range'_succ]
    · intro i v hi
      cases i with
      | zero =>
        simp at hi
        subst hi
        refine ⟨Json.mk ((pos + 1 : Nat) : Int) ((pos + 1 + (decimal m).length : Nat) : Int)
          (some 0) [] [] NUMBER, by simp, rfl, ?_⟩
        exact goSlice_of_drop bytes (pos + 1) (decimal m) (restText ms) hdrop1 (decimal_spec m).1
      | succ i =>
        simp at hi
        simpa using hnodes i v hi

theorem restText_length (ms : List Nat) : 2 * ms.length + 1 ≤ (restText ms).length := by
  induction ms with
  | nil => simp [restText]
  | cons m ms ih =>
    have := List.length_pos.2 (decimal_spec m).1
    simp [restText]
    omega

theorem Join_decimal_rest (m : Nat) (ms : List Nat) :
    Join ((m :: ms).map decimal) [0x2C] ++ [0x5D] = decimal m ++ restText ms := by
  induction ms generalizing m with
  | nil => simp [Join, restText]
  | cons m2 ms ih =>
    have := ih m2
    simp only [List.map_cons] at this ⊢
    simp only [Join, List.append_assoc, restText]
    rw [this]
    simp

theorem arrayText_nil : arrayText [] = [0x5B] ++ restText [] := by
  simp [arrayText, Join, restText]

theorem arrayText_cons (m : Nat) (ms : List Nat) :
    arrayText (m :: ms) = 0x5B :: (decimal m ++ restText ms) := by
  unfold arrayText
  rw [List.append_assoc, Join_decimal_rest]
  rfl

theorem arrayText_last (ns : List Nat) : (DecodeLastRune (arrayText ns)).2 = 1 := by
  unfold arrayText
  rw [DecodeLastRune_ascii _ 0x5D (by decide)]

theorem AsInt_of_slice (content : List Nat) (e : Json) (v : Nat) (hv : v < 2 ^ 63)
    (hty : e.jtype = NUMBER) (hs : goSlice content e.start e.end_ = some (decimal v)) :
    e.AsInt content = Res.ok ((v : Int), none) := by
  unfold Json.AsInt Json.IsNumber
  simp [hty, hs, Atoi_decimal v hv]

/-- C1. For every finite list `ns` of natural numbers below `2^63`, `ParseUTF8` applied
to `[`, the decimal renderings of `ns` joined by `,`, and `]` returns no error (with
fuel above the length of the text); the root is an array, `ArrayItems()` has exactly
`len(ns)` elements, and `AsInt` of the `i`-th element returns `ns[i]` without error. -/
theorem ParseUTF8_number_array (ns : List Nat) (hns : ∀ n ∈ ns, n < 2 ^ 63) (fuel : Nat)
    (hfuel : (arrayText ns).length + 2 ≤ fuel) :
    ∃ (t : Tree) (r : Nat) (root : Json),
      ParseUTF8 fuel (arrayText ns) = Res.ok t ∧ t.root = some r ∧ t.heap[r]? = some root ∧
      root.IsArray = true ∧ root.ArrayItems.length = ns.length ∧
      ∀ (i v : Nat), ns[i]? = some v →
        ∃ (p : Nat) (e : Json), root.ArrayItems[i]? = some p ∧ t.heap[p]? = some e ∧
          e.AsInt t.content = Res.ok ((v : Int), none) := by
  have hlast := arrayText_last ns
  have hne0 : (BEGIN_ARR : Int) ≠ EOF := by decide
  have hne1 : ((-1 : Int)) ≠ EOF := by decide
  have hne2 : (NUMBER_T : Int) ≠ EOF := by decide
  cases ns with
  | nil =>
    have htext := arrayText_nil
    obtain ⟨k, rfl⟩ : ∃ k, fuel = k + 1 := ⟨fuel - 1, by omega⟩
    have hlen : (arrayText []).length = 2 := by rw [htext]; rfl
    have hd0 : (arrayText []).drop 0 = 0x5B :: restText [] := by rw [htext]; rfl
    have hd1 : (arrayText []).drop 1 = restText [] := by rw [htext]; rfl
    obtain ⟨A1, N, hrun, hty, hitems, hlenN, -⟩ :=
      parse_array_rest (arrayText []) hlast [] (Json.mk ((0 : Nat) : Int) ((0 + 1 : Nat) : Int) none [] [] ARRAY) []
        BEGIN_ARR [] none (some 0) 1 ((0 : Int) + 1) (k + 1) k hd1 hne0 (by omega) (by simp; omega)
    refine ⟨Tree.mk (some 0) (A1 :: ([] ++ N)) (arrayText []), 0, A1, ?_, rfl, by simp, ?_, ?_, ?_⟩
    · unfold ParseUTF8 parse parseInit
      change parse.loop utf8Scanner _ _ _
        (ParseState.mk [] [none] 0 (-1) [] false none none ⟨_, ((0 : Nat) : Int), 0⟩) = _
      rw [parse_loop_step _ _ _ _ _ _ hne1
        (parseStep_top_open_array (arrayText []) (-1) [] none none 0 0 (k + 1) _ hd0 (by omega))]
      exact hrun
    · simp [Json.IsArray, hty]
    · simp [Json.ArrayItems, hitems]
    · intro i v hi; simp at hi
  | cons m ms =>
    have htext := arrayText_cons m ms
    obtain ⟨k, rfl⟩ : ∃ k, fuel = k + 2 := ⟨fuel - 2, by omega⟩
    have hrl := restText_length ms
    have hdl := List.length_pos.2 (decimal_spec m).1
    have hlen : (arrayText (m :: ms)).length = 1 + (decimal m).length + (restText ms).length := by
      rw [htext]; simp; omega
    have hd0 : (arrayText (m :: ms)).drop 0 = 0x5B :: (decimal m ++ restText ms) := by
      rw [htext]; rfl
    have hd1 : (arrayText (m :: ms)).drop (0 + 1) = decimal m ++ restText ms := by rw [htext]; rfl
    have hd2 : (arrayText (m :: ms)).drop (0 + 1 + (decimal m).length) = restText ms := by
      rw [← List.drop_drop, hd1, List.drop_left]
    obtain ⟨c, suf, hrest, hc⟩ := restText_head ms
    obtain ⟨A1, N, hrun, hty, hitems, hlenN, hnodes⟩ :=
      parse_array_rest (arrayText (m :: ms)) hlast ms
        { (Json.mk ((0 : Nat) : Int) ((0 + 1 : Nat) : Int) none [] [] ARRAY) with
          arrayItems := [] ++ [([] : List Json).length + 1] }
        ([] ++ [Json.mk ((0 + 1 : Nat) : Int) ((0 + 1 + (decimal m).length : Nat) : Int) (some 0) [] []
          NUMBER])
        NUMBER_T [] none (some (([] : List Json).length + 1)) (0 + 1 + (decimal m).length)
        ((0 : Int) + 1 + (decimal m).length) (k + 2) k hd2 hne2 (by omega) (by omega)
    refine ⟨Tree.mk (some 0) (A1 :: (([] ++ [Json.mk ((0 + 1 : Nat) : Int)
      ((0 + 1 + (decimal m).length : Nat) : Int) (some 0) [] [] NUMBER]) ++ N))
      (arrayText (m :: ms)), 0, A1, ?_, rfl, by simp, ?_, ?_, ?_⟩
    · unfold ParseUTF8 parse parseInit
      change parse.loop utf8Scanner _ _ _
        (ParseState.mk [] [none] 0 (-1) [] false none none ⟨_, ((0 : Nat) : Int), 0⟩) = _
      rw [parse_loop_step _ _ _ _ _ _ hne1
        (parseStep_top_open_array (arrayText (m :: ms)) (-1) [] none none 0 0 (k + 2) _ hd0
          (by omega))]
      rw [parse_loop_step _ _ _ _ _ _ hne0
        (parseStep_array_number (arrayText (m :: ms)) hlast _ [] BEGIN_ARR [] none (some 0) (0 + 1)
          ((0 : Int) + 1) (k + 2) m c suf hc (by rw [hd1, hrest]) (by omega))]
      exact hrun
    · simp [Json.IsArray, hty]
    · simp [Json.ArrayItems, hitems]
    · intro i v hi
      have hv : v < 2 ^ 63 := hns v (List.getElem?_mem hi)
      have hitem : A1.ArrayItems[i]? = some (i + 1) := by
        have hil : i < ms.length + 1 := by
          obtain ⟨h1, -⟩ := List.getElem?_eq_some_iff.1 hi
          simpa using h1
        simp only [Json.ArrayItems, hitems]
        cases i with
        | zero => simp
        | succ i =>
          simp
          rw [List.getElem?_range' _ _ (by omega)]
          simp; omega
      cases i with
      | zero =>
        simp at hi
        subst hi
        refine ⟨1, Json.mk ((0 + 1 : Nat) : Int) ((0 + 1 + (decimal m).length : Nat) : Int)
          (some 0) [] [] NUMBER, hitem, by simp, ?_⟩
        apply AsInt_of_slice _ _ _ hv rfl
        exact goSlice_of_drop _ (0 + 1) (decimal m) (restText ms) hd1 (decimal_spec m).1
      | succ i =>
        simp at hi
        obtain ⟨e, he, hety, hes⟩ := hnodes i v hi
        refine ⟨i + 1 + 1, e, hitem, ?_, AsInt_of_slice _ _ _ hv hety hes⟩
        simpa using he

/-- Witness for C1 at the list 1, 2, 3, 4, whose text is `[1,2,3,4]`. -/
theorem ParseUTF8_number_array_witness :
    (∀ n ∈ [1, 2, 3, 4], n < 2 ^ 63) ∧ arrayText [1, 2, 3, 4] = textArray1234 ∧
    ∃ (t : Tree) (r : Nat) (root : Json),
      ParseUTF8 11 (arrayText [1, 2, 3, 4]) = Res.ok t ∧ t.root = some r ∧
      t.heap[r]? = some root ∧ root.IsArray = true ∧
      root.ArrayItems.length = [1, 2, 3, 4].length ∧
      ∀ (i v : Nat), [1, 2, 3, 4][i]? = some v →
        ∃ (p : Nat) (e : Json), root.ArrayItems[i]? = some p ∧ t.heap[p]? = some e ∧
          e.AsInt t.content = Res.ok ((v : Int), none) :=
  ⟨by decide, by decide, ParseUTF8_number_array [1, 2, 3, 4] (by decide) 11 (by decide)⟩

/-! ### The parser keeps its state well formed -/

theorem updateNode_length (heap heap1 : List Json) (p : Nat) (f : Json → Json)
    (h : updateNode heap p f = some heap1) : heap1.length = heap.length := by
  unfold updateNode at h
  split at h
  · simp at h; subst h; simp
  · simp at h

theorem updateNode_isSome (heap : List Json) (p : Nat) (f : Json → Json) (h : p < heap.length) :
    ∃ heap1, updateNode heap p f = some heap1 := by
  unfold updateNode
  rw [List.getElem?_eq_getElem h]
  exact ⟨_, rfl⟩

theorem parseSwitch_close_inv {σ : Type} (tk : Token) (st st1 : ParseState σ)
    (inv : ParseInv st) (h : parseSwitch.close tk st = Res.ok st1) :
    ParseInv st1 ∧ st1.root = st.root ∧ st1.reader = st.reader ∧
      st1.prevToken = st.prevToken ∧ st1.l + 1 = st.l := by
  unfold parseSwitch.close at h
  cases hs : st.parentStack[st.l]? with
  | none => simp [hs] at h
  | some top =>
    cases top with
    | none => simp [hs] at h
    | some p =>
      have hp := inv.valid _ _ hs
      have hl : 1 ≤ st.l := by
        by_contra hc
        have h0 : st.l = 0 := by omega
        rw [h0, inv.bottom] at hs
        simp at hs
      obtain ⟨heap1, hu⟩ := updateNode_isSome st.heap p (fun n => { n with end_ := tk.end_ }) hp
      have hlen := updateNode_length _ _ _ _ hu
      simp only [hs, hu] at h
      simp at h
      subst h
      have hlen2 := inv.len
      refine ⟨⟨?_, ?_, ?_, ?_, ?_, ?_, ?_⟩, rfl, rfl, rfl, ?_⟩
      · simp [List.length_take]; omega
      · simp only [List.getElem?_take]
        rw [if_pos (by omega)]
        exact inv.bottom
      · intro i q hi
        simp only [List.getElem?_take] at hi
        split at hi
        · rw [hlen]; exact inv.valid i q hi
        · simp at hi
      · intro i h1 h2
        simp only [List.getElem?_take]
        simp at h2
        rw [if_pos (by omega)]
        exact inv.opened i h1 (by omega)
      · constructor
        · intro hj; simp at hj
        · intro hh
          simp at hh
          rw [hh] at hlen
          simp at hlen
          omega
      · intro q hq
        simp at hq
        subst hq
        rw [hlen]; exact hp
      · intro q hq
        rw [hlen]; exact inv.rootvalid q hq
      · simp; omega

theorem parseSwitch_attach_length {σ : Type} (st : ParseState σ) (heap1 heap2 : List Json)
    (par : Option Nat) (p : Nat) (k : Bool)
    (h : parseSwitch.attach st heap1 par p = some (heap2, k)) : heap2.length = heap1.length := by
  unfold parseSwitch.attach at h
  split at h
  · cases par with
    | none => simp at h
    | some q =>
      simp at h
      obtain ⟨a, ha, rfl, -⟩ := h
      exact updateNode_length _ _ _ _ ha
  · split at h
    · cases par with
      | none => simp at h
      | some q =>
        simp at h
        obtain ⟨a, ha, rfl, -⟩ := h
        exact updateNode_length _ _ _ _ ha
    · simp at h
      rw [h.1]

theorem parseSwitch_value_inv {σ : Type} (tk : Token) (st st1 : ParseState σ)
    (inv : ParseInv st) (h : parseSwitch.value tk st = Res.ok st1) :
    ParseInv st1 ∧ st1.root = st.root ∧ st1.reader = st.reader ∧
      st1.prevToken = st.prevToken ∧
      st1.l = (if tk.token = BEGIN_ARR ∨ tk.token = BEGIN_OBJ then st.l + 1 else st.l) := by
  unfold parseSwitch.value at h
  cases hs : st.parentStack[st.l]? with
  | none => simp [hs] at h
  | some par =>
    simp only [hs] at h
    cases ha : parseSwitch.attach st
        (st.heap ++ [Json.mk tk.start tk.end_ par [] [] tk.jtype]) par st.heap.length with
    | none => simp [ha] at h
    | some res =>
      obtain ⟨heap2, keyAva2⟩ := res
      have hlen := parseSwitch_attach_length _ _ _ _ _ _ ha
      simp at hlen
      simp only [ha] at h
      have hne : heap2 ≠ [] := by
        intro hh; rw [hh] at hlen; simp at hlen
      have hlen2 := inv.len
      by_cases hb : tk.token = BEGIN_ARR ∨ tk.token = BEGIN_OBJ
      · simp only [hb, if_true] at h ⊢
        simp at h
        subst h
        refine ⟨⟨?_, ?_, ?_, ?_, ?_, ?_, ?_⟩, rfl, rfl, rfl, rfl⟩
        · simp; omega
        · simp only []
          rw [List.getElem?_append_left (by omega)]
          exact inv.bottom
        · intro i q hi
          simp only [] at hi ⊢
          by_cases hlt : i < st.parentStack.length
          · rw [List.getElem?_append_left hlt] at hi
            have := inv.valid i q hi
            omega
          · rw [List.getElem?_append_right (by omega)] at hi
            have hi0 : i - st.parentStack.length = 0 := by
              by_contra hc
              rw [List.getElem?_eq_none (by simp; omega)] at hi
              simp at hi
            rw [hi0] at hi
            simp at hi
            omega
        · intro i h1 h2
          simp only [] at h2 ⊢
          by_cases hlt : i ≤ st.l
          · rw [List.getElem?_append_left (by omega)]
            exact inv.opened i h1 hlt
          · have hi : i = st.parentStack.length := by omega
            subst hi
            rw [List.getElem?_append_right (by omega)]
            simp
        · simp [hne]
        · intro q hq
          simp at hq
          subst hq
          simp only []
          omega
        · intro q hq
          have := inv.rootvalid q hq
          simp only [] at this ⊢
          omega
      · simp only [hb, if_false] at h ⊢
        simp at h
        subst h
        refine ⟨⟨inv.len, inv.bottom, ?_, inv.opened, ?_, ?_, ?_⟩, rfl, rfl, rfl, rfl⟩
        · intro i q hi
          have := inv.valid i q hi
          simp only [] at this ⊢
          omega
        · simp [hne]
        · intro q hq
          simp at hq
          subst hq
          simp only []
          omega
        · intro q hq
          have := inv.rootvalid q hq
          simp only [] at this ⊢
          omega

theorem parseSwitch_isKey_token {σ : Type} (tk : Token) (st : ParseState σ)
    (h : parseSwitch.isKey tk st = Res.ok true) : tk.token = STRING_T := by
  unfold parseSwitch.isKey at h
  split at h
  · rename_i hc; exact hc.1
  · simp at h

theorem parseSwitch_inv {σ : Type} (content : σ → List Nat) (tk : Token) (st st1 : ParseState σ)
    (inv : ParseInv st) (h : parseSwitch content tk st = Res.ok st1) :
    ParseInv st1 ∧ st1.root = st.root ∧ st1.reader = st.reader ∧
      st1.prevToken = st.prevToken ∧
      st1.l + (if tk.token = END_ARR ∨ tk.token = END_OBJ then 1 else 0) =
        st.l + (if tk.token = BEGIN_ARR ∨ tk.token = BEGIN_OBJ then 1 else 0) ∧
      (tk.token = EOF → st1.j = st.j) := by
  unfold parseSwitch at h
  cases hk : parseSwitch.isKey tk st with
  | ok b =>
    cases b with
    | true =>
      have ht := parseSwitch_isKey_token tk st hk
      simp only [hk] at h
      cases hg : goSlice (content st.reader) (tk.start + 1) (tk.end_ - 1) with
      | none => simp [hg] at h
      | some k =>
        simp [hg] at h
        subst h
        refine ⟨⟨inv.len, inv.bottom, inv.valid, inv.opened, inv.jnil, inv.jvalid, inv.rootvalid⟩,
          rfl, rfl, rfl, ?_, fun _ => rfl⟩
        simp [ht, STRING_T, END_ARR, END_OBJ, BEGIN_ARR, BEGIN_OBJ]
    | false =>
      simp only [hk] at h
      by_cases h1 : tk.token = EOF
      · simp [h1] at h
        subst h
        refine ⟨inv, rfl, rfl, rfl, ?_, fun _ => rfl⟩
        simp [h1, EOF, END_ARR, END_OBJ, BEGIN_ARR, BEGIN_OBJ]
      · simp only [h1, if_false] at h
        by_cases h2 : tk.token = COLON ∨ tk.token = SEP
        · simp [h2] at h
          subst h
          refine ⟨inv, rfl, rfl, rfl, ?_, fun _ => rfl⟩
          rcases h2 with h2 | h2 <;> simp [h2, COLON, SEP, END_ARR, END_OBJ, BEGIN_ARR, BEGIN_OBJ]
        · simp only [h2, if_false] at h
          by_cases h3 : tk.token = END_ARR ∨ tk.token = END_OBJ
          · simp only [h3, if_true] at h
            obtain ⟨i1, i2, i3, i4, i5⟩ := parseSwitch_close_inv tk st st1 inv h
            refine ⟨i1, i2, i3, i4, ?_, fun he => absurd he h1⟩
            have hnb : ¬ (tk.token = BEGIN_ARR ∨ tk.token = BEGIN_OBJ) := by
              rcases h3 with h3 | h3 <;> simp [h3, END_ARR, END_OBJ, BEGIN_ARR, BEGIN_OBJ]
            rw [if_pos h3, if_neg hnb]
            omega
          · simp only [h3, if_false] at h
            obtain ⟨i1, i2, i3, i4, i5⟩ := parseSwitch_value_inv tk st st1 inv h
            refine ⟨i1, i2, i3, i4, ?_, fun he => absurd he h1⟩
            rw [i5]
            split <;> simp
  | error e => simp [hk] at h
  | fault => simp [hk] at h
  | outOfFuel => simp [hk] at h

theorem ParseInv_reader {σ : Type} (st : ParseState σ) (r1 : σ) (inv : ParseInv st) :
    ParseInv { st with reader := r1 } :=
  ⟨inv.len, inv.bottom, inv.valid, inv.opened, inv.jnil, inv.jvalid, inv.rootvalid⟩

theorem ParseInv_init {σ : Type} (r : σ) : ParseInv (parseInit r) := by
  refine ⟨rfl, rfl, ?_, ?_, by simp [parseInit], ?_, ?_⟩
  · intro i p h
    cases i with
    | zero => simp [parseInit] at h
    | succ i => simp [parseInit] at h
  · intro i h1 h2
    simp [parseInit] at h2
    omega
  · intro p h; simp [parseInit] at h
  · intro p h; simp [parseInit] at h

theorem validateTokenOrder_eof (prev : Int) (ps : List (Option Nat))
    (h : validateTokenOrder EOF prev ps = none) : ps.length = 1 := by
  unfold validateTokenOrder at h
  by_contra hc
  have : ((ps.length : Int) - 1 ≠ 0) := by omega
  simp [this] at h

/-- What a successful run of the loop body gives: the token it read, and the state. -/
theorem parseStep_ok {σ : Type} (S : PositionalRuneScanner σ) (content : σ → List Nat)
    (fuel : Nat) (st st1 : ParseState σ) (h : parseStep S content fuel st = Res.ok st1) :
    ∃ (tk : Token) (r1 : σ) (st2 : ParseState σ),
      nextToken S fuel st.reader = Res.ok (tk, r1) ∧ tk.err = none ∧
      validateTokenOrder tk.token st.prevToken st.parentStack = none ∧
      parseSwitch content tk { st with reader := r1 } = Res.ok st2 ∧
      st1 = { st2 with root := if st2.l = 0 then st2.j else st2.root, prevToken := tk.token } := by
  unfold parseStep at h
  cases hn : nextToken S fuel st.reader with
  | ok res =>
    obtain ⟨tk, r1⟩ := res
    simp only [hn] at h
    cases he : tk.err with
    | some e => simp [he] at h
    | none =>
      simp only [he] at h
      cases hv : validateTokenOrder tk.token st.prevToken st.parentStack with
      | some e => simp [hv] at h
      | none =>
        simp only [hv] at h
        cases hs : parseSwitch content tk { st with reader := r1 } with
        | ok st2 =>
          simp only [hs] at h
          simp at h
          exact ⟨tk, r1, st2, rfl, he, hv, hs, h.symm⟩
        | error e => simp [hs] at h
        | fault => simp [hs] at h
        | outOfFuel => simp [hs] at h
  | error e => simp [hn] at h
  | fault => simp [hn] at h
  | outOfFuel => simp [hn] at h

theorem parseStep_inv {σ : Type} (S : PositionalRuneScanner σ) (content : σ → List Nat)
    (fuel : Nat) (st st1 : ParseState σ) (inv : ParseInv st)
    (h : parseStep S content fuel st = Res.ok st1) :
    ParseInv st1 ∧ (st1.prevToken = EOF → st1.root = st1.j) := by
  obtain ⟨tk, r1, st2, -, -, hv, hs, rfl⟩ := parseStep_ok S content fuel st st1 h
  obtain ⟨i1, -, -, -, i5, -⟩ := parseSwitch_inv content tk _ st2 (ParseInv_reader st r1 inv) hs
  refine ⟨⟨i1.len, i1.bottom, i1.valid, i1.opened, i1.jnil, i1.jvalid, ?_⟩, ?_⟩
  · intro p hp
    simp only [] at hp ⊢
    split at hp
    · exact i1.jvalid p hp
    · exact i1.rootvalid p hp
  · intro he
    simp only [] at he ⊢
    rw [he] at hv i5
    have h1 := validateTokenOrder_eof _ _ hv
    have h2 := inv.len
    have h3 : st2.l = 0 := by
      simp [EOF, END_ARR, END_OBJ, BEGIN_ARR, BEGIN_OBJ] at i5
      omega
    simp [h3]

theorem parse_loop_root {σ : Type} (S : PositionalRuneScanner σ) (content : σ → List Nat)
    (fuel : Nat) :
    ∀ (n : Nat) (st : ParseState σ) (t : Tree), ParseInv st →
      (st.prevToken = EOF → st.root = st.j) →
      parse.loop S content fuel n st = Res.ok t →
      (t.root = none ↔ t.heap = []) ∧ ∀ p, t.root = some p → p < t.heap.length := by
  intro n
  induction n with
  | zero => intro st t _ _ h; simp [parse.loop] at h
  | succ n ih =>
    intro st t inv hroot h
    rw [parse.loop] at h
    by_cases hp : st.prevToken = EOF
    · simp [hp] at h
      subst h
      refine ⟨?_, ?_⟩
      · simp only []
        rw [hroot hp]; exact inv.jnil
      · intro p hpp
        exact inv.rootvalid p hpp
    · simp only [ne_eq, hp, not_false_eq_true, if_true] at h
      cases hs : parseStep S content fuel st with
      | ok st1 =>
        simp only [hs] at h
        obtain ⟨i1, i2⟩ := parseStep_inv S content fuel st st1 inv hs
        exact ih st1 t i1 i2 h
      | error e => simp [hs] at h
      | fault => simp [hs] at h
      | outOfFuel => simp [hs] at h

theorem DecodeRune_cases (p : List Nat) :
    (DecodeRune p).1 = RuneError ∨ (1 ≤ (DecodeRune p).2 ∧ (DecodeRune p).2 ≤ p.length) := by
  unfold DecodeRune
  repeat' split
  all_goals first
    | (left; rfl)
    | (right; simp)

theorem DecodeRune_width (p : List Nat) (h : (DecodeRune p).1 ≠ RuneError) :
    1 ≤ (DecodeRune p).2 ∧ (DecodeRune p).2 ≤ p.length := by
  rcases DecodeRune_cases p with h1 | h1
  · exact absurd h1 h
  · exact h1

/-! ### The scanner over a byte buffer, at any position -/

/-- The three ways `ReadRune` can end: a fault, an error that leaves the scanner as it
was, or a character of width `w` that moves the position by `w` inside the buffer. -/
theorem ReadRune_cases (r : UTF8RuneScanner) :
    UTF8RuneScanner.ReadRune r = Res.fault ∨
    (∃ c w e, UTF8RuneScanner.ReadRune r = Res.ok ((c, w, some e), r)) ∨
    (∃ c w r1, UTF8RuneScanner.ReadRune r = Res.ok ((c, w, none), r1) ∧
      r1.bytes = r.bytes ∧ 0 ≤ r.bytePos ∧ r1.bytePos = r.bytePos + w ∧ 1 ≤ w ∧
      r1.bytePos ≤ r.bytes.length ∧ r1.runePos = r.runePos + 1) := by
  unfold UTF8RuneScanner.ReadRune
  by_cases h1 : r.bytePos ≥ r.bytes.length
  · right; left
    exact ⟨RuneError, 0, Err.EOF, by simp [h1]⟩
  · by_cases h2 : r.bytePos < 0
    · left; simp [h1, h2]
    · by_cases h3 : (DecodeRune (r.bytes.drop r.bytePos.toNat)).1 = RuneError
      · right; left
        exact ⟨(DecodeRune (r.bytes.drop r.bytePos.toNat)).1,
          (DecodeRune (r.bytes.drop r.bytePos.toNat)).2, Err.RuneDecodingError,
          by simp [h1, h2, h3]⟩
      · right; right
        have hw := DecodeRune_width _ h3
        simp only [List.length_drop] at hw
        refine ⟨(DecodeRune (r.bytes.drop r.bytePos.toNat)).1,
          (DecodeRune (r.bytes.drop r.bytePos.toNat)).2,
          { r with bytePos := r.bytePos + (DecodeRune (r.bytes.drop r.bytePos.toNat)).2,
                   runePos := r.runePos + 1 },
          by simp only [h1, h2, h3, if_false], rfl, by omega, rfl, hw.1, ?_, rfl⟩
        simp only []
        omega

theorem UnreadRune_bytes (r : UTF8RuneScanner) :
    (UTF8RuneScanner.UnreadRune r).2.bytes = r.bytes := by
  unfold UTF8RuneScanner.UnreadRune
  split <;> rfl

theorem expectRunes_bytes (bad : Err) :
    ∀ (expected : List Int) (r r1 : UTF8RuneScanner) (e : Option GoError),
      expectRunes utf8Scanner bad expected r = Res.ok (e, r1) → r1.bytes = r.bytes := by
  intro expected
  induction expected with
  | nil => intro r r1 e h; simp [expectRunes] at h; rw [h.2]
  | cons x xs ih =>
    intro r r1 e h
    rw [expectRunes] at h
    rcases ReadRune_cases r with hr | ⟨c, w, e1, hr⟩ | ⟨c, w, r2, hr, hb, -⟩
    · simp [hr] at h
    · simp [hr] at h; rw [h.2]
    · simp only [utf8Scanner_ReadRune, hr] at h
      split at h
      · simp at h; rw [← h.2, hb]
      · rw [ih r2 r1 e h, hb]

theorem moveToStringTokenEnd_loop_facts :
    ∀ (fuel : Nat) (c prev : Int) (r r1 : UTF8RuneScanner) (e : Option GoError),
      moveToStringTokenEnd.loop utf8Scanner fuel c prev r = Res.ok (e, r1) →
      r1.bytes = r.bytes ∧ r.bytePos ≤ r1.bytePos ∧
        (r.bytePos ≤ r.bytes.length → r1.bytePos ≤ r.bytes.length) := by
  intro fuel
  induction fuel with
  | zero => intro c prev r r1 e h; simp [moveToStringTokenEnd.loop] at h
  | succ f ih =>
    intro c prev r r1 e h
    rw [moveToStringTokenEnd.loop] at h
    split at h
    · rcases ReadRune_cases r with hr | ⟨c1, w, e1, hr⟩ | ⟨c1, w, r2, hr, hb, h0, hp, hw, hle, -⟩
      · simp [hr] at h
      · simp [hr] at h; rw [h.2]; simp
      · simp only [utf8Scanner_ReadRune, hr] at h
        obtain ⟨i1, i2, i3⟩ := ih c1 c r2 r1 e h
        rw [hb] at i1 i3
        exact ⟨i1, by omega, fun _ => i3 hle⟩
    · simp at h; rw [h.2]; simp

theorem moveToNumberTokenEnd_loop_bytes :
    ∀ (fuel : Nat) (prev : Int) (dotCount : Nat) (r r1 : UTF8RuneScanner) (e : Option GoError),
      moveToNumberTokenEnd.loop utf8Scanner fuel prev dotCount r = Res.ok (e, r1) →
      r1.bytes = r.bytes := by
  intro fuel
  induction fuel with
  | zero => intro prev dotCount r r1 e h; simp [moveToNumberTokenEnd.loop] at h
  | succ f ih =>
    intro prev dotCount r r1 e h
    rw [moveToNumberTokenEnd.loop] at h
    rcases ReadRune_cases r with hr | ⟨c1, w, e1, hr⟩ | ⟨c1, w, r2, hr, hb, -⟩
    · simp [hr] at h
    · simp only [utf8Scanner_ReadRune, hr] at h
      split at h <;> (simp at h; rw [h.2])
    · simp only [utf8Scanner_ReadRune, hr] at h
      repeat' split at h
      all_goals first
        | (simp at h; rw [← h.2, hb])
        | (rw [ih _ _ r2 r1 e h, hb])
        | (simp at h; rw [← h.2, UnreadRune_bytes, hb])

theorem nextToken_finish_ok {σ : Type} (S : PositionalRuneScanner σ) (start token jtype : Int)
    (x : Res (Option GoError × σ)) (tk : Token) (r1 : σ)
    (h : nextToken.finish S start token jtype x = Res.ok (tk, r1)) :
    ∃ e, x = Res.ok (e, r1) ∧ tk = Token.mk start (S.BytePos r1) token jtype e := by
  unfold nextToken.finish at h
  split at h
  · rename_i err r2
    simp at h
    exact ⟨err, by rw [h.2], by rw [← h.1, h.2]⟩
  · simp at h
  · simp at h
  · simp at h

/-- A string token covers at least its two quotes and ends inside the buffer. -/
theorem moveToStringTokenEnd_facts (fuel : Nat) (r r1 : UTF8RuneScanner)
    (h : moveToStringTokenEnd utf8Scanner fuel r = Res.ok (none, r1)) :
    r.bytePos + 1 ≤ r1.bytePos ∧ r1.bytePos ≤ r.bytes.length := by
  unfold moveToStringTokenEnd at h
  cases fuel with
  | zero => simp [moveToStringTokenEnd.loop] at h
  | succ f =>
    rw [moveToStringTokenEnd.loop] at h
    simp only [show (!((0x22 : Int) == 0x22 && !((0x5C : Int) == 0x5C))) = true by decide, if_true] at h
    rcases ReadRune_cases r with hr | ⟨c1, w, e1, hr⟩ | ⟨c1, w, r2, hr, hb, h0, hp, hw, hle, -⟩
    · simp [hr] at h
    · simp [hr] at h
    · simp only [utf8Scanner_ReadRune, hr] at h
      obtain ⟨i1, i2, i3⟩ := moveToStringTokenEnd_loop_facts f c1 0x22 r2 r1 none h
      rw [hb] at i3
      exact ⟨by omega, i3 hle⟩

/-- The branch `nextToken` takes on the first character: the token kind is never `EOF`,
the scanning that follows leaves the buffer as it is, and a `STRING_T` token comes from
`moveToStringTokenEnd`. -/
theorem nextToken_dispatch_cases (fuel : Nat) (start c : Int) (r : UTF8RuneScanner) :
    ∃ (token jtype : Int) (x : Res (Option GoError × UTF8RuneScanner)),
      nextToken.dispatch utf8Scanner fuel start c r =
        nextToken.finish utf8Scanner start token jtype x ∧
      token ≠ EOF ∧ (∀ e r1, x = Res.ok (e, r1) → r1.bytes = r.bytes) ∧
      (token = STRING_T → x = moveToStringTokenEnd utf8Scanner fuel r) := by
  have hsame : ∀ (e0 : Option GoError) (e : Option GoError) (r1 : UTF8RuneScanner),
      (Res.ok (e0, r) : Res (Option GoError × UTF8RuneScanner)) = Res.ok (e, r1) →
      r1.bytes = r.bytes := by
    intro e0 e r1 h
    simp at h
    rw [h.2]
  unfold nextToken.dispatch
  by_cases c1 : c = 0x7B
  · rw [if_pos c1]
    exact ⟨_, _, _, rfl, by decide, hsame none, fun h => absurd h (by decide)⟩
  rw [if_neg c1]
  by_cases c2 : c = 0x7D
  · rw [if_pos c2]
    exact ⟨_, _, _, rfl, by decide, hsame none, fun h => absurd h (by decide)⟩
  rw [if_neg c2]
  by_cases c3 : c = 0x5B
  · rw [if_pos c3]
    exact ⟨_, _, _, rfl, by decide, hsame none, fun h => absurd h (by decide)⟩
  rw [if_neg c3]
  by_cases c4 : c = 0x5D
  · rw [if_pos c4]
    exact ⟨_, _, _, rfl, by decide, hsame none, fun h => absurd h (by decide)⟩
  rw [if_neg c4]
  by_cases c5 : c = 0x3A
  · rw [if_pos c5]
    exact ⟨_, _, _, rfl, by decide, hsame none, fun h => absurd h (by decide)⟩
  rw [if_neg c5]
  by_cases c6 : c = 0x2C
  · rw [if_pos c6]
    exact ⟨_, _, _, rfl, by decide, hsame none, fun h => absurd h (by decide)⟩
  rw [if_neg c6]
  by_cases c7 : c = 0x6E
  · rw [if_pos c7]
    exact ⟨_, _, _, rfl, by decide, fun e r1 h => expectRunes_bytes _ _ _ _ _ h,
      fun h => absurd h (by decide)⟩
  rw [if_neg c7]
  by_cases c8 : c = 0x74 ∨ c = 0x66
  · rw [if_pos c8]
    refine ⟨_, _, _, rfl, by decide, fun e r1 h => ?_, fun h => absurd h (by decide)⟩
    unfold moveToBoolTokenEnd at h
    split at h <;> exact expectRunes_bytes _ _ _ _ _ h
  rw [if_neg c8]
  by_cases c9 : c = 0x22
  · rw [if_pos c9]
    exact ⟨_, _, _, rfl, by decide,
      fun e r1 h => (moveToStringTokenEnd_loop_facts _ _ _ _ _ _ h).1, fun _ => rfl⟩
  rw [if_neg c9]
  by_cases c10 : c ∈ ([0x2B, 0x2D, 0x30, 0x31, 0x32, 0x33, 0x34, 0x35, 0x36, 0x37, 0x38, 0x39] : List Int)
  · rw [if_pos c10]
    exact ⟨_, _, _, rfl, by decide,
      fun e r1 h => moveToNumberTokenEnd_loop_bytes _ _ _ _ _ _ h, fun h => absurd h (by decide)⟩
  rw [if_neg c10]
  exact ⟨_, _, _, rfl, by decide, hsame _, fun h => absurd h (by decide)⟩

theorem nextToken_dispatch_facts (fuel : Nat) (start c : Int) (r r1 : UTF8RuneScanner)
    (tk : Token) (h : nextToken.dispatch utf8Scanner fuel start c r = Res.ok (tk, r1)) :
    r1.bytes = r.bytes ∧ tk.start = start ∧ tk.token ≠ EOF ∧
      (tk.token = STRING_T → tk.err = none →
        r.bytePos + 1 ≤ tk.end_ ∧ tk.end_ ≤ r.bytes.length) := by
  obtain ⟨token, jtype, x, hd, hne, hb, hstr⟩ := nextToken_dispatch_cases fuel start c r
  rw [hd] at h
  obtain ⟨e, hx, rfl⟩ := nextToken_finish_ok _ _ _ _ _ _ _ h
  refine ⟨hb e r1 hx, rfl, hne, fun ht he => ?_⟩
  simp only [] at ht he
  subst he
  rw [hstr ht] at hx
  exact moveToStringTokenEnd_facts fuel r r1 hx

theorem nextToken_skip_facts (fuel : Nat) :
    ∀ (n : Nat) (start c : Int) (r r1 : UTF8RuneScanner) (tk : Token),
      nextToken.skip utf8Scanner fuel n start c r = Res.ok (tk, r1) →
      (IsSpace c = true ∨ (0 ≤ start ∧ start + 1 ≤ r.bytePos ∧ r.bytePos ≤ r.bytes.length)) →
      r1.bytes = r.bytes ∧
      (tk.token = STRING_T → tk.err = none →
        0 ≤ tk.start ∧ tk.start + 2 ≤ tk.end_ ∧ tk.end_ ≤ r.bytes.length) := by
  intro n
  have keof : (EOF : Int) ≠ STRING_T := by decide
  induction n with
  | zero => intro start c r r1 tk h; simp [nextToken.skip] at h
  | succ n ih =>
    intro start c r r1 tk h hpre
    rw [nextToken.skip] at h
    by_cases hs : IsSpace c = true
    · simp only [hs, if_true] at h
      rcases ReadRune_cases r with hr | ⟨c1, w, e1, hr⟩ | ⟨c1, w, r2, hr, hb, h0, hp, hw, hle, -⟩
      · simp [hr] at h
      · simp only [utf8Scanner_ReadRune, hr] at h
        split at h
        · simp at h
          obtain ⟨rfl, rfl⟩ := h
          exact ⟨rfl, fun ht => absurd ht keof⟩
        · simp at h
          obtain ⟨rfl, rfl⟩ := h
          exact ⟨rfl, fun ht => absurd ht keof⟩
      · simp only [utf8Scanner_ReadRune, hr, utf8Scanner_BytePos] at h
        have := ih r.bytePos c1 r2 r1 tk h (Or.inr ⟨h0, by omega, by rw [hb]; exact hle⟩)
        rw [hb] at this
        exact this
    · simp only [hs] at h
      obtain ⟨i1, i2, -, i4⟩ := nextToken_dispatch_facts fuel start c r r1 tk h
      refine ⟨i1, fun ht he => ?_⟩
      obtain ⟨j1, j2⟩ := i4 ht he
      rcases hpre with hpre | ⟨p1, p2, p3⟩
      · exact absurd hpre hs
      · rw [i2]
        exact ⟨p1, by omega, j2⟩

/-- Every token `nextToken` gives leaves the buffer as it is, and a string token without
error lies inside the buffer and is at least two bytes long. -/
theorem nextToken_facts (fuel : Nat) (r r1 : UTF8RuneScanner) (tk : Token)
    (h : nextToken utf8Scanner fuel r = Res.ok (tk, r1)) :
    r1.bytes = r.bytes ∧
      (tk.token = STRING_T → tk.err = none →
        0 ≤ tk.start ∧ tk.start + 2 ≤ tk.end_ ∧ tk.end_ ≤ r.bytes.length) :=
  nextToken_skip_facts fuel fuel 0 0x20 r r1 tk h (Or.inl (by decide))

/-! ### The parser does not fault on a well-formed state -/

theorem parseSwitch_isKey_ok {σ : Type} (tk : Token) (st : ParseState σ) (inv : ParseInv st) :
    ∃ b, parseSwitch.isKey tk st = Res.ok b := by
  unfold parseSwitch.isKey
  split
  · rename_i hc
    obtain ⟨p, hp⟩ := inv.opened st.l (by omega) (Nat.le_refl _)
    have hv := inv.valid _ _ hp
    simp only [hp, List.getElem?_eq_getElem hv]
    exact ⟨_, rfl⟩
  · exact ⟨false, rfl⟩

theorem parseSwitch_close_ok {σ : Type} (tk : Token) (st : ParseState σ) (inv : ParseInv st)
    (hl : 1 ≤ st.l) : ∃ st1, parseSwitch.close tk st = Res.ok st1 := by
  unfold parseSwitch.close
  obtain ⟨p, hp⟩ := inv.opened st.l hl (Nat.le_refl _)
  obtain ⟨heap1, hu⟩ := updateNode_isSome st.heap p (fun n => { n with end_ := tk.end_ })
    (inv.valid _ _ hp)
  simp only [hp, hu]
  exact ⟨_, rfl⟩

theorem parseSwitch_value_ok {σ : Type} (tk : Token) (st : ParseState σ) (inv : ParseInv st) :
    ∃ st1, parseSwitch.value tk st = Res.ok st1 := by
  unfold parseSwitch.value
  have hlen := inv.len
  obtain ⟨par, hpar⟩ : ∃ par, st.parentStack[st.l]? = some par :=
    ⟨_, List.getElem?_eq_getElem (by omega)⟩
  simp only [hpar]
  have hatt : ∃ res, parseSwitch.attach st
      (st.heap ++ [Json.mk tk.start tk.end_ par [] [] tk.jtype]) par st.heap.length = some res := by
    unfold parseSwitch.attach
    by_cases h0 : st.l > 0
    · obtain ⟨q, hq⟩ := inv.opened st.l (by omega) (Nat.le_refl _)
      rw [hpar] at hq
      simp at hq
      subst hq
      have hv : q < (st.heap ++ [Json.mk tk.start tk.end_ (some q) [] [] tk.jtype]).length := by
        have := inv.valid _ _ hpar
        simp; omega
      split
      · obtain ⟨h1, hu⟩ := updateNode_isSome _ q
          (fun n => { n with objectItems := mapSet n.objectItems st.key st.heap.length }) hv
        simp only [hu]
        exact ⟨_, rfl⟩
      · obtain ⟨h1, hu⟩ := updateNode_isSome _ q
          (fun n => { n with arrayItems := n.arrayItems ++ [st.heap.length] }) hv
        simp only [h0, if_true, hu]
        exact ⟨_, rfl⟩
    · have h1 : ¬ (st.l > 0 ∧ st.keyAva = true) := fun h => h0 h.1
      simp only [h1, h0, if_false]
      exact ⟨_, rfl⟩
  obtain ⟨⟨heap2, k2⟩, hres⟩ := hatt
  simp only [hres]
  split <;> exact ⟨_, rfl⟩

theorem parseSwitch_ok {σ : Type} (content : σ → List Nat) (tk : Token) (st : ParseState σ)
    (inv : ParseInv st)
    (hkey : tk.token = STRING_T →
      ∃ k, goSlice (content st.reader) (tk.start + 1) (tk.end_ - 1) = some k)
    (hclose : (tk.token = END_ARR ∨ tk.token = END_OBJ) → 1 ≤ st.l) :
    ∃ st1, parseSwitch content tk st = Res.ok st1 := by
  unfold parseSwitch
  obtain ⟨b, hb⟩ := parseSwitch_isKey_ok tk st inv
  cases b with
  | true =>
    obtain ⟨k, hk⟩ := hkey (parseSwitch_isKey_token tk st hb)
    simp only [hb, hk]
    exact ⟨_, rfl⟩
  | false =>
    simp only [hb]
    by_cases h1 : tk.token = EOF
    · rw [if_pos h1]; exact ⟨_, rfl⟩
    rw [if_neg h1]
    by_cases h2 : tk.token = COLON ∨ tk.token = SEP
    · rw [if_pos h2]; exact ⟨_, rfl⟩
    rw [if_neg h2]
    by_cases h3 : tk.token = END_ARR ∨ tk.token = END_OBJ
    · rw [if_pos h3]; exact parseSwitch_close_ok tk st inv (hclose h3)
    rw [if_neg h3]
    exact parseSwitch_value_ok tk st inv

theorem goSlice_isSome (b : List Nat) (lo hi : Int) (h : 0 ≤ lo ∧ lo ≤ hi ∧ hi ≤ b.length) :
    ∃ k, goSlice b lo hi = some k := by
  unfold goSlice
  rw [if_pos h]
  exact ⟨_, rfl⟩

/-- The parser follows the count of open containers of `openAtEnd` and, when that count
is positive at the end of the input, returns `UnclosedJsonError`. -/
theorem parse_loop_unclosed (b : List Nat) (fuel : Nat) :
    ∀ (n : Nat) (st : ParseState UTF8RuneScanner) (d : Nat), ParseInv st →
      st.reader.bytes = b → st.prevToken ≠ EOF →
      openAtEnd fuel n st.reader st.l = Res.ok d → 0 < d →
      parse.loop utf8Scanner (fun _ => b) fuel n st =
        Res.error (GoError.base Err.UnclosedJsonError) := by
  intro n
  induction n with
  | zero => intro st d _ _ _ h; simp [openAtEnd] at h
  | succ n ih =>
    intro st d inv hb hprev h hd
    rw [openAtEnd] at h
    rw [parse.loop, if_pos hprev]
    unfold parseStep
    cases hn : nextToken utf8Scanner fuel st.reader with
    | ok res =>
      obtain ⟨tk, r1⟩ := res
      simp only [hn] at h ⊢
      obtain ⟨hbytes, hstr⟩ := nextToken_facts fuel st.reader r1 tk hn
      cases he : tk.err with
      | some e => simp [he] at h
      | none =>
        simp only [he] at h ⊢
        have hlen := inv.len
        by_cases h1 : tk.token = EOF
        · rw [if_pos h1] at h
          simp at h
          have hv : validateTokenOrder tk.token st.prevToken st.parentStack =
              some (GoError.base Err.UnclosedJsonError) := by
            unfold validateTokenOrder
            have : tk.token = EOF ∧ ((st.parentStack.length : Int) - 1 ≠ 0) := ⟨h1, by omega⟩
            simp [this]
          simp [hv]
        · rw [if_neg h1] at h
          have hv : validateTokenOrder tk.token st.prevToken st.parentStack = none := by
            unfold validateTokenOrder
            simp [h1]
          simp only [hv]
          have inv1 := ParseInv_reader st r1 inv
          have hclose : (tk.token = END_ARR ∨ tk.token = END_OBJ) → 1 ≤ st.l := by
            intro h3
            have hnb : ¬ (tk.token = BEGIN_ARR ∨ tk.token = BEGIN_OBJ) := by
              rcases h3 with h3 | h3 <;> simp [h3, END_ARR, END_OBJ, BEGIN_ARR, BEGIN_OBJ]
            rw [if_neg hnb, if_pos h3] at h
            by_contra hc
            have : st.l = 0 := by omega
            simp [this] at h
          have hkey : tk.token = STRING_T →
              ∃ k, goSlice ((fun _ => b) r1) (tk.start + 1) (tk.end_ - 1) = some k := by
            intro ht
            obtain ⟨k1, k2, k3⟩ := hstr ht he
            rw [hb] at k3
            exact goSlice_isSome b _ _ ⟨by omega, by omega, by omega⟩
          obtain ⟨st1, hs⟩ := parseSwitch_ok (fun _ => b) tk _ inv1 hkey hclose
          obtain ⟨i1, i2, i3, i4, i5, -⟩ := parseSwitch_inv (fun _ => b) tk _ st1 inv1 hs
          simp only [hs]
          have inv2 : ParseInv
              { st1 with root := (if st1.l = 0 then st1.j else st1.root), prevToken := tk.token } := by
            refine ⟨i1.len, i1.bottom, i1.valid, i1.opened, i1.jnil, i1.jvalid, ?_⟩
            intro p hp
            simp only [] at hp ⊢
            split at hp
            · exact i1.jvalid p hp
            · exact i1.rootvalid p hp
          apply ih _ d inv2 (by simp only []; rw [i3, hbytes, hb]) h1 _ hd
          simp only [] at i3 i5 ⊢
          rw [i3]
          by_cases h2 : tk.token = BEGIN_ARR ∨ tk.token = BEGIN_OBJ
          · have hne : ¬ (tk.token = END_ARR ∨ tk.token = END_OBJ) := by
              rcases h2 with h2 | h2 <;> simp [h2, END_ARR, END_OBJ, BEGIN_ARR, BEGIN_OBJ]
            rw [if_pos h2] at h
            rw [if_pos h2, if_neg hne] at i5
            have : st1.l = st.l + 1 := by omega
            rw [this]; exact h
          · rw [if_neg h2] at h i5
            by_cases h3 : tk.token = END_ARR ∨ tk.token = END_OBJ
            · rw [if_pos h3] at h i5
              have hl := hclose h3
              have h0 : ¬ (st.l = 0) := by omega
              rw [if_neg h0] at h
              have : st1.l = st.l - 1 := by omega
              rw [this]; exact h
            · rw [if_neg h3] at h i5
              have : st1.l = st.l := by omega
              rw [this]; exact h
    | error e => simp [hn] at h
    | fault => simp [hn] at h
    | outOfFuel => simp [hn] at h

/-! ### Encoding and decoding -/

theorem DecodeRune_EncodeRune (r : Int) (rest : List Nat) (h : ValidRune r) :
    DecodeRune (EncodeRune r ++ rest) = (r, (EncodeRune r).length) := by
  obtain ⟨h0, h1, h2⟩ := h
  obtain ⟨c, rfl⟩ : ∃ c : Nat, r = (c : Int) := ⟨r.toNat, by omega⟩
  have hneg : ¬ ((c : Int) < 0) := by omega
  unfold EncodeRune
  simp only [Int.toNat_ofNat, hneg, if_false]
  by_cases c1 : c < 0x80
  · simp [c1, DecodeRune]
  rw [if_neg c1]
  by_cases c2 : c < 0x800
  · rw [if_pos c2]
    have a1 : ¬ (0xC0 + c / 64 < 0x80) := by omega
    have a2 : ¬ (0xC0 + c / 64 < 0xC2) := by omega
    have a3 : (0xC0 + c / 64 < 0xE0) := by omega
    have a4 : 0x80 ≤ 0x80 + c % 64 ∧ 0x80 + c % 64 ≤ 0xBF := by omega
    have a5 : (0xC0 + c / 64) % 32 * 64 + (0x80 + c % 64) % 64 = c := by omega
    simp only [List.cons_append, List.nil_append, DecodeRune, a1, a2, a3, a4, a5, if_true, if_false,
      and_self]
    simp
  rw [if_neg c2]
  have c3 : ¬ (0xD800 ≤ c ∧ c ≤ 0xDFFF) := by omega
  rw [if_neg c3]
  by_cases c4 : c < 0x10000
  · rw [if_pos c4]
    have a1 : ¬ (0xE0 + c / 4096 < 0x80) := by omega
    have a2 : ¬ (0xE0 + c / 4096 < 0xC2) := by omega
    have a3 : ¬ (0xE0 + c / 4096 < 0xE0) := by omega
    have a3b : (0xE0 + c / 4096 < 0xF0) := by omega
    have a4 : (if 0xE0 + c / 4096 = 0xE0 then 0xA0 else 0x80) ≤ 0x80 + c / 64 % 64 ∧
        0x80 + c / 64 % 64 ≤ (if 0xE0 + c / 4096 = 0xED then 0x9F else 0xBF) := by
      constructor
      · split <;> omega
      · split <;> omega
    have a5 : 0x80 ≤ 0x80 + c % 64 ∧ 0x80 + c % 64 ≤ 0xBF := by omega
    have a6 : (0xE0 + c / 4096) % 16 * 4096 + (0x80 + c / 64 % 64) % 64 * 64 +
        (0x80 + c % 64) % 64 = c := by omega
    simp only [List.cons_append, List.nil_append, DecodeRune, a1, a2, a3, a3b, a4, a5, a6, if_true,
      if_false, and_self]
    simp
  rw [if_neg c4]
  have c5 : c ≤ 0x10FFFF := by omega
  rw [if_pos c5]
  have a1 : ¬ (0xF0 + c / 262144 < 0x80) := by omega
  have a2 : ¬ (0xF0 + c / 262144 < 0xC2) := by omega
  have a3 : ¬ (0xF0 + c / 262144 < 0xE0) := by omega
  have a3b : ¬ (0xF0 + c / 262144 < 0xF0) := by omega
  have a3c : (0xF0 + c / 262144 < 0xF5) := by omega
  have a4 : (if 0xF0 + c / 262144 = 0xF0 then 0x90 else 0x80) ≤ 0x80 + c / 4096 % 64 ∧
      0x80 + c / 4096 % 64 ≤ (if 0xF0 + c / 262144 = 0xF4 then 0x8F else 0xBF) := by
    constructor
    · split <;> omega
    · split <;> omega
  have a5 : 0x80 ≤ 0x80 + c / 64 % 64 ∧ 0x80 + c / 64 % 64 ≤ 0xBF := by omega
  have a5b : 0x80 ≤ 0x80 + c % 64 ∧ 0x80 + c % 64 ≤ 0xBF := by omega
  have a6 : (0xF0 + c / 262144) % 8 * 262144 + (0x80 + c / 4096 % 64) % 64 * 4096 +
      (0x80 + c / 64 % 64) % 64 * 64 + (0x80 + c % 64) % 64 = c := by omega
  simp only [List.cons_append, List.nil_append, DecodeRune, a1, a2, a3, a3b, a3c, a4, a5, a5b, a6,
    if_true, if_false, and_self]
  simp

theorem EncodeRune_length_pos (r : Int) : 1 ≤ (EncodeRune r).length := by
  unfold EncodeRune
  simp only []
  repeat' split
  all_goals simp

theorem IsSpace_valid (c : Int) (h : IsSpace c = true) : ValidRune c ∧ c ≠ RuneError := by
  unfold IsSpace at h
  simp at h
  unfold ValidRune RuneError
  omega

/-! ### White space and the literals `true` and `false` -/

theorem ReadRune_encoded (bytes : List Nat) (pos : Nat) (rp : Int) (c : Int) (suf : List Nat)
    (h : bytes.drop pos = EncodeRune c ++ suf) (hv : ValidRune c) (hc : c ≠ RuneError) :
    UTF8RuneScanner.ReadRune ⟨bytes, (pos : Int), rp⟩ =
      Res.ok ((c, (EncodeRune c).length, none),
        ⟨bytes, ((pos + (EncodeRune c).length : Nat) : Int), rp + 1⟩) := by
  have hpos : pos < bytes.length := by
    have := congrArg List.length h
    have := EncodeRune_length_pos c
    simp at *
    omega
  apply ReadRune_at _ _ _ _ _ hpos _ hc
  rw [h]
  exact DecodeRune_EncodeRune c suf hv

theorem drop_append_left {α : Type} (l : List α) (pos : Nat) (a suf : List α)
    (h : l.drop pos = a ++ suf) : l.drop (pos + a.length) = suf := by
  rw [← List.drop_drop, h, List.drop_left]

/-- Skipping white space up to the first character `b` of a token. -/
theorem nextToken_skip_spaces (bytes : List Nat) (fuel : Nat) (b : Nat) (suf : List Nat)
    (hb : b < 0x80) (hbs : IsSpace (b : Int) = false) :
    ∀ (ws : List Int) (n : Nat) (start c : Int) (pos : Nat) (rp : Int),
      (∀ x ∈ ws, IsSpace x = true) → IsSpace c = true →
      bytes.drop pos = (ws.map EncodeRune).flatten ++ b :: suf → ws.length + 2 ≤ n →
      nextToken.skip utf8Scanner fuel n start c ⟨bytes, (pos : Int), rp⟩ =
        nextToken.dispatch utf8Scanner fuel ((pos + (ws.map EncodeRune).flatten.length : Nat) : Int)
          (b : Int)
          ⟨bytes, ((pos + (ws.map EncodeRune).flatten.length + 1 : Nat) : Int),
            rp + ws.length + 1⟩ := by
  intro ws
  induction ws with
  | nil =>
    intro n start c pos rp _ hc hdrop hn
    obtain ⟨k, rfl⟩ : ∃ k, n = k + 2 := ⟨n - 2, by simp at hn; omega⟩
    simp only [List.map_nil, List.flatten_nil, List.nil_append] at hdrop
    rw [nextToken.skip]
    simp only [hc, if_true, utf8Scanner_ReadRune, ReadRune_ascii bytes pos rp b suf hdrop hb,
      utf8Scanner_BytePos]
    rw [nextToken.skip]
    simp [hbs]
  | cons w ws ih =>
    intro n start c pos rp hws hc hdrop hn
    obtain ⟨k, rfl⟩ : ∃ k, n = k + 1 := ⟨n - 1, by simp at hn; omega⟩
    have hw := hws w (List.mem_cons_self _ _)
    obtain ⟨hv, hne⟩ := IsSpace_valid w hw
    simp only [List.map_cons, List.flatten_cons, List.append_assoc] at hdrop
    rw [nextToken.skip]
    simp only [hc, if_true, utf8Scanner_ReadRune, ReadRune_encoded bytes pos rp w _ hdrop hv hne,
      utf8Scanner_BytePos]
    rw [ih k (pos : Int) w (pos + (EncodeRune w).length) (rp + 1)
      (fun x hx => hws x (List.mem_cons_of_mem _ hx)) hw (drop_append_left _ _ _ _ hdrop)
      (by simp at hn; omega)]
    simp only [List.map_cons, List.flatten_cons, List.length_append, List.length_cons]
    congr 2
    all_goals (push_cast; omega)

/-- Reading the part `pre` of an expected literal that is present in the input. -/
theorem expectRunes_prefix (bytes : List Nat) (bad : Err) (tail : List Int) :
    ∀ (pre : List Nat) (pos : Nat) (rp : Int) (suf : List Nat),
      (∀ p ∈ pre, p < 0x80) → bytes.drop pos = pre ++ suf →
      expectRunes utf8Scanner bad (pre.map Nat.cast ++ tail) ⟨bytes, (pos : Int), rp⟩ =
        expectRunes utf8Scanner bad tail ⟨bytes, ((pos + pre.length : Nat) : Int), rp + pre.length⟩ := by
  intro pre
  induction pre with
  | nil => intro pos rp suf _ _; simp
  | cons p ps ih =>
    intro pos rp suf hp hdrop
    simp only [List.map_cons, List.cons_append] at hdrop ⊢
    rw [expectRunes]
    simp only [utf8Scanner_ReadRune,
      ReadRune_ascii bytes pos rp p _ hdrop (hp p (List.mem_cons_self _ _))]
    simp only [ne_eq, not_true_eq_false, if_false]
    rw [ih (pos + 1) (rp + 1) suf (fun x hx => hp x (List.mem_cons_of_mem _ hx))
      (drop_cons_succ hdrop)]
    simp only [List.length_cons]
    congr 2
    · push_cast; omega
    · push_cast; omega

theorem expectRunes_eof (bytes : List Nat) (bad : Err) (x : Int) (post : List Int)
    (pos : Nat) (rp : Int) (h : bytes.length ≤ pos) :
    expectRunes utf8Scanner bad (x :: post) ⟨bytes, (pos : Int), rp⟩ =
      Res.ok (some (GoError.RuneReadingError rp Err.EOF), ⟨bytes, (pos : Int), rp⟩) := by
  rw [expectRunes]
  simp [ReadRune_eof bytes pos rp h]

theorem expectRunes_undecodable (bytes : List Nat) (bad : Err) (x : Int) (post : List Int)
    (pos : Nat) (rp : Int) (h : pos < bytes.length)
    (hd : (DecodeRune (bytes.drop pos)).1 = RuneError) :
    expectRunes utf8Scanner bad (x :: post) ⟨bytes, (pos : Int), rp⟩ =
      Res.ok (some (GoError.RuneReadingError rp Err.RuneDecodingError),
        ⟨bytes, (pos : Int), rp⟩) := by
  rw [expectRunes]
  have h1 : ¬ ((pos : Int) ≥ (bytes.length : Int)) := by omega
  have h2 : ¬ ((pos : Int) < 0) := by omega
  simp [UTF8RuneScanner.ReadRune, h1, h2, hd]

theorem expectRunes_other (bytes : List Nat) (bad : Err) (x : Int) (post : List Int)
    (pos : Nat) (rp : Int) (h : pos < bytes.length)
    (hd : (DecodeRune (bytes.drop pos)).1 ≠ RuneError)
    (hx : (DecodeRune (bytes.drop pos)).1 ≠ x) :
    ∃ r1, expectRunes utf8Scanner bad (x :: post) ⟨bytes, (pos : Int), rp⟩ =
      Res.ok (some (GoError.ParseError rp bad), r1) := by
  rw [expectRunes]
  have hr := ReadRune_at bytes pos rp (DecodeRune (bytes.drop pos)).1
    (DecodeRune (bytes.drop pos)).2 h rfl hd
  simp only [utf8Scanner_ReadRune, utf8Scanner_RunePos, hr]
  rw [if_pos hx]
  exact ⟨_, rfl⟩

theorem ParseUTF8_first_token_error (fuel : Nat) (b : List Nat) (tk : Token)
    (r1 : UTF8RuneScanner) (e : GoError)
    (h : nextToken utf8Scanner fuel ⟨b, 0, 0⟩ = Res.ok (tk, r1)) (he : tk.err = some e)
    (hf : 1 ≤ fuel) : ParseUTF8 fuel b = Res.error e := by
  obtain ⟨k, rfl⟩ : ∃ k, fuel = k + 1 := ⟨fuel - 1, by omega⟩
  unfold ParseUTF8 parse
  rw [parse.loop]
  have hp : (parseInit (UTF8RuneScanner.mk b 0 0)).prevToken ≠ EOF := by
    show ((-1 : Int)) ≠ EOF
    decide
  rw [if_pos hp]
  unfold parseStep
  have hr : (parseInit (UTF8RuneScanner.mk b 0 0)).reader = UTF8RuneScanner.mk b 0 0 := rfl
  rw [hr, h]
  simp [he]

/-- The token read from `boolText`: a `BOOL_T` token whose error is what `expectRunes`
reports at the first character after `pre`. -/
theorem nextToken_boolText (ws : List Int) (hws : ∀ c ∈ ws, IsSpace c = true) (first : Nat)
    (pre : List Nat) (x : Int) (post : List Int)
    (hlit : (first = 0x74 ∧ pre.map Nat.cast ++ x :: post = [0x72, 0x75, 0x65]) ∨
      (first = 0x66 ∧ pre.map Nat.cast ++ x :: post = [0x61, 0x6C, 0x73, 0x65]))
    (rest : List Nat) (fuel : Nat) (hfuel : ws.length + 2 ≤ fuel) :
    nextToken utf8Scanner fuel ⟨boolText ws first pre rest, 0, 0⟩ =
      nextToken.finish utf8Scanner (((ws.map EncodeRune).flatten.length : Nat) : Int) BOOL_T BOOL
        (expectRunes utf8Scanner Err.BadBoolTokenError (x :: post)
          ⟨boolText ws first pre rest,
            (((ws.map EncodeRune).flatten.length + 1 + pre.length : Nat) : Int),
            (ws.length : Int) + 1 + pre.length⟩) ∧
    (boolText ws first pre rest).drop ((ws.map EncodeRune).flatten.length + 1 + pre.length) = rest := by
  have hpre : ∀ p ∈ pre, p < 0x80 := by
    intro p hp
    have hmem : ((p : Nat) : Int) ∈ pre.map Nat.cast ++ x :: post := by
      apply List.mem_append_left
      exact List.mem_map_of_mem _ hp
    rcases hlit with ⟨-, h⟩ | ⟨-, h⟩ <;> rw [h] at hmem <;> simp at hmem <;> omega
  have hfirst : first < 0x80 ∧ IsSpace (first : Int) = false := by
    rcases hlit with ⟨h, -⟩ | ⟨h, -⟩ <;> subst h <;> exact ⟨by decide, by decide⟩
  have hd0 : (boolText ws first pre rest).drop 0 =
      (ws.map EncodeRune).flatten ++ first :: (pre ++ rest) := rfl
  have hd1 : (boolText ws first pre rest).drop (0 + (ws.map EncodeRune).flatten.length + 1) =
      pre ++ rest := by
    have := drop_append_left _ _ _ _ hd0
    exact drop_cons_succ this
  have hd2 : (boolText ws first pre rest).drop
      ((ws.map EncodeRune).flatten.length + 1 + pre.length) = rest := by
    have := drop_append_left _ _ _ _ hd1
    simpa using this
  refine ⟨?_, hd2⟩
  unfold nextToken
  have hsk := nextToken_skip_spaces (boolText ws first pre rest) fuel first (pre ++ rest) hfirst.1
    hfirst.2 ws fuel 0 0x20 0 0 hws (by decide) hd0 hfuel
  simp only [Nat.cast_zero] at hsk
  rw [hsk]
  have hexp := expectRunes_prefix (boolText ws first pre rest) Err.BadBoolTokenError (x :: post)
    pre (0 + (ws.map EncodeRune).flatten.length + 1) (0 + ws.length + 1) rest hpre hd1
  rcases hlit with ⟨h, hl⟩ | ⟨h, hl⟩
  · subst h
    simp only [nextToken.dispatch, moveToBoolTokenEnd]
    rw [← hl, hexp]
    simp
  · subst h
    simp only [nextToken.dispatch, moveToBoolTokenEnd]
    rw [← hl, hexp]
    simp

/-! ### The escape decoder on text without `\u` escapes -/

theorem nextRune_encoded (bytes : List Nat) (pos : Nat) (c : Int) (suf : List Nat)
    (h : bytes.drop pos = EncodeRune c ++ suf) (hv : ValidRune c) (hc : c ≠ RuneError) :
    nextRune bytes pos = (c, pos + (EncodeRune c).length, none) := by
  unfold nextRune
  rw [h, DecodeRune_EncodeRune c suf hv]
  simp [hc]

theorem nextRune_ascii (bytes : List Nat) (pos : Nat) (b : Nat) (suf : List Nat)
    (h : bytes.drop pos = b :: suf) (hb : b < 0x80) :
    nextRune bytes pos = ((b : Int), pos + 1, none) := by
  unfold nextRune
  rw [h, DecodeRune_ascii b suf hb]
  simp [ascii_ne_RuneError b hb]

theorem EscapeUTF8_loop_units (bytes : List Nat) :
    ∀ (units : List EscapeUnit) (fuel pos : Nat) (escaped : List Int),
      (∀ u ∈ units, u.Allowed ∧ u.denotes ≠ RuneError) →
      bytes.drop pos = (units.map EscapeUnit.source).flatten →
      (units.map EscapeUnit.source).flatten.length + 1 ≤ fuel →
      EscapeUTF8.loop bytes fuel pos false escaped =
        Res.ok (runesToString (escaped ++ units.map EscapeUnit.denotes)) := by
  intro units
  induction units with
  | nil =>
    intro fuel pos escaped _ hdrop hfuel
    obtain ⟨f, rfl⟩ : ∃ f, fuel = f + 1 := ⟨fuel - 1, by simp at hfuel; omega⟩
    have hpos : ¬ (pos < bytes.length) := by
      intro hlt
      have := congrArg List.length hdrop
      simp at this
      omega
    rw [EscapeUTF8.loop, if_neg hpos]
    simp
  | cons u us ih =>
    intro fuel pos escaped hall hdrop hfuel
    have hu := hall u (List.mem_cons_self _ _)
    have hus : ∀ v ∈ us, v.Allowed ∧ v.denotes ≠ RuneError :=
      fun v hv => hall v (List.mem_cons_of_mem _ hv)
    simp only [List.map_cons, List.flatten_cons] at hdrop hfuel
    cases u with
    | plain c =>
      obtain ⟨⟨hv, hbs, hctl⟩, hne⟩ := hu
      simp only [EscapeUnit.source, EscapeUnit.denotes] at hdrop hfuel hne
      have hl := EncodeRune_length_pos c
      obtain ⟨f, rfl⟩ : ∃ f, fuel = f + 1 := ⟨fuel - 1, by simp at hfuel; omega⟩
      have hpos : pos < bytes.length := by
        have := congrArg List.length hdrop
        simp at this
        omega
      rw [EscapeUTF8.loop, if_pos hpos, nextRune_encoded bytes pos c _ hdrop hv hne]
      simp only [Bool.false_eq_true, if_false, hbs, hctl]
      rw [ih f (pos + (EncodeRune c).length) (escaped ++ [c]) hus
        (drop_append_left _ _ _ _ hdrop) (by simp at hfuel ⊢; omega)]
      simp [EscapeUnit.denotes]
    | esc l =>
      obtain ⟨hl, -⟩ := hu
      simp only [EscapeUnit.source, List.cons_append, List.nil_append] at hdrop hfuel
      obtain ⟨f, rfl⟩ : ∃ f, fuel = f + 2 := ⟨fuel - 2, by simp at hfuel; omega⟩
      have hpos : pos < bytes.length := drop_cons_length hdrop
      have hdrop1 := drop_cons_succ hdrop
      have hpos1 : pos + 1 < bytes.length := drop_cons_length hdrop1
      have hllt : l < 0x80 := by
        simp [EscapeUnit.Allowed] at hl
        omega
      rw [EscapeUTF8.loop, if_pos hpos, nextRune_ascii bytes pos 0x5C _ hdrop (by decide)]
      simp only [Bool.false_eq_true, if_false, Nat.cast_ofNat, if_true]
      rw [EscapeUTF8.loop, if_pos hpos1, nextRune_ascii bytes (pos + 1) l _ hdrop1 hllt]
      have hesc : isEscapeChar (l : Int) = true ∧ ¬ ((l : Int) = 0x75) ∧
          (escapeChars.lookup (l : Int)).getD 0 = (EscapeUnit.esc l).denotes := by
        simp [EscapeUnit.Allowed] at hl
        rcases hl with h | h | h | h | h | h | h | h <;> subst h <;> decide
      simp only [if_true, hesc.1, hesc.2.1, if_false, hesc.2.2]
      rw [ih f (pos + 1 + 1) (escaped ++ [(EscapeUnit.esc l).denotes]) hus
        (drop_cons_succ hdrop1) (by simp at hfuel ⊢; omega)]
      simp

/-- For every sequence of units of C10 in which no plain character is U+FFFD,
`EscapeUTF8` applied to the concatenated units returns, without error, the characters
the units stand for. -/
theorem EscapeUTF8_units (units : List EscapeUnit)
    (hall : ∀ u ∈ units, u.Allowed ∧ u.denotes ≠ RuneError) :
    EscapeUTF8 (units.map EscapeUnit.source).flatten =
      Res.ok (units.map (fun u => EncodeRune u.denotes)).flatten := by
  unfold EscapeUTF8
  rw [EscapeUTF8_loop_units _ units _ 0 [] hall (by simp) (Nat.le_refl _)]
  simp [runesToString]
  rfl

/-! ### String tokens -/

theorem moveToStringTokenEnd_loop_plain (bytes : List Nat) (suf : List Nat) :
    ∀ (rs : List Int) (fuel : Nat) (c prev : Int) (pos : Nat) (rp : Int),
      (c ≠ 0x22 ∨ prev = 0x5C) → c ≠ 0x5C → (∀ x ∈ rs, PlainRune x) →
      bytes.drop pos = encodeRunes rs ++ 0x22 :: suf → rs.length + 2 ≤ fuel →
      moveToStringTokenEnd.loop utf8Scanner fuel c prev ⟨bytes, (pos : Int), rp⟩ =
        Res.ok (none, ⟨bytes, ((pos + (encodeRunes rs).length + 1 : Nat) : Int),
          rp + rs.length + 1⟩) := by
  intro rs
  induction rs with
  | nil =>
    intro fuel c prev pos rp hc hc2 _ hdrop hfuel
    obtain ⟨f, rfl⟩ : ∃ f, fuel = f + 2 := ⟨fuel - 2, by simp at hfuel; omega⟩
    simp only [encodeRunes, List.map_nil, List.flatten_nil, List.nil_append] at hdrop
    have hcond : (!(c == 0x22 && !(prev == 0x5C))) = true := by
      rcases hc with h | h
      · simp [h]
      · simp [h]
    rw [moveToStringTokenEnd.loop]
    simp only [hcond, if_true, utf8Scanner_ReadRune,
      ReadRune_ascii bytes pos rp 0x22 suf hdrop (by decide)]
    rw [moveToStringTokenEnd.loop]
    have hcond2 : (!(((0x22 : Nat) : Int) == 0x22 && !(c == 0x5C))) = false := by
      simp [hc2]
    simp only [hcond2]
    simp [encodeRunes]
  | cons r rs ih =>
    intro fuel c prev pos rp hc hc2 hall hdrop hfuel
    obtain ⟨f, rfl⟩ : ∃ f, fuel = f + 1 := ⟨fuel - 1, by simp at hfuel; omega⟩
    obtain ⟨hv, hq, hb, hne⟩ := hall r (List.mem_cons_self _ _)
    simp only [encodeRunes, List.map_cons, List.flatten_cons, List.append_assoc] at hdrop
    have hcond : (!(c == 0x22 && !(prev == 0x5C))) = true := by
      rcases hc with h | h
      · simp [h]
      · simp [h]
    rw [moveToStringTokenEnd.loop]
    simp only [hcond, if_true, utf8Scanner_ReadRune, ReadRune_encoded bytes pos rp r _ hdrop hv hne]
    rw [ih f r c (pos + (EncodeRune r).length) (rp + 1) (Or.inl hq) hb
      (fun x hx => hall x (List.mem_cons_of_mem _ hx)) (drop_append_left _ _ _ _ hdrop)
      (by simp at hfuel; omega)]
    simp only [encodeRunes, List.map_cons, List.flatten_cons, List.length_append, List.length_cons]
    congr 3
    all_goals (push_cast; omega)

/-- The token read from a string literal with a plain body. -/
theorem nextToken_string (bytes : List Nat) (rs : List Int) (suf : List Nat) (fuel pos : Nat)
    (rp : Int) (hall : ∀ x ∈ rs, PlainRune x)
    (hdrop : bytes.drop pos = stringText (encodeRunes rs) ++ suf) (hfuel : rs.length + 2 ≤ fuel) :
    nextToken utf8Scanner fuel ⟨bytes, (pos : Int), rp⟩ =
      Res.ok (Token.mk pos ((pos + (stringText (encodeRunes rs)).length : Nat) : Int) STRING_T
          STRING none,
        ⟨bytes, ((pos + (stringText (encodeRunes rs)).length : Nat) : Int), rp + rs.length + 2⟩) := by
  obtain ⟨f, rfl⟩ : ∃ f, fuel = f + 2 := ⟨fuel - 2, by omega⟩
  have hdrop0 : bytes.drop pos = 0x22 :: (encodeRunes rs ++ 0x22 :: suf) := by
    rw [hdrop]; simp [stringText]
  rw [nextToken_first f bytes pos rp 0x22 _ hdrop0 (by decide) (by decide)]
  simp only [nextToken.dispatch, Nat.cast_ofNat]
  simp only [show ¬ ((0x22 : Int) = 0x7B) by decide, show ¬ ((0x22 : Int) = 0x7D) by decide,
    show ¬ ((0x22 : Int) = 0x5B) by decide, show ¬ ((0x22 : Int) = 0x5D) by decide,
    show ¬ ((0x22 : Int) = 0x3A) by decide, show ¬ ((0x22 : Int) = 0x2C) by decide,
    show ¬ ((0x22 : Int) = 0x6E) by decide,
    show ¬ ((0x22 : Int) = 0x74 ∨ (0x22 : Int) = 0x66) by decide, if_false, if_true]
  unfold moveToStringTokenEnd
  rw [moveToStringTokenEnd_loop_plain bytes suf rs (f + 2) 0x22 0x5C (pos + 1) (rp + 1)
    (Or.inr rfl) (by decide) hall (drop_cons_succ hdrop0) hfuel]
  simp only [nextToken.finish, utf8Scanner_BytePos]
  simp only [stringText, List.length_cons, List.length_append, List.length_nil]
  congr 3
  all_goals (push_cast; omega)

/-! ### Parsing an object of strings -/

theorem goSlice_string (bytes : List Nat) (pos : Nat) (body suf : List Nat)
    (h : bytes.drop pos = stringText body ++ suf) :
    goSlice bytes ((pos : Int) + 1) (((pos + (stringText body).length : Nat) : Int) - 1) =
      some body := by
  have h1 : bytes.drop (pos + 1) = body ++ (0x22 :: suf) := by
    have h0 : bytes.drop pos = 0x22 :: (body ++ 0x22 :: suf) := by
      rw [h]; simp [stringText]
    exact drop_cons_succ h0
  have hlen : pos + 1 + body.length + 1 ≤ bytes.length := by
    have := congrArg List.length h1
    simp at this
    omega
  unfold goSlice
  have hc : (0 : Int) ≤ (pos : Int) + 1 ∧
      (pos : Int) + 1 ≤ ((pos + (stringText body).length : Nat) : Int) - 1 ∧
      ((pos + (stringText body).length : Nat) : Int) - 1 ≤ (bytes.length : Int) := by
    simp only [stringText, List.length_cons, List.length_append, List.length_nil]
    refine ⟨by omega, by push_cast; omega, by push_cast; omega⟩
  rw [if_pos hc]
  have e1 : ((pos : Int) + 1).toNat = pos + 1 := by omega
  have e2 : (((pos + (stringText body).length : Nat) : Int) - 1 - ((pos : Int) + 1)).toNat =
      body.length := by
    simp only [stringText, List.length_cons, List.length_append, List.length_nil]
    push_cast; omega
  rw [e1, e2, h1]
  simp

theorem encodeRunes_length (rs : List Int) : rs.length ≤ (encodeRunes rs).length := by
  induction rs with
  | nil => simp [encodeRunes]
  | cons r rs ih =>
    have := EncodeRune_length_pos r
    simp only [encodeRunes, List.map_cons, List.flatten_cons, List.length_append,
      List.length_cons] at ih ⊢
    omega

theorem parseStep_object_key (bytes : List Nat) (O : Json) (T : List Json) (hO : O.jtype = OBJECT)
    (prev : Int) (key : List Nat) (root j : Option Nat) (pos : Nat) (rp : Int) (fuel : Nat)
    (rs : List Int) (suf : List Nat) (hall : ∀ x ∈ rs, PlainRune x)
    (hdrop : bytes.drop pos = stringText (encodeRunes rs) ++ suf)
    (hfuel : bytes.length + 2 ≤ fuel) :
    parseStep utf8Scanner (fun _ => bytes) fuel
        (ParseState.mk (O :: T) [none, some 0] 1 prev key false root j ⟨bytes, (pos : Int), rp⟩) =
      Res.ok (ParseState.mk (O :: T) [none, some 0] 1 STRING_T (encodeRunes rs) true root j
        ⟨bytes, ((pos + (stringText (encodeRunes rs)).length : Nat) : Int), rp + rs.length + 2⟩) := by
  have hlen : rs.length + 2 ≤ fuel := by
    have h1 := congrArg List.length hdrop
    have h2 := encodeRunes_length rs
    simp [stringText] at h1
    omega
  have htok := nextToken_string bytes rs suf fuel pos rp hall hdrop hlen
  have hsl := goSlice_string bytes pos (encodeRunes rs) suf hdrop
  push_cast at hsl
  unfold parseStep
  simp only [htok]
  simp [validateTokenOrder, parseSwitch, parseSwitch.isKey, hO, hsl, STRING_T, EOF, OBJECT]


theorem parseStep_object_colon (bytes : List Nat)
    (H : List Json) (prev : Int) (key : List Nat) (keyAva : Bool) (root j : Option Nat)
    (pos : Nat) (rp : Int) (fuel : Nat) (suf : List Nat)
    (hdrop : bytes.drop pos = 0x3A :: suf) (hfuel : 2 ≤ fuel) :
    parseStep utf8Scanner (fun _ => bytes) fuel
        (ParseState.mk H [none, some 0] 1 prev key keyAva root j ⟨bytes, (pos : Int), rp⟩) =
      Res.ok (ParseState.mk H [none, some 0] 1 COLON key keyAva root j
        ⟨bytes, ((pos + 1 : Nat) : Int), rp + 1⟩) := by
  obtain ⟨f, rfl⟩ : ∃ f, fuel = f + 2 := ⟨fuel - 2, by omega⟩
  have htok := nextToken_first f bytes pos rp 0x3A suf hdrop (by decide) (by decide)
  unfold parseStep
  simp only [htok]
  simp [nextToken.dispatch, nextToken.finish, validateTokenOrder, parseSwitch, parseSwitch.isKey,
    NUMBER_T, STRING_T, EOF, COLON, SEP, END_ARR, END_OBJ, BEGIN_ARR, BEGIN_OBJ]

theorem parseStep_object_value (bytes : List Nat) (O : Json) (T : List Json)
    (prev : Int) (key : List Nat) (root j : Option Nat) (pos : Nat) (rp : Int) (fuel : Nat)
    (rs : List Int) (suf : List Nat) (hall : ∀ x ∈ rs, PlainRune x)
    (hdrop : bytes.drop pos = stringText (encodeRunes rs) ++ suf)
    (hfuel : bytes.length + 2 ≤ fuel) :
    parseStep utf8Scanner (fun _ => bytes) fuel
        (ParseState.mk (O :: T) [none, some 0] 1 prev key true root j ⟨bytes, (pos : Int), rp⟩) =
      Res.ok (ParseState.mk
        ({ O with objectItems := mapSet O.objectItems key (T.length + 1) } ::
          (T ++ [Json.mk pos ((pos + (stringText (encodeRunes rs)).length : Nat) : Int) (some 0)
            [] [] STRING]))
        [none, some 0] 1 STRING_T key false root (some (T.length + 1))
        ⟨bytes, ((pos + (stringText (encodeRunes rs)).length : Nat) : Int), rp + rs.length + 2⟩) := by
  have hlen : rs.length + 2 ≤ fuel := by
    have h1 := congrArg List.length hdrop
    have h2 := encodeRunes_length rs
    simp [stringText] at h1
    omega
  have htok := nextToken_string bytes rs suf fuel pos rp hall hdrop hlen
  unfold parseStep
  simp only [htok]
  simp [validateTokenOrder, parseSwitch, parseSwitch.isKey, parseSwitch.value, parseSwitch.attach,
    updateNode, NUMBER_T, STRING_T, EOF, COLON, SEP, END_ARR, END_OBJ, BEGIN_ARR, BEGIN_OBJ]

theorem parseStep_object_close (bytes : List Nat)
    (O : Json) (T : List Json) (prev : Int) (key : List Nat) (root j : Option Nat)
    (pos : Nat) (rp : Int) (fuel : Nat) (suf : List Nat)
    (hdrop : bytes.drop pos = 0x7D :: suf) (hfuel : 2 ≤ fuel) :
    parseStep utf8Scanner (fun _ => bytes) fuel
        (ParseState.mk (O :: T) [none, some 0] 1 prev key false root j ⟨bytes, (pos : Int), rp⟩) =
      Res.ok (ParseState.mk ({ O with end_ := ((pos + 1 : Nat) : Int) } :: T) [none] 0 END_OBJ key
        false (some 0) (some 0) ⟨bytes, ((pos + 1 : Nat) : Int), rp + 1⟩) := by
  obtain ⟨f, rfl⟩ : ∃ f, fuel = f + 2 := ⟨fuel - 2, by omega⟩
  have htok := nextToken_first f bytes pos rp 0x7D suf hdrop (by decide) (by decide)
  unfold parseStep
  simp only [htok]
  simp [nextToken.dispatch, nextToken.finish, validateTokenOrder, parseSwitch, parseSwitch.isKey,
    parseSwitch.close, NUMBER_T, STRING_T, EOF, COLON, SEP, END_ARR, END_OBJ, BEGIN_ARR, BEGIN_OBJ,
    updateNode]

theorem parseStep_top_open_object (bytes : List Nat)
    (prev : Int) (key : List Nat) (root j : Option Nat)
    (pos : Nat) (rp : Int) (fuel : Nat) (suf : List Nat)
    (hdrop : bytes.drop pos = 0x7B :: suf) (hfuel : 2 ≤ fuel) :
    parseStep utf8Scanner (fun _ => bytes) fuel
        (ParseState.mk [] [none] 0 prev key false root j ⟨bytes, (pos : Int), rp⟩) =
      Res.ok (ParseState.mk [Json.mk pos ((pos + 1 : Nat) : Int) none [] [] OBJECT] [none, some 0] 1
        BEGIN_OBJ key false root (some 0) ⟨bytes, ((pos + 1 : Nat) : Int), rp + 1⟩) := by
  obtain ⟨f, rfl⟩ : ∃ f, fuel = f + 2 := ⟨fuel - 2, by omega⟩
  have htok := nextToken_first f bytes pos rp 0x7B suf hdrop (by decide) (by decide)
  unfold parseStep
  simp only [htok]
  simp [nextToken.dispatch, nextToken.finish, validateTokenOrder, parseSwitch, parseSwitch.isKey,
    parseSwitch.value, parseSwitch.attach, NUMBER_T, STRING_T, EOF, COLON, SEP, END_ARR, END_OBJ,
    BEGIN_ARR, BEGIN_OBJ, updateNode]

/-- One member of an object: the key, the colon and the value take three runs of the
loop body and leave a new string node stored under the key. -/
theorem parse_loop_member (bytes : List Nat) (O : Json) (T : List Json) (hO : O.jtype = OBJECT)
    (prev : Int) (hprev : prev ≠ EOF) (key : List Nat) (root j : Option Nat) (pos : Nat) (rp : Int)
    (fuel n : Nat) (kv : List Int × List Int) (suf : List Nat)
    (hk : ∀ x ∈ kv.1, PlainRune x) (hv : ∀ x ∈ kv.2, PlainRune x)
    (hdrop : bytes.drop pos = pairText kv ++ suf) (hfuel : bytes.length + 2 ≤ fuel) :
    parse.loop utf8Scanner (fun _ => bytes) fuel (n + 3)
        (ParseState.mk (O :: T) [none, some 0] 1 prev key false root j ⟨bytes, (pos : Int), rp⟩) =
      parse.loop utf8Scanner (fun _ => bytes) fuel n
        (ParseState.mk
          ({ O with objectItems := mapSet O.objectItems (encodeRunes kv.1) (T.length + 1) } ::
            (T ++ [Json.mk ((pos + (stringText (encodeRunes kv.1)).length + 1 : Nat) : Int)
              ((pos + (pairText kv).length : Nat) : Int) (some 0) [] [] STRING]))
          [none, some 0] 1 STRING_T (encodeRunes kv.1) false root (some (T.length + 1))
          ⟨bytes, ((pos + (pairText kv).length : Nat) : Int),
            rp + kv.1.length + 2 + 1 + kv.2.length + 2⟩) := by
  have hne1 : (STRING_T : Int) ≠ EOF := by decide
  have hne2 : (COLON : Int) ≠ EOF := by decide
  have hd0 : bytes.drop pos =
      stringText (encodeRunes kv.1) ++ (0x3A :: (stringText (encodeRunes kv.2) ++ suf)) := by
    rw [hdrop]; simp [pairText]
  have hd1 := drop_append_left _ _ _ _ hd0
  have hd2 := drop_cons_succ hd1
  rw [parse_loop_step _ _ _ _ _ _ hprev
    (parseStep_object_key bytes O T hO prev key root j pos rp fuel kv.1 _ hk hd0 hfuel)]
  rw [parse_loop_step _ _ _ _ _ _ hne1
    (parseStep_object_colon bytes (O :: T) STRING_T (encodeRunes kv.1) true root j _ _ fuel _ hd1
      (by omega))]
  rw [parse_loop_step _ _ _ _ _ _ hne2
    (parseStep_object_value bytes O T COLON (encodeRunes kv.1) root j _ _ fuel kv.2 suf hv hd2
      hfuel)]
  have e1 : pos + (stringText (encodeRunes kv.1)).length + 1 +
      (stringText (encodeRunes kv.2)).length = pos + (pairText kv).length := by
    simp [pairText]; omega
  rw [e1]

theorem restObject_length (ps : List (List Int × List Int)) :
    4 * ps.length + 1 ≤ (restObject ps).length := by
  induction ps with
  | nil => simp [restObject]
  | cons kv ps ih =>
    simp [restObject, pairText, stringText]
    omega

theorem parse_object_rest (bytes : List Nat) :
    ∀ (ps : List (List Int × List Int)) (O : Json) (T : List Json) (prev : Int)
      (key : List Nat) (root j : Option Nat) (pos : Nat) (rp : Int) (fuel n : Nat),
      O.jtype = OBJECT →
      (∀ kv ∈ ps, (∀ x ∈ kv.1, PlainRune x) ∧ (∀ x ∈ kv.2, PlainRune x)) →
      bytes.drop pos = restObject ps → prev ≠ EOF → bytes.length + 2 ≤ fuel →
      4 * ps.length + 3 ≤ n →
      ∃ (O1 : Json) (N : List Json),
        parse.loop utf8Scanner (fun _ => bytes) fuel n
          (ParseState.mk (O :: T) [none, some 0] 1 prev key false root j
            ⟨bytes, (pos : Int), rp⟩) = Res.ok (Tree.mk (some 0) (O1 :: (T ++ N)) bytes) ∧
        O1.jtype = OBJECT ∧
        O1.objectItems =
          insertAll O.objectItems (T.length + 1) (ps.map (fun kv => encodeRunes kv.1)) ∧
        N.length = ps.length ∧
        ∀ (i : Nat) (kv : List Int × List Int), ps[i]? = some kv →
          ∃ e, N[i]? = some e ∧ e.jtype = STRING ∧ e.parent = some 0 ∧
            goSlice bytes (e.start + 1) (e.end_ - 1) = some (encodeRunes kv.2) := by
  intro ps
  induction ps with
  | nil =>
    intro O T prev key root j pos rp fuel n hO _ hdrop hprev hfuel hn
    obtain ⟨k, rfl⟩ : ∃ k, n = k + 3 := ⟨n - 3, by omega⟩
    simp only [restObject] at hdrop
    have hend : bytes.length ≤ pos + 1 := by
      have := congrArg List.length hdrop
      simp at this
      omega
    refine ⟨{ O with end_ := ((pos + 1 : Nat) : Int) }, [], ?_, hO, rfl, rfl, by simp⟩
    have hne : (END_OBJ : Int) ≠ EOF := by decide
    rw [parse_loop_step _ _ _ _ _ _ hprev
      (parseStep_object_close bytes O T prev key root j pos rp fuel [] hdrop (by omega))]
    rw [parse_loop_step _ _ _ _ _ _ hne
      (parseStep_top_eof bytes _ END_OBJ key false (some 0) (some 0) (pos + 1) (rp + 1) fuel hend
        (by omega))]
    rw [parse_loop_done _ _ _ _ _ rfl]
    simp
  | cons kv ps ih =>
    intro O T prev key root j pos rp fuel n hO hall hdrop hprev hfuel hn
    obtain ⟨k, rfl⟩ : ∃ k, n = k + 4 := ⟨n - 4, by simp at hn; omega⟩
    simp only [restObject] at hdrop
    obtain ⟨hk, hv⟩ := hall kv (List.mem_cons_self _ _)
    have hd1 : bytes.drop (pos + 1) = pairText kv ++ restObject ps := drop_cons_succ hdrop
    have hd2 := drop_append_left _ _ _ _ hd1
    have hne1 : (SEP : Int) ≠ EOF := by decide
    have hne2 : (STRING_T : Int) ≠ EOF := by decide
    rw [parse_loop_step _ _ _ _ _ _ hprev
      (parseStep_array_sep bytes (O :: T) prev key root j pos rp fuel _ hdrop (by omega))]
    rw [parse_loop_member bytes O T hO SEP hne1 key root j (pos + 1) (rp + 1) fuel k kv _ hk hv hd1
      hfuel]
    obtain ⟨O1, N, hrun, hty, hitems, hlen, hnodes⟩ :=
      ih { O with objectItems := mapSet O.objectItems (encodeRunes kv.1) (T.length + 1) }
        (T ++ [Json.mk ((pos + 1 + (stringText (encodeRunes kv.1)).length + 1 : Nat) : Int)
          ((pos + 1 + (pairText kv).length : Nat) : Int) (some 0) [] [] STRING])
        STRING_T (encodeRunes kv.1) root (some (T.length + 1)) (pos + 1 + (pairText kv).length)
        (rp + 1 + kv.1.length + 2 + 1 + kv.2.length + 2) fuel k hO
        (fun x hx => hall x (List.mem_cons_of_mem _ hx)) hd2 hne2 hfuel (by simp at hn; omega)
    refine ⟨O1, Json.mk ((pos + 1 + (stringText (encodeRunes kv.1)).length + 1 : Nat) : Int)
          ((pos + 1 + (pairText kv).length : Nat) : Int) (some 0) [] [] STRING :: N,
      ?_, hty, ?_, by simp [hlen], ?_⟩
    · rw [hrun]; simp
    · rw [hitems]
      simp [insertAll]
    · intro i kv2 hi
      cases i with
      | zero =>
        simp at hi
        subst hi
        refine ⟨Json.mk ((pos + 1 + (stringText (encodeRunes kv.1)).length + 1 : Nat) : Int)
          ((pos + 1 + (pairText kv).length : Nat) : Int) (some 0) [] [] STRING,
          by simp, rfl, rfl, ?_⟩
        have hd3 : bytes.drop (pos + 1 + (stringText (encodeRunes kv.1)).length + 1) =
            stringText (encodeRunes kv.2) ++ restObject ps := by
          have h0 : bytes.drop (pos + 1) = stringText (encodeRunes kv.1) ++
              (0x3A :: (stringText (encodeRunes kv.2) ++ restObject ps)) := by
            rw [hd1]; simp [pairText]
          exact drop_cons_succ (drop_append_left _ _ _ _ h0)
        have := goSlice_string bytes _ (encodeRunes kv.2) _ hd3
        have e1 : pos + 1 + (stringText (encodeRunes kv.1)).length + 1 +
            (stringText (encodeRunes kv.2)).length = pos + 1 + (pairText kv).length := by
          simp [pairText]; omega
        rw [e1] at this
        simpa using this
      | succ i =>
        simp at hi
        simpa using hnodes i kv2 hi

/-! ### The map of an object -/

theorem mapGet_mapSet (m : List (List Nat × Nat)) (k : List Nat) (v : Nat) (k2 : List Nat) :
    mapGet (mapSet m k v) k2 = if k = k2 then some v else mapGet m k2 := by
  induction m with
  | nil => simp [mapSet, mapGet]
  | cons kv m ih =>
    obtain ⟨k1, v1⟩ := kv
    simp only [mapSet]
    by_cases h1 : k1 = k
    · subst h1
      simp only [if_true, mapGet]
      by_cases h2 : k1 = k2 <;> simp [h2]
    · simp only [h1, if_false, mapGet, ih]
      by_cases h2 : k1 = k2
      · subst h2
        have : ¬ (k = k1) := fun h => h1 h.symm
        simp [this]
      · simp [h2]

theorem keys_mapSet (m : List (List Nat × Nat)) (k : List Nat) (v : Nat) :
    (mapSet m k v).map Prod.fst =
      if k ∈ m.map Prod.fst then m.map Prod.fst else m.map Prod.fst ++ [k] := by
  induction m with
  | nil => simp [mapSet]
  | cons kv m ih =>
    obtain ⟨k1, v1⟩ := kv
    simp only [mapSet]
    by_cases h1 : k1 = k
    · subst h1
      simp
    · have h1b : ¬ (k = k1) := fun h => h1 h.symm
      simp only [h1, if_false, List.map_cons, ih, List.mem_cons, h1b, false_or]
      split <;> simp

theorem keys_mapSet_nodup (m : List (List Nat × Nat)) (k : List Nat) (v : Nat)
    (h : (m.map Prod.fst).Nodup) : ((mapSet m k v).map Prod.fst).Nodup := by
  rw [keys_mapSet]
  split
  · exact h
  · rename_i hk
    rw [List.nodup_append]
    refine ⟨h, by simp, ?_⟩
    intro a ha hb
    simp at hb
    subst hb
    exact hk ha

theorem mem_keys_mapSet (m : List (List Nat × Nat)) (k : List Nat) (v : Nat) (k2 : List Nat) :
    k2 ∈ (mapSet m k v).map Prod.fst ↔ k2 = k ∨ k2 ∈ m.map Prod.fst := by
  rw [keys_mapSet]
  split
  · rename_i hk
    constructor
    · intro h; exact Or.inr h
    · intro h
      rcases h with h | h
      · subst h; exact hk
      · exact h
  · simp [or_comm]

theorem insertAll_nodup : ∀ (ks : List (List Nat)) (m : List (List Nat × Nat)) (base : Nat),
    (m.map Prod.fst).Nodup → ((insertAll m base ks).map Prod.fst).Nodup := by
  intro ks
  induction ks with
  | nil => intro m base h; exact h
  | cons k ks ih => intro m base h; exact ih _ _ (keys_mapSet_nodup m k base h)

theorem mem_keys_insertAll : ∀ (ks : List (List Nat)) (m : List (List Nat × Nat)) (base : Nat)
    (k2 : List Nat), k2 ∈ (insertAll m base ks).map Prod.fst ↔ k2 ∈ m.map Prod.fst ∨ k2 ∈ ks := by
  intro ks
  induction ks with
  | nil => intro m base k2; simp [insertAll]
  | cons k ks ih =>
    intro m base k2
    simp only [insertAll]
    rw [ih, mem_keys_mapSet]
    simp only [List.mem_cons]
    constructor
    · rintro ((h | h) | h)
      · exact Or.inr (Or.inl h)
      · exact Or.inl h
      · exact Or.inr (Or.inr h)
    · rintro (h | h | h)
      · exact Or.inl (Or.inr h)
      · exact Or.inl (Or.inl h)
      · exact Or.inr h

theorem mapGet_insertAll_of_not_mem : ∀ (ks : List (List Nat)) (m : List (List Nat × Nat))
    (base : Nat) (k2 : List Nat), k2 ∉ ks → mapGet (insertAll m base ks) k2 = mapGet m k2 := by
  intro ks
  induction ks with
  | nil => intro m base k2 _; rfl
  | cons k ks ih =>
    intro m base k2 h
    simp only [List.mem_cons, not_or] at h
    simp only [insertAll]
    rw [ih _ _ _ h.2, mapGet_mapSet]
    have : ¬ (k = k2) := fun e => h.1 e.symm
    simp [this]

theorem lastValue_none (ps : List (List Nat × List Nat)) (k : List Nat)
    (h : lastValue ps k = none) : k ∉ ps.map Prod.fst := by
  induction ps with
  | nil => simp
  | cons kv ps ih =>
    obtain ⟨k1, v1⟩ := kv
    simp only [lastValue] at h
    cases hl : lastValue ps k with
    | some v => simp [hl] at h
    | none =>
      simp only [hl] at h
      by_cases h1 : k1 = k
      · simp [h1] at h
      · simp only [List.map_cons, List.mem_cons, not_or]
        exact ⟨fun e => h1 e.symm, ih hl⟩

/-- After the assignments of all keys, a key maps to the node of the last pair that has
it. -/
theorem mapGet_insertAll_lastValue : ∀ (ps : List (List Nat × List Nat))
    (m : List (List Nat × Nat)) (base : Nat) (k v : List Nat), lastValue ps k = some v →
    ∃ (i : Nat) (k1 : List Nat),
      mapGet (insertAll m base (ps.map Prod.fst)) k = some (base + i) ∧ ps[i]? = some (k1, v) := by
  intro ps
  induction ps with
  | nil => intro m base k v h; simp [lastValue] at h
  | cons kv ps ih =>
    intro m base k v h
    obtain ⟨k1, v1⟩ := kv
    simp only [lastValue] at h
    simp only [List.map_cons, insertAll]
    cases hl : lastValue ps k with
    | some v2 =>
      simp only [hl] at h
      simp at h
      subst h
      obtain ⟨i, k2, h1, h2⟩ := ih (mapSet m k1 base) (base + 1) k v2 hl
      refine ⟨i + 1, k2, ?_, by simpa using h2⟩
      rw [h1]
      congr 1
      omega
    | none =>
      simp only [hl] at h
      by_cases h1 : k1 = k
      · simp [h1] at h
        subst h
        subst h1
        refine ⟨0, k1, ?_, by simp⟩
        rw [mapGet_insertAll_of_not_mem _ _ _ _ (lastValue_none ps k1 hl), mapGet_mapSet]
        simp
      · simp [h1] at h

theorem Join_pairs_rest (kv : List Int × List Int) (ps : List (List Int × List Int)) :
    Join ((kv :: ps).map pairText) [0x2C] ++ [0x7D] = pairText kv ++ restObject ps := by
  induction ps generalizing kv with
  | nil => simp [Join, restObject]
  | cons kv2 ps ih =>
    have := ih kv2
    simp only [List.map_cons] at this ⊢
    simp only [Join, List.append_assoc, restObject]
    rw [this]
    simp

theorem objectText_cons (kv : List Int × List Int) (ps : List (List Int × List Int)) :
    objectText (kv :: ps) = 0x7B :: (pairText kv ++ restObject ps) := by
  unfold objectText
  rw [List.append_assoc, Join_pairs_rest]
  rfl

/-- The tree `ParseUTF8` builds for an object of plain strings: the root at index 0 with
the keys assigned in order, followed by one string node for each member. -/
theorem ParseUTF8_objectText (pairs : List (List Int × List Int))
    (hall : ∀ kv ∈ pairs, (∀ x ∈ kv.1, PlainRune x) ∧ (∀ x ∈ kv.2, PlainRune x))
    (fuel : Nat) (hfuel : (objectText pairs).length + 2 ≤ fuel) :
    ∃ (O1 : Json) (N : List Json),
      ParseUTF8 fuel (objectText pairs) =
        Res.ok (Tree.mk (some 0) (O1 :: N) (objectText pairs)) ∧
      O1.jtype = OBJECT ∧
      O1.objectItems = insertAll [] 1 (pairs.map (fun kv => encodeRunes kv.1)) ∧
      ∀ (i : Nat) (kv : List Int × List Int), pairs[i]? = some kv →
        ∃ e, N[i]? = some e ∧ e.jtype = STRING ∧ e.parent = some 0 ∧
          goSlice (objectText pairs) (e.start + 1) (e.end_ - 1) = some (encodeRunes kv.2) := by
  have hne0 : (BEGIN_OBJ : Int) ≠ EOF := by decide
  have hne1 : ((-1 : Int)) ≠ EOF := by decide
  have hne2 : (STRING_T : Int) ≠ EOF := by decide
  cases pairs with
  | nil =>
    have htext : objectText [] = [0x7B] ++ restObject [] := by
      simp [objectText, Join, restObject]
    obtain ⟨k, rfl⟩ : ∃ k, fuel = k + 1 := ⟨fuel - 1, by omega⟩
    have hlen : (objectText []).length = 2 := by rw [htext]; rfl
    have hd0 : (objectText []).drop 0 = 0x7B :: restObject [] := by rw [htext]; rfl
    have hd1 : (objectText []).drop 1 = restObject [] := by rw [htext]; rfl
    obtain ⟨O1, N, hrun, hty, hitems, hlenN, -⟩ :=
      parse_object_rest (objectText []) []
        (Json.mk ((0 : Nat) : Int) ((0 + 1 : Nat) : Int) none [] [] OBJECT) []
        BEGIN_OBJ [] none (some 0) 1 ((0 : Int) + 1) (k + 1) k rfl (by simp) hd1 hne0 (by omega)
        (by simp; omega)
    refine ⟨O1, [] ++ N, ?_, hty, by simpa using hitems, by simp⟩
    unfold ParseUTF8 parse parseInit
    change parse.loop utf8Scanner _ _ _
      (ParseState.mk [] [none] 0 (-1) [] false none none ⟨_, ((0 : Nat) : Int), 0⟩) = _
    rw [parse_loop_step _ _ _ _ _ _ hne1
      (parseStep_top_open_object (objectText []) (-1) [] none none 0 0 (k + 1) _ hd0 (by omega))]
    exact hrun
  | cons kv ps =>
    have htext := objectText_cons kv ps
    have hrl := restObject_length ps
    have hpl : 5 ≤ (pairText kv).length := by simp [pairText, stringText]; omega
    have hlen : (objectText (kv :: ps)).length = 1 + (pairText kv).length + (restObject ps).length := by
      rw [htext]; simp; omega
    obtain ⟨k, rfl⟩ : ∃ k, fuel = k + 4 := ⟨fuel - 4, by omega⟩
    have hd0 : (objectText (kv :: ps)).drop 0 = 0x7B :: (pairText kv ++ restObject ps) := by
      rw [htext]; rfl
    have hd1 : (objectText (kv :: ps)).drop (0 + 1) = pairText kv ++ restObject ps := by
      rw [htext]; rfl
    have hd2 := drop_append_left _ _ _ _ hd1
    obtain ⟨hk, hv⟩ := hall kv (List.mem_cons_self _ _)
    obtain ⟨O1, N, hrun, hty, hitems, hlenN, hnodes⟩ :=
      parse_object_rest (objectText (kv :: ps)) ps
        { (Json.mk ((0 : Nat) : Int) ((0 + 1 : Nat) : Int) none [] [] OBJECT) with
          objectItems := mapSet [] (encodeRunes kv.1) (([] : List Json).length + 1) }
        ([] ++ [Json.mk ((0 + 1 + (stringText (encodeRunes kv.1)).length + 1 : Nat) : Int)
          ((0 + 1 + (pairText kv).length : Nat) : Int) (some 0) [] [] STRING])
        STRING_T (encodeRunes kv.1) none (some (([] : List Json).length + 1))
        (0 + 1 + (pairText kv).length)
        ((0 : Int) + 1 + kv.1.length + 2 + 1 + kv.2.length + 2) (k + 4) k rfl
        (fun x hx => hall x (List.mem_cons_of_mem _ hx)) hd2 hne2 (by omega) (by omega)
    refine ⟨O1, ([] ++ [Json.mk ((0 + 1 + (stringText (encodeRunes kv.1)).length + 1 : Nat) : Int)
          ((0 + 1 + (pairText kv).length : Nat) : Int) (some 0) [] [] STRING]) ++ N, ?_, hty, ?_, ?_⟩
    · unfold ParseUTF8 parse parseInit
      change parse.loop utf8Scanner _ _ _
        (ParseState.mk [] [none] 0 (-1) [] false none none ⟨_, ((0 : Nat) : Int), 0⟩) = _
      rw [parse_loop_step _ _ _ _ _ _ hne1
        (parseStep_top_open_object (objectText (kv :: ps)) (-1) [] none none 0 0 (k + 4) _ hd0
          (by omega))]
      rw [parse_loop_member (objectText (kv :: ps)) _ [] rfl BEGIN_OBJ hne0 [] none (some 0) (0 + 1)
        ((0 : Int) + 1) (k + 4) k kv _ hk hv hd1 (by omega)]
      exact hrun
    · rw [hitems]
      simp [insertAll]
    · intro i kv2 hi
      cases i with
      | zero =>
        simp at hi
        subst hi
        refine ⟨Json.mk ((0 + 1 + (stringText (encodeRunes kv.1)).length + 1 : Nat) : Int)
          ((0 + 1 + (pairText kv).length : Nat) : Int) (some 0) [] [] STRING, by simp, rfl, rfl, ?_⟩
        have hd3 : (objectText (kv :: ps)).drop (0 + 1 + (stringText (encodeRunes kv.1)).length + 1) =
            stringText (encodeRunes kv.2) ++ restObject ps := by
          have h0 : (objectText (kv :: ps)).drop (0 + 1) = stringText (encodeRunes kv.1) ++
              (0x3A :: (stringText (encodeRunes kv.2) ++ restObject ps)) := by
            rw [hd1]; simp [pairText]
          exact drop_cons_succ (drop_append_left _ _ _ _ h0)
        have := goSlice_string (objectText (kv :: ps)) _ (encodeRunes kv.2) _ hd3
        have e1 : 0 + 1 + (stringText (encodeRunes kv.1)).length + 1 +
            (stringText (encodeRunes kv.2)).length = 0 + 1 + (pairText kv).length := by
          simp [pairText]; omega
        rw [e1] at this
        simpa using this
      | succ i =>
        simp at hi
        simpa using hnodes i kv2 hi

theorem AsString_of_slice (content : List Nat) (e : Json) (v : List Nat)
    (hty : e.jtype = STRING) (hp : e.parent = some 0)
    (hs : goSlice content (e.start + 1) (e.end_ - 1) = some v) :
    e.AsString content = Res.ok v := by
  unfold Json.AsString Json.IsString
  simp [hty, hp, hs]

/-- For every finite list of pairs whose keys and values are strings of characters that
are neither a quote nor a backslash nor U+FFFD, `ParseUTF8` applied to the object text
returns no error; the root is an object, `Keys()` holds each distinct key exactly once
and nothing else, and for every key `AsString` of `ObjectItems()[k]` is the value of
the last pair in the list whose key is `k`. -/
theorem ParseUTF8_string_object (pairs : List (List Int × List Int))
    (hall : ∀ kv ∈ pairs, (∀ x ∈ kv.1, PlainRune x) ∧ (∀ x ∈ kv.2, PlainRune x))
    (fuel : Nat) (hfuel : (objectText pairs).length + 2 ≤ fuel) :
    ∃ (t : Tree) (r : Nat) (root : Json),
      ParseUTF8 fuel (objectText pairs) = Res.ok t ∧ t.root = some r ∧
      t.heap[r]? = some root ∧ root.IsObject = true ∧ root.Keys.Nodup ∧
      (∀ k, k ∈ root.Keys ↔ k ∈ pairs.map (fun kv => encodeRunes kv.1)) ∧
      ∀ (k v : List Nat),
        lastValue (pairs.map (fun kv => (encodeRunes kv.1, encodeRunes kv.2))) k = some v →
        ∃ (p : Nat) (e : Json), mapGet root.ObjectItems k = some p ∧ t.heap[p]? = some e ∧
          e.AsString t.content = Res.ok v := by
  obtain ⟨O1, N, hrun, hty, hitems, hnodes⟩ := ParseUTF8_objectText pairs hall fuel hfuel
  refine ⟨_, 0, O1, hrun, rfl, by simp, by simp [Json.IsObject, hty], ?_, ?_, ?_⟩
  · simp only [Json.Keys, hitems]
    exact insertAll_nodup _ _ _ (by simp)
  · intro k
    simp only [Json.Keys, hitems]
    rw [mem_keys_insertAll]
    simp
  · intro k v hl
    obtain ⟨i, k1, h1, h2⟩ := mapGet_insertAll_lastValue _ [] 1 k v hl
    have hkeys : (pairs.map (fun kv => (encodeRunes kv.1, encodeRunes kv.2))).map Prod.fst =
        pairs.map (fun kv => encodeRunes kv.1) := by
      simp [Function.comp]
    rw [hkeys] at h1
    simp only [List.getElem?_map, Option.map_eq_some'] at h2
    obtain ⟨kv, hkv, hkv2⟩ := h2
    simp at hkv2
    obtain ⟨e, he, hety, hep, hes⟩ := hnodes i kv hkv
    rw [hkv2.2] at hes
    refine ⟨1 + i, e, ?_, ?_, AsString_of_slice _ _ _ hety hep hes⟩
    · simp only [Json.ObjectItems, hitems]; exact h1
    · simp only []
      rw [Nat.add_comm]
      simpa using he

/-! ### More fuel does not change a result -/

theorem moveToStringTokenEnd_loop_mono {σ : Type} (S : PositionalRuneScanner σ) :
    ∀ (f g : Nat) (c prev : Int) (r : σ), f ≤ g →
      moveToStringTokenEnd.loop S f c prev r ≠ Res.outOfFuel →
      moveToStringTokenEnd.loop S g c prev r = moveToStringTokenEnd.loop S f c prev r := by
  intro f
  induction f with
  | zero => intro g c prev r _ h; simp [moveToStringTokenEnd.loop] at h
  | succ f ih =>
    intro g c prev r hfg h
    obtain ⟨g, rfl⟩ : ∃ k, g = k + 1 := ⟨g - 1, by omega⟩
    rw [moveToStringTokenEnd.loop] at h ⊢
    rw [moveToStringTokenEnd.loop]
    split
    · rename_i hc
      simp only [hc, if_true] at h
      cases hr : S.ReadRune r with
      | ok res =>
        obtain ⟨⟨c1, w, e⟩, r1⟩ := res
        cases e with
        | some e => rfl
        | none =>
          simp only [hr] at h
          exact ih g c1 c r1 (by omega) h
      | error e => rfl
      | fault => rfl
      | outOfFuel => rfl
    · rfl

theorem moveToNumberTokenEnd_loop_mono {σ : Type} (S : PositionalRuneScanner σ) :
    ∀ (f g : Nat) (prev : Int) (dotCount : Nat) (r : σ), f ≤ g →
      moveToNumberTokenEnd.loop S f prev dotCount r ≠ Res.outOfFuel →
      moveToNumberTokenEnd.loop S g prev dotCount r =
        moveToNumberTokenEnd.loop S f prev dotCount r := by
  intro f
  induction f with
  | zero => intro g prev dotCount r _ h; simp [moveToNumberTokenEnd.loop] at h
  | succ f ih =>
    intro g prev dotCount r hfg h
    obtain ⟨g, rfl⟩ : ∃ k, g = k + 1 := ⟨g - 1, by omega⟩
    rw [moveToNumberTokenEnd.loop] at h ⊢
    rw [moveToNumberTokenEnd.loop]
    cases hr : S.ReadRune r with
    | ok res =>
      obtain ⟨⟨c1, w, e⟩, r1⟩ := res
      cases e with
      | some e => rfl
      | none =>
        simp only [hr] at h
        simp only []
        split
        · split
          · rfl
          · split
            · split
              · rfl
              · rename_i h1 h2 h3 h4
                simp only [h1, h2, h3, h4, if_true, if_false] at h
                exact ih g _ _ r1 (by omega) h
            · rfl
        · rename_i h1
          simp only [h1, if_false] at h
          exact ih g _ _ r1 (by omega) h
    | error e => rfl
    | fault => rfl
    | outOfFuel => rfl

theorem nextToken_finish_mono {σ : Type} (S : PositionalRuneScanner σ) (start token jtype : Int)
    (x y : Res (Option GoError × σ)) (hxy : x ≠ Res.outOfFuel → y = x)
    (h : nextToken.finish S start token jtype x ≠ Res.outOfFuel) :
    nextToken.finish S start token jtype y = nextToken.finish S start token jtype x := by
  have hx : x ≠ Res.outOfFuel := by
    intro hx
    rw [hx] at h
    exact h rfl
  rw [hxy hx]

theorem nextToken_dispatch_mono {σ : Type} (S : PositionalRuneScanner σ) (f g : Nat)
    (start c : Int) (r : σ) (hfg : f ≤ g)
    (h : nextToken.dispatch S f start c r ≠ Res.outOfFuel) :
    nextToken.dispatch S g start c r = nextToken.dispatch S f start c r := by
  unfold nextToken.dispatch at h ⊢
  by_cases c1 : c = 0x7B
  · rw [if_pos c1, if_pos c1]
  rw [if_neg c1] at h
  rw [if_neg c1, if_neg c1]
  by_cases c2 : c = 0x7D
  · rw [if_pos c2, if_pos c2]
  rw [if_neg c2] at h
  rw [if_neg c2, if_neg c2]
  by_cases c3 : c = 0x5B
  · rw [if_pos c3, if_pos c3]
  rw [if_neg c3] at h
  rw [if_neg c3, if_neg c3]
  by_cases c4 : c = 0x5D
  · rw [if_pos c4, if_pos c4]
  rw [if_neg c4] at h
  rw [if_neg c4, if_neg c4]
  by_cases c5 : c = 0x3A
  · rw [if_pos c5, if_pos c5]
  rw [if_neg c5] at h
  rw [if_neg c5, if_neg c5]
  by_cases c6 : c = 0x2C
  · rw [if_pos c6, if_pos c6]
  rw [if_neg c6] at h
  rw [if_neg c6, if_neg c6]
  by_cases c7 : c = 0x6E
  · rw [if_pos c7, if_pos c7]
  rw [if_neg c7] at h
  rw [if_neg c7, if_neg c7]
  by_cases c8 : c = 0x74 ∨ c = 0x66
  · rw [if_pos c8, if_pos c8]
  rw [if_neg c8] at h
  rw [if_neg c8, if_neg c8]
  by_cases c9 : c = 0x22
  · rw [if_pos c9] at h
    rw [if_pos c9, if_pos c9]
    exact nextToken_finish_mono S _ _ _ _ _
      (fun hx => moveToStringTokenEnd_loop_mono S f g _ _ r hfg hx) h
  rw [if_neg c9] at h
  rw [if_neg c9, if_neg c9]
  by_cases c10 : c ∈ ([0x2B, 0x2D, 0x30, 0x31, 0x32, 0x33, 0x34, 0x35, 0x36, 0x37, 0x38, 0x39] : List Int)
  · rw [if_pos c10] at h
    rw [if_pos c10, if_pos c10]
    exact nextToken_finish_mono S _ _ _ _ _
      (fun hx => moveToNumberTokenEnd_loop_mono S f g _ _ r hfg hx) h
  rw [if_neg c10, if_neg c10]

theorem nextToken_skip_mono {σ : Type} (S : PositionalRuneScanner σ) (f g : Nat) (hfg : f ≤ g) :
    ∀ (n m : Nat) (start c : Int) (r : σ), n ≤ m →
      nextToken.skip S f n start c r ≠ Res.outOfFuel →
      nextToken.skip S g m start c r = nextToken.skip S f n start c r := by
  intro n
  induction n with
  | zero => intro m start c r _ h; simp [nextToken.skip] at h
  | succ n ih =>
    intro m start c r hnm h
    obtain ⟨m, rfl⟩ : ∃ k, m = k + 1 := ⟨m - 1, by omega⟩
    rw [nextToken.skip] at h ⊢
    rw [nextToken.skip]
    split
    · rename_i hs
      simp only [hs, if_true] at h
      cases hr : S.ReadRune r with
      | ok res =>
        obtain ⟨⟨c1, w, e⟩, r1⟩ := res
        cases e with
        | some e => rfl
        | none =>
          simp only [hr] at h
          exact ih m _ c1 r1 (by omega) h
      | error e => rfl
      | fault => rfl
      | outOfFuel => rfl
    · rename_i hs
      simp only [hs] at h
      exact nextToken_dispatch_mono S f g start c r hfg h

theorem nextToken_mono {σ : Type} (S : PositionalRuneScanner σ) (f g : Nat) (hfg : f ≤ g)
    (r : σ) (h : nextToken S f r ≠ Res.outOfFuel) : nextToken S g r = nextToken S f r :=
  nextToken_skip_mono S f g hfg f g 0 0x20 r hfg h

theorem parseStep_mono {σ : Type} (S : PositionalRuneScanner σ) (content : σ → List Nat)
    (f g : Nat) (hfg : f ≤ g) (st : ParseState σ)
    (h : parseStep S content f st ≠ Res.outOfFuel) :
    parseStep S content g st = parseStep S content f st := by
  have hn : nextToken S f st.reader ≠ Res.outOfFuel := by
    intro hn
    apply h
    unfold parseStep
    rw [hn]
  unfold parseStep
  rw [nextToken_mono S f g hfg st.reader hn]

/-- A run of the parser that ends within its fuel ends the same way with more fuel. -/
theorem parse_loop_mono {σ : Type} (S : PositionalRuneScanner σ) (content : σ → List Nat)
    (f g : Nat) (hfg : f ≤ g) :
    ∀ (n m : Nat) (st : ParseState σ), n ≤ m →
      parse.loop S content f n st ≠ Res.outOfFuel →
      parse.loop S content g m st = parse.loop S content f n st := by
  intro n
  induction n with
  | zero => intro m st _ h; simp [parse.loop] at h
  | succ n ih =>
    intro m st hnm h
    obtain ⟨m, rfl⟩ : ∃ k, m = k + 1 := ⟨m - 1, by omega⟩
    rw [parse.loop] at h ⊢
    rw [parse.loop]
    split
    · rename_i hp
      rw [if_pos hp] at h
      have hs : parseStep S content f st ≠ Res.outOfFuel := by
        intro hs
        rw [hs] at h
        exact h rfl
      rw [parseStep_mono S content f g hfg st hs]
      cases hr : parseStep S content f st with
      | ok st1 =>
        simp only [hr] at h
        exact ih m st1 (by omega) h
      | error e => rfl
      | fault => rfl
      | outOfFuel => rfl
    · rfl

theorem ParseUTF8_mono (f g : Nat) (hfg : f ≤ g) (b : List Nat)
    (h : ParseUTF8 f b ≠ Res.outOfFuel) : ParseUTF8 g b = ParseUTF8 f b :=
  parse_loop_mono utf8Scanner (fun _ => b) f g hfg f g _ hfg h

/-! ### The escapes of the escape decoder -/

theorem DecodeRune_multibyte (p0 : Nat) (rest : List Nat) (h0 : ¬ p0 < 0x80) :
    ∀ d, DecodeRune (p0 :: rest) = d → d.1 ≠ RuneError →
      0x80 ≤ d.1 ∧ 2 ≤ d.2 ∧ ∀ x ∈ (p0 :: rest).take d.2, 0x80 ≤ x := by
  intro d hd
  unfold DecodeRune at hd
  simp only [h0, if_false] at hd
  repeat' split at hd
  all_goals subst hd
  all_goals first
    | (intro h; exact absurd rfl h)
    | (intro _; simp; omega)

theorem DecodeRune_shape (p : List Nat) (h : (DecodeRune p).1 ≠ RuneError) :
    (∃ b rest, p = b :: rest ∧ b < 0x80 ∧ DecodeRune p = ((b : Int), 1)) ∨
    (0x80 ≤ (DecodeRune p).1 ∧ 2 ≤ (DecodeRune p).2 ∧ ∀ x ∈ p.take (DecodeRune p).2, 0x80 ≤ x) := by
  match p with
  | [] => exact absurd rfl h
  | p0 :: rest =>
    by_cases c1 : p0 < 0x80
    · left; exact ⟨p0, rest, rfl, c1, DecodeRune_ascii p0 rest c1⟩
    · right; exact DecodeRune_multibyte p0 rest c1 _ rfl h

theorem escapeOpeners_skip (rest : List Nat) :
    ∀ (xs : List Nat) (i : Nat), (∀ x ∈ xs, x ≠ 0x5C) →
      escapeOpeners (xs ++ rest) i false = escapeOpeners rest (i + xs.length) false := by
  intro xs
  induction xs with
  | nil => intro i _; simp
  | cons x xs ih =>
    intro i h
    have hx := h x (List.mem_cons_self _ _)
    rw [List.cons_append, escapeOpeners, if_neg hx,
      ih (i + 1) (fun y hy => h y (List.mem_cons_of_mem _ hy))]
    simp only [List.length_cons]
    congr 1
    omega

theorem hexVal_ne_backslash (c : Nat) (v : Nat) (h : hexVal c = some v) : c ≠ 0x5C := by
  intro hc
  subst hc
  simp [hexVal] at h

theorem hexDigits_no_backslash :
    ∀ (s : List Nat) (n v : Nat), hexDigits s n = some v → ∀ x ∈ s, x ≠ 0x5C := by
  intro s
  induction s with
  | nil => intro n v _ x hx; simp at hx
  | cons c cs ih =>
    intro n v h x hx
    rw [hexDigits] at h
    cases hv : hexVal c with
    | none => simp [hv] at h
    | some d =>
      simp only [hv] at h
      rcases List.mem_cons.1 hx with rfl | hx
      · exact hexVal_ne_backslash _ _ hv
      · exact ih _ _ h x hx

theorem ParseInt16_no_backslash (s : List Nat) (v : Int) (h : ParseInt16 s = some v) :
    ∀ x ∈ s, x ≠ 0x5C := by
  unfold ParseInt16 at h
  simp only [] at h
  by_cases hs : s.head? = some 0x2D ∨ s.head? = some 0x2B
  · rw [if_pos hs] at h
    split at h
    · simp at h
    · cases hd : hexDigits s.tail 0 with
      | none => simp [hd] at h
      | some n =>
        have hall := hexDigits_no_backslash _ _ _ hd
        intro x hx
        cases s with
        | nil => simp at hx
        | cons a t =>
          rcases List.mem_cons.1 hx with rfl | hx
          · simp at hs
            omega
          · exact hall x hx
  · rw [if_neg hs] at h
    split at h
    · simp at h
    · cases hd : hexDigits s 0 with
      | none => simp [hd] at h
      | some n => exact hexDigits_no_backslash _ _ _ hd

theorem isEscapeChar_iff (x : Int) :
    isEscapeChar x = true ↔
      x ∈ ([0x22, 0x5C, 0x2F, 0x62, 0x66, 0x6E, 0x72, 0x74, 0x75] : List Int) := by
  unfold isEscapeChar escapeChars
  simp only [List.lookup_cons, List.lookup_nil]
  constructor
  · intro h
    by_contra hc
    simp only [List.mem_cons, List.mem_singleton, not_or, List.not_mem_nil, or_false] at hc
    obtain ⟨c1, c2, c3, c4, c5, c6, c7, c8, c9⟩ := hc
    have e : ∀ k : Int, x ≠ k → (x == k) = false := fun k hk => by simp [hk]
    simp [e _ c1, e _ c2, e _ c3, e _ c4, e _ c5, e _ c6, e _ c7, e _ c8, e _ c9] at h
  · intro h
    simp only [List.mem_cons, List.mem_singleton, List.not_mem_nil, or_false] at h
    rcases h with h | h | h | h | h | h | h | h | h <;> subst h <;> decide

theorem EscapeUTF8_loop_openers (bytes : List Nat) :
    ∀ (fuel pos : Nat) (esc : Bool) (escaped : List Int) (out : List Nat),
      EscapeUTF8.loop bytes fuel pos esc escaped = Res.ok out →
      (esc = true → bytes.length ≤ pos ∨ ∃ l ∈ escapeLetters, bytes[pos]? = some l) ∧
      ∀ i ∈ escapeOpeners (bytes.drop pos) pos esc,
        bytes.length ≤ i + 1 ∨ ∃ l ∈ escapeLetters, bytes[i + 1]? = some l := by
  intro fuel
  induction fuel with
  | zero => intro pos esc escaped out h; simp [EscapeUTF8.loop] at h
  | succ f ih =>
    intro pos esc escaped out h
    rw [EscapeUTF8.loop] at h
    by_cases hpos : pos < bytes.length
    · rw [if_pos hpos] at h
      by_cases hd : (DecodeRune (bytes.drop pos)).1 = RuneError
      · simp [nextRune, hd] at h
      · have hn : nextRune bytes pos =
            ((DecodeRune (bytes.drop pos)).1, pos + (DecodeRune (bytes.drop pos)).2, none) := by
          simp [nextRune, hd]
        rw [hn] at h
        simp only [] at h
        have hw := DecodeRune_width _ hd
        rcases DecodeRune_shape _ hd with ⟨b, rest, hb, hblt, hdec⟩ | ⟨hge, hw2, hall⟩
        · -- an ASCII character
          rw [hdec] at h
          simp only [] at h
          have hget : bytes[pos]? = some b := by
            have := congrArg List.head? hb
            simpa [List.head?_drop] using this
          have hrest : bytes.drop (pos + 1) = rest := drop_cons_succ hb
          cases esc with
          | true =>
            simp only [if_true] at h
            by_cases hesc : isEscapeChar (b : Int) = true
            · simp only [hesc, if_true] at h
              have hlet : b ∈ escapeLetters := by
                have := (isEscapeChar_iff _).1 hesc
                simp [escapeLetters]
                simp at this
                omega
              refine ⟨fun _ => Or.inr ⟨b, hlet, hget⟩, ?_⟩
              rw [hb]
              simp only [escapeOpeners]
              rw [← hrest]
              by_cases hu : (b : Int) = 0x75
              · simp only [hu, if_true] at h
                unfold hexDigitsToRune at h
                by_cases hlen : pos + 1 + 3 < bytes.length
                · rw [if_pos hlen] at h
                  simp only [] at h
                  cases hp : ParseInt16 ((bytes.drop (pos + 1)).take 4) with
                  | none => simp [hp] at h
                  | some val =>
                    simp only [hp] at h
                    have hnb := ParseInt16_no_backslash _ _ hp
                    have hsplit : bytes.drop (pos + 1) =
                        (bytes.drop (pos + 1)).take 4 ++ bytes.drop (pos + 1 + 4) := by
                      have e : bytes.drop (pos + 1 + 4) = (bytes.drop (pos + 1)).drop 4 := by
                        rw [List.drop_drop]
                      rw [e, List.take_append_drop]
                    rw [hsplit, escapeOpeners_skip _ _ _ hnb]
                    have hl4 : ((bytes.drop (pos + 1)).take 4).length = 4 := by
                      simp; omega
                    rw [hl4]
                    exact (ih _ _ _ _ h).2
                · rw [if_neg hlen] at h
                  simp at h
              · simp only [hu, if_false] at h
                exact (ih _ _ _ _ h).2
            · simp [hesc] at h
          | false =>
            simp only [Bool.false_eq_true, if_false] at h
            refine ⟨fun hh => by simp at hh, ?_⟩
            rw [hb]
            by_cases hbs : (b : Int) = 0x5C
            · have hb5 : b = 0x5C := by omega
              simp only [hbs, if_true] at h
              simp only [escapeOpeners, hb5, if_true]
              obtain ⟨i1, i2⟩ := ih _ _ _ _ h
              rw [← hrest]
              intro i hi
              rcases List.mem_cons.1 hi with rfl | hi
              · rcases i1 rfl with h1 | h1
                · exact Or.inl h1
                · exact Or.inr h1
              · exact i2 i hi
            · have hb5 : ¬ (b = 0x5C) := by omega
              simp only [hbs, if_false] at h
              simp only [escapeOpeners, hb5, if_false]
              rw [← hrest]
              split at h
              · simp at h
              · exact (ih _ _ _ _ h).2
        · -- a character of two or more bytes
          have hc5 : ¬ ((DecodeRune (bytes.drop pos)).1 = 0x5C) := by omega
          cases esc with
          | true =>
            simp only [if_true] at h
            have hesc : isEscapeChar (DecodeRune (bytes.drop pos)).1 = false := by
              cases hq : isEscapeChar (DecodeRune (bytes.drop pos)).1 with
              | false => rfl
              | true =>
                have := (isEscapeChar_iff _).1 hq
                simp at this
                omega
            simp [hesc] at h
          | false =>
            simp only [Bool.false_eq_true, if_false, hc5] at h
            refine ⟨fun hh => by simp at hh, ?_⟩
            split at h
            · simp at h
            · have hsplit : bytes.drop pos =
                  (bytes.drop pos).take (DecodeRune (bytes.drop pos)).2 ++
                    bytes.drop (pos + (DecodeRune (bytes.drop pos)).2) := by
                have e : bytes.drop (pos + (DecodeRune (bytes.drop pos)).2) =
                    (bytes.drop pos).drop (DecodeRune (bytes.drop pos)).2 := by
                  rw [List.drop_drop]
                rw [e, List.take_append_drop]
              have hnb : ∀ x ∈ (bytes.drop pos).take (DecodeRune (bytes.drop pos)).2, x ≠ 0x5C := by
                intro x hx
                have := hall x hx
                omega
              have hlw : ((bytes.drop pos).take (DecodeRune (bytes.drop pos)).2).length =
                  (DecodeRune (bytes.drop pos)).2 := by
                simp
                have := hw.2
                simp at this
                omega
              rw [hsplit, escapeOpeners_skip _ _ _ hnb, hlw]
              exact (ih _ _ _ _ h).2
    · rw [List.drop_of_length_le (by omega)]
      refine ⟨fun _ => Or.inl (by omega), ?_⟩
      intro i hi
      simp [escapeOpeners] at hi

/-- The loop of `EscapeUTF8` ends within `len(bytes) - pos + 1` iterations, with a string
or with an error. -/
theorem EscapeUTF8_loop_total (bytes : List Nat) :
    ∀ (fuel pos : Nat) (esc : Bool) (escaped : List Int), pos ≤ bytes.length →
      bytes.length < pos + fuel →
      (∃ out, EscapeUTF8.loop bytes fuel pos esc escaped = Res.ok out) ∨
      ∃ e, EscapeUTF8.loop bytes fuel pos esc escaped = Res.error e := by
  intro fuel
  induction fuel with
  | zero => intro pos esc escaped h1 h2; omega
  | succ f ih =>
    intro pos esc escaped hle h
    rw [EscapeUTF8.loop]
    by_cases hpos : pos < bytes.length
    · rw [if_pos hpos]
      by_cases hd : (DecodeRune (bytes.drop pos)).1 = RuneError
      · right
        exact ⟨GoError.base Err.RuneDecodingError, by simp [nextRune, hd]⟩
      · have hn : nextRune bytes pos =
            ((DecodeRune (bytes.drop pos)).1, pos + (DecodeRune (bytes.drop pos)).2, none) := by
          simp [nextRune, hd]
        rw [hn]
        simp only []
        have hw := DecodeRune_width _ hd
        simp only [List.length_drop] at hw
        have ih1 := ih (pos + (DecodeRune (bytes.drop pos)).2)
        split
        · split
          · split
            · by_cases hlen : pos + (DecodeRune (bytes.drop pos)).2 + 3 < bytes.length
              · cases hp : ParseInt16 ((bytes.drop (pos + (DecodeRune (bytes.drop pos)).2)).take 4) with
                | none =>
                  right
                  simp only [hexDigitsToRune, hlen, if_true, hp]
                  exact ⟨_, rfl⟩
                | some val =>
                  simp only [hexDigitsToRune, hlen, if_true, hp]
                  exact ih _ _ _ (by omega) (by omega)
              · right
                simp only [hexDigitsToRune, hlen, if_false]
                exact ⟨_, rfl⟩
            · exact ih1 _ _ (by omega) (by omega)
          · right; exact ⟨_, rfl⟩
        · split
          · exact ih1 _ _ (by omega) (by omega)
          · split
            · right; exact ⟨_, rfl⟩
            · exact ih1 _ _ (by omega) (by omega)
    · rw [if_neg hpos]
      left; exact ⟨_, rfl⟩

theorem EscapeUTF8_total (bytes : List Nat) :
    (∃ out, EscapeUTF8 bytes = Res.ok out) ∨ ∃ e, EscapeUTF8 bytes = Res.error e :=
  EscapeUTF8_loop_total bytes _ 0 false [] (Nat.zero_le _) (by omega)

/-- Decoding a prefix of units and going on with what follows them. -/
theorem EscapeUTF8_loop_units_then (bytes : List Nat) (suf : List Nat) (R : Res (List Nat))
    (k : Nat) :
    ∀ (units : List EscapeUnit) (fuel pos : Nat) (escaped : List Int),
      (∀ u ∈ units, u.Allowed ∧ u.denotes ≠ RuneError) →
      bytes.drop pos = (units.map EscapeUnit.source).flatten ++ suf →
      (∀ f, k ≤ f → EscapeUTF8.loop bytes f (pos + (units.map EscapeUnit.source).flatten.length)
        false (escaped ++ units.map EscapeUnit.denotes) = R) →
      (units.map EscapeUnit.source).flatten.length + k ≤ fuel →
      EscapeUTF8.loop bytes fuel pos false escaped = R := by
  intro units
  induction units with
  | nil =>
    intro fuel pos escaped _ _ hR hfuel
    have := hR fuel (by simpa using hfuel)
    simpa using this
  | cons u us ih =>
    intro fuel pos escaped hall hdrop hR hfuel
    have hu := hall u (List.mem_cons_self _ _)
    have hus : ∀ v ∈ us, v.Allowed ∧ v.denotes ≠ RuneError :=
      fun v hv => hall v (List.mem_cons_of_mem _ hv)
    simp only [List.map_cons, List.flatten_cons, List.append_assoc, List.length_append] at hdrop hfuel hR
    cases u with
    | plain c =>
      obtain ⟨⟨hv, hbs, hctl⟩, hne⟩ := hu
      simp only [EscapeUnit.source, EscapeUnit.denotes] at hdrop hfuel hne hR
      have hl := EncodeRune_length_pos c
      obtain ⟨f, rfl⟩ : ∃ f, fuel = f + 1 := ⟨fuel - 1, by omega⟩
      have hpos : pos < bytes.length := by
        have := congrArg List.length hdrop
        simp at this
        omega
      rw [EscapeUTF8.loop, if_pos hpos, nextRune_encoded bytes pos c _ hdrop hv hne]
      simp only [Bool.false_eq_true, if_false, hbs, hctl]
      apply ih f (pos + (EncodeRune c).length) (escaped ++ [c]) hus
        (drop_append_left _ _ _ _ hdrop) _ (by omega)
      intro f2 hf2
      have := hR f2 hf2
      simpa [Nat.add_assoc] using this
    | esc l =>
      obtain ⟨hl, -⟩ := hu
      simp only [EscapeUnit.source, List.cons_append, List.nil_append, List.length_cons,
        List.length_nil] at hdrop hfuel hR
      obtain ⟨f, rfl⟩ : ∃ f, fuel = f + 2 := ⟨fuel - 2, by omega⟩
      have hpos : pos < bytes.length := drop_cons_length hdrop
      have hdrop1 := drop_cons_succ hdrop
      have hpos1 : pos + 1 < bytes.length := drop_cons_length hdrop1
      have hllt : l < 0x80 := by
        simp [EscapeUnit.Allowed] at hl
        omega
      rw [EscapeUTF8.loop, if_pos hpos, nextRune_ascii bytes pos 0x5C _ hdrop (by decide)]
      simp only [Bool.false_eq_true, if_false, Nat.cast_ofNat, if_true]
      rw [EscapeUTF8.loop, if_pos hpos1, nextRune_ascii bytes (pos + 1) l _ hdrop1 hllt]
      have hesc : isEscapeChar (l : Int) = true ∧ ¬ ((l : Int) = 0x75) ∧
          (escapeChars.lookup (l : Int)).getD 0 = (EscapeUnit.esc l).denotes := by
        simp [EscapeUnit.Allowed] at hl
        rcases hl with h | h | h | h | h | h | h | h <;> subst h <;> decide
      simp only [if_true, hesc.1, hesc.2.1, if_false, hesc.2.2]
      apply ih f (pos + 1 + 1) (escaped ++ [(EscapeUnit.esc l).denotes]) hus
        (drop_cons_succ hdrop1) _ (by omega)
      intro f2 hf2
      have := hR f2 hf2
      have e : pos + (0 + 1 + 1 + (List.map EscapeUnit.source us).flatten.length) =
          pos + 1 + 1 + (List.map EscapeUnit.source us).flatten.length := by omega
      rw [e] at this
      simpa using this

theorem escapeOpeners_bound :
    ∀ (l : List Nat) (start : Nat) (esc : Bool), ∀ i ∈ escapeOpeners l start esc,
      start ≤ i ∧ i < start + l.length := by
  intro l
  induction l with
  | nil => intro start esc i hi; simp [escapeOpeners] at hi
  | cons b rest ih =>
    intro start esc i hi
    cases esc with
    | true =>
      rw [escapeOpeners] at hi
      have := ih _ _ i hi
      simp only [List.length_cons]
      omega
    | false =>
      rw [escapeOpeners] at hi
      split at hi
      · rcases List.mem_cons.1 hi with rfl | hi
        · simp
        · have := ih _ _ i hi
          simp only [List.length_cons]
          omega
      · have := ih _ _ i hi
        simp only [List.length_cons]
        omega

/-- An escape whose escaped character `c` is none of the nine letters, after a prefix of
well-formed units: the error names `c`. -/
theorem EscapeUTF8_bad_escape (units : List EscapeUnit)
    (hall : ∀ u ∈ units, u.Allowed ∧ u.denotes ≠ RuneError) (c : Int) (hv : ValidRune c)
    (hne : c ≠ RuneError) (hc : isEscapeChar c = false) (rest : List Nat) :
    EscapeUTF8 ((units.map EscapeUnit.source).flatten ++ 0x5C :: (EncodeRune c ++ rest)) =
      Res.error (GoError.escapeSequence (EncodeRune c)) := by
  unfold EscapeUTF8
  apply EscapeUTF8_loop_units_then _ (0x5C :: (EncodeRune c ++ rest)) _ 2 units _ 0 [] hall
    (by simp)
  · intro f hf
    obtain ⟨g, rfl⟩ : ∃ g, f = g + 2 := ⟨f - 2, by omega⟩
    have hdrop : ((units.map EscapeUnit.source).flatten ++ 0x5C :: (EncodeRune c ++ rest)).drop
        (0 + (units.map EscapeUnit.source).flatten.length) = 0x5C :: (EncodeRune c ++ rest) := by
      simp
    have hpos := drop_cons_length hdrop
    have hdrop1 := drop_cons_succ hdrop
    have hpos1 : 0 + (units.map EscapeUnit.source).flatten.length + 1 <
        ((units.map EscapeUnit.source).flatten ++ 0x5C :: (EncodeRune c ++ rest)).length := by
      have := EncodeRune_length_pos c
      simp
      omega
    rw [EscapeUTF8.loop, if_pos hpos, nextRune_ascii _ _ 0x5C _ hdrop (by decide)]
    simp only [Bool.false_eq_true, if_false, Nat.cast_ofNat, if_true]
    rw [EscapeUTF8.loop, if_pos hpos1, nextRune_encoded _ _ c _ hdrop1 hv hne]
    simp [hc]
  · simp

/-! ### The escape `\u` -/

theorem hexVal_of_isHexDigit (c : Nat) (h : isHexDigit c = true) :
    hexVal c = some (hexDigitValue c) ∧ hexDigitValue c < 16 ∧ c ≠ 0x2D ∧ c ≠ 0x2B := by
  unfold isHexDigit at h
  simp at h
  unfold hexVal hexDigitValue
  rcases h with (h | h) | h
  · have h1 : c ≤ 0x39 := h.2
    simp [h, h1]; omega
  · have h1 : ¬ (c ≤ 0x39) := by omega
    have h2 : ¬ (0x30 ≤ c ∧ c ≤ 0x39) := by omega
    have h3 : ¬ (c ≤ 0x46) := by omega
    simp [h, h1, h2, h3]; omega
  · have h1 : ¬ (c ≤ 0x39) := by omega
    have h2 : ¬ (0x30 ≤ c ∧ c ≤ 0x39) := by omega
    have h3 : ¬ (0x61 ≤ c ∧ c ≤ 0x66) := by omega
    have h4 : c ≤ 0x46 := h.2
    simp [h, h1, h2, h3, h4]; omega

theorem hexVal_of_not_isHexDigit (c : Nat) (h : isHexDigit c = false) : hexVal c = none := by
  unfold isHexDigit at h
  simp at h
  unfold hexVal
  have h2 : ¬ (0x30 ≤ c ∧ c ≤ 0x39) := by omega
  have h3 : ¬ (0x61 ≤ c ∧ c ≤ 0x66) := by omega
  have h4 : ¬ (0x41 ≤ c ∧ c ≤ 0x46) := by omega
  simp [h2, h3, h4]

/-- The decoder on `\u` followed by four bytes and nothing else: what it returns is
decided by `strconv.ParseInt` on the four bytes. -/
theorem EscapeUTF8_u_four (a b c d : Nat) :
    EscapeUTF8 [0x5C, 0x75, a, b, c, d] =
      match ParseInt16 [a, b, c, d] with
      | some v => Res.ok (EncodeRune v)
      | none => Res.error (GoError.escapeSequence [0x75, a, b, c, d]) := by
  unfold EscapeUTF8
  simp only [List.length_cons, List.length_nil]
  have h0 : nextRune [0x5C, 0x75, a, b, c, d] 0 = (0x5C, 1, none) :=
    nextRune_ascii _ 0 0x5C _ rfl (by decide)
  have h1 : nextRune [0x5C, 0x75, a, b, c, d] 1 = (0x75, 2, none) :=
    nextRune_ascii _ 1 0x75 _ rfl (by decide)
  rw [EscapeUTF8.loop, if_pos (by simp), h0]
  simp only [Bool.false_eq_true, if_false, if_true]
  rw [EscapeUTF8.loop, if_pos (by simp), h1]
  simp only [if_true, show isEscapeChar 0x75 = true by decide]
  unfold hexDigitsToRune
  rw [if_pos (by simp)]
  simp only [List.drop_succ_cons, List.drop_zero, List.take_succ_cons, List.take_zero]
  cases hp : ParseInt16 [a, b, c, d] with
  | none => rfl
  | some v =>
    simp only []
    rw [EscapeUTF8.loop, if_neg (by simp)]
    simp [runesToString]

theorem ParseInt16_hex (a b c d : Nat) (ha : isHexDigit a = true) (hb : isHexDigit b = true)
    (hc : isHexDigit c = true) (hd : isHexDigit d = true) :
    ParseInt16 [a, b, c, d] = some ((hexValue [a, b, c, d] : Nat) : Int) ∧
      hexValue [a, b, c, d] < 65536 := by
  obtain ⟨a1, a2, a3, a4⟩ := hexVal_of_isHexDigit a ha
  obtain ⟨b1, b2, -, -⟩ := hexVal_of_isHexDigit b hb
  obtain ⟨c1, c2, -, -⟩ := hexVal_of_isHexDigit c hc
  obtain ⟨d1, d2, -, -⟩ := hexVal_of_isHexDigit d hd
  have hv : hexValue [a, b, c, d] = ((hexDigitValue a * 16 + hexDigitValue b) * 16 +
      hexDigitValue c) * 16 + hexDigitValue d := by
    simp [hexValue]
  refine ⟨?_, by rw [hv]; omega⟩
  unfold ParseInt16
  simp only [List.head?_cons, Option.some.injEq, a3, a4, or_self, if_false]
  simp only [hexDigits, a1, b1, c1, d1, Nat.zero_mul, Nat.zero_add]
  rw [hv]
  have hlt : ¬ (((hexDigitValue a * 16 + hexDigitValue b) * 16 + hexDigitValue c) * 16 +
      hexDigitValue d ≥ 2 ^ 31) := by omega
  simp
  omega

theorem ParseInt16_signed (s b c d : Nat) (hs : s = 0x2B ∨ s = 0x2D) (hb : isHexDigit b = true)
    (hc : isHexDigit c = true) (hd : isHexDigit d = true) :
    ParseInt16 [s, b, c, d] =
      some (if s = 0x2D then -((hexValue [b, c, d] : Nat) : Int) else (hexValue [b, c, d] : Nat)) := by
  obtain ⟨b1, b2, -, -⟩ := hexVal_of_isHexDigit b hb
  obtain ⟨c1, c2, -, -⟩ := hexVal_of_isHexDigit c hc
  obtain ⟨d1, d2, -, -⟩ := hexVal_of_isHexDigit d hd
  have hv : hexValue [b, c, d] = (hexDigitValue b * 16 + hexDigitValue c) * 16 +
      hexDigitValue d := by
    simp [hexValue]
  unfold ParseInt16
  have hh : ([s, b, c, d] : List Nat).head? = some 0x2D ∨ ([s, b, c, d] : List Nat).head? = some 0x2B := by
    rcases hs with h | h <;> simp [h]
  simp only [hh, if_true, List.tail_cons]
  simp only [hexDigits, b1, c1, d1, Nat.zero_mul, Nat.zero_add]
  rw [hv]
  have hlt : ¬ ((hexDigitValue b * 16 + hexDigitValue c) * 16 + hexDigitValue d ≥ 2 ^ 31) := by
    omega
  have hlt2 : ¬ ((hexDigitValue b * 16 + hexDigitValue c) * 16 + hexDigitValue d > 2 ^ 31) := by
    omega
  rcases hs with h | h <;> subst h <;> simp <;> omega

theorem ParseInt16_not_hex (a b c d : Nat)
    (h : isHexDigit b = false ∨ isHexDigit c = false ∨ isHexDigit d = false ∨
      (isHexDigit a = false ∧ a ≠ 0x2B ∧ a ≠ 0x2D)) :
    ParseInt16 [a, b, c, d] = none := by
  have htail : isHexDigit b = false ∨ isHexDigit c = false ∨ isHexDigit d = false →
      ∀ n, hexDigits [b, c, d] n = none := by
    intro ht n
    cases hb : isHexDigit b with
    | false => simp [hexDigits, hexVal_of_not_isHexDigit b hb]
    | true =>
      cases hc : isHexDigit c with
      | false =>
        simp [hexDigits, (hexVal_of_isHexDigit b hb).1, hexVal_of_not_isHexDigit c hc]
      | true =>
        cases hd : isHexDigit d with
        | false =>
          simp [hexDigits, (hexVal_of_isHexDigit b hb).1, (hexVal_of_isHexDigit c hc).1,
            hexVal_of_not_isHexDigit d hd]
        | true => simp [hb, hc, hd] at ht
  unfold ParseInt16
  by_cases hs : ([a, b, c, d] : List Nat).head? = some 0x2D ∨ ([a, b, c, d] : List Nat).head? = some 0x2B
  · have ha : a = 0x2D ∨ a = 0x2B := by simpa using hs
    have ht : isHexDigit b = false ∨ isHexDigit c = false ∨ isHexDigit d = false := by
      rcases h with h | h | h | ⟨-, h1, h2⟩
      · exact Or.inl h
      · exact Or.inr (Or.inl h)
      · exact Or.inr (Or.inr h)
      · omega
    simp only [hs, if_true, List.tail_cons, htail ht 0]
    simp
  · simp only [hs, if_false]
    have : hexDigits [a, b, c, d] 0 = none := by
      cases ha : isHexDigit a with
      | false => simp [hexDigits, hexVal_of_not_isHexDigit a ha]
      | true =>
        have ht : isHexDigit b = false ∨ isHexDigit c = false ∨ isHexDigit d = false := by
          rcases h with h | h | h | ⟨h0, -, -⟩
          · exact Or.inl h
          · exact Or.inr (Or.inl h)
          · exact Or.inr (Or.inr h)
          · rw [ha] at h0; cases h0
        rw [hexDigits]
        simp only [(hexVal_of_isHexDigit a ha).1]
        exact htail ht _
    simp [this]

/-- The decoder on `\u` followed by four bytes that `strconv.ParseInt` rejects, whatever
comes after them. -/
theorem EscapeUTF8_u_rejected (a b c d : Nat) (rest : List Nat)
    (h : ParseInt16 [a, b, c, d] = none) :
    EscapeUTF8 (0x5C :: 0x75 :: a :: b :: c :: d :: rest) =
      Res.error (GoError.escapeSequence [0x75, a, b, c, d]) := by
  unfold EscapeUTF8
  simp only [List.length_cons]
  have h0 : nextRune (0x5C :: 0x75 :: a :: b :: c :: d :: rest) 0 = (0x5C, 1, none) :=
    nextRune_ascii _ 0 0x5C _ rfl (by decide)
  have h1 : nextRune (0x5C :: 0x75 :: a :: b :: c :: d :: rest) 1 = (0x75, 2, none) :=
    nextRune_ascii _ 1 0x75 _ rfl (by decide)
  rw [EscapeUTF8.loop, if_pos (by simp), h0]
  simp only [Bool.false_eq_true, if_false, if_true]
  rw [EscapeUTF8.loop, if_pos (by simp), h1]
  simp only [if_true, show isEscapeChar 0x75 = true by decide]
  unfold hexDigitsToRune
  rw [if_pos (by simp)]
  simp only [List.drop_succ_cons, List.drop_zero, List.take_succ_cons, List.take_zero, h]

/-! ### Control characters in the escape decoder -/

theorem IsControl_valid (c : Int) (h : IsControl c = true) :
    ValidRune c ∧ c ≠ RuneError ∧ c ≠ 0x5C := by
  unfold IsControl at h
  simp at h
  unfold ValidRune RuneError
  omega

/-- A control character after a plain prefix without U+FFFD. -/
theorem EscapeUTF8_control_after_plain (p : List Int) (c : Int) (s : List Nat)
    (hp : ∀ x ∈ p, ValidRune x ∧ x ≠ 0x5C ∧ IsControl x = false ∧ x ≠ RuneError)
    (hc : IsControl c = true) :
    EscapeUTF8 (encodeRunes p ++ EncodeRune c ++ s) = Res.error (GoError.controlCharacter c) := by
  obtain ⟨hv, hne, hbs⟩ := IsControl_valid c hc
  have hsrc : ((p.map EscapeUnit.plain).map EscapeUnit.source).flatten = encodeRunes p := by
    simp only [encodeRunes, List.map_map]
    rfl
  have hall : ∀ u ∈ p.map EscapeUnit.plain, u.Allowed ∧ u.denotes ≠ RuneError := by
    intro u hu
    obtain ⟨x, hx, rfl⟩ := List.mem_map.1 hu
    obtain ⟨h1, h2, h3, h4⟩ := hp x hx
    exact ⟨⟨h1, h2, h3⟩, h4⟩
  unfold EscapeUTF8
  apply EscapeUTF8_loop_units_then _ (EncodeRune c ++ s) _ 1 (p.map EscapeUnit.plain) _ 0 [] hall
    (by rw [hsrc]; simp)
  · intro f hf
    obtain ⟨g, rfl⟩ : ∃ g, f = g + 1 := ⟨f - 1, by omega⟩
    rw [hsrc]
    have hdrop : (encodeRunes p ++ EncodeRune c ++ s).drop (0 + (encodeRunes p).length) =
        EncodeRune c ++ s := by
      simp
    have hpos : 0 + (encodeRunes p).length < (encodeRunes p ++ EncodeRune c ++ s).length := by
      have := EncodeRune_length_pos c
      simp
      omega
    rw [EscapeUTF8.loop, if_pos hpos, nextRune_encoded _ _ c _ hdrop hv hne]
    simp [hbs, hc]
  · rw [hsrc]
    simp

/-! ### The kinds of the nodes that get children -/

theorem nextToken_finish_kind {σ : Type} (S : PositionalRuneScanner σ) (start token jtype : Int)
    (x : Res (Option GoError × σ)) (tk : Token) (r1 : σ)
    (h : nextToken.finish S start token jtype x = Res.ok (tk, r1)) :
    tk.token = token ∧ tk.jtype = jtype ∧ tk.start = start ∧ tk.end_ = S.BytePos r1 := by
  obtain ⟨e, -, rfl⟩ := nextToken_finish_ok S start token jtype x tk r1 h
  exact ⟨rfl, rfl, rfl, rfl⟩

/-- The token kind and the value kind `nextToken` returns go together: an opening token
comes with the kind Object or Array. -/
theorem nextToken_dispatch_kind {σ : Type} (S : PositionalRuneScanner σ) (fuel : Nat)
    (start c : Int) (r r1 : σ) (tk : Token)
    (h : nextToken.dispatch S fuel start c r = Res.ok (tk, r1)) :
    (tk.token = BEGIN_ARR → tk.jtype = ARRAY) ∧ (tk.token = BEGIN_OBJ → tk.jtype = OBJECT) := by
  unfold nextToken.dispatch at h
  by_cases c1 : c = 0x7B
  · rw [if_pos c1] at h
    obtain ⟨h1, h2, -, -⟩ := nextToken_finish_kind _ _ _ _ _ _ _ h
    rw [h1, h2]; decide
  rw [if_neg c1] at h
  by_cases c2 : c = 0x7D
  · rw [if_pos c2] at h
    obtain ⟨h1, h2, -, -⟩ := nextToken_finish_kind _ _ _ _ _ _ _ h
    rw [h1, h2]; decide
  rw [if_neg c2] at h
  by_cases c3 : c = 0x5B
  · rw [if_pos c3] at h
    obtain ⟨h1, h2, -, -⟩ := nextToken_finish_kind _ _ _ _ _ _ _ h
    rw [h1, h2]; decide
  rw [if_neg c3] at h
  by_cases c4 : c = 0x5D
  · rw [if_pos c4] at h
    obtain ⟨h1, h2, -, -⟩ := nextToken_finish_kind _ _ _ _ _ _ _ h
    rw [h1, h2]; decide
  rw [if_neg c4] at h
  by_cases c5 : c = 0x3A
  · rw [if_pos c5] at h
    obtain ⟨h1, h2, -, -⟩ := nextToken_finish_kind _ _ _ _ _ _ _ h
    rw [h1, h2]; decide
  rw [if_neg c5] at h
  by_cases c6 : c = 0x2C
  · rw [if_pos c6] at h
    obtain ⟨h1, h2, -, -⟩ := nextToken_finish_kind _ _ _ _ _ _ _ h
    rw [h1, h2]; decide
  rw [if_neg c6] at h
  by_cases c7 : c = 0x6E
  · rw [if_pos c7] at h
    obtain ⟨h1, h2, -, -⟩ := nextToken_finish_kind _ _ _ _ _ _ _ h
    rw [h1, h2]; decide
  rw [if_neg c7] at h
  by_cases c8 : c = 0x74 ∨ c = 0x66
  · rw [if_pos c8] at h
    obtain ⟨h1, h2, -, -⟩ := nextToken_finish_kind _ _ _ _ _ _ _ h
    rw [h1, h2]; decide
  rw [if_neg c8] at h
  by_cases c9 : c = 0x22
  · rw [if_pos c9] at h
    obtain ⟨h1, h2, -, -⟩ := nextToken_finish_kind _ _ _ _ _ _ _ h
    rw [h1, h2]; decide
  rw [if_neg c9] at h
  by_cases c10 : c ∈ ([0x2B, 0x2D, 0x30, 0x31, 0x32, 0x33, 0x34, 0x35, 0x36, 0x37, 0x38, 0x39] : List Int)
  · rw [if_pos c10] at h
    obtain ⟨h1, h2, -, -⟩ := nextToken_finish_kind _ _ _ _ _ _ _ h
    rw [h1, h2]; decide
  rw [if_neg c10] at h
  obtain ⟨h1, h2, -, -⟩ := nextToken_finish_kind _ _ _ _ _ _ _ h
  rw [h1, h2]; decide

theorem nextToken_skip_kind {σ : Type} (S : PositionalRuneScanner σ) (fuel : Nat) :
    ∀ (n : Nat) (start c : Int) (r r1 : σ) (tk : Token),
      nextToken.skip S fuel n start c r = Res.ok (tk, r1) →
      (tk.token = BEGIN_ARR → tk.jtype = ARRAY) ∧ (tk.token = BEGIN_OBJ → tk.jtype = OBJECT) := by
  intro n
  induction n with
  | zero => intro start c r r1 tk h; simp [nextToken.skip] at h
  | succ n ih =>
    intro start c r r1 tk h
    rw [nextToken.skip] at h
    by_cases hs : IsSpace c = true
    · simp only [hs, if_true] at h
      cases hr : S.ReadRune r with
      | ok res =>
        obtain ⟨⟨c1, w, e⟩, r2⟩ := res
        simp only [hr] at h
        cases e with
        | some err =>
          simp only [] at h
          split at h
          · simp at h
            rw [← h.1]
            simp only []
            decide
          · simp at h
            rw [← h.1]
            simp only []
            decide
        | none =>
          simp only [] at h
          exact ih _ _ _ _ _ h
      | error e => simp [hr] at h
      | fault => simp [hr] at h
      | outOfFuel => simp [hr] at h
    · simp only [hs] at h
      exact nextToken_dispatch_kind S fuel start c r r1 tk h

theorem nextToken_kind {σ : Type} (S : PositionalRuneScanner σ) (fuel : Nat) (r r1 : σ)
    (tk : Token) (h : nextToken S fuel r = Res.ok (tk, r1)) :
    (tk.token = BEGIN_ARR → tk.jtype = ARRAY) ∧ (tk.token = BEGIN_OBJ → tk.jtype = OBJECT) :=
  nextToken_skip_kind S fuel fuel 0 0x20 r r1 tk h

theorem updateNode_get (heap heap1 : List Json) (p : Nat) (f : Json → Json)
    (h : updateNode heap p f = some heap1) (q : Nat) :
    heap1[q]? = (heap[q]?).map (fun n => if p = q then f n else n) := by
  unfold updateNode at h
  cases hp : heap[p]? with
  | none => simp [hp] at h
  | some n =>
    simp only [hp] at h
    simp at h
    subst h
    rw [List.getElem?_set]
    by_cases hq : p = q
    · subst hq
      have hlt : p < heap.length := by
        by_contra hc
        rw [List.getElem?_eq_none (by omega)] at hp
        cases hp
      simp [hlt, hp]
    · simp [hq]

theorem parseSwitch_attach_cases {σ : Type} (st : ParseState σ) (heap1 heap2 : List Json)
    (par : Option Nat) (p : Nat) (k : Bool)
    (h : parseSwitch.attach st heap1 par p = some (heap2, k)) :
    heap2 = heap1 ∨ ∃ (q : Nat) (f : Json → Json), par = some q ∧
      updateNode heap1 q f = some heap2 ∧ ∀ n, (f n).jtype = n.jtype := by
  unfold parseSwitch.attach at h
  split at h
  · cases par with
    | none => simp at h
    | some q =>
      simp at h
      obtain ⟨a, ha, rfl, -⟩ := h
      exact Or.inr ⟨q, _, rfl, ha, fun _ => rfl⟩
  · split at h
    · cases par with
      | none => simp at h
      | some q =>
        simp at h
        obtain ⟨a, ha, rfl, -⟩ := h
        exact Or.inr ⟨q, _, rfl, ha, fun _ => rfl⟩
    · simp at h
      exact Or.inl h.1.symm

theorem KindInv_reader {σ : Type} (st : ParseState σ) (r1 : σ) (inv : KindInv st) :
    KindInv { st with reader := r1 } :=
  ⟨inv.stack, inv.leaves⟩

theorem KindInv_init {σ : Type} (r : σ) : KindInv (parseInit r) := by
  refine ⟨?_, ?_⟩
  · intro i p h
    cases i with
    | zero => simp [parseInit] at h
    | succ i => simp [parseInit] at h
  · intro q n h
    simp [parseInit] at h

theorem parseSwitch_close_kind {σ : Type} (tk : Token) (st st1 : ParseState σ)
    (inv : KindInv st) (h : parseSwitch.close tk st = Res.ok st1) : KindInv st1 := by
  unfold parseSwitch.close at h
  cases hs : st.parentStack[st.l]? with
  | none => simp [hs] at h
  | some top =>
    cases top with
    | none => simp [hs] at h
    | some p =>
      simp only [hs] at h
      cases hu : updateNode st.heap p (fun n => { n with end_ := tk.end_ }) with
      | none => simp [hu] at h
      | some heap1 =>
        simp only [hu] at h
        simp at h
        subst h
        have hget := updateNode_get _ _ _ _ hu
        refine ⟨?_, ?_⟩
        · intro i q hi
          simp only [List.getElem?_take] at hi
          split at hi
          · obtain ⟨n, hn, hk⟩ := inv.stack i q hi
            simp only []
            rw [hget q, hn]
            by_cases hpq : p = q
            · exact ⟨{ n with end_ := tk.end_ }, by simp [hpq], hk⟩
            · exact ⟨n, by simp [hpq], hk⟩
          · simp at hi
        · intro q n hq h1 h2
          simp only [] at hq
          rw [hget q] at hq
          cases hq0 : st.heap[q]? with
          | none => simp [hq0] at hq
          | some m =>
            simp only [hq0, Option.map_some', Option.some.injEq] at hq
            by_cases hpq : p = q
            · simp only [hpq, if_true] at hq
              subst hq
              exact inv.leaves q m hq0 h1 h2
            · simp only [hpq, if_false] at hq
              subst hq
              exact inv.leaves q _ hq0 h1 h2

theorem parseSwitch_value_kind {σ : Type} (tk : Token) (st st1 : ParseState σ)
    (inv : KindInv st) (pinv : ParseInv st)
    (htok : (tk.token = BEGIN_ARR → tk.jtype = ARRAY) ∧ (tk.token = BEGIN_OBJ → tk.jtype = OBJECT))
    (h : parseSwitch.value tk st = Res.ok st1) : KindInv st1 := by
  unfold parseSwitch.value at h
  cases hs : st.parentStack[st.l]? with
  | none => simp [hs] at h
  | some par =>
    simp only [hs] at h
    cases ha : parseSwitch.attach st
        (st.heap ++ [Json.mk tk.start tk.end_ par [] [] tk.jtype]) par st.heap.length with
    | none => simp [ha] at h
    | some res =>
      obtain ⟨heap2, keyAva2⟩ := res
      simp only [ha] at h
      -- the nodes of the new heap
      have hnodes : ∀ (q : Nat) (m : Json), heap2[q]? = some m →
          (∃ n, st.heap[q]? = some n ∧ m.jtype = n.jtype ∧
            (m = n ∨ (n.jtype = OBJECT ∨ n.jtype = ARRAY))) ∨
          (q = st.heap.length ∧ m.jtype = tk.jtype ∧
            (m.objectItems = [] ∧ m.arrayItems = [] ∨ par = some q)) := by
        intro q m hm
        have hnew : ∀ (x : Json), (st.heap ++ [Json.mk tk.start tk.end_ par [] [] tk.jtype])[q]? =
            some x → (st.heap[q]? = some x) ∨
              (q = st.heap.length ∧ x = Json.mk tk.start tk.end_ par [] [] tk.jtype) := by
          intro x hx
          by_cases hlt : q < st.heap.length
          · rw [List.getElem?_append_left hlt] at hx
            exact Or.inl hx
          · rw [List.getElem?_append_right (by omega)] at hx
            have hq0 : q - st.heap.length = 0 := by
              by_contra hc
              rw [List.getElem?_eq_none (by simp; omega)] at hx
              cases hx
            rw [hq0] at hx
            simp at hx
            exact Or.inr ⟨by omega, hx.symm⟩
        rcases parseSwitch_attach_cases _ _ _ _ _ _ ha with rfl | ⟨q0, f, hpar, hu, hf⟩
        · rcases hnew m hm with h1 | ⟨h1, h2⟩
          · exact Or.inl ⟨m, h1, rfl, Or.inl rfl⟩
          · subst h2
            exact Or.inr ⟨h1, rfl, Or.inl ⟨rfl, rfl⟩⟩
        · rw [updateNode_get _ _ _ _ hu q] at hm
          cases hx : (st.heap ++ [Json.mk tk.start tk.end_ par [] [] tk.jtype])[q]? with
          | none => simp [hx] at hm
          | some x =>
            simp only [hx, Option.map_some', Option.some.injEq] at hm
            have hq0 : ∃ n0, st.heap[q0]? = some n0 ∧ (n0.jtype = OBJECT ∨ n0.jtype = ARRAY) := by
              rw [hpar] at hs
              exact inv.stack _ _ hs
            rcases hnew x hx with h1 | ⟨h1, h2⟩
            · left
              by_cases hq : q0 = q
              · simp only [hq, if_true] at hm
                subst hm
                obtain ⟨n0, hn0, hk⟩ := hq0
                rw [hq, h1] at hn0
                cases hn0
                exact ⟨x, h1, hf x, Or.inr hk⟩
              · simp only [hq, if_false] at hm
                subst hm
                exact ⟨x, h1, rfl, Or.inl rfl⟩
            · right
              obtain ⟨n0, hn0, -⟩ := hq0
              have hlt : q0 < st.heap.length := by
                by_contra hc
                rw [List.getElem?_eq_none (by omega)] at hn0
                cases hn0
              have hq : ¬ (q0 = q) := by omega
              simp only [hq, if_false] at hm
              subst hm
              subst h2
              exact ⟨h1, rfl, Or.inl ⟨rfl, rfl⟩⟩
      have hleaves : ∀ (q : Nat) (n : Json), heap2[q]? = some n → n.jtype ≠ OBJECT →
          n.jtype ≠ ARRAY → n.objectItems = [] ∧ n.arrayItems = [] := by
        intro q m hm h1 h2
        rcases hnodes q m hm with ⟨n, hn, hj, hc⟩ | ⟨hq, hj, hc⟩
        · rcases hc with rfl | hc
          · exact inv.leaves q _ hn h1 h2
          · rw [hj] at h1 h2
            rcases hc with hc | hc
            · exact absurd hc h1
            · exact absurd hc h2
        · rcases hc with hc | hc
          · exact hc
          · exfalso
            rw [hc] at hs
            have := pinv.valid _ _ hs
            omega
      have hlen := parseSwitch_attach_length _ _ _ _ _ _ ha
      simp at hlen
      have hold : ∀ (i p : Nat), st.parentStack[i]? = some (some p) →
          ∃ n, heap2[p]? = some n ∧ (n.jtype = OBJECT ∨ n.jtype = ARRAY) := by
        intro i p hi
        obtain ⟨n, hn, hk⟩ := inv.stack i p hi
        have hp := pinv.valid i p hi
        have hlt : p < heap2.length := by omega
        have hg : heap2[p]? = some (heap2.get ⟨p, hlt⟩) := by
          simp [List.getElem?_eq_getElem hlt]
        rcases hnodes p _ hg with ⟨n1, hn1, hj, -⟩ | ⟨hq, -, -⟩
        · rw [hn] at hn1
          cases hn1
          exact ⟨_, hg, by rw [hj]; exact hk⟩
        · omega
      by_cases hb : tk.token = BEGIN_ARR ∨ tk.token = BEGIN_OBJ
      · simp only [hb, if_true] at h
        simp at h
        subst h
        refine ⟨?_, hleaves⟩
        intro i p hi
        simp only [] at hi ⊢
        by_cases hlt : i < st.parentStack.length
        · rw [List.getElem?_append_left hlt] at hi
          exact hold i p hi
        · rw [List.getElem?_append_right (by omega)] at hi
          have hi0 : i - st.parentStack.length = 0 := by
            by_contra hc
            rw [List.getElem?_eq_none (by simp; omega)] at hi
            simp at hi
          rw [hi0] at hi
          simp at hi
          subst hi
          have hlt2 : st.heap.length < heap2.length := by omega
          have hg : heap2[st.heap.length]? = some (heap2.get ⟨st.heap.length, hlt2⟩) := by
            simp [List.getElem?_eq_getElem hlt2]
          rcases hnodes _ _ hg with ⟨n1, hn1, -, -⟩ | ⟨-, hj, -⟩
          · rw [List.getElem?_eq_none (by omega)] at hn1
            cases hn1
          · refine ⟨_, hg, ?_⟩
            rw [hj]
            rcases hb with hb | hb
            · exact Or.inr (htok.1 hb)
            · exact Or.inl (htok.2 hb)
      · simp only [hb, if_false] at h
        simp at h
        subst h
        exact ⟨hold, hleaves⟩

theorem parseSwitch_kind {σ : Type} (content : σ → List Nat) (tk : Token) (st st1 : ParseState σ)
    (inv : KindInv st) (pinv : ParseInv st)
    (htok : (tk.token = BEGIN_ARR → tk.jtype = ARRAY) ∧ (tk.token = BEGIN_OBJ → tk.jtype = OBJECT))
    (h : parseSwitch content tk st = Res.ok st1) : KindInv st1 := by
  unfold parseSwitch at h
  cases hk : parseSwitch.isKey tk st with
  | ok b =>
    cases b with
    | true =>
      simp only [hk] at h
      cases hg : goSlice (content st.reader) (tk.start + 1) (tk.end_ - 1) with
      | none => simp [hg] at h
      | some k =>
        simp [hg] at h
        subst h
        exact ⟨inv.stack, inv.leaves⟩
    | false =>
      simp only [hk] at h
      by_cases h1 : tk.token = EOF
      · simp [h1] at h
        subst h
        exact inv
      · simp only [h1, if_false] at h
        by_cases h2 : tk.token = COLON ∨ tk.token = SEP
        · simp [h2] at h
          subst h
          exact inv
        · simp only [h2, if_false] at h
          by_cases h3 : tk.token = END_ARR ∨ tk.token = END_OBJ
          · simp only [h3, if_true] at h
            exact parseSwitch_close_kind tk st st1 inv h
          · simp only [h3, if_false] at h
            exact parseSwitch_value_kind tk st st1 inv pinv htok h
  | error e => simp [hk] at h
  | fault => simp [hk] at h
  | outOfFuel => simp [hk] at h

theorem parseStep_kind {σ : Type} (S : PositionalRuneScanner σ) (content : σ → List Nat)
    (fuel : Nat) (st st1 : ParseState σ) (inv : KindInv st) (pinv : ParseInv st)
    (h : parseStep S content fuel st = Res.ok st1) : KindInv st1 := by
  obtain ⟨tk, r1, st2, hn, -, -, hs, rfl⟩ := parseStep_ok S content fuel st st1 h
  have := parseSwitch_kind content tk _ st2 (KindInv_reader st r1 inv) (ParseInv_reader st r1 pinv)
    (nextToken_kind S fuel _ _ _ hn) hs
  exact ⟨this.stack, this.leaves⟩

theorem parse_loop_kind {σ : Type} (S : PositionalRuneScanner σ) (content : σ → List Nat)
    (fuel : Nat) :
    ∀ (n : Nat) (st : ParseState σ) (t : Tree), KindInv st → ParseInv st →
      parse.loop S content fuel n st = Res.ok t →
      ∀ (q : Nat) (m : Json), t.heap[q]? = some m → m.jtype ≠ OBJECT → m.jtype ≠ ARRAY →
        m.objectItems = [] ∧ m.arrayItems = [] := by
  intro n
  induction n with
  | zero => intro st t _ _ h; simp [parse.loop] at h
  | succ n ih =>
    intro st t inv pinv h
    rw [parse.loop] at h
    by_cases hp : st.prevToken = EOF
    · simp [hp] at h
      subst h
      exact inv.leaves
    · simp only [ne_eq, hp, not_false_eq_true, if_true] at h
      cases hs : parseStep S content fuel st with
      | ok st1 =>
        simp only [hs] at h
        exact ih st1 t (parseStep_kind S content fuel st st1 inv pinv hs)
          (parseStep_inv S content fuel st st1 pinv hs).1 h
      | error e => simp [hs] at h
      | fault => simp [hs] at h
      | outOfFuel => simp [hs] at h

/-! ### Reading a character and taking it back -/

/-- What a successful `ReadRune` gives, for the character and the state it returned. -/
theorem ReadRune_ok (r r1 : UTF8RuneScanner) (c : Int) (w : Nat)
    (h : UTF8RuneScanner.ReadRune r = Res.ok ((c, w, none), r1)) :
    0 ≤ r.bytePos ∧ r.bytePos < r.bytes.length ∧ 1 ≤ w ∧ r.bytePos + w ≤ r.bytes.length ∧
      DecodeRune (r.bytes.drop r.bytePos.toNat) = (c, w) ∧ c ≠ RuneError ∧
      r1 = ⟨r.bytes, r.bytePos + w, r.runePos + 1⟩ := by
  unfold UTF8RuneScanner.ReadRune at h
  by_cases h1 : r.bytePos ≥ r.bytes.length
  · simp [h1] at h
  · by_cases h2 : r.bytePos < 0
    · simp [h1, h2] at h
    · by_cases h3 : (DecodeRune (r.bytes.drop r.bytePos.toNat)).1 = RuneError
      · simp [h1, h2, h3] at h
      · simp only [h1, h2, h3, if_false] at h
        have hw := DecodeRune_width _ h3
        simp only [List.length_drop] at hw
        injection h with h
        injection h with ha hb
        injection ha with ha1 ha2
        injection ha2 with ha2 ha3
        subst ha1 ha2 hb
        exact ⟨by omega, by omega, hw.1, by omega, rfl, h3, rfl⟩

/-- After a successful `ReadRune`, `UnreadRune` puts the rune position back, and puts the
byte position back exactly when the last character of the whole buffer is as wide as the
character that was read. -/
theorem UnreadRune_after_ReadRune (r r1 : UTF8RuneScanner) (c : Int) (w : Nat)
    (h : UTF8RuneScanner.ReadRune r = Res.ok ((c, w, none), r1)) :
    (UTF8RuneScanner.UnreadRune r1).1 = none ∧
    (UTF8RuneScanner.UnreadRune r1).2.bytes = r.bytes ∧
    (UTF8RuneScanner.UnreadRune r1).2.runePos = r.runePos ∧
    (UTF8RuneScanner.UnreadRune r1).2.bytePos = r.bytePos + w - (DecodeLastRune r.bytes).2 := by
  obtain ⟨h0, -, hw, -, -, -, rfl⟩ := ReadRune_ok r r1 c w h
  unfold UTF8RuneScanner.UnreadRune
  have hne : ¬ (r.bytePos + (w : Int) = 0) := by omega
  rw [if_neg hne]
  refine ⟨rfl, rfl, ?_, rfl⟩
  simp

/-! ### String tokens with escapes -/

/-- Scanning the inside of a string literal that does not end in an escaped backslash, up
to and including the closing quote. -/
theorem moveToStringTokenEnd_loop_units (bytes : List Nat) (suf : List Nat) :
    ∀ (units : List EscapeUnit) (fuel : Nat) (c prev : Int) (pos : Nat) (rp : Int),
      (c ≠ 0x22 ∨ prev = 0x5C) → (units = [] → c ≠ 0x5C) → (∀ u ∈ units, u.InString) →
      units.getLast? ≠ some (EscapeUnit.esc 0x5C) →
      bytes.drop pos = bodyText units ++ 0x22 :: suf → (bodyText units).length + 2 ≤ fuel →
      ∃ rp1, moveToStringTokenEnd.loop utf8Scanner fuel c prev ⟨bytes, (pos : Int), rp⟩ =
        Res.ok (none, ⟨bytes, ((pos + (bodyText units).length + 1 : Nat) : Int), rp1⟩) := by
  intro units
  induction units with
  | nil =>
    intro fuel c prev pos rp hc hc2 _ _ hdrop hfuel
    obtain ⟨f, rfl⟩ : ∃ f, fuel = f + 2 := ⟨fuel - 2, by omega⟩
    simp only [bodyText, List.map_nil, List.flatten_nil, List.nil_append] at hdrop
    have hcond : (!(c == 0x22 && !(prev == 0x5C))) = true := by
      rcases hc with h | h
      · simp [h]
      · simp [h]
    rw [moveToStringTokenEnd.loop]
    simp only [hcond, if_true, utf8Scanner_ReadRune,
      ReadRune_ascii bytes pos rp 0x22 suf hdrop (by decide)]
    rw [moveToStringTokenEnd.loop]
    have hcond2 : (!(((0x22 : Nat) : Int) == 0x22 && !(c == 0x5C))) = false := by
      simp [hc2 rfl]
    simp only [hcond2]
    exact ⟨rp + 1, by simp [bodyText]⟩
  | cons u us ih =>
    intro fuel c prev pos rp hc _ hall hlast hdrop hfuel
    have hus : ∀ v ∈ us, v.InString := fun v hv => hall v (List.mem_cons_of_mem _ hv)
    have hu := hall u (List.mem_cons_self _ _)
    have hlast2 : us.getLast? ≠ some (EscapeUnit.esc 0x5C) := by
      cases us with
      | nil => simp
      | cons v vs => simpa [List.getLast?_cons_cons] using hlast
    have hcond : (!(c == 0x22 && !(prev == 0x5C))) = true := by
      rcases hc with h | h
      · simp [h]
      · simp [h]
    simp only [bodyText, List.map_cons, List.flatten_cons, List.append_assoc,
      List.length_append] at hdrop hfuel ⊢
    cases u with
    | plain x =>
      obtain ⟨hv, hq, hb, hne⟩ := hu
      simp only [EscapeUnit.source] at hdrop hfuel ⊢
      have hl := EncodeRune_length_pos x
      obtain ⟨f, rfl⟩ : ∃ f, fuel = f + 1 := ⟨fuel - 1, by omega⟩
      rw [moveToStringTokenEnd.loop]
      simp only [hcond, if_true, utf8Scanner_ReadRune, ReadRune_encoded bytes pos rp x _ hdrop hv hne]
      obtain ⟨rp1, h1⟩ := ih f x c (pos + (EncodeRune x).length) (rp + 1) (Or.inl hq)
        (fun _ => hb) hus hlast2 (drop_append_left _ _ _ _ hdrop) (by simp only [bodyText]; omega)
      refine ⟨rp1, ?_⟩
      rw [h1]
      simp only [bodyText]
      congr 3
      push_cast
      omega
    | esc l =>
      simp only [EscapeUnit.source, List.cons_append, List.nil_append, List.length_cons,
        List.length_nil] at hdrop hfuel ⊢
      obtain ⟨f, rfl⟩ : ∃ f, fuel = f + 2 := ⟨fuel - 2, by omega⟩
      have hdrop1 := drop_cons_succ hdrop
      have hllt : l < 0x80 := by
        simp [EscapeUnit.InString, escapeLetters] at hu
        omega
      have hl5 : us = [] → (l : Int) ≠ 0x5C := by
        intro h hl
        subst h
        have : l = 0x5C := by omega
        subst this
        simp at hlast
      rw [moveToStringTokenEnd.loop]
      simp only [hcond, if_true, utf8Scanner_ReadRune,
        ReadRune_ascii bytes pos rp 0x5C _ hdrop (by decide)]
      rw [moveToStringTokenEnd.loop]
      have hcond2 : (!(((0x5C : Nat) : Int) == 0x22 && !(c == 0x5C))) = true := by
        simp
      simp only [hcond2, if_true, utf8Scanner_ReadRune,
        ReadRune_ascii bytes (pos + 1) (rp + 1) l _ hdrop1 hllt]
      obtain ⟨rp1, h1⟩ := ih f l ((0x5C : Nat) : Int) (pos + 1 + 1) (rp + 1 + 1) (Or.inr rfl)
        hl5 hus hlast2 (drop_cons_succ hdrop1) (by simp only [bodyText]; omega)
      refine ⟨rp1, ?_⟩
      rw [h1]
      simp only [bodyText]
      congr 3
      push_cast
      omega

/-- The token read from a string literal whose inside does not end in an escaped
backslash. -/
theorem nextToken_string_units (bytes : List Nat) (units : List EscapeUnit) (suf : List Nat)
    (fuel pos : Nat) (rp : Int) (hall : ∀ u ∈ units, u.InString)
    (hlast : units.getLast? ≠ some (EscapeUnit.esc 0x5C))
    (hdrop : bytes.drop pos = stringText (bodyText units) ++ suf)
    (hfuel : (bodyText units).length + 2 ≤ fuel) :
    ∃ rp1, nextToken utf8Scanner fuel ⟨bytes, (pos : Int), rp⟩ =
      Res.ok (Token.mk pos ((pos + (stringText (bodyText units)).length : Nat) : Int) STRING_T
          STRING none,
        ⟨bytes, ((pos + (stringText (bodyText units)).length : Nat) : Int), rp1⟩) := by
  obtain ⟨f, rfl⟩ : ∃ f, fuel = f + 2 := ⟨fuel - 2, by omega⟩
  have hdrop0 : bytes.drop pos = 0x22 :: (bodyText units ++ 0x22 :: suf) := by
    rw [hdrop]; simp [stringText]
  rw [nextToken_first f bytes pos rp 0x22 _ hdrop0 (by decide) (by decide)]
  simp only [nextToken.dispatch, Nat.cast_ofNat]
  simp only [show ¬ ((0x22 : Int) = 0x7B) by decide, show ¬ ((0x22 : Int) = 0x7D) by decide,
    show ¬ ((0x22 : Int) = 0x5B) by decide, show ¬ ((0x22 : Int) = 0x5D) by decide,
    show ¬ ((0x22 : Int) = 0x3A) by decide, show ¬ ((0x22 : Int) = 0x2C) by decide,
    show ¬ ((0x22 : Int) = 0x6E) by decide,
    show ¬ ((0x22 : Int) = 0x74 ∨ (0x22 : Int) = 0x66) by decide, if_false, if_true]
  unfold moveToStringTokenEnd
  obtain ⟨rp1, h1⟩ := moveToStringTokenEnd_loop_units bytes suf units (f + 2) 0x22 0x5C (pos + 1)
    (rp + 1) (Or.inr rfl) (fun _ => by decide) hall hlast (drop_cons_succ hdrop0) hfuel
  refine ⟨rp1, ?_⟩
  rw [h1]
  simp only [nextToken.finish, utf8Scanner_BytePos]
  simp only [stringText, List.length_cons, List.length_append, List.length_nil]
  congr 3
  all_goals (push_cast; omega)

/-! ### Number tokens -/

theorem digit_facts (d : Nat) (hd : 48 ≤ d ∧ d ≤ 57) :
    d < 0x80 ∧ IsDigit (d : Int) = true ∧ IsSpace (d : Int) = false := by
  have hdlt : d < 0x80 := by omega
  refine ⟨hdlt, (IsDigit_iff_ascii d hdlt).2 hd, ?_⟩
  unfold IsSpace; simp; omega

/-- Scanning the digits `ds` of a number up to the character `c` that ends it, when the
last character of the buffer is as wide as `c`. -/
theorem moveToNumberTokenEnd_loop_break (bytes : List Nat) (c : Int) (suf : List Nat)
    (hlast : (DecodeLastRune bytes).2 = (EncodeRune c).length)
    (hv : ValidRune c) (hne : c ≠ RuneError) (hcd : IsDigit c = false) (hc1 : c ≠ 0x2B)
    (hc2 : c ≠ 0x2D) (hc3 : c ≠ 0x2E) :
    ∀ (ds : List Nat) (fuel pos : Nat) (rp : Int) (prev : Int) (dotCount : Nat),
      (∀ d ∈ ds, 48 ≤ d ∧ d ≤ 57) → (IsDigit prev = true ∨ ds ≠ []) → IsSpace prev = false →
      bytes.drop pos = ds ++ (EncodeRune c ++ suf) → ds.length < fuel →
      moveToNumberTokenEnd.loop utf8Scanner fuel prev dotCount ⟨bytes, (pos : Int), rp⟩ =
        Res.ok (none, ⟨bytes, ((pos + ds.length : Nat) : Int), rp + ds.length⟩) := by
  intro ds
  induction ds with
  | nil =>
    intro fuel pos rp prev dotCount _ hprev hsp hdrop hfuel
    obtain ⟨f, rfl⟩ : ∃ f, fuel = f + 1 := ⟨fuel - 1, by simp at hfuel; omega⟩
    have hprev : IsDigit prev = true := by
      rcases hprev with h | h
      · exact h
      · exact absurd rfl h
    simp only [List.nil_append] at hdrop
    rw [moveToNumberTokenEnd.loop]
    simp only [utf8Scanner_ReadRune, ReadRune_encoded bytes pos rp c suf hdrop hv hne]
    have e1 : (c == 0x2B) = false := by simp [hc1]
    have e2 : (c == 0x2D) = false := by simp [hc2]
    have e3 : (c == 0x2E) = false := by simp [hc3]
    simp only [hcd, e1, e2, e3, hprev, hsp, utf8Scanner_UnreadRune]
    have hl := EncodeRune_length_pos c
    have hne0 : ¬ ((pos : Int) + ((EncodeRune c).length : Int) = 0) := by omega
    simp [UTF8RuneScanner.UnreadRune, hlast, hne0]
  | cons d ds ih =>
    intro fuel pos rp prev dotCount hds _ _ hdrop hfuel
    obtain ⟨f, rfl⟩ : ∃ f, fuel = f + 1 := ⟨fuel - 1, by simp at hfuel; omega⟩
    obtain ⟨hdlt, hdig, hdsp⟩ := digit_facts d (hds d (List.mem_cons_self _ _))
    simp only [List.cons_append] at hdrop
    rw [moveToNumberTokenEnd.loop]
    simp only [utf8Scanner_ReadRune, ReadRune_ascii bytes pos rp d _ hdrop hdlt, hdig]
    have := ih f (pos + 1) (rp + 1) (d : Int) dotCount
      (fun x hx => hds x (List.mem_cons_of_mem _ hx)) (Or.inl hdig) hdsp (drop_cons_succ hdrop)
      (by simp at hfuel; omega)
    simp at this ⊢
    rw [this]
    simp
    constructor <;> omega

/-- Scanning the digits `ds`, a `.`, and the digits after it, up to the character `c`. -/
theorem moveToNumberTokenEnd_loop_fraction (bytes : List Nat) (c : Int) (suf : List Nat)
    (hlast : (DecodeLastRune bytes).2 = (EncodeRune c).length)
    (hv : ValidRune c) (hne : c ≠ RuneError) (hcd : IsDigit c = false) (hc1 : c ≠ 0x2B)
    (hc2 : c ≠ 0x2D) (hc3 : c ≠ 0x2E) (frac : List Nat) (hfrac : ∀ d ∈ frac, 48 ≤ d ∧ d ≤ 57)
    (hfne : frac ≠ []) :
    ∀ (ds : List Nat) (fuel pos : Nat) (rp : Int) (prev : Int),
      (∀ d ∈ ds, 48 ≤ d ∧ d ≤ 57) → (IsDigit prev = true ∨ ds ≠ []) →
      bytes.drop pos = ds ++ 0x2E :: (frac ++ (EncodeRune c ++ suf)) →
      ds.length + 1 + frac.length < fuel →
      moveToNumberTokenEnd.loop utf8Scanner fuel prev 0 ⟨bytes, (pos : Int), rp⟩ =
        Res.ok (none, ⟨bytes, ((pos + (ds.length + 1 + frac.length) : Nat) : Int),
          rp + (ds.length + 1 + frac.length : Nat)⟩) := by
  intro ds
  induction ds with
  | nil =>
    intro fuel pos rp prev _ hprev hdrop hfuel
    obtain ⟨f, rfl⟩ : ∃ f, fuel = f + 1 := ⟨fuel - 1, by simp at hfuel; omega⟩
    have hprev : IsDigit prev = true := by
      rcases hprev with h | h
      · exact h
      · exact absurd rfl h
    simp only [List.nil_append] at hdrop
    rw [moveToNumberTokenEnd.loop]
    simp only [utf8Scanner_ReadRune, ReadRune_ascii bytes pos rp 0x2E _ hdrop (by decide)]
    have e0 : IsDigit ((0x2E : Nat) : Int) = false := by decide
    have e1 : ((((0x2E : Nat) : Int)) == 0x2B) = false := by decide
    have e2 : ((((0x2E : Nat) : Int)) == 0x2D) = false := by decide
    have e3 : ((((0x2E : Nat) : Int)) == 0x2E) = true := by decide
    simp only [e0, e1, e2, e3, hprev]
    have := moveToNumberTokenEnd_loop_break bytes c suf hlast hv hne hcd hc1 hc2 hc3 frac f (pos + 1)
      (rp + 1) ((0x2E : Nat) : Int) (0 + 1) hfrac (Or.inr hfne) (by decide) (drop_cons_succ hdrop)
      (by simp at hfuel; omega)
    simp at this ⊢
    rw [this]
    simp
    constructor <;> omega
  | cons d ds ih =>
    intro fuel pos rp prev hds _ hdrop hfuel
    obtain ⟨f, rfl⟩ : ∃ f, fuel = f + 1 := ⟨fuel - 1, by simp at hfuel; omega⟩
    obtain ⟨hdlt, hdig, hdsp⟩ := digit_facts d (hds d (List.mem_cons_self _ _))
    simp only [List.cons_append] at hdrop
    rw [moveToNumberTokenEnd.loop]
    simp only [utf8Scanner_ReadRune, ReadRune_ascii bytes pos rp d _ hdrop hdlt, hdig]
    have := ih f (pos + 1) (rp + 1) (d : Int)
      (fun x hx => hds x (List.mem_cons_of_mem _ hx)) (Or.inl hdig) (drop_cons_succ hdrop)
      (by simp at hfuel ⊢; omega)
    simp at this ⊢
    rw [this]
    simp
    constructor <;> omega

/-- The token read from a number literal that ends in a digit and is followed by the
character `c`, when the last character of the buffer is as wide as `c`. -/
theorem nextToken_numberText (first : Nat) (ints frac : List Nat) (c : Int) (rest : List Nat)
    (fuel : Nat)
    (hfirst : first = 0x2B ∨ first = 0x2D ∨ (48 ≤ first ∧ first ≤ 57))
    (hints : ∀ d ∈ ints, 48 ≤ d ∧ d ≤ 57) (hfrac : ∀ d ∈ frac, 48 ≤ d ∧ d ≤ 57)
    (hdigit : (48 ≤ first ∧ first ≤ 57) ∨ ints ≠ [])
    (hv : ValidRune c) (hne : c ≠ RuneError) (hcd : IsDigit c = false) (hc1 : c ≠ 0x2B)
    (hc2 : c ≠ 0x2D) (hc3 : c ≠ 0x2E)
    (hlast : (DecodeLastRune (numberText first ints frac ++ (EncodeRune c ++ rest))).2 =
      (EncodeRune c).length)
    (hfuel : (numberText first ints frac).length + 2 ≤ fuel) :
    nextToken utf8Scanner fuel ⟨numberText first ints frac ++ (EncodeRune c ++ rest), 0, 0⟩ =
      Res.ok (Token.mk 0 (numberText first ints frac).length NUMBER_T NUMBER none,
        ⟨numberText first ints frac ++ (EncodeRune c ++ rest),
          (numberText first ints frac).length, (numberText first ints frac).length⟩) := by
  obtain ⟨f, rfl⟩ : ∃ f, fuel = f + 2 := ⟨fuel - 2, by omega⟩
  have hflt : first < 0x80 := by omega
  have hfsp : IsSpace (first : Int) = false := by
    unfold IsSpace; simp; omega
  have hdrop0 : (numberText first ints frac ++ (EncodeRune c ++ rest)).drop 0 =
      first :: ((ints ++ (if frac = [] then [] else 0x2E :: frac)) ++ (EncodeRune c ++ rest)) := by
    simp [numberText]
  have hnt := nextToken_first f _ 0 0 first _ hdrop0 hflt hfsp
  simp only [Nat.cast_zero, Nat.zero_add, zero_add] at hnt
  rw [hnt]
  have hmem : (first : Int) ∈ ([0x2B, 0x2D, 0x30, 0x31, 0x32, 0x33, 0x34, 0x35, 0x36, 0x37, 0x38, 0x39] : List Int) := by
    simp; omega
  have n1 : ¬ ((first : Int) = 0x7B) := by omega
  have n2 : ¬ ((first : Int) = 0x7D) := by omega
  have n3 : ¬ ((first : Int) = 0x5B) := by omega
  have n4 : ¬ ((first : Int) = 0x5D) := by omega
  have n5 : ¬ ((first : Int) = 0x3A) := by omega
  have n6 : ¬ ((first : Int) = 0x2C) := by omega
  have n7 : ¬ ((first : Int) = 0x6E) := by omega
  have n8 : ¬ ((first : Int) = 0x74 ∨ (first : Int) = 0x66) := by omega
  have n9 : ¬ ((first : Int) = 0x22) := by omega
  unfold nextToken.dispatch
  simp only [n1, n2, n3, n4, n5, n6, n7, n8, n9, if_false, hmem, if_true]
  unfold moveToNumberTokenEnd nextToken.finish
  have hprev : IsDigit (first : Int) = true ∨ ints ≠ [] := by
    rcases hdigit with h | h
    · exact Or.inl ((IsDigit_iff_ascii first hflt).2 h)
    · exact Or.inr h
  have hdrop1 := drop_cons_succ hdrop0
  by_cases hf : frac = []
  · subst hf
    simp only [if_true, List.append_nil] at hdrop1
    have := moveToNumberTokenEnd_loop_break _ c rest hlast hv hne hcd hc1 hc2 hc3 ints (f + 2) (0 + 1)
      ((0 : Int) + 1) (first : Int) 0 hints hprev hfsp hdrop1 (by simp [numberText] at hfuel; omega)
    simp only [Nat.cast_one, Nat.zero_add, zero_add, Nat.cast_add] at this ⊢
    rw [this]
    simp [numberText]
    omega
  · simp only [hf, if_false, List.append_assoc, List.cons_append] at hdrop1
    have := moveToNumberTokenEnd_loop_fraction _ c rest hlast hv hne hcd hc1 hc2 hc3 frac hfrac hf
      ints (f + 2) (0 + 1) ((0 : Int) + 1) (first : Int) hints hprev hdrop1
      (by simp [numberText, hf] at hfuel; omega)
    simp only [Nat.cast_one, Nat.zero_add, zero_add, Nat.cast_add] at this ⊢
    rw [this]
    simp [numberText, hf]
    omega

/-! ### The positions of a token -/

/-- What a `ReadRune` that reports an error gives: the scanner is left as it was, at the
end of the buffer for `io.EOF` and inside it for `RuneDecodingError`. -/
theorem ReadRune_err (r r1 : UTF8RuneScanner) (c : Int) (w : Nat) (e : Err)
    (h : UTF8RuneScanner.ReadRune r = Res.ok ((c, w, some e), r1)) :
    r1 = r ∧ ((e = Err.EOF ∧ (r.bytes.length : Int) ≤ r.bytePos) ∨
      (e = Err.RuneDecodingError ∧ 0 ≤ r.bytePos ∧ r.bytePos < r.bytes.length)) := by
  unfold UTF8RuneScanner.ReadRune at h
  by_cases h1 : r.bytePos ≥ r.bytes.length
  · simp only [h1, if_true] at h
    injection h with h
    injection h with ha hb
    injection ha with ha1 ha2
    injection ha2 with ha2 ha3
    injection ha3 with ha3
    exact ⟨hb.symm, Or.inl ⟨ha3.symm, h1⟩⟩
  · by_cases h2 : r.bytePos < 0
    · simp [h1, h2] at h
    · by_cases h3 : (DecodeRune (r.bytes.drop r.bytePos.toNat)).1 = RuneError
      · simp only [h1, h2, h3, if_false, if_true] at h
        injection h with h
        injection h with ha hb
        injection ha with ha1 ha2
        injection ha2 with ha2 ha3
        injection ha3 with ha3
        exact ⟨hb.symm, Or.inr ⟨ha3.symm, by omega, by omega⟩⟩
      · simp only [h1, h2, h3, if_false] at h
        injection h with h
        injection h with ha hb
        injection ha with ha1 ha2
        injection ha2 with ha2 ha3
        cases ha3

theorem expectRunes_pos (bad : Err) :
    ∀ (expected : List Int) (r r1 : UTF8RuneScanner) (e : Option GoError),
      expectRunes utf8Scanner bad expected r = Res.ok (e, r1) →
      r1.bytes = r.bytes ∧ r.bytePos ≤ r1.bytePos ∧
        (r.bytePos ≤ r.bytes.length → r1.bytePos ≤ r.bytes.length) := by
  intro expected
  induction expected with
  | nil => intro r r1 e h; simp [expectRunes] at h; rw [h.2]; simp
  | cons x xs ih =>
    intro r r1 e h
    rw [expectRunes] at h
    rcases ReadRune_cases r with hr | ⟨c, w, e1, hr⟩ | ⟨c, w, r2, hr, hb, h0, hp, hw, hle, -⟩
    · simp [hr] at h
    · simp [hr] at h; rw [h.2]; simp
    · simp only [utf8Scanner_ReadRune, hr] at h
      split at h
      · simp at h
        rw [← h.2]
        exact ⟨hb, by omega, fun _ => hle⟩
      · obtain ⟨i1, i2, i3⟩ := ih r2 r1 e h
        rw [hb] at i1 i3
        exact ⟨i1, by omega, fun _ => i3 hle⟩

theorem UnreadRune_pos (r : UTF8RuneScanner) :
    (UTF8RuneScanner.UnreadRune r).2.bytePos = r.bytePos ∨
      (UTF8RuneScanner.UnreadRune r).2.bytePos = r.bytePos - (DecodeLastRune r.bytes).2 := by
  unfold UTF8RuneScanner.UnreadRune
  split
  · exact Or.inl rfl
  · exact Or.inr rfl

/-- When the last character of the buffer is at most one byte wide, the scan of a number
does not end before the position it started at. -/
theorem moveToNumberTokenEnd_loop_pos :
    ∀ (fuel : Nat) (prev : Int) (dotCount : Nat) (r r1 : UTF8RuneScanner) (e : Option GoError),
      moveToNumberTokenEnd.loop utf8Scanner fuel prev dotCount r = Res.ok (e, r1) →
      (DecodeLastRune r.bytes).2 ≤ 1 →
      r1.bytes = r.bytes ∧ r.bytePos ≤ r1.bytePos ∧
        (r.bytePos ≤ r.bytes.length → r1.bytePos ≤ r.bytes.length) := by
  intro fuel
  induction fuel with
  | zero => intro prev dotCount r r1 e h; simp [moveToNumberTokenEnd.loop] at h
  | succ f ih =>
    intro prev dotCount r r1 e h hl
    rw [moveToNumberTokenEnd.loop] at h
    rcases ReadRune_cases r with hr | ⟨c1, w, e1, hr⟩ | ⟨c1, w, r2, hr, hb, h0, hp, hw, hle, -⟩
    · simp [hr] at h
    · simp only [utf8Scanner_ReadRune, hr] at h
      split at h <;> (simp at h; rw [h.2]; simp)
    · simp only [utf8Scanner_ReadRune, hr] at h
      have hl2 : (DecodeLastRune r2.bytes).2 ≤ 1 := by rw [hb]; exact hl
      have hret : ∀ (e0 : Option GoError),
          (Res.ok (e0, r2) : Res (Option GoError × UTF8RuneScanner)) = Res.ok (e, r1) →
          r1.bytes = r.bytes ∧ r.bytePos ≤ r1.bytePos ∧
            (r.bytePos ≤ r.bytes.length → r1.bytePos ≤ r.bytes.length) := by
        intro e0 h
        simp at h
        rw [← h.2]
        exact ⟨hb, by omega, fun _ => hle⟩
      have hrec : ∀ (p : Int) (d : Nat),
          moveToNumberTokenEnd.loop utf8Scanner f p d r2 = Res.ok (e, r1) →
          r1.bytes = r.bytes ∧ r.bytePos ≤ r1.bytePos ∧
            (r.bytePos ≤ r.bytes.length → r1.bytePos ≤ r.bytes.length) := by
        intro p d h
        obtain ⟨i1, i2, i3⟩ := ih _ _ r2 r1 e h hl2
        rw [hb] at i1 i3
        exact ⟨i1, by omega, fun _ => i3 hle⟩
      split at h
      · split at h
        · exact hret _ h
        · split at h
          · split at h
            · exact hret _ h
            · exact hrec _ _ h
          · split at h
            · exact hret _ h
            · split at h
              · simp only [utf8Scanner_UnreadRune] at h
                injection h with h
                injection h with h1 h2
                rw [← h2]
                refine ⟨by rw [UnreadRune_bytes, hb], ?_, fun _ => ?_⟩
                · rcases UnreadRune_pos r2 with hu | hu
                  · rw [hu]; omega
                  · rw [hu]; omega
                · rcases UnreadRune_pos r2 with hu | hu
                  · rw [hu]; omega
                  · rw [hu]; omega
              · exact hret _ h
      · exact hrec _ _ h

/-- The branch `nextToken` takes on the first character, for any scanner: the token kind
is never `EOF`, and the rest of the lexeme is scanned in one of six ways. -/
theorem nextToken_dispatch_shape {σ : Type} (S : PositionalRuneScanner σ) (fuel : Nat)
    (start c : Int) (r : σ) :
    ∃ (token jtype : Int) (x : Res (Option GoError × σ)),
      nextToken.dispatch S fuel start c r = nextToken.finish S start token jtype x ∧
      token ≠ EOF ∧
      (x = Res.ok (none, r) ∨ x = Res.ok (some (GoError.invalidTokenStart start c), r) ∨
        x = moveToNullTokenEnd S r ∨ x = moveToBoolTokenEnd S c r ∨
        x = moveToStringTokenEnd S fuel r ∨ x = moveToNumberTokenEnd S fuel c r) := by
  unfold nextToken.dispatch
  by_cases c1 : c = 0x7B
  · rw [if_pos c1]
    exact ⟨_, _, _, rfl, by decide, Or.inl rfl⟩
  rw [if_neg c1]
  by_cases c2 : c = 0x7D
  · rw [if_pos c2]
    exact ⟨_, _, _, rfl, by decide, Or.inl rfl⟩
  rw [if_neg c2]
  by_cases c3 : c = 0x5B
  · rw [if_pos c3]
    exact ⟨_, _, _, rfl, by decide, Or.inl rfl⟩
  rw [if_neg c3]
  by_cases c4 : c = 0x5D
  · rw [if_pos c4]
    exact ⟨_, _, _, rfl, by decide, Or.inl rfl⟩
  rw [if_neg c4]
  by_cases c5 : c = 0x3A
  · rw [if_pos c5]
    exact ⟨_, _, _, rfl, by decide, Or.inl rfl⟩
  rw [if_neg c5]
  by_cases c6 : c = 0x2C
  · rw [if_pos c6]
    exact ⟨_, _, _, rfl, by decide, Or.inl rfl⟩
  rw [if_neg c6]
  by_cases c7 : c = 0x6E
  · rw [if_pos c7]
    exact ⟨_, _, _, rfl, by decide, Or.inr (Or.inr (Or.inl rfl))⟩
  rw [if_neg c7]
  by_cases c8 : c = 0x74 ∨ c = 0x66
  · rw [if_pos c8]
    exact ⟨_, _, _, rfl, by decide, Or.inr (Or.inr (Or.inr (Or.inl rfl)))⟩
  rw [if_neg c8]
  by_cases c9 : c = 0x22
  · rw [if_pos c9]
    exact ⟨_, _, _, rfl, by decide, Or.inr (Or.inr (Or.inr (Or.inr (Or.inl rfl))))⟩
  rw [if_neg c9]
  by_cases c10 : c ∈ ([0x2B, 0x2D, 0x30, 0x31, 0x32, 0x33, 0x34, 0x35, 0x36, 0x37, 0x38, 0x39] : List Int)
  · rw [if_pos c10]
    exact ⟨_, _, _, rfl, by decide, Or.inr (Or.inr (Or.inr (Or.inr (Or.inr rfl))))⟩
  rw [if_neg c10]
  exact ⟨_, _, _, rfl, by decide, Or.inr (Or.inl rfl)⟩

theorem nextToken_dispatch_pos (fuel : Nat) (start c : Int) (r r1 : UTF8RuneScanner)
    (tk : Token) (h : nextToken.dispatch utf8Scanner fuel start c r = Res.ok (tk, r1))
    (hl : (DecodeLastRune r.bytes).2 ≤ 1) :
    r1.bytes = r.bytes ∧ tk.start = start ∧ tk.end_ = r1.bytePos ∧ tk.token ≠ EOF ∧
      r.bytePos ≤ r1.bytePos ∧ (r.bytePos ≤ r.bytes.length → r1.bytePos ≤ r.bytes.length) := by
  obtain ⟨token, jtype, x, hd, hne, hx⟩ := nextToken_dispatch_shape utf8Scanner fuel start c r
  rw [hd] at h
  obtain ⟨e, hxe, rfl⟩ := nextToken_finish_ok _ _ _ _ _ _ _ h
  have key : r1.bytes = r.bytes ∧ r.bytePos ≤ r1.bytePos ∧
      (r.bytePos ≤ r.bytes.length → r1.bytePos ≤ r.bytes.length) := by
    rcases hx with hx | hx | hx | hx | hx | hx
    · rw [hx] at hxe
      simp at hxe
      rw [hxe.2]; simp
    · rw [hx] at hxe
      simp at hxe
      rw [hxe.2]; simp
    · rw [hx] at hxe
      exact expectRunes_pos _ _ _ _ _ hxe
    · rw [hx] at hxe
      unfold moveToBoolTokenEnd at hxe
      split at hxe <;> exact expectRunes_pos _ _ _ _ _ hxe
    · rw [hx] at hxe
      exact moveToStringTokenEnd_loop_facts _ _ _ _ _ _ hxe
    · rw [hx] at hxe
      exact moveToNumberTokenEnd_loop_pos _ _ _ _ _ _ hxe hl
  exact ⟨key.1, rfl, rfl, hne, key.2.1, key.2.2⟩

/-- The positions `nextToken` returns, over a buffer whose last character is at most one
byte wide: the token starts at or after the position of the scanner, a token other than
the end-of-input token is not empty, and the scanner is left at the end of the token,
inside the buffer. -/
theorem nextToken_skip_pos (fuel : Nat) :
    ∀ (n : Nat) (start c : Int) (r r1 : UTF8RuneScanner) (tk : Token),
      nextToken.skip utf8Scanner fuel n start c r = Res.ok (tk, r1) →
      (DecodeLastRune r.bytes).2 ≤ 1 → r.bytePos ≤ r.bytes.length →
      (IsSpace c = true ∨ (0 ≤ start ∧ start + 1 ≤ r.bytePos)) →
      r1.bytes = r.bytes ∧ tk.end_ = r1.bytePos ∧ r1.bytePos ≤ r.bytes.length ∧
        r.bytePos ≤ r1.bytePos ∧ 0 ≤ tk.start ∧ (IsSpace c = true → r.bytePos ≤ tk.start) ∧
        (tk.token ≠ EOF → tk.start + 1 ≤ tk.end_) ∧
        (tk.token = EOF → tk.start = tk.end_ ∧ (tk.err = none → tk.end_ = r.bytes.length)) := by
  intro n
  have keof : ¬ ((EOF : Int) ≠ EOF) := by simp
  induction n with
  | zero => intro start c r r1 tk h; simp [nextToken.skip] at h
  | succ n ih =>
    intro start c r r1 tk h hl hle hpre
    rw [nextToken.skip] at h
    by_cases hs : IsSpace c = true
    · simp only [hs, if_true] at h
      cases hr : UTF8RuneScanner.ReadRune r with
      | ok res =>
        obtain ⟨⟨c1, w, e⟩, r2⟩ := res
        simp only [utf8Scanner_ReadRune, hr, utf8Scanner_BytePos, utf8Scanner_RunePos] at h
        cases e with
        | some err =>
          obtain ⟨rfl, herr⟩ := ReadRune_err r r2 c1 w err hr
          simp only [] at h
          rcases herr with ⟨rfl, hge⟩ | ⟨rfl, h0, hlt⟩
          · simp only [if_true] at h
            injection h with h
            injection h with h1 h2
            subst h1 h2
            refine ⟨rfl, rfl, hle, le_refl _, by simp only []; omega, fun _ => le_refl _,
              fun hh => absurd rfl hh, fun _ => ⟨rfl, fun _ => by simp only []; omega⟩⟩
          · simp only [show ¬ (Err.RuneDecodingError = Err.EOF) by decide, if_false] at h
            injection h with h
            injection h with h1 h2
            subst h1 h2
            refine ⟨rfl, rfl, hle, le_refl _, h0, fun _ => le_refl _, fun hh => absurd rfl hh,
              fun _ => ⟨rfl, fun he => by simp at he⟩⟩
        | none =>
          obtain ⟨h0, hlt, hw, hle2, -, -, rfl⟩ := ReadRune_ok r r2 c1 w hr
          simp only [] at h
          obtain ⟨i1, i2, i3, i4, i5, i6, i7, i8⟩ := ih r.bytePos c1 _ r1 tk h hl (by simpa using hle2)
            (Or.inr ⟨h0, by simp only []; omega⟩)
          simp only [] at i1 i3 i4
          refine ⟨i1, i2, i3, by omega, i5, fun _ => ?_, i7, i8⟩
          by_cases hs1 : IsSpace c1 = true
          · have := i6 hs1
            simp only [] at this
            omega
          · -- the token starts at the character just read
            rw [nextToken.skip.eq_def] at h
            cases n with
            | zero => simp at h
            | succ m =>
              simp only [hs1] at h
              have := (nextToken_dispatch_pos fuel _ _ _ _ _ h hl).2.1
              omega
      | error e => simp [hr] at h
      | fault => simp [hr] at h
      | outOfFuel => simp [hr] at h
    · simp only [hs] at h
      obtain ⟨i1, i2, i3, i4, i5, i6⟩ := nextToken_dispatch_pos fuel start c r r1 tk h hl
      rcases hpre with hpre | ⟨p1, p2⟩
      · exact absurd hpre hs
      · refine ⟨i1, i3, i6 hle, i5, by omega, fun hh => absurd hh hs, fun _ => by omega,
          fun hh => absurd hh i4⟩

theorem nextToken_pos (fuel : Nat) (r r1 : UTF8RuneScanner) (tk : Token)
    (h : nextToken utf8Scanner fuel r = Res.ok (tk, r1))
    (hl : (DecodeLastRune r.bytes).2 ≤ 1) (hle : r.bytePos ≤ r.bytes.length) :
    r1.bytes = r.bytes ∧ tk.end_ = r1.bytePos ∧ r1.bytePos ≤ r.bytes.length ∧
      0 ≤ tk.start ∧ r.bytePos ≤ tk.start ∧ (tk.token ≠ EOF → tk.start + 1 ≤ tk.end_) ∧
      (tk.token = EOF → tk.start = tk.end_ ∧ (tk.err = none → tk.end_ = r.bytes.length)) := by
  obtain ⟨i1, i2, i3, -, i5, i6, i7, i8⟩ := nextToken_skip_pos fuel fuel 0 0x20 r r1 tk h hl hle
    (Or.inl (by decide))
  exact ⟨i1, i2, i3, i5, i6 (by decide), i7, i8⟩

/-! ### The positions of the nodes -/

theorem parseSwitch_attach_span {σ : Type} (st : ParseState σ) (heap1 heap2 : List Json)
    (par : Option Nat) (p : Nat) (k : Bool)
    (h : parseSwitch.attach st heap1 par p = some (heap2, k)) :
    ∀ (q : Nat) (m : Json), heap2[q]? = some m →
      ∃ n, heap1[q]? = some n ∧ m.start = n.start ∧ m.end_ = n.end_ := by
  have hupd : ∀ (q0 : Nat) (f : Json → Json), (∀ n, (f n).start = n.start ∧ (f n).end_ = n.end_) →
      updateNode heap1 q0 f = some heap2 →
      ∀ (q : Nat) (m : Json), heap2[q]? = some m →
        ∃ n, heap1[q]? = some n ∧ m.start = n.start ∧ m.end_ = n.end_ := by
    intro q0 f hf hu q m hm
    rw [updateNode_get _ _ _ _ hu q] at hm
    cases hx : heap1[q]? with
    | none => simp [hx] at hm
    | some x =>
      simp only [hx, Option.map_some', Option.some.injEq] at hm
      refine ⟨x, rfl, ?_⟩
      by_cases hq : q0 = q
      · simp only [hq, if_true] at hm
        subst hm
        exact hf x
      · simp only [hq, if_false] at hm
        subst hm
        exact ⟨rfl, rfl⟩
  unfold parseSwitch.attach at h
  split at h
  · cases par with
    | none => simp at h
    | some q =>
      simp at h
      obtain ⟨a, ha, rfl, -⟩ := h
      refine hupd q _ ?_ ha
      intro n
      exact ⟨rfl, rfl⟩
  · split at h
    · cases par with
      | none => simp at h
      | some q =>
        simp at h
        obtain ⟨a, ha, rfl, -⟩ := h
        refine hupd q _ ?_ ha
        intro n
        exact ⟨rfl, rfl⟩
    · simp at h
      intro q m hm
      rw [← h.1] at hm
      exact ⟨m, hm, rfl, rfl⟩

/-- The `switch` of `parse` keeps the nodes in order: when every node ends at or before
the start of the token, every node of the new heap ends at or before its end. -/
theorem parseSwitch_span {σ : Type} (content : σ → List Nat) (tk : Token)
    (st st1 : ParseState σ)
    (hnodes : ∀ (q : Nat) (n : Json), st.heap[q]? = some n →
      0 ≤ n.start ∧ n.start ≤ n.end_ ∧ n.end_ ≤ tk.start)
    (h0 : 0 ≤ tk.start) (h1 : tk.start ≤ tk.end_)
    (h : parseSwitch content tk st = Res.ok st1) :
    ∀ (q : Nat) (n : Json), st1.heap[q]? = some n →
      0 ≤ n.start ∧ n.start ≤ n.end_ ∧ n.end_ ≤ tk.end_ := by
  have hsame : ∀ (q : Nat) (n : Json), st.heap[q]? = some n →
      0 ≤ n.start ∧ n.start ≤ n.end_ ∧ n.end_ ≤ tk.end_ := by
    intro q n hq
    obtain ⟨a, b, c⟩ := hnodes q n hq
    exact ⟨a, b, by omega⟩
  unfold parseSwitch at h
  cases hk : parseSwitch.isKey tk st with
  | ok b =>
    cases b with
    | true =>
      simp only [hk] at h
      cases hg : goSlice (content st.reader) (tk.start + 1) (tk.end_ - 1) with
      | none => simp [hg] at h
      | some k =>
        simp [hg] at h
        subst h
        exact hsame
    | false =>
      simp only [hk] at h
      by_cases e1 : tk.token = EOF
      · simp [e1] at h
        subst h
        exact hsame
      · simp only [e1, if_false] at h
        by_cases e2 : tk.token = COLON ∨ tk.token = SEP
        · simp [e2] at h
          subst h
          exact hsame
        · simp only [e2, if_false] at h
          by_cases e3 : tk.token = END_ARR ∨ tk.token = END_OBJ
          · simp only [e3, if_true] at h
            unfold parseSwitch.close at h
            cases hs : st.parentStack[st.l]? with
            | none => simp [hs] at h
            | some top =>
              cases top with
              | none => simp [hs] at h
              | some p =>
                simp only [hs] at h
                cases hu : updateNode st.heap p (fun n => { n with end_ := tk.end_ }) with
                | none => simp [hu] at h
                | some heap1 =>
                  simp only [hu] at h
                  simp at h
                  subst h
                  intro q n hq
                  simp only [] at hq
                  rw [updateNode_get _ _ _ _ hu q] at hq
                  cases hq0 : st.heap[q]? with
                  | none => simp [hq0] at hq
                  | some m =>
                    simp only [hq0, Option.map_some', Option.some.injEq] at hq
                    obtain ⟨a, b, c⟩ := hnodes q m hq0
                    by_cases hpq : p = q
                    · simp only [hpq, if_true] at hq
                      subst hq
                      exact ⟨a, by simp only []; omega, le_refl _⟩
                    · simp only [hpq, if_false] at hq
                      subst hq
                      exact ⟨a, b, by omega⟩
          · simp only [e3, if_false] at h
            unfold parseSwitch.value at h
            cases hs : st.parentStack[st.l]? with
            | none => simp [hs] at h
            | some par =>
              simp only [hs] at h
              cases ha : parseSwitch.attach st
                  (st.heap ++ [Json.mk tk.start tk.end_ par [] [] tk.jtype]) par st.heap.length with
              | none => simp [ha] at h
              | some res =>
                obtain ⟨heap2, keyAva2⟩ := res
                simp only [ha] at h
                have hspan := parseSwitch_attach_span _ _ _ _ _ _ ha
                have hheap2 : ∀ (q : Nat) (n : Json), heap2[q]? = some n →
                    0 ≤ n.start ∧ n.start ≤ n.end_ ∧ n.end_ ≤ tk.end_ := by
                  intro q n hq
                  obtain ⟨m, hm, hs1, hs2⟩ := hspan q n hq
                  rw [hs1, hs2]
                  by_cases hlt : q < st.heap.length
                  · rw [List.getElem?_append_left hlt] at hm
                    exact hsame q m hm
                  · rw [List.getElem?_append_right (by omega)] at hm
                    have hq0 : q - st.heap.length = 0 := by
                      by_contra hc
                      rw [List.getElem?_eq_none (by simp; omega)] at hm
                      cases hm
                    rw [hq0] at hm
                    simp at hm
                    subst hm
                    exact ⟨h0, h1, le_refl _⟩
                split at h
                · simp at h
                  subst h
                  exact hheap2
                · simp at h
                  subst h
                  exact hheap2
  | error e => simp [hk] at h
  | fault => simp [hk] at h
  | outOfFuel => simp [hk] at h

theorem PosInv_init (b : List Nat) : PosInv b (parseInit (UTF8RuneScanner.mk b 0 0)) := by
  refine ⟨rfl, ?_, ?_⟩
  · simp [parseInit]
  · intro q n h
    simp [parseInit] at h

/-- One run of the loop body of `ParseUTF8` over a buffer whose last character is at most
one byte wide: the nodes stay in order, and the scanner moves forward unless the token
is the end-of-input token. -/
theorem parseStep_pos (b : List Nat) (hl : (DecodeLastRune b).2 ≤ 1) (content : UTF8RuneScanner → List Nat)
    (fuel : Nat) (st st1 : ParseState UTF8RuneScanner) (inv : PosInv b st) (pinv : ParseInv st)
    (h : parseStep utf8Scanner content fuel st = Res.ok st1) :
    PosInv b st1 ∧ st.reader.bytePos ≤ st1.reader.bytePos ∧
      (st1.prevToken ≠ EOF → st.reader.bytePos + 1 ≤ st1.reader.bytePos) := by
  obtain ⟨tk, r1, st2, hn, -, -, hs, rfl⟩ := parseStep_ok utf8Scanner content fuel st st1 h
  have hl1 : (DecodeLastRune st.reader.bytes).2 ≤ 1 := by rw [inv.bytes]; exact hl
  have hle : st.reader.bytePos ≤ st.reader.bytes.length := by rw [inv.bytes]; exact inv.pos
  obtain ⟨i1, i2, i3, i4, i5, i6, i7⟩ := nextToken_pos fuel st.reader r1 tk hn hl1 hle
  have hse : tk.start ≤ tk.end_ := by
    by_cases he : tk.token = EOF
    · have := (i7 he).1
      omega
    · have := i6 he
      omega
  obtain ⟨-, -, hrd, -, -, -⟩ := parseSwitch_inv content tk _ st2 (ParseInv_reader st r1 pinv) hs
  have hnodes := parseSwitch_span content tk _ st2
    (fun q n hq => by
      obtain ⟨a, b1, c⟩ := inv.nodes q n hq
      exact ⟨a, b1, by omega⟩) i4 hse hs
  simp only [] at hrd
  refine ⟨⟨?_, ?_, ?_⟩, ?_, ?_⟩
  · simp only []
    rw [hrd, i1, inv.bytes]
  · simp only []
    rw [hrd]
    rw [inv.bytes] at i3
    exact i3
  · intro q n hq
    simp only [] at hq ⊢
    rw [hrd, ← i2]
    exact hnodes q n hq
  · simp only []
    rw [hrd]
    omega
  · intro hne
    simp only [] at hne ⊢
    rw [hrd]
    have := i6 hne
    omega

theorem parse_loop_pos (b : List Nat) (hl : (DecodeLastRune b).2 ≤ 1)
    (content : UTF8RuneScanner → List Nat) (fuel : Nat) :
    ∀ (n : Nat) (st : ParseState UTF8RuneScanner) (t : Tree), PosInv b st → ParseInv st →
      parse.loop utf8Scanner content fuel n st = Res.ok t →
      ∀ (q : Nat) (m : Json), t.heap[q]? = some m →
        0 ≤ m.start ∧ m.start ≤ m.end_ ∧ m.end_ ≤ b.length := by
  intro n
  induction n with
  | zero => intro st t _ _ h; simp [parse.loop] at h
  | succ n ih =>
    intro st t inv pinv h
    rw [parse.loop] at h
    by_cases hp : st.prevToken = EOF
    · simp [hp] at h
      subst h
      intro q m hq
      obtain ⟨a, b1, c⟩ := inv.nodes q m hq
      have := inv.pos
      exact ⟨a, b1, by omega⟩
    · simp only [ne_eq, hp, not_false_eq_true, if_true] at h
      cases hs : parseStep utf8Scanner content fuel st with
      | ok st1 =>
        simp only [hs] at h
        exact ih st1 t (parseStep_pos b hl content fuel st st1 inv pinv hs).1
          (parseStep_inv utf8Scanner content fuel st st1 pinv hs).1 h
      | error e => simp [hs] at h
      | fault => simp [hs] at h
      | outOfFuel => simp [hs] at h


/-! ### Termination -/

theorem moveToStringTokenEnd_loop_fuel :
    ∀ (fuel : Nat) (c prev : Int) (r : UTF8RuneScanner), r.bytePos ≤ r.bytes.length →
      (r.bytes.length : Int) + 2 ≤ fuel + r.bytePos →
      moveToStringTokenEnd.loop utf8Scanner fuel c prev r ≠ Res.outOfFuel := by
  intro fuel
  induction fuel with
  | zero => intro c prev r h1 h2; simp at h2; omega
  | succ f ih =>
    intro c prev r h1 h2
    rw [moveToStringTokenEnd.loop]
    split
    · rcases ReadRune_cases r with hr | ⟨c1, w, e1, hr⟩ | ⟨c1, w, r2, hr, hb, h0, hp, hw, hle, -⟩
      · simp [hr]
      · simp [hr]
      · simp only [utf8Scanner_ReadRune, hr]
        apply ih
        · rw [hb]; exact hle
        · rw [hb]; push_cast at h2 ⊢; omega
    · simp

theorem moveToNumberTokenEnd_loop_fuel :
    ∀ (fuel : Nat) (prev : Int) (dotCount : Nat) (r : UTF8RuneScanner),
      r.bytePos ≤ r.bytes.length → (r.bytes.length : Int) + 1 ≤ fuel + r.bytePos →
      moveToNumberTokenEnd.loop utf8Scanner fuel prev dotCount r ≠ Res.outOfFuel := by
  intro fuel
  induction fuel with
  | zero => intro prev dotCount r h1 h2; simp at h2; omega
  | succ f ih =>
    intro prev dotCount r h1 h2
    rw [moveToNumberTokenEnd.loop]
    rcases ReadRune_cases r with hr | ⟨c1, w, e1, hr⟩ | ⟨c1, w, r2, hr, hb, h0, hp, hw, hle, -⟩
    · simp [hr]
    · simp only [utf8Scanner_ReadRune, hr]
      split <;> simp
    · simp only [utf8Scanner_ReadRune, hr]
      have hrec : ∀ (p : Int) (d : Nat),
          moveToNumberTokenEnd.loop utf8Scanner f p d r2 ≠ Res.outOfFuel := by
        intro p d
        apply ih
        · rw [hb]; exact hle
        · rw [hb]; push_cast at h2 ⊢; omega
      split
      · split
        · simp
        · split
          · split
            · simp
            · exact hrec _ _
          · split
            · simp
            · split <;> simp
      · exact hrec _ _

theorem expectRunes_fuel (bad : Err) :
    ∀ (expected : List Int) (r : UTF8RuneScanner),
      expectRunes utf8Scanner bad expected r ≠ Res.outOfFuel := by
  intro expected
  induction expected with
  | nil => intro r; simp [expectRunes]
  | cons x xs ih =>
    intro r
    rw [expectRunes]
    rcases ReadRune_cases r with hr | ⟨c, w, e1, hr⟩ | ⟨c, w, r2, hr, -⟩
    · simp [hr]
    · simp [hr]
    · simp only [utf8Scanner_ReadRune, hr]
      split
      · simp
      · exact ih r2

theorem nextToken_dispatch_fuel (fuel : Nat) (start c : Int) (r : UTF8RuneScanner)
    (h1 : r.bytePos ≤ r.bytes.length) (h2 : (r.bytes.length : Int) + 2 ≤ fuel + r.bytePos) :
    nextToken.dispatch utf8Scanner fuel start c r ≠ Res.outOfFuel := by
  obtain ⟨token, jtype, x, hd, -, hx⟩ := nextToken_dispatch_shape utf8Scanner fuel start c r
  rw [hd]
  have hfin : x ≠ Res.outOfFuel → nextToken.finish utf8Scanner start token jtype x ≠ Res.outOfFuel := by
    intro hne
    unfold nextToken.finish
    cases x with
    | ok a => simp
    | error e => simp
    | fault => simp
    | outOfFuel => exact absurd rfl hne
  apply hfin
  rcases hx with hx | hx | hx | hx | hx | hx
  · rw [hx]; simp
  · rw [hx]; simp
  · rw [hx]; exact expectRunes_fuel _ _ _
  · rw [hx]
    unfold moveToBoolTokenEnd
    split <;> exact expectRunes_fuel _ _ _
  · rw [hx]; exact moveToStringTokenEnd_loop_fuel _ _ _ _ h1 h2
  · rw [hx]; exact moveToNumberTokenEnd_loop_fuel _ _ _ _ h1 (by omega)

theorem nextToken_skip_fuel (fuel : Nat) :
    ∀ (n : Nat) (start c : Int) (r : UTF8RuneScanner), r.bytePos ≤ r.bytes.length →
      (r.bytes.length : Int) + 2 ≤ fuel + r.bytePos →
      (IsSpace c = true → (r.bytes.length : Int) + 2 ≤ n + r.bytePos) →
      (IsSpace c = false → 1 ≤ n) →
      nextToken.skip utf8Scanner fuel n start c r ≠ Res.outOfFuel := by
  intro n
  induction n with
  | zero =>
    intro start c r h1 _ h3 h4
    cases hs : IsSpace c with
    | true => have := h3 hs; simp at this; omega
    | false => have := h4 hs; omega
  | succ n ih =>
    intro start c r h1 h2 h3 h4
    rw [nextToken.skip]
    by_cases hs : IsSpace c = true
    · simp only [hs, if_true]
      have h3 := h3 hs
      rcases ReadRune_cases r with hr | ⟨c1, w, e1, hr⟩ | ⟨c1, w, r2, hr, hb, h0, hp, hw, hle, -⟩
      · simp [hr]
      · simp only [utf8Scanner_ReadRune, hr]
        split <;> simp
      · simp only [utf8Scanner_ReadRune, hr]
        apply ih
        · rw [hb]; exact hle
        · rw [hb]; omega
        · intro _; rw [hb]; push_cast at h3 ⊢; omega
        · intro _; push_cast at h3; omega
    · simp only [hs]
      exact nextToken_dispatch_fuel fuel start c r h1 h2

/-- With `len(b) - pos + 2` units of fuel no loop of `nextToken` runs out. -/
theorem nextToken_fuel (fuel : Nat) (r : UTF8RuneScanner) (h1 : r.bytePos ≤ r.bytes.length)
    (h2 : (r.bytes.length : Int) + 2 ≤ fuel + r.bytePos) :
    nextToken utf8Scanner fuel r ≠ Res.outOfFuel :=
  nextToken_skip_fuel fuel fuel 0 0x20 r h1 h2 (fun _ => h2) (fun h => by simp [IsSpace_space] at h)

theorem parseSwitch_fuel {σ : Type} (content : σ → List Nat) (tk : Token) (st : ParseState σ) :
    parseSwitch content tk st ≠ Res.outOfFuel := by
  unfold parseSwitch
  have hk : parseSwitch.isKey tk st ≠ Res.outOfFuel ∧
      ∀ e, parseSwitch.isKey tk st ≠ Res.error e := by
    unfold parseSwitch.isKey
    constructor
    · repeat' split
      all_goals simp
    · intro e
      repeat' split
      all_goals simp
  cases hq : parseSwitch.isKey tk st with
  | ok b =>
    cases b with
    | true =>
      simp only []
      split <;> simp
    | false =>
      simp only []
      split
      · simp
      · split
        · simp
        · split
          · unfold parseSwitch.close
            repeat' split
            all_goals simp
          · unfold parseSwitch.value
            cases st.parentStack[st.l]? with
            | none => simp
            | some par =>
              simp only []
              generalize parseSwitch.attach st _ par st.heap.length = a
              cases a with
              | none => simp
              | some res =>
                obtain ⟨heap2, k⟩ := res
                simp only []
                split <;> simp
  | error e => exact absurd hq (hk.2 e)
  | fault => simp
  | outOfFuel => exact absurd hq hk.1

/-- Over a buffer whose last character is at most one byte wide, the token loop of
`ParseUTF8` ends within `len(b) - pos + 2` tests of its condition. -/
theorem parse_loop_fuel (b : List Nat) (hl : (DecodeLastRune b).2 ≤ 1)
    (content : UTF8RuneScanner → List Nat) (fuel : Nat) (hfuel : b.length + 2 ≤ fuel) :
    ∀ (n : Nat) (st : ParseState UTF8RuneScanner), PosInv b st → ParseInv st →
      0 ≤ st.reader.bytePos →
      (st.prevToken ≠ EOF → (b.length : Int) + 2 ≤ n + st.reader.bytePos) →
      (st.prevToken = EOF → 1 ≤ n) →
      parse.loop utf8Scanner content fuel n st ≠ Res.outOfFuel := by
  intro n
  induction n with
  | zero =>
    intro st inv _ _ h3 h4
    by_cases hp : st.prevToken = EOF
    · have := h4 hp; omega
    · have := h3 hp
      have := inv.pos
      simp at *
      omega
  | succ n ih =>
    intro st inv pinv h0 h3 h4
    rw [parse.loop]
    by_cases hp : st.prevToken = EOF
    · simp [hp]
    · simp only [ne_eq, hp, not_false_eq_true, if_true]
      have h3 := h3 hp
      have hpos := inv.pos
      cases hs : parseStep utf8Scanner content fuel st with
      | ok st1 =>
        simp only []
        obtain ⟨i1, i2, i3⟩ := parseStep_pos b hl content fuel st st1 inv pinv hs
        apply ih st1 i1 (parseStep_inv utf8Scanner content fuel st st1 pinv hs).1 (by omega)
        · intro hne
          have := i3 hne
          push_cast at h3 ⊢
          omega
        · intro _
          push_cast at h3
          omega
      | error e => simp
      | fault => simp
      | outOfFuel =>
        exfalso
        unfold parseStep at hs
        have hnf : nextToken utf8Scanner fuel st.reader ≠ Res.outOfFuel := by
          apply nextToken_fuel
          · rw [inv.bytes]; exact hpos
          · rw [inv.bytes]; omega
        cases hn : nextToken utf8Scanner fuel st.reader with
        | ok res =>
          obtain ⟨tk, r1⟩ := res
          simp only [hn] at hs
          cases he : tk.err with
          | some e => simp [he] at hs
          | none =>
            simp only [he] at hs
            cases hv : validateTokenOrder tk.token st.prevToken st.parentStack with
            | some e => simp [hv] at hs
            | none =>
              simp only [hv] at hs
              have := parseSwitch_fuel content tk { st with reader := r1 }
              cases hsw : parseSwitch content tk { st with reader := r1 } with
              | ok st2 => simp [hsw] at hs
              | error e => simp [hsw] at hs
              | fault => simp [hsw] at hs
              | outOfFuel => exact this hsw
        | error e => simp [hn] at hs
        | fault => simp [hn] at hs
        | outOfFuel => exact hnf hn

/-! ### The input `1,é` -/

/-- On the buffer `1,é` at byte 0, `nextToken` returns the token `1` and leaves the
scanner at byte 0 again (unless it runs out of fuel). -/
theorem nextToken_one_comma_e (fuel : Nat) (rp : Int) :
    nextToken utf8Scanner fuel ⟨[0x31, 0x2C, 0xC3, 0xA9], 0, rp⟩ = Res.outOfFuel ∨
    nextToken utf8Scanner fuel ⟨[0x31, 0x2C, 0xC3, 0xA9], 0, rp⟩ =
      Res.ok (Token.mk 0 0 NUMBER_T NUMBER none, ⟨[0x31, 0x2C, 0xC3, 0xA9], 0, rp + 1⟩) := by
  have hr0 := ReadRune_ascii [0x31, 0x2C, 0xC3, 0xA9] 0 rp 0x31 [0x2C, 0xC3, 0xA9] rfl (by decide)
  have hr1 := ReadRune_ascii [0x31, 0x2C, 0xC3, 0xA9] 1 (rp + 1) 0x2C [0xC3, 0xA9] rfl (by decide)
  simp only [Nat.cast_zero, Nat.cast_one, zero_add, Nat.cast_ofNat] at hr0 hr1
  match fuel with
  | 0 =>
    left
    unfold nextToken
    rw [nextToken.skip]
  | 1 =>
    left
    unfold nextToken
    rw [nextToken.skip]
    simp only [IsSpace_space, if_true, utf8Scanner_ReadRune, hr0]
    rw [nextToken.skip]
  | f + 2 =>
    right
    unfold nextToken
    rw [nextToken.skip]
    simp only [IsSpace_space, if_true, utf8Scanner_ReadRune, hr0, utf8Scanner_BytePos]
    rw [nextToken.skip]
    simp only [show IsSpace 0x31 = false by decide, Bool.false_eq_true, if_false]
    unfold nextToken.dispatch
    simp only [show ¬ ((0x31 : Int) = 0x7B) by decide, show ¬ ((0x31 : Int) = 0x7D) by decide,
      show ¬ ((0x31 : Int) = 0x5B) by decide, show ¬ ((0x31 : Int) = 0x5D) by decide,
      show ¬ ((0x31 : Int) = 0x3A) by decide, show ¬ ((0x31 : Int) = 0x2C) by decide,
      show ¬ ((0x31 : Int) = 0x6E) by decide,
      show ¬ ((0x31 : Int) = 0x74 ∨ (0x31 : Int) = 0x66) by decide,
      show ¬ ((0x31 : Int) = 0x22) by decide, if_false,
      show (0x31 : Int) ∈ ([0x2B, 0x2D, 0x30, 0x31, 0x32, 0x33, 0x34, 0x35, 0x36, 0x37, 0x38, 0x39] : List Int) by decide,
      if_true]
    unfold moveToNumberTokenEnd
    rw [moveToNumberTokenEnd.loop]
    simp only [utf8Scanner_ReadRune, hr1]
    simp only [show IsDigit 0x2C = false by decide, show IsDigit 0x31 = true by decide,
      show IsSpace 0x31 = false by decide, show ((0x2C : Int) == 0x2B) = false by decide,
      show ((0x2C : Int) == 0x2D) = false by decide, show ((0x2C : Int) == 0x2E) = false by decide,
      Bool.not_false, Bool.not_true, Bool.or_self, Bool.false_eq_true, if_false, if_true,
      utf8Scanner_UnreadRune]
    have hu : UTF8RuneScanner.UnreadRune
          ⟨[0x31, 0x2C, 0xC3, 0xA9], ((1 + 1 : Nat) : Int), rp + 1 + 1⟩ =
        (none, ⟨[0x31, 0x2C, 0xC3, 0xA9], 0, rp + 1⟩) := by
      unfold UTF8RuneScanner.UnreadRune
      simp only [show ¬ (((1 + 1 : Nat) : Int) = 0) by decide, if_false,
        show (DecodeLastRune [0x31, 0x2C, 0xC3, 0xA9]).2 = 2 by decide]
      congr 2
      omega
    rw [hu]
    rfl

/-- On the buffer `1,é` the token loop of `ParseUTF8` never ends: every run of its body
reads the token `1` again and leaves the scanner at byte 0. -/
theorem parse_loop_one_comma_e (fuel : Nat) :
    ∀ (n : Nat) (st : ParseState UTF8RuneScanner),
      st.reader.bytes = [0x31, 0x2C, 0xC3, 0xA9] → st.reader.bytePos = 0 → st.l = 0 →
      st.parentStack = [none] → st.prevToken ≠ EOF →
      parse.loop utf8Scanner (fun _ => [0x31, 0x2C, 0xC3, 0xA9]) fuel n st = Res.outOfFuel := by
  intro n
  induction n with
  | zero => intro st _ _ _ _ _; rfl
  | succ n ih =>
    intro st hb hp hl hs hprev
    obtain ⟨heap, ps, l, prev, key, keyAva, root, j, reader⟩ := st
    obtain ⟨bytes, bp, rp⟩ := reader
    simp only [] at hb hp hl hs hprev
    subst hb hp hl hs
    rw [parse.loop, if_pos hprev]
    unfold parseStep
    simp only []
    rcases nextToken_one_comma_e fuel rp with h | h
    · rw [h]
    · rw [h]
      simp only [validateTokenOrder, show ¬ ((NUMBER_T : Int) = EOF ∧ ((([none] : List (Option Nat)).length : Int) - 1 ≠ 0)) by decide, if_false]
      simp only [parseSwitch, parseSwitch.isKey, show ¬ ((NUMBER_T : Int) = STRING_T) by decide,
        false_and, if_false,
        show ¬ ((NUMBER_T : Int) = EOF) by decide,
        show ¬ ((NUMBER_T : Int) = COLON ∨ (NUMBER_T : Int) = SEP) by decide,
        show ¬ ((NUMBER_T : Int) = END_ARR ∨ (NUMBER_T : Int) = END_OBJ) by decide,
        parseSwitch.value, parseSwitch.attach,
        show ¬ ((NUMBER_T : Int) = BEGIN_ARR ∨ (NUMBER_T : Int) = BEGIN_OBJ) by decide]
      simp
      apply ih
      · rfl
      · rfl
      · rfl
      · rfl
      · show (NUMBER_T : Int) ≠ EOF
        decide

/-! ### Parsing a copy and parsing in place, for a buffer of one-byte characters -/

theorem EncodeRune_ascii (x : Nat) (h : x < 0x80) : EncodeRune (x : Int) = [x] := by
  unfold EncodeRune
  have h1 : ¬ ((x : Int) < 0) := by omega
  simp [h1, h]

theorem DecodeLastRune_ascii_width (l : List Nat) (hl : ∀ x ∈ l, x < 0x80) (hne : l ≠ []) :
    (DecodeLastRune l).2 = 1 := by
  have h := List.dropLast_append_getLast hne
  rw [← h, DecodeLastRune_ascii _ _ (hl _ (List.getLast_mem hne))]

/-- Reading through the copying scanner is reading through the inner scanner and storing
the character. -/
theorem copying_ReadRune (b : List Nat) (hb : ∀ x ∈ b, x < 0x80) (r : UTF8RuneScanner)
    (g : InBuffer b r) :
    copyingScanner.ReadRune (storingAt b r) =
      (UTF8RuneScanner.ReadRune r).map (fun p => (p.1, storingAt b p.2)) ∧
    (∀ x r1, UTF8RuneScanner.ReadRune r = Res.ok (x, r1) → InBuffer b r1) ∧
    UTF8RuneScanner.ReadRune r ≠ Res.fault ∧ UTF8RuneScanner.ReadRune r ≠ Res.outOfFuel ∧
    (∀ e, UTF8RuneScanner.ReadRune r ≠ Res.error e) := by
  obtain ⟨bytes, bp, rp⟩ := r
  obtain ⟨hbytes, hlo, hhi⟩ := g
  simp only [] at hbytes hlo hhi
  subst hbytes
  obtain ⟨pos, rfl⟩ : ∃ pos : Nat, bp = (pos : Int) := ⟨bp.toNat, by omega⟩
  by_cases hlt : pos < bytes.length
  · have hdrop : bytes.drop pos = bytes[pos] :: bytes.drop (pos + 1) :=
      List.drop_eq_getElem_cons hlt
    have hx : bytes[pos] < 0x80 := hb _ (List.getElem_mem _)
    have hr := ReadRune_ascii bytes pos rp _ _ hdrop hx
    refine ⟨?_, ?_, by rw [hr]; simp, by rw [hr]; simp, fun e => by rw [hr]; simp⟩
    · rw [hr]
      simp only [copyingScanner, storingScanner, storingAt, hr, Res.map, Int.toNat_ofNat]
      rw [EncodeRune_ascii _ hx]
      congr 3
      rw [List.take_succ, List.getElem?_eq_getElem hlt]
      rfl
    · intro x r1 h
      rw [hr] at h
      injection h with h
      injection h with h1 h2
      subst h2
      exact ⟨rfl, by simp only []; omega, by simp only []; omega⟩
  · have hr := ReadRune_eof bytes pos rp (by omega)
    refine ⟨?_, ?_, by rw [hr]; simp, by rw [hr]; simp, fun e => by rw [hr]; simp⟩
    · rw [hr]
      simp only [copyingScanner, storingScanner, storingAt, hr, Res.map]
    · intro x r1 h
      rw [hr] at h
      injection h with h
      injection h with h1 h2
      subst h2
      exact ⟨rfl, hlo, hhi⟩

/-- Taking a character back through the copying scanner is taking it back in the inner
scanner and dropping the stored byte. -/
theorem copying_UnreadRune (b : List Nat) (hb : ∀ x ∈ b, x < 0x80) (r : UTF8RuneScanner)
    (g : InBuffer b r) :
    copyingScanner.UnreadRune (storingAt b r) =
      ((UTF8RuneScanner.UnreadRune r).1, storingAt b (UTF8RuneScanner.UnreadRune r).2) ∧
    InBuffer b (UTF8RuneScanner.UnreadRune r).2 := by
  obtain ⟨bytes, bp, rp⟩ := r
  obtain ⟨hbytes, hlo, hhi⟩ := g
  simp only [] at hbytes hlo hhi
  subst hbytes
  obtain ⟨pos, rfl⟩ : ∃ pos : Nat, bp = (pos : Int) := ⟨bp.toNat, by omega⟩
  have hhi2 : pos ≤ bytes.length := by omega
  by_cases h0 : pos = 0
  · subst h0
    simp [copyingScanner, storingScanner, storingAt, UTF8RuneScanner.UnreadRune]
    exact ⟨rfl, by simp, by simp⟩
  · have hne : bytes ≠ [] := by
      intro h
      subst h
      simp at hhi2
      exact h0 hhi2
    have hlpos : 0 < bytes.length := List.length_pos.2 hne
    have hw : (DecodeLastRune bytes).2 = 1 := DecodeLastRune_ascii_width bytes hb hne
    have htl : (bytes.take pos).length = pos := by
      rw [List.length_take]
      omega
    have htne : bytes.take pos ≠ [] := by
      intro h
      rw [h] at htl
      simp at htl
      omega
    have hw2 : (DecodeLastRune (bytes.take pos)).2 = 1 :=
      DecodeLastRune_ascii_width _ (fun x hx => hb x (List.mem_of_mem_take hx)) htne
    have hp0 : ¬ ((pos : Int) = 0) := by omega
    have hlen : ¬ ((bytes.take pos).length = 0) := by
      rw [htl]
      exact h0
    refine ⟨?_, ?_⟩
    · simp only [copyingScanner, storingScanner, storingAt, UTF8RuneScanner.UnreadRune,
        Int.toNat_ofNat, hlen, if_false, hw, hw2, hp0]
      congr 2
      · rw [List.take_take]
        congr 1
        simp
        omega
    · simp only [UTF8RuneScanner.UnreadRune, hp0, if_false, hw]
      exact ⟨rfl, by simp only []; omega, by simp only []; omega⟩

theorem DecodeLastRune_ascii_le (b : List Nat) (hb : ∀ x ∈ b, x < 0x80) :
    (DecodeLastRune b).2 ≤ 1 := by
  by_cases h : b = []
  · subst h
    decide
  · rw [DecodeLastRune_ascii_width b hb h]

theorem InBuffer_of_pos (b : List Nat) (r r1 : UTF8RuneScanner) (g : InBuffer b r)
    (h : r1.bytes = r.bytes ∧ r.bytePos ≤ r1.bytePos ∧
      (r.bytePos ≤ r.bytes.length → r1.bytePos ≤ r.bytes.length)) : InBuffer b r1 := by
  obtain ⟨h1, h2, h3⟩ := h
  have := g.lo
  have := g.hi
  rw [g.bytes] at h1 h3
  exact ⟨h1, by omega, h3 (by omega)⟩

theorem copying_BytePos (b : List Nat) (r : UTF8RuneScanner) (g : InBuffer b r) :
    copyingScanner.BytePos (storingAt b r) = r.bytePos := by
  have := g.lo
  have := g.hi
  simp only [copyingScanner, storingScanner, storingAt, List.length_take]
  omega

theorem copying_RunePos (b : List Nat) (r : UTF8RuneScanner) :
    copyingScanner.RunePos (storingAt b r) = r.runePos := rfl

theorem expectRunes_copy (b : List Nat) (hb : ∀ x ∈ b, x < 0x80) (bad : Err) :
    ∀ (expected : List Int) (r : UTF8RuneScanner), InBuffer b r →
      expectRunes copyingScanner bad expected (storingAt b r) =
        (expectRunes utf8Scanner bad expected r).map (fun p => (p.1, storingAt b p.2)) := by
  intro expected
  induction expected with
  | nil => intro r _; rfl
  | cons x xs ih =>
    intro r g
    obtain ⟨h1, h2, -⟩ := copying_ReadRune b hb r g
    rw [expectRunes, expectRunes, h1, copying_RunePos]
    simp only [utf8Scanner_ReadRune, utf8Scanner_RunePos]
    cases hr : UTF8RuneScanner.ReadRune r with
    | ok res =>
      obtain ⟨⟨c, w, e⟩, r2⟩ := res
      cases e with
      | some err => rfl
      | none =>
        simp only [Res.map]
        split
        · rfl
        · exact ih r2 (h2 _ _ hr)
    | error e => rfl
    | fault => rfl
    | outOfFuel => rfl

theorem moveToStringTokenEnd_loop_copy (b : List Nat) (hb : ∀ x ∈ b, x < 0x80) :
    ∀ (fuel : Nat) (c prev : Int) (r : UTF8RuneScanner), InBuffer b r →
      moveToStringTokenEnd.loop copyingScanner fuel c prev (storingAt b r) =
        (moveToStringTokenEnd.loop utf8Scanner fuel c prev r).map
          (fun p => (p.1, storingAt b p.2)) := by
  intro fuel
  induction fuel with
  | zero => intro c prev r _; rfl
  | succ f ih =>
    intro c prev r g
    obtain ⟨h1, h2, -⟩ := copying_ReadRune b hb r g
    rw [moveToStringTokenEnd.loop, moveToStringTokenEnd.loop, h1]
    simp only [utf8Scanner_ReadRune, utf8Scanner_RunePos]
    split
    · cases hr : UTF8RuneScanner.ReadRune r with
      | ok res =>
        obtain ⟨⟨c1, w, e⟩, r2⟩ := res
        cases e with
        | some err => rfl
        | none =>
          simp only [Res.map]
          exact ih c1 c r2 (h2 _ _ hr)
      | error e => rfl
      | fault => rfl
      | outOfFuel => rfl
    · rfl

theorem moveToNumberTokenEnd_loop_copy (b : List Nat) (hb : ∀ x ∈ b, x < 0x80) :
    ∀ (fuel : Nat) (prev : Int) (dotCount : Nat) (r : UTF8RuneScanner), InBuffer b r →
      moveToNumberTokenEnd.loop copyingScanner fuel prev dotCount (storingAt b r) =
        (moveToNumberTokenEnd.loop utf8Scanner fuel prev dotCount r).map
          (fun p => (p.1, storingAt b p.2)) := by
  intro fuel
  induction fuel with
  | zero => intro prev dotCount r _; rfl
  | succ f ih =>
    intro prev dotCount r g
    obtain ⟨h1, h2, -⟩ := copying_ReadRune b hb r g
    rw [moveToNumberTokenEnd.loop, moveToNumberTokenEnd.loop, h1]
    simp only [utf8Scanner_ReadRune, utf8Scanner_RunePos, utf8Scanner_UnreadRune]
    cases hr : UTF8RuneScanner.ReadRune r with
    | ok res =>
      obtain ⟨⟨c1, w, e⟩, r2⟩ := res
      cases e with
      | some err =>
        simp only [Res.map]
        split <;> rfl
      | none =>
        have g2 := h2 _ _ hr
        simp only [Res.map, copying_RunePos]
        split
        · split
          · rfl
          · split
            · split
              · rfl
              · exact ih _ _ r2 g2
            · split
              · rfl
              · split
                · rw [(copying_UnreadRune b hb r2 g2).1]
                · rfl
        · exact ih _ _ r2 g2
    | error e => rfl
    | fault => rfl
    | outOfFuel => rfl

theorem nextToken_finish_copy (b : List Nat) (start token jtype : Int)
    (x : Res (Option GoError × UTF8RuneScanner))
    (hx : ∀ e r1, x = Res.ok (e, r1) → InBuffer b r1) :
    nextToken.finish copyingScanner start token jtype
        (x.map (fun p => (p.1, storingAt b p.2))) =
      (nextToken.finish utf8Scanner start token jtype x).map
        (fun p => (p.1, storingAt b p.2)) := by
  cases x with
  | ok a =>
    obtain ⟨e, r1⟩ := a
    simp only [Res.map, nextToken.finish, utf8Scanner_BytePos]
    rw [copying_BytePos b r1 (hx e r1 rfl)]
  | error e => rfl
  | fault => rfl
  | outOfFuel => rfl

theorem nextToken_dispatch_copy (b : List Nat) (hb : ∀ x ∈ b, x < 0x80) (fuel : Nat)
    (start c : Int) (r : UTF8RuneScanner) (g : InBuffer b r) :
    nextToken.dispatch copyingScanner fuel start c (storingAt b r) =
      (nextToken.dispatch utf8Scanner fuel start c r).map (fun p => (p.1, storingAt b p.2)) := by
  have hl : (DecodeLastRune r.bytes).2 ≤ 1 := by rw [g.bytes]; exact DecodeLastRune_ascii_le b hb
  have hsame : ∀ (token jtype : Int) (e0 : Option GoError),
      nextToken.finish copyingScanner start token jtype (Res.ok (e0, storingAt b r)) =
        (nextToken.finish utf8Scanner start token jtype (Res.ok (e0, r))).map
          (fun p => (p.1, storingAt b p.2)) := fun token jtype e0 =>
    nextToken_finish_copy b start token jtype (Res.ok (e0, r)) (fun e r1 h => by
      injection h with h
      injection h with h1 h2
      subst h2
      exact g)
  unfold nextToken.dispatch
  by_cases c1 : c = 0x7B
  · rw [if_pos c1, if_pos c1]; exact hsame _ _ _
  rw [if_neg c1, if_neg c1]
  by_cases c2 : c = 0x7D
  · rw [if_pos c2, if_pos c2]; exact hsame _ _ _
  rw [if_neg c2, if_neg c2]
  by_cases c3 : c = 0x5B
  · rw [if_pos c3, if_pos c3]; exact hsame _ _ _
  rw [if_neg c3, if_neg c3]
  by_cases c4 : c = 0x5D
  · rw [if_pos c4, if_pos c4]; exact hsame _ _ _
  rw [if_neg c4, if_neg c4]
  by_cases c5 : c = 0x3A
  · rw [if_pos c5, if_pos c5]; exact hsame _ _ _
  rw [if_neg c5, if_neg c5]
  by_cases c6 : c = 0x2C
  · rw [if_pos c6, if_pos c6]; exact hsame _ _ _
  rw [if_neg c6, if_neg c6]
  by_cases c7 : c = 0x6E
  · rw [if_pos c7, if_pos c7]
    unfold moveToNullTokenEnd
    rw [expectRunes_copy b hb _ _ r g]
    exact nextToken_finish_copy b _ _ _ _
      (fun e r1 h => InBuffer_of_pos b r r1 g (expectRunes_pos _ _ _ _ _ h))
  rw [if_neg c7, if_neg c7]
  by_cases c8 : c = 0x74 ∨ c = 0x66
  · rw [if_pos c8, if_pos c8]
    unfold moveToBoolTokenEnd
    split
    · rw [expectRunes_copy b hb _ _ r g]
      exact nextToken_finish_copy b _ _ _ _
        (fun e r1 h => InBuffer_of_pos b r r1 g (expectRunes_pos _ _ _ _ _ h))
    · rw [expectRunes_copy b hb _ _ r g]
      exact nextToken_finish_copy b _ _ _ _
        (fun e r1 h => InBuffer_of_pos b r r1 g (expectRunes_pos _ _ _ _ _ h))
  rw [if_neg c8, if_neg c8]
  by_cases c9 : c = 0x22
  · rw [if_pos c9, if_pos c9]
    unfold moveToStringTokenEnd
    rw [moveToStringTokenEnd_loop_copy b hb _ _ _ r g]
    exact nextToken_finish_copy b _ _ _ _
      (fun e r1 h => InBuffer_of_pos b r r1 g (moveToStringTokenEnd_loop_facts _ _ _ _ _ _ h))
  rw [if_neg c9, if_neg c9]
  by_cases c10 : c ∈ ([0x2B, 0x2D, 0x30, 0x31, 0x32, 0x33, 0x34, 0x35, 0x36, 0x37, 0x38, 0x39] : List Int)
  · rw [if_pos c10, if_pos c10]
    unfold moveToNumberTokenEnd
    rw [moveToNumberTokenEnd_loop_copy b hb _ _ _ r g]
    exact nextToken_finish_copy b _ _ _ _
      (fun e r1 h => InBuffer_of_pos b r r1 g (moveToNumberTokenEnd_loop_pos _ _ _ _ _ _ h hl))
  rw [if_neg c10, if_neg c10]
  exact hsame _ _ _

theorem nextToken_skip_copy (b : List Nat) (hb : ∀ x ∈ b, x < 0x80) (fuel : Nat) :
    ∀ (n : Nat) (start c : Int) (r : UTF8RuneScanner), InBuffer b r →
      nextToken.skip copyingScanner fuel n start c (storingAt b r) =
        (nextToken.skip utf8Scanner fuel n start c r).map (fun p => (p.1, storingAt b p.2)) := by
  intro n
  induction n with
  | zero => intro start c r _; rfl
  | succ n ih =>
    intro start c r g
    obtain ⟨h1, h2, -⟩ := copying_ReadRune b hb r g
    rw [nextToken.skip, nextToken.skip]
    split
    · rw [h1, copying_BytePos b r g]
      simp only [utf8Scanner_ReadRune, utf8Scanner_RunePos, utf8Scanner_BytePos]
      cases hr : UTF8RuneScanner.ReadRune r with
      | ok res =>
        obtain ⟨⟨c1, w, e⟩, r2⟩ := res
        have g2 := h2 _ _ hr
        cases e with
        | some err =>
          simp only [Res.map, copying_BytePos b r2 g2, copying_RunePos]
          split <;> rfl
        | none =>
          simp only [Res.map]
          exact ih _ c1 r2 g2
      | error e => rfl
      | fault => rfl
      | outOfFuel => rfl
    · exact nextToken_dispatch_copy b hb fuel start c r g

/-- Over a buffer of one-byte characters, `nextToken` on the copying scanner returns
the token `nextToken` returns on the buffer, and leaves the copying scanner with the
bytes read so far. -/
theorem nextToken_copy (b : List Nat) (hb : ∀ x ∈ b, x < 0x80) (fuel : Nat)
    (r : UTF8RuneScanner) (g : InBuffer b r) :
    nextToken copyingScanner fuel (storingAt b r) =
      (nextToken utf8Scanner fuel r).map (fun p => (p.1, storingAt b p.2)) :=
  nextToken_skip_copy b hb fuel fuel 0 0x20 r g

theorem goSlice_take (b : List Nat) (pos : Nat) (lo hi : Int) (hpos : pos ≤ b.length)
    (hhi : hi ≤ pos) : goSlice (b.take pos) lo hi = goSlice b lo hi := by
  unfold goSlice
  have hl : (b.take pos).length = pos := by
    rw [List.length_take]; omega
  by_cases h : 0 ≤ lo ∧ lo ≤ hi ∧ hi ≤ (pos : Int)
  · have h1 : 0 ≤ lo ∧ lo ≤ hi ∧ hi ≤ ((b.take pos).length : Int) := by rw [hl]; exact h
    have h2 : 0 ≤ lo ∧ lo ≤ hi ∧ hi ≤ (b.length : Int) := ⟨h.1, h.2.1, by omega⟩
    rw [if_pos h1, if_pos h2]
    congr 1
    rw [List.drop_take, List.take_take]
    congr 1
    omega
  · have h1 : ¬ (0 ≤ lo ∧ lo ≤ hi ∧ hi ≤ ((b.take pos).length : Int)) := by rw [hl]; exact h
    have h2 : ¬ (0 ≤ lo ∧ lo ≤ hi ∧ hi ≤ (b.length : Int)) := by
      intro hc
      exact h ⟨hc.1, hc.2.1, hhi⟩
    rw [if_neg h1, if_neg h2]

theorem parseSwitch_close_copy (b : List Nat) (tk : Token) (st : ParseState UTF8RuneScanner) :
    parseSwitch.close tk (st.store b) = (parseSwitch.close tk st).map (ParseState.store b) := by
  obtain ⟨heap, ps, l, prev, key, keyAva, root, j, reader⟩ := st
  simp only [parseSwitch.close, ParseState.store]
  cases ps[l]? with
  | none => rfl
  | some top =>
    cases top with
    | none => rfl
    | some p =>
      simp only []
      cases updateNode heap p (fun n => { n with end_ := tk.end_ }) with
      | none => rfl
      | some heap1 => rfl

theorem parseSwitch_value_copy (b : List Nat) (tk : Token) (st : ParseState UTF8RuneScanner) :
    parseSwitch.value tk (st.store b) = (parseSwitch.value tk st).map (ParseState.store b) := by
  obtain ⟨heap, ps, l, prev, key, keyAva, root, j, reader⟩ := st
  simp only [parseSwitch.value, ParseState.store, parseSwitch.attach]
  cases ps[l]? with
  | none => rfl
  | some par =>
    simp only []
    split
    · rename_i h1
      simp only [h1, Res.map]
    · rename_i heap2 keyAva2 h1
      simp only [h1, Res.map]
      split <;> rfl

/-- The `switch` of `parse` does the same on the copy and in place, once the token read
ends at or before the position of the scanner. -/
theorem parseSwitch_copy (b : List Nat) (tk : Token) (st : ParseState UTF8RuneScanner)
    (g : InBuffer b st.reader) (hend : tk.end_ ≤ st.reader.bytePos) :
    parseSwitch (fun r : StoringRuneScanner UTF8RuneScanner => r.bytes) tk (st.store b) =
      (parseSwitch (fun _ => b) tk st).map (ParseState.store b) := by
  have hk : parseSwitch.isKey tk (st.store b) = parseSwitch.isKey tk st := rfl
  unfold parseSwitch
  rw [hk]
  cases hq : parseSwitch.isKey tk st with
  | ok k =>
    cases k with
    | true =>
      simp only []
      have hs : goSlice (st.store b).reader.bytes (tk.start + 1) (tk.end_ - 1) =
          goSlice b (tk.start + 1) (tk.end_ - 1) := by
        have h1 := g.lo
        have h2 := g.hi
        show goSlice (b.take st.reader.bytePos.toNat) _ _ = _
        apply goSlice_take
        · omega
        · omega
      rw [hs]
      cases goSlice b (tk.start + 1) (tk.end_ - 1) with
      | none => rfl
      | some key => rfl
    | false =>
      simp only []
      split
      · rfl
      · split
        · rfl
        · split
          · exact parseSwitch_close_copy b tk st
          · exact parseSwitch_value_copy b tk st
  | error e => rfl
  | fault => rfl
  | outOfFuel => rfl

theorem parseStep_copy (b : List Nat) (hb : ∀ x ∈ b, x < 0x80) (fuel : Nat)
    (st : ParseState UTF8RuneScanner) (g : InBuffer b st.reader) :
    parseStep copyingScanner (fun r => r.bytes) fuel (st.store b) =
      (parseStep utf8Scanner (fun _ => b) fuel st).map (ParseState.store b) := by
  have hl : (DecodeLastRune st.reader.bytes).2 ≤ 1 := by
    rw [g.bytes]; exact DecodeLastRune_ascii_le b hb
  have hle : st.reader.bytePos ≤ st.reader.bytes.length := by rw [g.bytes]; exact g.hi
  unfold parseStep
  have hrd : (st.store b).reader = storingAt b st.reader := rfl
  rw [hrd, nextToken_copy b hb fuel st.reader g]
  cases hn : nextToken utf8Scanner fuel st.reader with
  | ok res =>
    obtain ⟨tk, r1⟩ := res
    obtain ⟨i1, i2, i3, i4, i5, i6, i7⟩ := nextToken_pos fuel st.reader r1 tk hn hl hle
    have hse : tk.start ≤ tk.end_ := by
      by_cases he : tk.token = EOF
      · have := (i7 he).1
        omega
      · have := i6 he
        omega
    have g1 : InBuffer b r1 := by
      have := g.lo
      rw [g.bytes] at i1 i3
      exact ⟨i1, by omega, i3⟩
    simp only [Res.map]
    cases tk.err with
    | some e => rfl
    | none =>
      simp only []
      have hv : validateTokenOrder tk.token (st.store b).prevToken (st.store b).parentStack =
          validateTokenOrder tk.token st.prevToken st.parentStack := rfl
      rw [hv]
      cases validateTokenOrder tk.token st.prevToken st.parentStack with
      | some e => rfl
      | none =>
        simp only []
        have hst : ({ st.store b with reader := storingAt b r1 } :
            ParseState (StoringRuneScanner UTF8RuneScanner)) =
            ({ st with reader := r1 } : ParseState UTF8RuneScanner).store b := rfl
        rw [hst, parseSwitch_copy b tk { st with reader := r1 } g1 (by simp only []; omega)]
        cases parseSwitch (fun _ => b) tk { st with reader := r1 } with
        | ok st2 => rfl
        | error e => rfl
        | fault => rfl
        | outOfFuel => rfl
  | error e => rfl
  | fault => rfl
  | outOfFuel => rfl

/-- After a run of the loop body that read the end-of-input token, the scanner is at the
end of the buffer. -/
theorem parseStep_eof_pos (b : List Nat) (hl : (DecodeLastRune b).2 ≤ 1)
    (content : UTF8RuneScanner → List Nat) (fuel : Nat) (st st1 : ParseState UTF8RuneScanner)
    (inv : PosInv b st) (pinv : ParseInv st)
    (h : parseStep utf8Scanner content fuel st = Res.ok st1) (he : st1.prevToken = EOF) :
    st1.reader.bytePos = b.length := by
  obtain ⟨tk, r1, st2, hn, herr, -, hs, rfl⟩ := parseStep_ok utf8Scanner content fuel st st1 h
  have hl1 : (DecodeLastRune st.reader.bytes).2 ≤ 1 := by rw [inv.bytes]; exact hl
  have hle : st.reader.bytePos ≤ st.reader.bytes.length := by rw [inv.bytes]; exact inv.pos
  obtain ⟨-, i2, -, -, -, -, i7⟩ := nextToken_pos fuel st.reader r1 tk hn hl1 hle
  obtain ⟨-, -, hrd, -, -, -⟩ := parseSwitch_inv content tk _ st2 (ParseInv_reader st r1 pinv) hs
  simp only [] at he hrd ⊢
  rw [hrd, ← i2, (i7 he).2 herr, inv.bytes]

theorem parse_loop_copy (b : List Nat) (hb : ∀ x ∈ b, x < 0x80) (fuel : Nat) :
    ∀ (n : Nat) (st : ParseState UTF8RuneScanner), PosInv b st → ParseInv st →
      0 ≤ st.reader.bytePos → (st.prevToken = EOF → st.reader.bytePos = b.length) →
      parse.loop copyingScanner (fun r => r.bytes) fuel n (st.store b) =
        parse.loop utf8Scanner (fun _ => b) fuel n st := by
  have hl := DecodeLastRune_ascii_le b hb
  intro n
  induction n with
  | zero => intro st _ _ _ _; rfl
  | succ n ih =>
    intro st inv pinv h0 heof
    have g : InBuffer b st.reader := ⟨inv.bytes, h0, inv.pos⟩
    rw [parse.loop, parse.loop]
    have hp : (st.store b).prevToken = st.prevToken := rfl
    rw [hp]
    by_cases hprev : st.prevToken = EOF
    · simp only [hprev, ne_eq, not_true_eq_false, if_false]
      have hpos := heof hprev
      show Res.ok (Tree.mk st.root st.heap (b.take st.reader.bytePos.toNat)) = _
      rw [hpos]
      simp
    · simp only [ne_eq, hprev, not_false_eq_true, if_true]
      rw [parseStep_copy b hb fuel st g]
      cases hs : parseStep utf8Scanner (fun _ => b) fuel st with
      | ok st1 =>
        simp only [Res.map]
        obtain ⟨j1, j2, -⟩ := parseStep_pos b hl (fun _ => b) fuel st st1 inv pinv hs
        exact ih st1 j1 (parseStep_inv utf8Scanner (fun _ => b) fuel st st1 pinv hs).1 (by omega)
          (parseStep_eof_pos b hl (fun _ => b) fuel st st1 inv pinv hs)
      | error e => rfl
      | fault => rfl
      | outOfFuel => rfl

/-- For a buffer of one-byte characters, `Parse` over a `UTF8RuneScanner` on the buffer
and `ParseUTF8` on the buffer return the same: the same error, or the same tree
together with a stored buffer equal to the input. -/
theorem Parse_ascii (b : List Nat) (hb : ∀ x ∈ b, x < 0x80) (fuel : Nat) :
    Parse UTF8RuneScanner.ReadRune UTF8RuneScanner.UnreadRune fuel (UTF8RuneScanner.mk b 0 0) =
      ParseUTF8 fuel b := by
  unfold Parse ParseUTF8 parse
  exact parse_loop_copy b hb fuel fuel _ (PosInv_init b) (ParseInv_init _) (le_refl _)
    (fun he => absurd he (show ((-1 : Int)) ≠ EOF by decide))

/-! ### Number literals that do not end in a digit -/

/-- A character of Latin-1 that is not one of `0`..`9`: for these `unicode.IsDigit`
answers from the comparison with `0` and `9`, without a table. -/
theorem latin1_not_digit (c : Int) (h0 : 0 ≤ c) (h1 : c ≤ 0xFF)
    (hcd : ¬ (0x30 ≤ c ∧ c ≤ 0x39)) : ValidRune c ∧ c ≠ RuneError ∧ IsDigit c = false := by
  refine ⟨?_, ?_, ?_⟩
  · unfold ValidRune; omega
  · unfold RuneError; omega
  · unfold IsDigit
    simp only [h1, if_true]
    simp
    omega

/-- The character `c` read when the character before it is not a digit. -/
theorem moveToNumberTokenEnd_loop_bad (bytes : List Nat) (c : Int) (suf : List Nat)
    (hv : ValidRune c) (hne : c ≠ RuneError) (hcd : IsDigit c = false) (hc1 : c ≠ 0x2B)
    (hc2 : c ≠ 0x2D) (hc3 : c ≠ 0x2E) (fuel pos : Nat) (rp : Int) (prev : Int)
    (dotCount : Nat) (hprev : IsDigit prev = false)
    (hdrop : bytes.drop pos = EncodeRune c ++ suf) :
    moveToNumberTokenEnd.loop utf8Scanner (fuel + 1) prev dotCount ⟨bytes, (pos : Int), rp⟩ =
      Res.ok (some (GoError.ParseError (rp + 1) Err.BadNumberTokenError),
        ⟨bytes, ((pos + (EncodeRune c).length : Nat) : Int), rp + 1⟩) := by
  rw [moveToNumberTokenEnd.loop]
  simp only [utf8Scanner_ReadRune, ReadRune_encoded bytes pos rp c suf hdrop hv hne]
  have e1 : (c == 0x2B) = false := by simp [hc1]
  have e2 : (c == 0x2D) = false := by simp [hc2]
  have e3 : (c == 0x2E) = false := by simp [hc3]
  simp [hcd, e1, e2, e3, hprev, utf8Scanner_RunePos]

/-- Scanning the digits `ds` and a `.` that is followed by the character `c`. -/
theorem moveToNumberTokenEnd_loop_dot_bad (bytes : List Nat) (c : Int) (suf : List Nat)
    (hv : ValidRune c) (hne : c ≠ RuneError) (hcd : IsDigit c = false) (hc1 : c ≠ 0x2B)
    (hc2 : c ≠ 0x2D) (hc3 : c ≠ 0x2E) :
    ∀ (ds : List Nat) (fuel pos : Nat) (rp : Int) (prev : Int),
      (∀ d ∈ ds, 48 ≤ d ∧ d ≤ 57) → (IsDigit prev = true ∨ ds ≠ []) →
      bytes.drop pos = ds ++ 0x2E :: (EncodeRune c ++ suf) →
      ds.length + 1 < fuel →
      moveToNumberTokenEnd.loop utf8Scanner fuel prev 0 ⟨bytes, (pos : Int), rp⟩ =
        Res.ok (some (GoError.ParseError (rp + (ds.length + 2 : Nat)) Err.BadNumberTokenError),
          ⟨bytes, ((pos + (ds.length + 1 + (EncodeRune c).length) : Nat) : Int),
            rp + (ds.length + 2 : Nat)⟩) := by
  intro ds
  induction ds with
  | nil =>
    intro fuel pos rp prev _ hprev hdrop hfuel
    obtain ⟨f, rfl⟩ : ∃ f, fuel = f + 2 := ⟨fuel - 2, by simp at hfuel; omega⟩
    have hprev : IsDigit prev = true := by
      rcases hprev with h | h
      · exact h
      · exact absurd rfl h
    simp only [List.nil_append] at hdrop
    rw [moveToNumberTokenEnd.loop]
    simp only [utf8Scanner_ReadRune, ReadRune_ascii bytes pos rp 0x2E _ hdrop (by decide)]
    have e0 : IsDigit ((0x2E : Nat) : Int) = false := by decide
    have e1 : ((((0x2E : Nat) : Int)) == 0x2B) = false := by decide
    have e2 : ((((0x2E : Nat) : Int)) == 0x2D) = false := by decide
    have e3 : ((((0x2E : Nat) : Int)) == 0x2E) = true := by decide
    simp only [e0, e1, e2, e3, hprev]
    have := moveToNumberTokenEnd_loop_bad bytes c suf hv hne hcd hc1 hc2 hc3 f (pos + 1)
      (rp + 1) ((0x2E : Nat) : Int) (0 + 1) e0 (drop_cons_succ hdrop)
    simp at this ⊢
    rw [this]
    simp
    refine ⟨by omega, by omega, by omega⟩
  | cons d ds ih =>
    intro fuel pos rp prev hds _ hdrop hfuel
    obtain ⟨f, rfl⟩ : ∃ f, fuel = f + 1 := ⟨fuel - 1, by simp at hfuel; omega⟩
    obtain ⟨hdlt, hdig, hdsp⟩ := digit_facts d (hds d (List.mem_cons_self _ _))
    simp only [List.cons_append] at hdrop
    rw [moveToNumberTokenEnd.loop]
    simp only [utf8Scanner_ReadRune, ReadRune_ascii bytes pos rp d _ hdrop hdlt, hdig]
    have := ih f (pos + 1) (rp + 1) (d : Int)
      (fun x hx => hds x (List.mem_cons_of_mem _ hx)) (Or.inl hdig) (drop_cons_succ hdrop)
      (by simp at hfuel ⊢; omega)
    simp at this ⊢
    rw [this]
    simp
    refine ⟨by omega, by omega, by omega⟩

/-- The first character of a number literal sends `nextToken` to `moveToNumberTokenEnd`. -/
theorem nextToken_number_start (first : Nat) (tail : List Nat) (f : Nat)
    (hfirst : first = 0x2B ∨ first = 0x2D ∨ (48 ≤ first ∧ first ≤ 57)) :
    nextToken utf8Scanner (f + 2) ⟨first :: tail, 0, 0⟩ =
      nextToken.finish utf8Scanner 0 NUMBER_T NUMBER
        (moveToNumberTokenEnd.loop utf8Scanner (f + 2) (first : Int) 0 ⟨first :: tail, 1, 1⟩) := by
  have hflt : first < 0x80 := by omega
  have hfsp : IsSpace (first : Int) = false := by
    unfold IsSpace; simp; omega
  have hnt := nextToken_first f (first :: tail) 0 0 first tail rfl hflt hfsp
  simp only [Nat.cast_zero, Nat.zero_add, zero_add] at hnt
  rw [hnt]
  have hmem : (first : Int) ∈ ([0x2B, 0x2D, 0x30, 0x31, 0x32, 0x33, 0x34, 0x35, 0x36, 0x37, 0x38, 0x39] : List Int) := by
    simp; omega
  have n1 : ¬ ((first : Int) = 0x7B) := by omega
  have n2 : ¬ ((first : Int) = 0x7D) := by omega
  have n3 : ¬ ((first : Int) = 0x5B) := by omega
  have n4 : ¬ ((first : Int) = 0x5D) := by omega
  have n5 : ¬ ((first : Int) = 0x3A) := by omega
  have n6 : ¬ ((first : Int) = 0x2C) := by omega
  have n7 : ¬ ((first : Int) = 0x6E) := by omega
  have n8 : ¬ ((first : Int) = 0x74 ∨ (first : Int) = 0x66) := by omega
  have n9 : ¬ ((first : Int) = 0x22) := by omega
  unfold nextToken.dispatch
  simp only [n1, n2, n3, n4, n5, n6, n7, n8, n9, if_false, hmem, if_true]
  unfold moveToNumberTokenEnd
  rfl

/-- The token read from a sign that is followed by the character `c` and not by a
digit. -/
theorem nextToken_lone_sign (first : Nat) (c : Int) (rest : List Nat) (fuel : Nat)
    (hfirst : first = 0x2B ∨ first = 0x2D)
    (hv : ValidRune c) (hne : c ≠ RuneError) (hcd : IsDigit c = false) (hc1 : c ≠ 0x2B)
    (hc2 : c ≠ 0x2D) (hc3 : c ≠ 0x2E) (hfuel : 2 ≤ fuel) :
    nextToken utf8Scanner fuel ⟨first :: (EncodeRune c ++ rest), 0, 0⟩ =
      Res.ok (Token.mk 0 ((1 + (EncodeRune c).length : Nat) : Int) NUMBER_T NUMBER
          (some (GoError.ParseError 2 Err.BadNumberTokenError)),
        ⟨first :: (EncodeRune c ++ rest), ((1 + (EncodeRune c).length : Nat) : Int), 2⟩) := by
  obtain ⟨f, rfl⟩ : ∃ f, fuel = f + 2 := ⟨fuel - 2, by omega⟩
  rw [nextToken_number_start first _ f (by omega)]
  have hprev : IsDigit (first : Int) = false := by
    have hflt : first < 0x80 := by omega
    cases hq : IsDigit (first : Int) with
    | false => rfl
    | true =>
      have := (IsDigit_iff_ascii first hflt).1 hq
      omega
  have := moveToNumberTokenEnd_loop_bad (first :: (EncodeRune c ++ rest)) c rest hv hne hcd hc1
    hc2 hc3 (f + 1) 1 1 (first : Int) 0 hprev rfl
  simp only [Nat.cast_one] at this
  rw [this]
  simp [nextToken.finish, utf8Scanner_BytePos]

/-- The token read from digits and a `.` that is followed by the character `c` and not
by a digit. -/
theorem nextToken_trailing_dot (first : Nat) (ints : List Nat) (c : Int) (rest : List Nat)
    (fuel : Nat) (hfirst : first = 0x2B ∨ first = 0x2D ∨ (48 ≤ first ∧ first ≤ 57))
    (hints : ∀ d ∈ ints, 48 ≤ d ∧ d ≤ 57)
    (hdigit : (48 ≤ first ∧ first ≤ 57) ∨ ints ≠ [])
    (hv : ValidRune c) (hne : c ≠ RuneError) (hcd : IsDigit c = false) (hc1 : c ≠ 0x2B)
    (hc2 : c ≠ 0x2D) (hc3 : c ≠ 0x2E) (hfuel : ints.length + 3 ≤ fuel) :
    nextToken utf8Scanner fuel ⟨first :: (ints ++ 0x2E :: (EncodeRune c ++ rest)), 0, 0⟩ =
      Res.ok (Token.mk 0 ((ints.length + 2 + (EncodeRune c).length : Nat) : Int) NUMBER_T NUMBER
          (some (GoError.ParseError ((ints.length + 3 : Nat) : Int) Err.BadNumberTokenError)),
        ⟨first :: (ints ++ 0x2E :: (EncodeRune c ++ rest)),
          ((ints.length + 2 + (EncodeRune c).length : Nat) : Int),
          ((ints.length + 3 : Nat) : Int)⟩) := by
  obtain ⟨f, rfl⟩ : ∃ f, fuel = f + 2 := ⟨fuel - 2, by omega⟩
  rw [nextToken_number_start first _ f hfirst]
  have hflt : first < 0x80 := by omega
  have hprev : IsDigit (first : Int) = true ∨ ints ≠ [] := by
    rcases hdigit with h | h
    · exact Or.inl ((IsDigit_iff_ascii first hflt).2 h)
    · exact Or.inr h
  have := moveToNumberTokenEnd_loop_dot_bad (first :: (ints ++ 0x2E :: (EncodeRune c ++ rest))) c
    rest hv hne hcd hc1 hc2 hc3 ints (f + 2) 1 1 (first : Int) hints hprev rfl (by omega)
  simp only [Nat.cast_one] at this
  rw [this]
  simp [nextToken.finish, utf8Scanner_BytePos]
  constructor <;> omega

/-! ### The root -/

theorem lastTopLevel_go_append (l : List (Option Nat)) (x : Option Nat) :
    ∀ (i : Nat) (acc : Option Nat),
      lastTopLevel.go (l ++ [x]) i acc =
        if x = none then some (i + l.length) else lastTopLevel.go l i acc := by
  induction l with
  | nil =>
    intro i acc
    simp [lastTopLevel.go]
  | cons a l ih =>
    intro i acc
    rw [List.cons_append, lastTopLevel.go, lastTopLevel.go, ih, List.length_cons]
    have : i + 1 + l.length = i + (l.length + 1) := by omega
    rw [this]

theorem lastTopLevel_append (heap : List Json) (n : Json) :
    lastTopLevel (heap ++ [n]) =
      if n.parent = none then some heap.length else lastTopLevel heap := by
  unfold lastTopLevel
  rw [List.map_append, List.map_singleton, lastTopLevel_go_append]
  simp

theorem updateNode_parents (heap heap1 : List Json) (p : Nat) (f : Json → Json)
    (h : updateNode heap p f = some heap1) (hf : ∀ n, (f n).parent = n.parent) :
    heap1.map Json.parent = heap.map Json.parent := by
  apply List.ext_getElem?
  intro q
  rw [List.getElem?_map, List.getElem?_map, updateNode_get heap heap1 p f h q]
  cases heap[q]? with
  | none => rfl
  | some n =>
    simp only [Option.map_some']
    split
    · rw [hf]
    · rfl

theorem parseSwitch_attach_parents {σ : Type} (st : ParseState σ) (heap1 heap2 : List Json)
    (par : Option Nat) (p : Nat) (k : Bool)
    (h : parseSwitch.attach st heap1 par p = some (heap2, k)) :
    heap2.map Json.parent = heap1.map Json.parent := by
  unfold parseSwitch.attach at h
  split at h
  · cases par with
    | none => simp at h
    | some q =>
      simp at h
      obtain ⟨a, ha, rfl, -⟩ := h
      exact updateNode_parents _ _ _ _ ha (fun _ => rfl)
  · split at h
    · cases par with
      | none => simp at h
      | some q =>
        simp at h
        obtain ⟨a, ha, rfl, -⟩ := h
        exact updateNode_parents _ _ _ _ ha (fun _ => rfl)
    · simp at h
      rw [h.1]

theorem RootInv_reader {σ : Type} (st : ParseState σ) (r1 : σ) (inv : RootInv st) :
    RootInv { st with reader := r1 } :=
  ⟨inv.top, inv.inside⟩

theorem RootInv_init {σ : Type} (r : σ) : RootInv (parseInit r) := by
  refine ⟨fun _ => rfl, ?_⟩
  intro h
  simp [parseInit] at h

theorem parseSwitch_close_root {σ : Type} (tk : Token) (st st1 : ParseState σ)
    (inv : ParseInv st) (rinv : RootInv st) (h : parseSwitch.close tk st = Res.ok st1) :
    RootInv st1 := by
  unfold parseSwitch.close at h
  cases hs : st.parentStack[st.l]? with
  | none => simp [hs] at h
  | some top =>
    cases top with
    | none => simp [hs] at h
    | some p =>
      have hl : 1 ≤ st.l := by
        by_contra hc
        have h0 : st.l = 0 := by omega
        rw [h0, inv.bottom] at hs
        simp at hs
      simp only [hs] at h
      cases hu : updateNode st.heap p (fun n => { n with end_ := tk.end_ }) with
      | none => simp [hu] at h
      | some heap1 =>
        simp only [hu] at h
        simp at h
        subst h
        have hpar := updateNode_parents _ _ _ _ hu (fun _ => rfl)
        have hlast : lastTopLevel heap1 = lastTopLevel st.heap := by
          unfold lastTopLevel; rw [hpar]
        obtain ⟨p0, hp0, hl0⟩ := rinv.inside (by omega)
        refine ⟨?_, ?_⟩
        · intro h0
          simp only [] at h0 ⊢
          have h1 : st.l = 1 := by omega
          rw [h1, hp0] at hs
          simp at hs
          rw [hlast, hl0, hs]
        · intro h0
          simp only [] at h0 ⊢
          refine ⟨p0, ?_, by rw [hlast, hl0]⟩
          rw [List.getElem?_take, if_pos (by omega)]
          exact hp0

theorem parseSwitch_value_root {σ : Type} (tk : Token) (st st1 : ParseState σ)
    (inv : ParseInv st) (rinv : RootInv st) (h : parseSwitch.value tk st = Res.ok st1) :
    RootInv st1 := by
  unfold parseSwitch.value at h
  cases hs : st.parentStack[st.l]? with
  | none => simp [hs] at h
  | some par =>
    simp only [hs] at h
    cases ha : parseSwitch.attach st
        (st.heap ++ [Json.mk tk.start tk.end_ par [] [] tk.jtype]) par st.heap.length with
    | none => simp [ha] at h
    | some res =>
      obtain ⟨heap2, keyAva2⟩ := res
      have hpar := parseSwitch_attach_parents _ _ _ _ _ _ ha
      have hlast : lastTopLevel heap2 =
          if par = none then some st.heap.length else lastTopLevel st.heap := by
        have : lastTopLevel heap2 =
            lastTopLevel (st.heap ++ [Json.mk tk.start tk.end_ par [] [] tk.jtype]) := by
          unfold lastTopLevel; rw [hpar]
        rw [this, lastTopLevel_append]
      simp only [ha] at h
      have hlen := inv.len
      by_cases hl : st.l = 0
      · have hpn : par = none := by
          rw [hl, inv.bottom] at hs
          simp at hs
          exact hs.symm
        rw [if_pos hpn] at hlast
        by_cases hb : tk.token = BEGIN_ARR ∨ tk.token = BEGIN_OBJ
        · simp only [hb, if_true] at h
          simp at h
          subst h
          refine ⟨?_, ?_⟩
          · intro h0
            simp only [] at h0
            omega
          · intro _
            simp only []
            refine ⟨st.heap.length, ?_, hlast⟩
            rw [List.getElem?_append_right (by omega)]
            have : 1 - st.parentStack.length = 0 := by omega
            rw [this]
            simp
        · simp only [hb, if_false] at h
          simp at h
          subst h
          refine ⟨?_, ?_⟩
          · intro _
            simp only []
            rw [hlast]
          · intro h0
            simp only [] at h0
            omega
      · obtain ⟨q, hq⟩ := inv.opened st.l (by omega) (le_refl _)
        have hps : par = some q := by
          rw [hq] at hs
          simp at hs
          exact hs.symm
        have hpn : ¬ (par = none) := by rw [hps]; simp
        rw [if_neg hpn] at hlast
        obtain ⟨p0, hp0, hl0⟩ := rinv.inside (by omega)
        by_cases hb : tk.token = BEGIN_ARR ∨ tk.token = BEGIN_OBJ
        · simp only [hb, if_true] at h
          simp at h
          subst h
          refine ⟨?_, ?_⟩
          · intro h0
            simp only [] at h0
            omega
          · intro _
            simp only []
            refine ⟨p0, ?_, by rw [hlast, hl0]⟩
            rw [List.getElem?_append_left (by omega)]
            exact hp0
        · simp only [hb, if_false] at h
          simp at h
          subst h
          refine ⟨?_, ?_⟩
          · intro h0
            simp only [] at h0
            omega
          · intro _
            simp only []
            exact ⟨p0, hp0, by rw [hlast, hl0]⟩

theorem parseSwitch_root {σ : Type} (content : σ → List Nat) (tk : Token) (st st1 : ParseState σ)
    (inv : ParseInv st) (rinv : RootInv st) (h : parseSwitch content tk st = Res.ok st1) :
    RootInv st1 := by
  unfold parseSwitch at h
  cases hk : parseSwitch.isKey tk st with
  | ok b =>
    cases b with
    | true =>
      simp only [hk] at h
      cases hg : goSlice (content st.reader) (tk.start + 1) (tk.end_ - 1) with
      | none => simp [hg] at h
      | some k =>
        simp [hg] at h
        subst h
        exact ⟨rinv.top, rinv.inside⟩
    | false =>
      simp only [hk] at h
      by_cases h1 : tk.token = EOF
      · simp [h1] at h
        subst h
        exact rinv
      · simp only [h1, if_false] at h
        by_cases h2 : tk.token = COLON ∨ tk.token = SEP
        · simp [h2] at h
          subst h
          exact rinv
        · simp only [h2, if_false] at h
          by_cases h3 : tk.token = END_ARR ∨ tk.token = END_OBJ
          · simp only [h3, if_true] at h
            exact parseSwitch_close_root tk st st1 inv rinv h
          · simp only [h3, if_false] at h
            exact parseSwitch_value_root tk st st1 inv rinv h
  | error e => simp [hk] at h
  | fault => simp [hk] at h
  | outOfFuel => simp [hk] at h

theorem parseStep_root {σ : Type} (S : PositionalRuneScanner σ) (content : σ → List Nat)
    (fuel : Nat) (st st1 : ParseState σ) (inv : ParseInv st) (rinv : RootInv st)
    (h : parseStep S content fuel st = Res.ok st1) :
    RootInv st1 ∧ (st1.prevToken = EOF → st1.l = 0) := by
  obtain ⟨tk, r1, st2, -, -, hv, hs, rfl⟩ := parseStep_ok S content fuel st st1 h
  obtain ⟨-, -, -, -, i5, -⟩ := parseSwitch_inv content tk _ st2 (ParseInv_reader st r1 inv) hs
  have r2 := parseSwitch_root content tk _ st2 (ParseInv_reader st r1 inv)
    (RootInv_reader st r1 rinv) hs
  refine ⟨⟨r2.top, r2.inside⟩, ?_⟩
  intro he
  simp only [] at he ⊢
  rw [he] at hv i5
  have h1 := validateTokenOrder_eof _ _ hv
  have h2 := inv.len
  simp [EOF, END_ARR, END_OBJ, BEGIN_ARR, BEGIN_OBJ] at i5
  omega

/-- The root `parse` returns is the last node allocated at the top level. -/
theorem parse_loop_last {σ : Type} (S : PositionalRuneScanner σ) (content : σ → List Nat)
    (fuel : Nat) :
    ∀ (n : Nat) (st : ParseState σ) (t : Tree), ParseInv st → RootInv st →
      (st.prevToken = EOF → st.root = st.j ∧ st.l = 0) →
      parse.loop S content fuel n st = Res.ok t →
      t.root = lastTopLevel t.heap := by
  intro n
  induction n with
  | zero => intro st t _ _ _ h; simp [parse.loop] at h
  | succ n ih =>
    intro st t inv rinv hroot h
    rw [parse.loop] at h
    by_cases hp : st.prevToken = EOF
    · simp [hp] at h
      subst h
      simp only []
      obtain ⟨h1, h2⟩ := hroot hp
      rw [h1]
      exact rinv.top h2
    · simp only [ne_eq, hp, not_false_eq_true, if_true] at h
      cases hs : parseStep S content fuel st with
      | ok st1 =>
        simp only [hs] at h
        obtain ⟨i1, i2⟩ := parseStep_inv S content fuel st st1 inv hs
        obtain ⟨r1, r2⟩ := parseStep_root S content fuel st st1 inv rinv hs
        exact ih st1 t i1 r1 (fun he => ⟨i2 he, r2 he⟩) h
      | error e => simp [hs] at h
      | fault => simp [hs] at h
      | outOfFuel => simp [hs] at h

/-- The first node of a heap of `parse` has no parent, so the last node at the top level
is nil only for the empty heap. -/
theorem lastTopLevel_go_some (l : List (Option Nat)) :
    ∀ (i : Nat) (acc : Option Nat), acc ≠ none → lastTopLevel.go l i acc ≠ none := by
  induction l with
  | nil => intro i acc h; simpa [lastTopLevel.go] using h
  | cons a l ih =>
    intro i acc h
    rw [lastTopLevel.go]
    apply ih
    split
    · simp
    · exact h

/-- What `lastTopLevel` finds: a node without a parent after which every node has one. -/
theorem lastTopLevel_spec (heap : List Json) :
    ∀ p, lastTopLevel heap = some p →
      (∃ n, heap[p]? = some n ∧ n.parent = none) ∧
      ∀ (q : Nat) (m : Json), p < q → heap[q]? = some m → m.parent ≠ none := by
  induction heap using List.reverseRecOn with
  | nil => intro p h; simp [lastTopLevel, lastTopLevel.go] at h
  | append_singleton l a ih =>
    intro p h
    rw [lastTopLevel_append] at h
    by_cases ha : a.parent = none
    · rw [if_pos ha] at h
      simp at h
      subst h
      refine ⟨⟨a, by simp, ha⟩, ?_⟩
      intro q m hq hm
      rw [List.getElem?_eq_none (by simp; omega)] at hm
      cases hm
    · rw [if_neg ha] at h
      obtain ⟨⟨n, hn, hnp⟩, hrest⟩ := ih p h
      have hp : p < l.length := by
        by_contra hc
        rw [List.getElem?_eq_none (by omega)] at hn
        cases hn
      refine ⟨⟨n, by rw [List.getElem?_append_left hp]; exact hn, hnp⟩, ?_⟩
      intro q m hq hm
      by_cases hql : q < l.length
      · rw [List.getElem?_append_left hql] at hm
        exact hrest q m hq hm
      · by_cases hqe : q = l.length
        · subst hqe
          simp at hm
          subst hm
          exact ha
        · rw [List.getElem?_eq_none (by simp; omega)] at hm
          cases hm

/-! ### Inputs made of white space, `:` and `,` -/

/-- The token read from an input made of white space, `:` and `,`: the end of the input,
or a `:` or `,` with the scanner further than it was. -/
theorem nextToken_skip_blank (b : List Nat)
    (hb : ∀ x ∈ b, x ∈ [0x09, 0x0A, 0x0D, 0x20, 0x3A, 0x2C]) (fuel : Nat) :
    ∀ (k n : Nat) (start c : Int) (pos : Nat) (rp : Int), IsSpace c = true →
      b.length ≤ pos + k → k + 1 ≤ n →
      ∃ (tk : Token) (pos1 : Nat) (rp1 : Int),
        nextToken.skip utf8Scanner fuel n start c ⟨b, (pos : Int), rp⟩ =
          Res.ok (tk, ⟨b, (pos1 : Int), rp1⟩) ∧ tk.err = none ∧
        (tk.token = EOF ∨
          ((tk.token = COLON ∨ tk.token = SEP) ∧ pos < pos1 ∧ pos1 ≤ b.length)) := by
  intro k
  induction k with
  | zero =>
    intro n start c pos rp hc hk hn
    obtain ⟨m, rfl⟩ : ∃ m, n = m + 1 := ⟨n - 1, by omega⟩
    rw [nextToken.skip]
    simp only [hc, if_true, utf8Scanner_ReadRune, ReadRune_eof b pos rp (by omega)]
    exact ⟨_, pos, rp, rfl, rfl, Or.inl rfl⟩
  | succ k ih =>
    intro n start c pos rp hc hk hn
    obtain ⟨m, rfl⟩ : ∃ m, n = m + 2 := ⟨n - 2, by omega⟩
    by_cases hend : b.length ≤ pos
    · rw [nextToken.skip]
      simp only [hc, if_true, utf8Scanner_ReadRune, ReadRune_eof b pos rp hend]
      exact ⟨_, pos, rp, rfl, rfl, Or.inl rfl⟩
    · have hlt : pos < b.length := by omega
      have hdrop : b.drop pos = b[pos] :: b.drop (pos + 1) := List.drop_eq_getElem_cons hlt
      have hx := hb b[pos] (List.getElem_mem hlt)
      have hx80 : b[pos] < 0x80 := by
        simp only [List.mem_cons, List.mem_singleton, List.not_mem_nil, or_false] at hx
        omega
      rw [nextToken.skip]
      simp only [hc, if_true, utf8Scanner_ReadRune, ReadRune_ascii b pos rp _ _ hdrop hx80,
        utf8Scanner_BytePos]
      by_cases hsp : IsSpace (b[pos] : Int) = true
      · obtain ⟨tk, pos1, rp1, h1, h2, h3⟩ := ih (m + 1) (pos : Int) (b[pos] : Int) (pos + 1)
          (rp + 1) hsp (by omega) (by omega)
        refine ⟨tk, pos1, rp1, h1, h2, ?_⟩
        rcases h3 with h3 | ⟨h3, h4⟩
        · exact Or.inl h3
        · exact Or.inr ⟨h3, by omega, h4.2⟩
      · simp only [List.mem_cons, List.mem_singleton, List.not_mem_nil, or_false] at hx
        have hx2 : b[pos] = 0x3A ∨ b[pos] = 0x2C := by
          rcases hx with h | h | h | h | h | h
          · exact absurd (by rw [h]; decide) hsp
          · exact absurd (by rw [h]; decide) hsp
          · exact absurd (by rw [h]; decide) hsp
          · exact absurd (by rw [h]; decide) hsp
          · exact Or.inl h
          · exact Or.inr h
        rcases hx2 with h | h
        · have hd : nextToken.skip utf8Scanner fuel (m + 1) (pos : Int) (b[pos] : Int)
              ⟨b, ((pos + 1 : Nat) : Int), rp + 1⟩ =
              Res.ok (Token.mk (pos : Int) ((pos + 1 : Nat) : Int) COLON (-1) none,
                ⟨b, ((pos + 1 : Nat) : Int), rp + 1⟩) := by
            rw [nextToken.skip, h]
            rfl
          rw [hd]
          exact ⟨_, pos + 1, rp + 1, rfl, rfl, Or.inr ⟨Or.inl rfl, by omega, by omega⟩⟩
        · have hd : nextToken.skip utf8Scanner fuel (m + 1) (pos : Int) (b[pos] : Int)
              ⟨b, ((pos + 1 : Nat) : Int), rp + 1⟩ =
              Res.ok (Token.mk (pos : Int) ((pos + 1 : Nat) : Int) SEP (-1) none,
                ⟨b, ((pos + 1 : Nat) : Int), rp + 1⟩) := by
            rw [nextToken.skip, h]
            rfl
          rw [hd]
          exact ⟨_, pos + 1, rp + 1, rfl, rfl, Or.inr ⟨Or.inr rfl, by omega, by omega⟩⟩

/-- One run of the loop body of `parse` on an input made of white space, `:` and `,`,
while no node has been allocated: the state stays as it was at the start. -/
theorem parseStep_blank (b : List Nat)
    (hb : ∀ x ∈ b, x ∈ [0x09, 0x0A, 0x0D, 0x20, 0x3A, 0x2C]) (fuel : Nat) (prev : Int)
    (key : List Nat) (pos : Nat) (rp : Int) (hfuel : b.length + 1 ≤ fuel) :
    ∃ (t : Int) (pos1 : Nat) (rp1 : Int),
      parseStep utf8Scanner (fun _ => b) fuel
          (ParseState.mk [] [none] 0 prev key false none none ⟨b, (pos : Int), rp⟩) =
        Res.ok (ParseState.mk [] [none] 0 t key false none none ⟨b, (pos1 : Int), rp1⟩) ∧
      (t = EOF ∨ (t ≠ EOF ∧ pos < pos1 ∧ pos1 ≤ b.length)) := by
  obtain ⟨tk, pos1, rp1, h1, h2, h3⟩ := nextToken_skip_blank b hb fuel b.length fuel 0 0x20 pos rp
    IsSpace_space (by omega) hfuel
  have h1n : nextToken utf8Scanner fuel
      (ParseState.mk [] [none] 0 prev key false none none
        (UTF8RuneScanner.mk b (pos : Int) rp)).reader =
      Res.ok (tk, ⟨b, (pos1 : Int), rp1⟩) := h1
  have hv : validateTokenOrder tk.token prev [none] = none := by
    unfold validateTokenOrder
    simp
  have hs : parseSwitch (fun _ => b) tk
      (ParseState.mk [] [none] 0 prev key false none none (UTF8RuneScanner.mk b (pos1 : Int) rp1)) =
      Res.ok (ParseState.mk [] [none] 0 prev key false none none
        (UTF8RuneScanner.mk b (pos1 : Int) rp1)) := by
    rcases h3 with h3 | ⟨h3 | h3, -⟩
    · simp [parseSwitch, parseSwitch.isKey, h3, EOF, STRING_T]
    · simp [parseSwitch, parseSwitch.isKey, h3, EOF, STRING_T, COLON, SEP]
    · simp [parseSwitch, parseSwitch.isKey, h3, EOF, STRING_T, COLON, SEP]
  have hstep := parseStep_token utf8Scanner (fun _ => b) fuel
    (ParseState.mk [] [none] 0 prev key false none none ⟨b, (pos : Int), rp⟩)
    (ParseState.mk [] [none] 0 prev key false none none ⟨b, (pos1 : Int), rp1⟩) tk
    ⟨b, (pos1 : Int), rp1⟩ h1n h2 hv hs
  refine ⟨tk.token, pos1, rp1, ?_, ?_⟩
  · rw [hstep]
    rfl
  · rcases h3 with h3 | ⟨h3 | h3, h4⟩
    · exact Or.inl h3
    · exact Or.inr ⟨by rw [h3]; decide, h4⟩
    · exact Or.inr ⟨by rw [h3]; decide, h4⟩

/-- The token loop of `parse` on an input made of white space, `:` and `,`. -/
theorem parse_loop_blank (b : List Nat)
    (hb : ∀ x ∈ b, x ∈ [0x09, 0x0A, 0x0D, 0x20, 0x3A, 0x2C]) (fuel : Nat)
    (hfuel : b.length + 1 ≤ fuel) :
    ∀ (k n : Nat) (prev : Int) (key : List Nat) (pos : Nat) (rp : Int), prev ≠ EOF →
      b.length ≤ pos + k → k + 2 ≤ n →
      parse.loop utf8Scanner (fun _ => b) fuel n
          (ParseState.mk [] [none] 0 prev key false none none ⟨b, (pos : Int), rp⟩) =
        Res.ok (Tree.mk none [] b) := by
  intro k
  induction k with
  | zero =>
    intro n prev key pos rp hp hk hn
    obtain ⟨m, rfl⟩ : ∃ m, n = m + 2 := ⟨n - 2, by omega⟩
    obtain ⟨t, pos1, rp1, h1, h2⟩ := parseStep_blank b hb fuel prev key pos rp hfuel
    rw [parse_loop_step _ _ _ _ _ _ hp h1]
    rcases h2 with h2 | ⟨h2, h3, h4⟩
    · rw [parse_loop_done _ _ _ _ _ h2]
    · omega
  | succ k ih =>
    intro n prev key pos rp hp hk hn
    obtain ⟨m, rfl⟩ : ∃ m, n = m + 2 := ⟨n - 2, by omega⟩
    obtain ⟨t, pos1, rp1, h1, h2⟩ := parseStep_blank b hb fuel prev key pos rp hfuel
    rw [parse_loop_step _ _ _ _ _ _ hp h1]
    rcases h2 with h2 | ⟨h2, h3, -⟩
    · rw [parse_loop_done _ _ _ _ _ h2]
    · exact ih (m + 1) t key pos1 rp1 h2 (by omega) (by omega)

/-! ### Key paths -/

theorem Get_loop_ok (heap : List Json) (full : List (List Nat)) :
    ∀ (rest : List (List Nat)) (i j q : Nat), reach heap j rest = some q →
      Get.loop heap full rest i (some j) = Res.ok (some q) := by
  intro rest
  induction rest with
  | nil => intro i j q h; simp [reach] at h; simp [Get.loop, h]
  | cons k ks ih =>
    intro i j q h
    simp only [reach] at h
    simp only [Get.loop]
    cases hn : heap[j]? with
    | none => simp [hn] at h
    | some n =>
      simp only [hn] at h
      cases hv : mapGet n.objectItems k with
      | none => simp [hv] at h
      | some v =>
        simp only [hv] at h
        simp only [hv]
        exact ih (i + 1) v q h

theorem Get_loop_missing (heap : List Json) (k : List Nat) (post : List (List Nat)) :
    ∀ (mid donePart : List (List Nat)) (j q : Nat) (n : Json),
      reach heap j mid = some q → heap[q]? = some n → mapGet n.objectItems k = none →
      Get.loop heap (donePart ++ mid ++ k :: post) (mid ++ k :: post) donePart.length (some j)
        = Res.error (GoError.keyPath (Join (donePart ++ mid ++ [k]) [0x2E])) := by
  intro mid
  induction mid with
  | nil =>
    intro donePart j q n h hq hk
    simp [reach] at h
    subst h
    have ht : List.take (donePart.length + 1) donePart = donePart :=
      List.take_of_length_le (Nat.le_succ _)
    simp [Get.loop, hq, hk, List.take_append_eq_append_take, ht]
  | cons m ms ih =>
    intro donePart j q n h hq hk
    simp only [reach] at h
    cases hn : heap[j]? with
    | none => simp [hn] at h
    | some nj =>
      simp only [hn] at h
      cases hv : mapGet nj.objectItems m with
      | none => simp [hv] at h
      | some v =>
        simp only [hv] at h
        have := ih (donePart ++ [m]) v q n h hq hk
        simp only [List.cons_append, Get.loop, hn, hv]
        simpa [List.append_assoc] using this


/-! ## The claims -/

set_option maxRecDepth 1000000

/-- The tree `ParseUTF8` builds for the nested document of the tests. -/
theorem ParseUTF8_nestedDoc :
    ParseUTF8 60 nestedDoc = Res.ok (Tree.mk (some 0) nestedHeap nestedDoc) := by
  decide

/-- C3, at the failing inputs `]` and `}`: a closing token that has no open container
makes `ParseUTF8` dereference the nil pointer at the bottom of the parent stack, a
run-time fault instead of a tree or an error value (with any fuel from 2 on). -/
theorem ParseUTF8_close_without_open_faults :
    (∀ fuel, 2 ≤ fuel → ParseUTF8 fuel [0x5D] = Res.fault) ∧
    (∀ fuel, 2 ≤ fuel → ParseUTF8 fuel [0x7D] = Res.fault) := by
  have h1 : ParseUTF8 2 [0x5D] = Res.fault := by decide
  have h2 : ParseUTF8 2 [0x7D] = Res.fault := by decide
  refine ⟨fun fuel hf => ?_, fun fuel hf => ?_⟩
  · rw [ParseUTF8_mono 2 fuel hf _ (by rw [h1]; simp), h1]
  · rw [ParseUTF8_mono 2 fuel hf _ (by rw [h2]; simp), h2]

/-- C4 is false at the input `tru`: `ParseUTF8` fails there with `RuneReadingError`
wrapping `io.EOF`, an error that is not `BadBoolTokenError`. -/
theorem ParseUTF8_tru_not_bad_bool :
    ParseUTF8 5 [0x74, 0x72, 0x75] = Res.error (GoError.RuneReadingError 3 Err.EOF) ∧
    (GoError.RuneReadingError 3 Err.EOF).kind ≠ Err.BadBoolTokenError := by
  decide

/-- C4, amended. For every input made of white space, `t` or `f`, a part `pre` of the
characters that should follow (`rue` or `alse`) and then `rest`, where `x` is the
expected character that `rest` does not supply: if the input ends there, `ParseUTF8`
fails with `RuneReadingError` wrapping `io.EOF`; if the bytes there are not a valid
UTF-8 encoding, with `RuneReadingError` wrapping `RuneDecodingError`; and if another
character, validly encoded and not U+FFFD, is read there, with `ParseError` wrapping
`BadBoolTokenError`. The position reported is the rune position of that character. -/
theorem ParseUTF8_bool_literal_cut_short (ws : List Int) (hws : ∀ c ∈ ws, IsSpace c = true)
    (first : Nat) (pre : List Nat) (x : Int) (post : List Int)
    (hlit : (first = 0x74 ∧ pre.map Nat.cast ++ x :: post = [0x72, 0x75, 0x65]) ∨
      (first = 0x66 ∧ pre.map Nat.cast ++ x :: post = [0x61, 0x6C, 0x73, 0x65]))
    (rest : List Nat) (fuel : Nat) (hfuel : ws.length + 2 ≤ fuel) :
    (rest = [] → ParseUTF8 fuel (boolText ws first pre rest) =
      Res.error (GoError.RuneReadingError ((ws.length : Int) + 1 + pre.length) Err.EOF)) ∧
    (rest ≠ [] → DecodeRune rest = (RuneError, 1) →
      ParseUTF8 fuel (boolText ws first pre rest) =
        Res.error (GoError.RuneReadingError ((ws.length : Int) + 1 + pre.length)
          Err.RuneDecodingError)) ∧
    (rest ≠ [] → (DecodeRune rest).1 ≠ RuneError → (DecodeRune rest).1 ≠ x →
      ParseUTF8 fuel (boolText ws first pre rest) =
        Res.error (GoError.ParseError ((ws.length : Int) + 1 + pre.length)
          Err.BadBoolTokenError)) := by
  obtain ⟨htok, hdrop⟩ := nextToken_boolText ws hws first pre x post hlit rest fuel hfuel
  have hlen : (boolText ws first pre rest).length =
      (ws.map EncodeRune).flatten.length + 1 + pre.length + rest.length := by
    simp [boolText]; omega
  refine ⟨fun h0 => ?_, fun h0 hd => ?_, fun h0 hd hx => ?_⟩
  · rw [expectRunes_eof _ _ _ _ _ _ (by rw [hlen, h0]; simp)] at htok
    exact ParseUTF8_first_token_error fuel _ _ _ _ htok rfl (by omega)
  · have hpos : (ws.map EncodeRune).flatten.length + 1 + pre.length <
        (boolText ws first pre rest).length := by
      have := List.length_pos.2 h0
      omega
    rw [expectRunes_undecodable _ _ _ _ _ _ hpos (by rw [hdrop, hd])] at htok
    exact ParseUTF8_first_token_error fuel _ _ _ _ htok rfl (by omega)
  · have hpos : (ws.map EncodeRune).flatten.length + 1 + pre.length <
        (boolText ws first pre rest).length := by
      have := List.length_pos.2 h0
      omega
    obtain ⟨r1, hex⟩ := expectRunes_other (boolText ws first pre rest) Err.BadBoolTokenError x
      post _ ((ws.length : Int) + 1 + pre.length) hpos (by rw [hdrop]; exact hd)
      (by rw [hdrop]; exact hx)
    rw [hex] at htok
    exact ParseUTF8_first_token_error fuel _ _ _ _ htok rfl (by omega)

/-- Witness for C4 as amended: ` tru` (the input ends), ` tr` followed by the byte `FF`
(not a valid encoding) and ` trx` (another character). -/
theorem ParseUTF8_bool_literal_cut_short_witness :
    boolText [0x20] 0x74 [0x72, 0x75] [] = [0x20, 0x74, 0x72, 0x75] ∧
    ParseUTF8 3 [0x20, 0x74, 0x72, 0x75] = Res.error (GoError.RuneReadingError 4 Err.EOF) ∧
    boolText [0x20] 0x74 [0x72] [0xFF] = [0x20, 0x74, 0x72, 0xFF] ∧
    ParseUTF8 3 [0x20, 0x74, 0x72, 0xFF] =
      Res.error (GoError.RuneReadingError 3 Err.RuneDecodingError) ∧
    boolText [0x20] 0x74 [0x72] [0x78] = [0x20, 0x74, 0x72, 0x78] ∧
    ParseUTF8 3 [0x20, 0x74, 0x72, 0x78] =
      Res.error (GoError.ParseError 3 Err.BadBoolTokenError) :=
  ⟨by decide,
   (ParseUTF8_bool_literal_cut_short [0x20] (by decide) 0x74 [0x72, 0x75] 0x65 []
      (Or.inl ⟨rfl, by decide⟩) [] 3 (by decide)).1 rfl,
   by decide,
   (ParseUTF8_bool_literal_cut_short [0x20] (by decide) 0x74 [0x72] 0x75 [0x65]
      (Or.inl ⟨rfl, by decide⟩) [0xFF] 3 (by decide)).2.1 (by decide) (by decide),
   by decide,
   (ParseUTF8_bool_literal_cut_short [0x20] (by decide) 0x74 [0x72] 0x75 [0x65]
      (Or.inl ⟨rfl, by decide⟩) [0x78] 3 (by decide)).2.2 (by decide) (by decide) (by decide)⟩

/-- C5. For every buffer whose tokens are all read up to the end of the input without a
lexical error, and in which the count of containers opened and not closed is positive
when the end of the input is read, `ParseUTF8` returns `UnclosedJsonError` and no
tree. -/
theorem ParseUTF8_unclosed (fuel : Nat) (b : List Nat) (d : Nat)
    (h : openAtEnd fuel fuel (UTF8RuneScanner.mk b 0 0) 0 = Res.ok d) (hd : 0 < d) :
    ParseUTF8 fuel b = Res.error (GoError.base Err.UnclosedJsonError) :=
  parse_loop_unclosed b fuel fuel (parseInit (UTF8RuneScanner.mk b 0 0)) d (ParseInv_init _) rfl
    (show ((-1 : Int)) ≠ EOF by decide) h hd

/-- Witness for C5 at the six bytes of the input `{"a":1`. -/
theorem ParseUTF8_unclosed_witness :
    openAtEnd 8 8 (UTF8RuneScanner.mk [0x7B, 0x22, 0x61, 0x22, 0x3A, 0x31] 0 0) 0 = Res.ok 1 ∧
    ParseUTF8 8 [0x7B, 0x22, 0x61, 0x22, 0x3A, 0x31] =
      Res.error (GoError.base Err.UnclosedJsonError) :=
  ⟨by decide, ParseUTF8_unclosed 8 [0x7B, 0x22, 0x61, 0x22, 0x3A, 0x31] 1 (by decide) (by decide)⟩

/-- C6 (a nil error comes with a non-nil root). The failing input is the empty input:
`ParseUTF8` returns a nil error together with a nil root; so it does for the five bytes
` : , `, and for every input made only of white space (tab, line feed, carriage return,
space), `:` and `,`. In general, whenever `ParseUTF8` returns a nil error, the root is
nil exactly when no node was allocated, and otherwise it is the node allocated last
among the nodes without a parent, that is the value read last outside every container;
for `[1,2,3,4]` that is the array. -/
theorem ParseUTF8_nil_root_without_error :
    (ParseUTF8 2 [] = Res.ok (Tree.mk none [] []) ∧
      ParseUTF8 6 [0x20, 0x3A, 0x20, 0x2C, 0x20] =
        Res.ok (Tree.mk none [] [0x20, 0x3A, 0x20, 0x2C, 0x20])) ∧
    (∀ b : List Nat, (∀ x ∈ b, x ∈ [0x09, 0x0A, 0x0D, 0x20, 0x3A, 0x2C]) →
      ∀ fuel : Nat, b.length + 2 ≤ fuel → ParseUTF8 fuel b = Res.ok (Tree.mk none [] b)) ∧
    (ParseUTF8 11 textArray1234 = Res.ok (Tree.mk (some 0)
        [Json.mk 0 9 none [] [1, 2, 3, 4] ARRAY, Json.mk 1 2 (some 0) [] [] NUMBER,
         Json.mk 3 4 (some 0) [] [] NUMBER, Json.mk 5 6 (some 0) [] [] NUMBER,
         Json.mk 7 8 (some 0) [] [] NUMBER] textArray1234) ∧
      lastTopLevel [Json.mk 0 9 none [] [1, 2, 3, 4] ARRAY, Json.mk 1 2 (some 0) [] [] NUMBER,
         Json.mk 3 4 (some 0) [] [] NUMBER, Json.mk 5 6 (some 0) [] [] NUMBER,
         Json.mk 7 8 (some 0) [] [] NUMBER] = some 0) ∧
    (∀ (fuel : Nat) (b : List Nat) (t : Tree), ParseUTF8 fuel b = Res.ok t →
      (t.root = none ↔ t.heap = []) ∧ t.root = lastTopLevel t.heap ∧
      ∀ p, t.root = some p →
        (∃ n, t.heap[p]? = some n ∧ n.parent = none) ∧
        ∀ (q : Nat) (m : Json), p < q → t.heap[q]? = some m → m.parent ≠ none) := by
  refine ⟨⟨by decide, by decide⟩, ?_, ⟨by decide, by decide⟩, ?_⟩
  · intro b hb fuel hfuel
    unfold ParseUTF8 parse
    exact parse_loop_blank b hb fuel (by omega) b.length fuel (-1) [] 0 0
      (show ((-1 : Int)) ≠ EOF by decide) (by omega) (by omega)
  · intro fuel b t h
    unfold ParseUTF8 parse at h
    have hne : (parseInit (UTF8RuneScanner.mk b 0 0)).prevToken ≠ EOF :=
      show ((-1 : Int)) ≠ EOF by decide
    have h1 := parse_loop_root utf8Scanner (fun _ => b) fuel fuel _ t (ParseInv_init _)
      (fun he => absurd he hne) h
    have h2 := parse_loop_last utf8Scanner (fun _ => b) fuel fuel _ t (ParseInv_init _)
      (RootInv_init _) (fun he => absurd he hne) h
    refine ⟨h1.1, h2, ?_⟩
    intro p hp
    exact lastTopLevel_spec t.heap p (by rw [← h2, hp])

/-- C7, at the failing input `[1,2,3,4]`: `Bytes()` slices up to `end + 1`, one byte past
the lexeme. For the first element it returns `1,` and not `1`; for the root it asks
for ten bytes of the nine-byte buffer, which faults when the buffer has no spare
capacity and otherwise returns the input followed by a byte that is not part of it. -/
theorem Bytes_one_past_the_lexeme :
    ParseUTF8 11 textArray1234 = Res.ok (Tree.mk (some 0)
      [Json.mk 0 9 none [] [1, 2, 3, 4] ARRAY, Json.mk 1 2 (some 0) [] [] NUMBER,
       Json.mk 3 4 (some 0) [] [] NUMBER, Json.mk 5 6 (some 0) [] [] NUMBER,
       Json.mk 7 8 (some 0) [] [] NUMBER] textArray1234) ∧
    Json.Bytes textArray1234 [] (Json.mk 1 2 (some 0) [] [] NUMBER) = Res.ok [0x31, 0x2C] ∧
    Json.Bytes textArray1234 [] (Json.mk 0 9 none [] [1, 2, 3, 4] ARRAY) = Res.fault ∧
    Json.Bytes textArray1234 [0] (Json.mk 0 9 none [] [1, 2, 3, 4] ARRAY) =
      Res.ok (textArray1234 ++ [0]) := by
  decide

/-- C8. For every node `j` and key path: `Get` with the empty path returns `j`; if every
lookup along the path succeeds, `Get` returns the node reached; and if `k` is the first
segment that is not a key of the node reached so far, with `pre` the segments before
it, `Get` returns no node and a `KeyPathError` whose path is `pre` and `k` joined by
`.`, whatever comes after `k`. -/
theorem Get_walks_key_path (heap : List Json) (j : Nat) :
    Get heap (some j) [] = Res.ok (some j) ∧
    (∀ (ks : List (List Nat)) (q : Nat), reach heap j ks = some q →
      Get heap (some j) ks = Res.ok (some q)) ∧
    (∀ (pre : List (List Nat)) (k : List Nat) (post : List (List Nat)) (q : Nat) (n : Json),
      reach heap j pre = some q → heap[q]? = some n → mapGet n.objectItems k = none →
      Get heap (some j) (pre ++ k :: post) =
        Res.error (GoError.keyPath (Join (pre ++ [k]) [0x2E]))) := by
  refine ⟨rfl, fun ks q h => Get_loop_ok heap ks ks 0 j q h, fun pre k post q n h1 h2 h3 => ?_⟩
  have := Get_loop_missing heap k post pre [] j q n h1 h2 h3
  simpa [Get] using this

/-- Witness for C8 on the nested document of the tests: `key5`, `key5.1` reaches the
number `1`, and `key5`, `nope`, `x` fails with the path `key5.nope`. -/
theorem Get_walks_key_path_witness :
    Get nestedHeap (some 0) [[107, 101, 121, 53], [107, 101, 121, 53, 46, 49]] =
      Res.ok (some 10) ∧
    Get nestedHeap (some 0) ([[107, 101, 121, 53]] ++ [110, 111, 112, 101] :: [[120]]) =
      Res.error (GoError.keyPath
        (Join ([[107, 101, 121, 53]] ++ [[110, 111, 112, 101]]) [0x2E])) :=
  ⟨(Get_walks_key_path nestedHeap 0).2.1 _ 10 (by decide),
   (Get_walks_key_path nestedHeap 0).2.2 [[107, 101, 121, 53]] [110, 111, 112, 101] [[120]] 9
     (Json.mk 106 118 (some 0) [([107, 101, 121, 53, 46, 49], 10)] [] OBJECT)
     (by decide) (by decide) (by decide)⟩

/-- C9 is false on the nested document of the tests: the path `key4`, `0`, `key4.1`
makes `Get` fail with `KeyPathError` for `key4.0`. -/
theorem Get_array_index_fails :
    ParseUTF8 60 nestedDoc = Res.ok (Tree.mk (some 0) nestedHeap nestedDoc) ∧
    Get nestedHeap (some 0) [[107, 101, 121, 52], [48], [107, 101, 121, 52, 46, 49]] =
      Res.error (GoError.keyPath [107, 101, 121, 52, 46, 48]) :=
  ⟨ParseUTF8_nestedDoc, by decide⟩

/-- C9, amended. `Get` looks every segment up among the object entries of the node
reached so far, so a segment applied to a node that has no object entries fails with
`KeyPathError` naming the path through that segment. On the nested document of the
tests the Bool leaf is reached by `Get("key4")`, element 0 of `ArrayItems()`, and
`Get("key4.1")`, and its `AsBool` is `true`. -/
theorem Get_object_keys_only :
    Get nestedHeap (some 0) [[107, 101, 121, 52]] = Res.ok (some 4) ∧
    nestedHeap[4]?.map Json.ArrayItems = some [5] ∧
    Get nestedHeap (some 5) [[107, 101, 121, 52, 46, 49]] = Res.ok (some 6) ∧
    nestedHeap[6]?.map (Json.AsBool nestedDoc) = some (Res.ok true) ∧
    ∀ (heap : List Json) (p : Nat) (n : Json) (k : List Nat) (rest : List (List Nat)),
      heap[p]? = some n → n.objectItems = [] →
      Get heap (some p) (k :: rest) = Res.error (GoError.keyPath k) := by
  refine ⟨by decide, by decide, by decide, by decide, ?_⟩
  intro heap p n k rest hp hn
  simp [Get, Get.loop, hp, hn, mapGet, Join]

/-- Witness for C9 as amended: the Array node of the nested document, at `key4`. -/
theorem Get_object_keys_only_witness :
    Get nestedHeap (some 4) ([48] :: [[107, 101, 121, 52, 46, 49]]) =
      Res.error (GoError.keyPath [48]) :=
  Get_object_keys_only.2.2.2.2 nestedHeap 4 (Json.mk 52 98 (some 0) [] [5] ARRAY) [48]
    [[107, 101, 121, 52, 46, 49]] (by decide) rfl

/-- C2, at the failing input `{"k":"v"}` with the key U+FFFD (bytes EF BF BD): the key is
a string without quote, backslash or control character, yet `ParseUTF8` fails, because
`ReadRune` takes the decoded character U+FFFD for the decoding failure
`utf8.RuneError`. On every list of pairs whose strings hold no quote, no backslash and
no U+FFFD the claim holds: no error, the root is an object, `Keys()` holds each distinct
key exactly once and nothing else, and `AsString` of `ObjectItems()[k]` is the value of
the last pair whose key is `k`. -/
theorem ParseUTF8_replacement_character_key :
    (ParseUTF8 13 [0x7B, 0x22, 0xEF, 0xBF, 0xBD, 0x22, 0x3A, 0x22, 0x76, 0x22, 0x7D] =
      Res.error (GoError.RuneReadingError 2 Err.RuneDecodingError) ∧
     DecodeRune [0xEF, 0xBF, 0xBD] = (0xFFFD, 3) ∧ IsControl 0xFFFD = false ∧
     objectText [([0xFFFD], [0x76])] =
       [0x7B, 0x22, 0xEF, 0xBF, 0xBD, 0x22, 0x3A, 0x22, 0x76, 0x22, 0x7D]) ∧
    ∀ (pairs : List (List Int × List Int)),
      (∀ kv ∈ pairs, (∀ x ∈ kv.1, PlainRune x) ∧ (∀ x ∈ kv.2, PlainRune x)) →
      ∀ (fuel : Nat), (objectText pairs).length + 2 ≤ fuel →
      ∃ (t : Tree) (r : Nat) (root : Json),
        ParseUTF8 fuel (objectText pairs) = Res.ok t ∧ t.root = some r ∧
        t.heap[r]? = some root ∧ root.IsObject = true ∧ root.Keys.Nodup ∧
        (∀ k, k ∈ root.Keys ↔ k ∈ pairs.map (fun kv => encodeRunes kv.1)) ∧
        ∀ (k v : List Nat),
          lastValue (pairs.map (fun kv => (encodeRunes kv.1, encodeRunes kv.2))) k = some v →
          ∃ (p : Nat) (e : Json), mapGet root.ObjectItems k = some p ∧ t.heap[p]? = some e ∧
            e.AsString t.content = Res.ok v :=
  ⟨by decide, fun pairs hall fuel hfuel => ParseUTF8_string_object pairs hall fuel hfuel⟩

/-- C10, at the failing input U+FFFD (bytes EF BF BD): one plain character, validly
encoded, neither a backslash nor a control character, yet `EscapeUTF8` fails with
`RuneDecodingError`, because `nextRune` takes the decoded character U+FFFD for the
decoding failure `utf8.RuneError`. On every sequence of units in which no plain
character is U+FFFD the claim holds: `EscapeUTF8` returns, without error, the
characters the units stand for, in order. -/
theorem EscapeUTF8_replacement_character :
    (EscapeUTF8 [0xEF, 0xBF, 0xBD] = Res.error (GoError.base Err.RuneDecodingError) ∧
     EscapeUnit.source (EscapeUnit.plain 0xFFFD) = [0xEF, 0xBF, 0xBD] ∧
     DecodeRune [0xEF, 0xBF, 0xBD] = (0xFFFD, 3) ∧ IsControl 0xFFFD = false) ∧
    ∀ (units : List EscapeUnit), (∀ u ∈ units, u.Allowed ∧ u.denotes ≠ RuneError) →
      EscapeUTF8 (units.map EscapeUnit.source).flatten =
        Res.ok (units.map (fun u => EncodeRune u.denotes)).flatten :=
  ⟨by decide, fun units hall => EscapeUTF8_units units hall⟩

/-- C11 (`EscapeUTF8`, the character after a backslash). The failing input is the one
byte `\`: its backslash opens an escape and nothing follows it, yet `EscapeUTF8` returns
the empty string without error. The test input `\1\m` fails with `EscapeSequenceError`
naming `1`. In general: whenever `EscapeUTF8` returns a string, every backslash that
opens an escape is the last byte of the input or is followed by one of the nine
characters; `EscapeUTF8` always returns a string or an error; and after a prefix of
well-formed units, a backslash followed by a character `c` that is none of the nine
makes it fail with `EscapeSequenceError` naming `c`. -/
theorem EscapeUTF8_trailing_backslash :
    (EscapeUTF8 [0x5C] = Res.ok [] ∧ escapeOpeners [0x5C] 0 false = [0]) ∧
    EscapeUTF8 [0x5C, 0x31, 0x5C, 0x6D] = Res.error (GoError.escapeSequence [0x31]) ∧
    (∀ (bytes out : List Nat), EscapeUTF8 bytes = Res.ok out →
      ∀ i ∈ escapeOpeners bytes 0 false,
        i + 1 = bytes.length ∨ ∃ l ∈ escapeLetters, bytes[i + 1]? = some l) ∧
    (∀ bytes : List Nat,
      (∃ out, EscapeUTF8 bytes = Res.ok out) ∨ ∃ e, EscapeUTF8 bytes = Res.error e) ∧
    (∀ (units : List EscapeUnit) (c : Int) (rest : List Nat),
      (∀ u ∈ units, u.Allowed ∧ u.denotes ≠ RuneError) → ValidRune c → c ≠ RuneError →
      (∀ l ∈ escapeLetters, c ≠ (l : Int)) →
      EscapeUTF8 ((units.map EscapeUnit.source).flatten ++ 0x5C :: (EncodeRune c ++ rest)) =
        Res.error (GoError.escapeSequence (EncodeRune c))) := by
  refine ⟨⟨by decide, by decide⟩, by decide, ?_, EscapeUTF8_total, ?_⟩
  · intro bytes out h i hi
    have hb := escapeOpeners_bound bytes 0 false i hi
    rcases (EscapeUTF8_loop_openers bytes _ 0 false [] out h).2 i (by simpa using hi) with h1 | h1
    · left; omega
    · exact Or.inr h1
  · intro units c rest hall hv hne hc
    apply EscapeUTF8_bad_escape units hall c hv hne
    cases hq : isEscapeChar c with
    | false => rfl
    | true =>
      exfalso
      have := (isEscapeChar_iff c).1 hq
      simp only [List.mem_cons, List.mem_singleton, List.not_mem_nil, or_false] at this
      rcases this with h | h | h | h | h | h | h | h | h
      · exact hc 0x22 (by decide) (by rw [h]; rfl)
      · exact hc 0x5C (by decide) (by rw [h]; rfl)
      · exact hc 0x2F (by decide) (by rw [h]; rfl)
      · exact hc 0x62 (by decide) (by rw [h]; rfl)
      · exact hc 0x66 (by decide) (by rw [h]; rfl)
      · exact hc 0x6E (by decide) (by rw [h]; rfl)
      · exact hc 0x72 (by decide) (by rw [h]; rfl)
      · exact hc 0x74 (by decide) (by rw [h]; rfl)
      · exact hc 0x75 (by decide) (by rw [h]; rfl)

/-- C12 (`EscapeUTF8` on `\u` and four characters). The failing input is the six bytes
`\u+123`: the four characters after `\u` are not all hexadecimal digits, yet
`EscapeUTF8` returns the character U+0123 without error. The tests: `\u263A` gives
U+263A and `\u263Z` fails with `EscapeSequenceError`. In general, for four bytes after
`\u`: when all four are hexadecimal digits the result is the encoding of their value,
which is below 65536, and that is the one character with this code point unless the value
is a surrogate (the encoding is then that of U+FFFD); when a sign is followed by three
hexadecimal digits the call succeeds as well; in every other case the call fails with
`EscapeSequenceError` naming `u` and the four bytes, whatever follows them. -/
theorem EscapeUTF8_u_signed :
    EscapeUTF8 [0x5C, 0x75, 0x2B, 0x31, 0x32, 0x33] = Res.ok [0xC4, 0xA3] ∧
    EscapeUTF8 [0x5C, 0x75, 0x32, 0x36, 0x33, 0x41] = Res.ok [0xE2, 0x98, 0xBA] ∧
    EscapeUTF8 [0x5C, 0x75, 0x32, 0x36, 0x33, 0x5A] =
      Res.error (GoError.escapeSequence [0x75, 0x32, 0x36, 0x33, 0x5A]) ∧
    (∀ a b c d : Nat, isHexDigit a = true → isHexDigit b = true → isHexDigit c = true →
      isHexDigit d = true →
      EscapeUTF8 [0x5C, 0x75, a, b, c, d] = Res.ok (EncodeRune (hexValue [a, b, c, d])) ∧
      hexValue [a, b, c, d] < 65536 ∧
      (¬ (0xD800 ≤ hexValue [a, b, c, d] ∧ hexValue [a, b, c, d] ≤ 0xDFFF) →
        DecodeRune (EncodeRune (hexValue [a, b, c, d])) =
          ((hexValue [a, b, c, d] : Int), (EncodeRune (hexValue [a, b, c, d])).length)) ∧
      ((0xD800 ≤ hexValue [a, b, c, d] ∧ hexValue [a, b, c, d] ≤ 0xDFFF) →
        EncodeRune (hexValue [a, b, c, d]) = EncodeRune RuneError)) ∧
    (∀ s b c d : Nat, s = 0x2B ∨ s = 0x2D → isHexDigit b = true → isHexDigit c = true →
      isHexDigit d = true →
      EscapeUTF8 [0x5C, 0x75, s, b, c, d] =
        Res.ok (EncodeRune
          (if s = 0x2D then -((hexValue [b, c, d] : Nat) : Int) else (hexValue [b, c, d] : Nat)))) ∧
    (∀ (a b c d : Nat) (rest : List Nat),
      isHexDigit b = false ∨ isHexDigit c = false ∨ isHexDigit d = false ∨
        (isHexDigit a = false ∧ a ≠ 0x2B ∧ a ≠ 0x2D) →
      EscapeUTF8 (0x5C :: 0x75 :: a :: b :: c :: d :: rest) =
        Res.error (GoError.escapeSequence [0x75, a, b, c, d])) := by
  refine ⟨by decide, by decide, by decide, ?_, ?_, ?_⟩
  · intro a b c d ha hb hc hd
    obtain ⟨h1, h2⟩ := ParseInt16_hex a b c d ha hb hc hd
    refine ⟨?_, h2, ?_, ?_⟩
    · rw [EscapeUTF8_u_four, h1]
    · intro hs
      have hv : ValidRune ((hexValue [a, b, c, d] : Nat) : Int) := by
        unfold ValidRune
        omega
      have := DecodeRune_EncodeRune _ [] hv
      simpa using this
    · intro hs
      unfold EncodeRune RuneError
      have h3 : ¬ (((hexValue [a, b, c, d] : Nat) : Int) < 0) := by omega
      have h4 : ¬ (hexValue [a, b, c, d] < 0x80) := by omega
      have h5 : ¬ (hexValue [a, b, c, d] < 0x800) := by omega
      simp only [Int.toNat_ofNat, h3, h4, h5, hs, if_false, if_true, and_self]
      decide
  · intro s b c d hs hb hc hd
    rw [EscapeUTF8_u_four, ParseInt16_signed s b c d hs hb hc hd]
  · intro a b c d rest h
    exact EscapeUTF8_u_rejected a b c d rest (ParseInt16_not_hex a b c d h)

/-- C13 (`EscapeUTF8` on a literal control character). The failing input is the four
bytes `EF BF BD 0A`: the plain prefix is the one character U+FFFD (no backslash, no
control character), the control character is the newline; `EscapeUTF8` fails with
`RuneDecodingError` and not with `ControlCharacterError`. In general, for every prefix of
validly encoded characters none of which is a backslash, a control character or U+FFFD,
every control character `c` and every suffix, `EscapeUTF8` fails with
`ControlCharacterError` naming `c`. -/
theorem EscapeUTF8_control_character :
    EscapeUTF8 [0xEF, 0xBF, 0xBD, 0x0A] = Res.error (GoError.base Err.RuneDecodingError) ∧
    EncodeRune RuneError = [0xEF, 0xBF, 0xBD] ∧
    (∀ (p : List Int) (c : Int) (s : List Nat),
      (∀ x ∈ p, ValidRune x ∧ x ≠ 0x5C ∧ IsControl x = false ∧ x ≠ RuneError) →
      IsControl c = true →
      EscapeUTF8 (encodeRunes p ++ EncodeRune c ++ s) =
          Res.error (GoError.controlCharacter c) ∧
        (GoError.controlCharacter c).kind = Err.ControlCharacterError) := by
  refine ⟨by decide, by decide, ?_⟩
  intro p c s hp hc
  exact ⟨EscapeUTF8_control_after_plain p c s hp hc, rfl⟩

/-- C14 (children match the kind of their node). The failing input is the three bytes
`{1}`: `ParseUTF8` returns, without error, a tree whose root is an Object with one array
element. For the input `[{"a"}1]` it returns a tree whose root is an Array with the
object entry `a`. In general, in every tree returned by `ParseUTF8`, every node whose
kind is neither Object nor Array has no children: `Keys()`, `ObjectItems()` and
`ArrayItems()` are empty. -/
theorem ParseUTF8_children_of_other_kind :
    (ParseUTF8 5 [0x7B, 0x31, 0x7D] =
        Res.ok (Tree.mk (some 0)
          [Json.mk 0 3 none [] [1] OBJECT, Json.mk 1 2 (some 0) [] [] NUMBER]
          [0x7B, 0x31, 0x7D]) ∧
      (Json.mk 0 3 none [] [1] OBJECT).IsArray = false ∧
      (Json.mk 0 3 none [] [1] OBJECT).ArrayItems = [1]) ∧
    (ParseUTF8 8 [0x5B, 0x7B, 0x22, 0x61, 0x22, 0x7D, 0x31, 0x5D] =
        Res.ok (Tree.mk (some 0)
          [Json.mk 0 8 none [([0x61], 2)] [1] ARRAY, Json.mk 1 6 (some 0) [] [] OBJECT,
           Json.mk 6 7 (some 0) [] [] NUMBER]
          [0x5B, 0x7B, 0x22, 0x61, 0x22, 0x7D, 0x31, 0x5D]) ∧
      (Json.mk 0 8 none [([0x61], 2)] [1] ARRAY).IsObject = false ∧
      (Json.mk 0 8 none [([0x61], 2)] [1] ARRAY).Keys = [[0x61]]) ∧
    (∀ (fuel : Nat) (b : List Nat) (t : Tree), ParseUTF8 fuel b = Res.ok t →
      ∀ n ∈ t.heap, n.IsPrimitive = true →
        n.Keys = [] ∧ n.ObjectItems = [] ∧ n.ArrayItems = []) := by
  refine ⟨by decide, by decide, ?_⟩
  intro fuel b t h n hn hp
  obtain ⟨q, hq⟩ := List.getElem?_of_mem hn
  unfold ParseUTF8 parse at h
  have hk : n.jtype ≠ OBJECT ∧ n.jtype ≠ ARRAY := by
    unfold Json.IsPrimitive at hp
    simp at hp
    exact ⟨hp.2, hp.1⟩
  obtain ⟨h1, h2⟩ := parse_loop_kind utf8Scanner (fun _ => b) fuel fuel _ t (KindInv_init _)
    (ParseInv_init _) h q n hq hk.1 hk.2
  exact ⟨by simp [Json.Keys, h1], h1, h2⟩

/-- C15 (`UnreadRune` after `ReadRune`). The failing input is the three-byte buffer `aé`
(`61 C3 A9`) at position 0: `ReadRune` returns `a` with width 1 and moves to byte 1, then
`UnreadRune` takes off the width 2 of the buffer's final character and leaves the byte
position at -1 and not at 0, and the next `ReadRune` faults on the slice `bytes[-1:]`. In
general, after a `ReadRune` that succeeds with width `w`, `UnreadRune` returns no error
and puts the rune position back, and it puts the byte position back if and only if the
final character of the buffer has width `w`; then the next `ReadRune` returns the same
rune and width again. -/
theorem UnreadRune_width_of_final_character :
    (UTF8RuneScanner.ReadRune ⟨[0x61, 0xC3, 0xA9], 0, 0⟩ =
        Res.ok ((0x61, 1, none), ⟨[0x61, 0xC3, 0xA9], 1, 1⟩) ∧
      UTF8RuneScanner.UnreadRune ⟨[0x61, 0xC3, 0xA9], 1, 1⟩ =
        (none, ⟨[0x61, 0xC3, 0xA9], -1, 0⟩) ∧
      UTF8RuneScanner.ReadRune ⟨[0x61, 0xC3, 0xA9], -1, 0⟩ = Res.fault) ∧
    (∀ (r r1 : UTF8RuneScanner) (c : Int) (w : Nat),
      UTF8RuneScanner.ReadRune r = Res.ok ((c, w, none), r1) →
      (UTF8RuneScanner.UnreadRune r1).1 = none ∧
      utf8Scanner.RunePos (UTF8RuneScanner.UnreadRune r1).2 = utf8Scanner.RunePos r ∧
      (utf8Scanner.BytePos (UTF8RuneScanner.UnreadRune r1).2 = utf8Scanner.BytePos r ↔
        (DecodeLastRune r.bytes).2 = w) ∧
      ((DecodeLastRune r.bytes).2 = w →
        (UTF8RuneScanner.UnreadRune r1).2 = r ∧
        UTF8RuneScanner.ReadRune (UTF8RuneScanner.UnreadRune r1).2 =
          Res.ok ((c, w, none), r1))) := by
  refine ⟨⟨by decide, by decide, by decide⟩, ?_⟩
  intro r r1 c w h
  obtain ⟨h1, h2, h3, h4⟩ := UnreadRune_after_ReadRune r r1 c w h
  have hb : (utf8Scanner.BytePos (UTF8RuneScanner.UnreadRune r1).2 = utf8Scanner.BytePos r ↔
      (DecodeLastRune r.bytes).2 = w) := by
    simp only [utf8Scanner_BytePos, h4]
    omega
  refine ⟨h1, h3, hb, ?_⟩
  intro hw
  have hr : (UTF8RuneScanner.UnreadRune r1).2 = r := by
    have hbp : (UTF8RuneScanner.UnreadRune r1).2.bytePos = r.bytePos := by
      rw [h4, hw]; omega
    cases hu : (UTF8RuneScanner.UnreadRune r1).2 with
    | mk b p q =>
      rw [hu] at h2 h3 hbp
      simp only [] at h2 h3 hbp
      cases r
      simp only [] at h2 h3 hbp
      rw [h2, h3, hbp]
  exact ⟨hr, by rw [hr]; exact h⟩

/-- C16 (`nextToken` on a string literal). The failing input is the five bytes `"a\\"`,
a literal whose inside `a\\` ends in an escaped backslash: `nextToken` does not take the
quote after it for the end of the literal, reads on to the end of the input and returns
`RuneReadingError` wrapping `io.EOF`; followed by `,"b"` the token it returns covers the
seven bytes `"a\\","` and not the five bytes of the literal. In general, for every inside
made of plain characters (no quote, no backslash, no U+FFFD) and two-character escapes
that does not end in an escaped backslash, and for every rest, `nextToken` returns a
`STRING` token without error whose byte range is exactly the literal. -/
theorem nextToken_string_escaped_backslash :
    (stringText (bodyText [EscapeUnit.plain 0x61, EscapeUnit.esc 0x5C]) =
        [0x22, 0x61, 0x5C, 0x5C, 0x22] ∧
      nextToken utf8Scanner 10 ⟨[0x22, 0x61, 0x5C, 0x5C, 0x22], 0, 0⟩ =
        Res.ok (Token.mk 0 5 STRING_T STRING (some (GoError.RuneReadingError 5 Err.EOF)),
          ⟨[0x22, 0x61, 0x5C, 0x5C, 0x22], 5, 5⟩) ∧
      nextToken utf8Scanner 10 ⟨[0x22, 0x61, 0x5C, 0x5C, 0x22, 0x2C, 0x22, 0x62, 0x22], 0, 0⟩ =
        Res.ok (Token.mk 0 7 STRING_T STRING none,
          ⟨[0x22, 0x61, 0x5C, 0x5C, 0x22, 0x2C, 0x22, 0x62, 0x22], 7, 7⟩)) ∧
    (∀ (units : List EscapeUnit) (rest : List Nat) (fuel : Nat),
      (∀ u ∈ units, u.InString) → units.getLast? ≠ some (EscapeUnit.esc 0x5C) →
      (bodyText units).length + 2 ≤ fuel →
      ∃ r1, nextToken utf8Scanner fuel ⟨stringText (bodyText units) ++ rest, 0, 0⟩ =
          Res.ok (Token.mk 0 (stringText (bodyText units)).length STRING_T STRING none, r1) ∧
        utf8Scanner.BytePos r1 = (stringText (bodyText units)).length) := by
  refine ⟨⟨by decide, by decide, by decide⟩, ?_⟩
  intro units rest fuel hall hlast hfuel
  obtain ⟨rp1, h⟩ := nextToken_string_units (stringText (bodyText units) ++ rest) units rest fuel 0 0
    hall hlast rfl hfuel
  simp only [Nat.cast_zero, Nat.zero_add] at h
  exact ⟨_, h, rfl⟩

/-- C17, counterexample. The inputs `+,` (a sign and no digit) and `1.,` (a `.` directly
after a digit, then no digit) are of the form of the claim, and `nextToken` returns
`BadNumberTokenError` for both. For `12,é` the token returned is `[0, 1)` and the
scanner is left at byte 1 and not at the `,` at byte 2: `UnreadRune` has taken off the
width 2 of the buffer's last character. -/
theorem nextToken_number_not_ended_by_digit :
    nextToken utf8Scanner 5 ⟨[0x2B, 0x2C], 0, 0⟩ =
      Res.ok (Token.mk 0 2 NUMBER_T NUMBER
        (some (GoError.ParseError 2 Err.BadNumberTokenError)), ⟨[0x2B, 0x2C], 2, 2⟩) ∧
    nextToken utf8Scanner 5 ⟨[0x31, 0x2E, 0x2C], 0, 0⟩ =
      Res.ok (Token.mk 0 3 NUMBER_T NUMBER
        (some (GoError.ParseError 3 Err.BadNumberTokenError)), ⟨[0x31, 0x2E, 0x2C], 3, 3⟩) ∧
    nextToken utf8Scanner 5 ⟨[0x31, 0x32, 0x2C, 0xC3, 0xA9], 0, 0⟩ =
      Res.ok (Token.mk 0 1 NUMBER_T NUMBER none, ⟨[0x31, 0x32, 0x2C, 0xC3, 0xA9], 1, 2⟩) := by
  decide

/-- C17, amended. For every input that starts with a number literal (a sign or a digit,
then digits, then optionally a `.` and one or more digits) and goes on with a character
`c` of Latin-1 that is not a digit, `.`, `+` or `-`. When the literal holds a digit
before its `.` and the last character of the whole buffer is as wide as `c`, `nextToken`
returns a `NUMBER` token without error that ends just before `c`, and the scanner is left
at `c`, whether `c` is white space or not: the next `ReadRune` returns `c`. When a `.`
that follows a digit is followed by `c`, and when the literal is a sign alone, `nextToken`
returns `BadNumberTokenError` with the rune position after `c`. -/
theorem nextToken_number_literal (first : Nat) (ints frac : List Nat) (c : Int)
    (rest : List Nat) (fuel : Nat)
    (hfirst : first = 0x2B ∨ first = 0x2D ∨ (48 ≤ first ∧ first ≤ 57))
    (hints : ∀ d ∈ ints, 48 ≤ d ∧ d ≤ 57) (hfrac : ∀ d ∈ frac, 48 ≤ d ∧ d ≤ 57)
    (hc0 : 0 ≤ c) (hc : c ≤ 0xFF) (hcd : ¬ (0x30 ≤ c ∧ c ≤ 0x39)) (hc1 : c ≠ 0x2B)
    (hc2 : c ≠ 0x2D) (hc3 : c ≠ 0x2E)
    (hfuel : (numberText first ints frac).length + 3 ≤ fuel) :
    ((48 ≤ first ∧ first ≤ 57) ∨ ints ≠ [] →
      (DecodeLastRune (numberText first ints frac ++ (EncodeRune c ++ rest))).2 =
        (EncodeRune c).length →
      ∃ r1, nextToken utf8Scanner fuel
            ⟨numberText first ints frac ++ (EncodeRune c ++ rest), 0, 0⟩ =
          Res.ok (Token.mk 0 (numberText first ints frac).length NUMBER_T NUMBER none, r1) ∧
        utf8Scanner.BytePos r1 = (numberText first ints frac).length ∧
        r1.bytes.drop (numberText first ints frac).length = EncodeRune c ++ rest ∧
        ∃ r2, utf8Scanner.ReadRune r1 = Res.ok ((c, (EncodeRune c).length, none), r2)) ∧
    ((48 ≤ first ∧ first ≤ 57) ∨ ints ≠ [] →
      ∃ r1, nextToken utf8Scanner fuel
            ⟨numberText first ints [] ++ 0x2E :: (EncodeRune c ++ rest), 0, 0⟩ =
          Res.ok (Token.mk 0
            (((numberText first ints []).length + 1 + (EncodeRune c).length : Nat) : Int)
            NUMBER_T NUMBER
            (some (GoError.ParseError (((numberText first ints []).length + 2 : Nat) : Int)
              Err.BadNumberTokenError)), r1)) ∧
    (first = 0x2B ∨ first = 0x2D →
      ∃ r1, nextToken utf8Scanner fuel ⟨numberText first [] [] ++ (EncodeRune c ++ rest), 0, 0⟩ =
          Res.ok (Token.mk 0 ((1 + (EncodeRune c).length : Nat) : Int) NUMBER_T NUMBER
            (some (GoError.ParseError 2 Err.BadNumberTokenError)), r1)) := by
  obtain ⟨hv, hne, hd⟩ := latin1_not_digit c hc0 hc hcd
  refine ⟨fun hdigit hlast => ?_, fun hdigit => ?_, fun hs => ?_⟩
  · exact ⟨_, nextToken_numberText first ints frac c rest fuel hfirst hints hfrac hdigit hv hne hd
      hc1 hc2 hc3 hlast (by omega), rfl, by simp,
      ⟨_, ReadRune_encoded _ (numberText first ints frac).length _ c rest (by simp) hv hne⟩⟩
  · have hlen : (numberText first ints []).length = ints.length + 1 := by simp [numberText]
    have hfl : ints.length + 3 ≤ fuel := by
      have : ints.length + 1 ≤ (numberText first ints frac).length := by
        simp [numberText]
      omega
    have h := nextToken_trailing_dot first ints c rest fuel hfirst hints hdigit hv hne hd hc1 hc2
      hc3 hfl
    have e : numberText first ints [] ++ 0x2E :: (EncodeRune c ++ rest) =
        first :: (ints ++ 0x2E :: (EncodeRune c ++ rest)) := by simp [numberText]
    have e2 : ints.length + 1 + 1 + (EncodeRune c).length =
        ints.length + 2 + (EncodeRune c).length := by omega
    rw [e, h, hlen, e2]
    exact ⟨_, rfl⟩
  · have h := nextToken_lone_sign first c rest fuel hs hv hne hd hc1 hc2 hc3 (by omega)
    have e : numberText first [] [] ++ (EncodeRune c ++ rest) = first :: (EncodeRune c ++ rest) := by
      simp [numberText]
    rw [e, h]
    exact ⟨_, rfl⟩

/-- Witness for C17 as amended, at the inputs `-12.5,7]`, `-12.,7]` and `-,7]`. -/
theorem nextToken_number_literal_witness :
    (numberText 0x2D [0x31, 0x32] [0x35] ++ (EncodeRune 0x2C ++ [0x37, 0x5D]) =
        [0x2D, 0x31, 0x32, 0x2E, 0x35, 0x2C, 0x37, 0x5D] ∧
      ∃ r1, nextToken utf8Scanner 8
          ⟨numberText 0x2D [0x31, 0x32] [0x35] ++ (EncodeRune 0x2C ++ [0x37, 0x5D]), 0, 0⟩ =
          Res.ok (Token.mk 0 (numberText 0x2D [0x31, 0x32] [0x35]).length NUMBER_T NUMBER none, r1) ∧
        utf8Scanner.BytePos r1 = (numberText 0x2D [0x31, 0x32] [0x35]).length ∧
        r1.bytes.drop (numberText 0x2D [0x31, 0x32] [0x35]).length =
          EncodeRune 0x2C ++ [0x37, 0x5D] ∧
        ∃ r2, utf8Scanner.ReadRune r1 = Res.ok ((0x2C, (EncodeRune 0x2C).length, none), r2)) ∧
    (numberText 0x2D [0x31, 0x32] [] ++ 0x2E :: (EncodeRune 0x2C ++ [0x37, 0x5D]) =
        [0x2D, 0x31, 0x32, 0x2E, 0x2C, 0x37, 0x5D] ∧
      ∃ r1, nextToken utf8Scanner 8
          ⟨numberText 0x2D [0x31, 0x32] [] ++ 0x2E :: (EncodeRune 0x2C ++ [0x37, 0x5D]), 0, 0⟩ =
          Res.ok (Token.mk 0
            (((numberText 0x2D [0x31, 0x32] []).length + 1 + (EncodeRune 0x2C).length : Nat) : Int)
            NUMBER_T NUMBER
            (some (GoError.ParseError (((numberText 0x2D [0x31, 0x32] []).length + 2 : Nat) : Int)
              Err.BadNumberTokenError)), r1)) ∧
    (numberText 0x2D [] [] ++ (EncodeRune 0x2C ++ [0x37, 0x5D]) = [0x2D, 0x2C, 0x37, 0x5D] ∧
      ∃ r1, nextToken utf8Scanner 8
          ⟨numberText 0x2D [] [] ++ (EncodeRune 0x2C ++ [0x37, 0x5D]), 0, 0⟩ =
          Res.ok (Token.mk 0 ((1 + (EncodeRune 0x2C).length : Nat) : Int) NUMBER_T NUMBER
            (some (GoError.ParseError 2 Err.BadNumberTokenError)), r1)) :=
  ⟨⟨by decide,
    (nextToken_number_literal 0x2D [0x31, 0x32] [0x35] 0x2C [0x37, 0x5D] 8 (by decide)
      (by decide) (by decide) (by decide) (by decide) (by decide) (by decide) (by decide)
      (by decide) (by decide)).1 (by decide) (by decide)⟩,
   ⟨by decide,
    (nextToken_number_literal 0x2D [0x31, 0x32] [0x35] 0x2C [0x37, 0x5D] 8 (by decide)
      (by decide) (by decide) (by decide) (by decide) (by decide) (by decide) (by decide)
      (by decide) (by decide)).2.1 (by decide)⟩,
   ⟨by decide,
    (nextToken_number_literal 0x2D [] [] 0x2C [0x37, 0x5D] 8 (by decide)
      (by decide) (by decide) (by decide) (by decide) (by decide) (by decide) (by decide)
      (by decide) (by decide)).2.2 (Or.inr rfl)⟩⟩

/-- C18 (`0 ≤ start ≤ end ≤ len(b)` for every node). The failing input is the ten bytes
`[""1,"]` followed by U+3000 (`E3 80 80`, white space three bytes wide): `ParseUTF8`
returns a tree without error whose array has a Number element with `start = 3` and
`end = 2`. After the number `1` and the `,` the scanner is at byte 5, and `UnreadRune`
takes off the width 3 of the buffer's last character, not the width 1 of the `,`; the
bytes from 2 on are then read as the string `"1,"`. `AsInt` on that element slices
`[3:2]` and faults. In general, for every buffer whose last character is at most one
byte wide, every node of every tree `ParseUTF8` returns satisfies
`0 ≤ start ≤ end ≤ len(b)`. -/
theorem ParseUTF8_node_start_after_end :
    (ParseUTF8 12 [0x5B, 0x22, 0x22, 0x31, 0x2C, 0x22, 0x5D, 0xE3, 0x80, 0x80] =
        Res.ok (Tree.mk (some 0)
          [Json.mk 0 7 none [] [1, 2, 3] ARRAY, Json.mk 1 3 (some 0) [] [] STRING,
           Json.mk 3 2 (some 0) [] [] NUMBER, Json.mk 2 6 (some 0) [] [] STRING]
          [0x5B, 0x22, 0x22, 0x31, 0x2C, 0x22, 0x5D, 0xE3, 0x80, 0x80]) ∧
      (Json.mk 3 2 (some 0) [] [] NUMBER).AsInt
          [0x5B, 0x22, 0x22, 0x31, 0x2C, 0x22, 0x5D, 0xE3, 0x80, 0x80] = Res.fault ∧
      DecodeLastRune [0x5B, 0x22, 0x22, 0x31, 0x2C, 0x22, 0x5D, 0xE3, 0x80, 0x80] = (0x3000, 3)) ∧
    (∀ (b : List Nat), (DecodeLastRune b).2 ≤ 1 → ∀ (fuel : Nat) (t : Tree),
      ParseUTF8 fuel b = Res.ok t →
      ∀ n ∈ t.heap, 0 ≤ n.start ∧ n.start ≤ n.end_ ∧ n.end_ ≤ b.length) := by
  refine ⟨⟨by decide, by decide, by decide⟩, ?_⟩
  intro b hl fuel t h n hn
  obtain ⟨q, hq⟩ := List.getElem?_of_mem hn
  unfold ParseUTF8 parse at h
  exact parse_loop_pos b hl (fun _ => b) fuel fuel _ t (PosInv_init b) (ParseInv_init _) h q n hq

/-- C19 (`Parse` over a copying scanner against `ParseUTF8`). The failing input is the
ten bytes `[""1,"]` followed by U+3000 (`E3 80 80`), valid UTF-8. `ParseUTF8` returns the
array with the elements `[1,3)`, `[3,2)`, `[2,6)` and the end 7; `Parse` over a
`UTF8RuneScanner` on the same bytes returns the array with the elements `[1,3)`,
`[3,4)`, `[4,8)` and the end 9, and the buffer it has stored is the twelve bytes
`[""1"1,"]` U+3000, not the input. After the `,` the copying scanner drops the one byte
it stored, but the inner `UnreadRune` steps back by 3, the width of the last character
of the input, so the bytes `"1` are read and stored a second time. In general, for every
buffer of one-byte characters, `Parse` over a `UTF8RuneScanner` on the buffer and
`ParseUTF8` return the same: the same error, or the same tree with a stored buffer equal
to the input. -/
theorem Parse_and_ParseUTF8_differ :
    (encodeRunes [0x5B, 0x22, 0x22, 0x31, 0x2C, 0x22, 0x5D, 0x3000] =
        [0x5B, 0x22, 0x22, 0x31, 0x2C, 0x22, 0x5D, 0xE3, 0x80, 0x80] ∧
      ParseUTF8 12 [0x5B, 0x22, 0x22, 0x31, 0x2C, 0x22, 0x5D, 0xE3, 0x80, 0x80] =
        Res.ok (Tree.mk (some 0)
          [Json.mk 0 7 none [] [1, 2, 3] ARRAY, Json.mk 1 3 (some 0) [] [] STRING,
           Json.mk 3 2 (some 0) [] [] NUMBER, Json.mk 2 6 (some 0) [] [] STRING]
          [0x5B, 0x22, 0x22, 0x31, 0x2C, 0x22, 0x5D, 0xE3, 0x80, 0x80]) ∧
      Parse UTF8RuneScanner.ReadRune UTF8RuneScanner.UnreadRune 12
          (UTF8RuneScanner.mk [0x5B, 0x22, 0x22, 0x31, 0x2C, 0x22, 0x5D, 0xE3, 0x80, 0x80] 0 0) =
        Res.ok (Tree.mk (some 0)
          [Json.mk 0 9 none [] [1, 2, 3] ARRAY, Json.mk 1 3 (some 0) [] [] STRING,
           Json.mk 3 4 (some 0) [] [] NUMBER, Json.mk 4 8 (some 0) [] [] STRING]
          [0x5B, 0x22, 0x22, 0x31, 0x22, 0x31, 0x2C, 0x22, 0x5D, 0xE3, 0x80, 0x80])) ∧
    (∀ (b : List Nat), (∀ x ∈ b, x < 0x80) → ∀ fuel : Nat,
      Parse UTF8RuneScanner.ReadRune UTF8RuneScanner.UnreadRune fuel (UTF8RuneScanner.mk b 0 0) =
        ParseUTF8 fuel b) := by
  refine ⟨⟨by decide, by decide, by decide⟩, ?_⟩
  intro b hb fuel
  exact Parse_ascii b hb fuel

/-- C20 (progress of `nextToken`, termination of `ParseUTF8`). The failing input is the
four bytes `1,é` (`31 2C C3 A9`): at byte 0 `nextToken` returns the `NUMBER` token `1`
without error and leaves the scanner at byte 0, where it was before the call, because
`UnreadRune` takes off the width 2 of the buffer's last character after the one-byte
`,`; the token loop of `ParseUTF8` reads that token again and again and does not end,
whatever the fuel. In general, over a buffer whose last character is at most one byte
wide and from a position inside it, a token other than the end-of-input token leaves the
scanner strictly further than it was, and `ParseUTF8` ends within `len(b) + 2` tests of
the condition of its loop; more fuel does not change its result. -/
theorem ParseUTF8_token_loop_without_progress :
    (nextToken utf8Scanner 4 ⟨[0x31, 0x2C, 0xC3, 0xA9], 0, 0⟩ =
        Res.ok (Token.mk 0 0 NUMBER_T NUMBER none, ⟨[0x31, 0x2C, 0xC3, 0xA9], 0, 1⟩) ∧
      ∀ fuel : Nat, ParseUTF8 fuel [0x31, 0x2C, 0xC3, 0xA9] = Res.outOfFuel) ∧
    (∀ (fuel : Nat) (r r1 : UTF8RuneScanner) (tk : Token),
      (DecodeLastRune r.bytes).2 ≤ 1 → r.bytePos ≤ r.bytes.length →
      nextToken utf8Scanner fuel r = Res.ok (tk, r1) → tk.token ≠ EOF →
      utf8Scanner.BytePos r < utf8Scanner.BytePos r1) ∧
    (∀ b : List Nat, (DecodeLastRune b).2 ≤ 1 →
      ParseUTF8 (b.length + 2) b ≠ Res.outOfFuel ∧
      ∀ fuel : Nat, b.length + 2 ≤ fuel → ParseUTF8 fuel b = ParseUTF8 (b.length + 2) b) := by
  refine ⟨⟨by decide, ?_⟩, ?_, ?_⟩
  · intro fuel
    unfold ParseUTF8 parse
    exact parse_loop_one_comma_e fuel fuel _ rfl rfl rfl rfl
      (show ((-1 : Int)) ≠ EOF by decide)
  · intro fuel r r1 tk hl hle h hne
    obtain ⟨-, i2, -, -, i5, i6, -⟩ := nextToken_pos fuel r r1 tk h hl hle
    have := i6 hne
    simp only [utf8Scanner_BytePos]
    omega
  · intro b hl
    have hne : ParseUTF8 (b.length + 2) b ≠ Res.outOfFuel := by
      unfold ParseUTF8 parse
      apply parse_loop_fuel b hl (fun _ => b) (b.length + 2) (Nat.le_refl _) (b.length + 2) _
        (PosInv_init b) (ParseInv_init _) (le_refl _)
      · intro _
        show (b.length : Int) + 2 ≤ ((b.length + 2 : Nat) : Int) + 0
        push_cast
        omega
      · intro _
        omega
    exact ⟨hne, fun fuel hf => ParseUTF8_mono _ _ hf b hne⟩

end Sjson
